import Mathlib

/-!
# Prologcoin term runtime and resolution engine: a shallow embedding

The definitions follow `src/common/term_env.cpp` and
`src/interp/interpreter_base.cpp`.  Loops that may run forever in the C++
code (dereferencing a cyclic chain, traversing a cyclic term) take a `fuel`
argument and return `none` when it runs out; `none` is also the result of an
access outside a vector and of `assert(false)`, where the C++ code has no
defined result.
-/

namespace Prologcoin

/-! ## Cells and the heap -/

/-- Tags of a cell (`tag_t`). -/
inductive Tag where
  | REF | CON | INT | STR | BIG | GBL
  deriving DecidableEq, Repr

/-- Tagged cell.  The payload of a `CON` cell is an interned name and an
arity; equality of cells is equality of the machine word, that is of tag and
payload. -/
inductive Cell where
  | ref (index : Nat)
  | con (name : String) (arity : Nat)
  | int (value : Int)
  | str (index : Nat)
  | big (index : Nat)
  | gbl (index : Nat)
  deriving DecidableEq, Repr

/-- Tag of a cell (`cell::tag`). -/
def Cell.tag : Cell → Tag
  | .ref _ => .REF
  | .con _ _ => .CON
  | .int _ => .INT
  | .str _ => .STR
  | .big _ => .BIG
  | .gbl _ => .GBL

/-- Arity of a `CON` cell (`con_cell::arity`); `0` for other cells. -/
def Cell.arity : Cell → Nat
  | .con _ n => n
  | _ => 0

/-- Heap: a growable vector of cells. -/
abbrev Heap := List Cell

/-- Modelled from the spec: `heap::deref` (the heap class is not among the
sources).  If `c` is a REF cell, walk the chain while the target differs from
a self-REF and is itself a REF; the terminal cell is returned. -/
def deref (heap : Heap) : Nat → Cell → Option Cell
  | 0, .ref _ => none
  | fuel + 1, .ref i =>
    match heap[i]? with
    | none => none
    | some nc => if nc = .ref i then some (.ref i) else deref heap fuel nc
  | _, c => some c

/-- Modelled from the spec: `heap::functor`.  The functor of an `STR` cell is
the `CON` header it points to; the functor of a `CON` cell is the cell
itself. -/
def functor (heap : Heap) : Cell → Option Cell
  | .str h =>
    match heap[h]? with
    | some (.con f n) => some (.con f n)
    | _ => none
  | .con f n => some (.con f n)
  | _ => none

/-- Modelled from the spec: `heap::arg`, `heap::arg0`.  Returns the cell at
`header_index + 1 + i`, without dereferencing. -/
def arg (heap : Heap) : Cell → Nat → Option Cell
  | .str h, i => heap[h + 1 + i]?
  | _, _ => none

/-- Modelled from the spec: `heap::new_ref`.  Appends a self-pointing REF
cell and returns it. -/
def new_ref (heap : Heap) : Cell × Heap :=
  (.ref heap.length, heap ++ [.ref heap.length])

/-- Fresh argument cells of a new structure whose header is at `h`. -/
def fresh_args (h : Nat) (n : Nat) : List Cell :=
  (List.range n).map (fun i => Cell.ref (h + 1 + i))

/-- Modelled from the spec: `heap::new_str`.  Appends a `CON` header for the
functor plus `arity` freshly allocated REF cells; returns an `STR` cell whose
payload is the header index. -/
def new_str (heap : Heap) (f : Cell) : Cell × Heap :=
  (.str heap.length, heap ++ f :: fresh_args heap.length f.arity)

/-- Modelled from the spec: `heap::set_arg`.  Writes cell `c` into argument
slot `i`. -/
def set_arg (heap : Heap) : Cell → Nat → Cell → Option Heap
  | .str h, i, c => if h + 1 + i < heap.length then some (heap.set (h + 1 + i) c) else none
  | _, _, _ => none

/-- Modelled from the spec: `heap::trim`.  Trimming the heap to size `n`
discards all cells at index `≥ n`. -/
def Heap.trim (heap : Heap) (n : Nat) : Heap := heap.take n

/-! ## The term environment (`term_env_impl`) -/

/-- State of `term_env_impl`.  `stack` and `temp` have their top at the head
of the list (`push_back` is `cons`); `trail` is in vector order (`push_back`
appends), as `unwind_trail` indexes it. -/
structure TermEnv where
  heap : Heap
  register_hb : Nat
  register_h : Nat
  stack : List Cell
  temp : List Cell
  trail : List Nat
  deriving DecidableEq, Repr

/-- Result of `std::vector::resize` on a vector whose back is the head of the
list: the bottom `n` elements are kept; a larger `n` pads with `dflt`. -/
def resize_top {α : Type} (l : List α) (n : Nat) (dflt : α) : List α :=
  List.replicate (n - l.length) dflt ++ l.drop (l.length - n)

/-- Result of `std::vector::resize` on a vector in index order. -/
def resize_back {α : Type} (l : List α) (n : Nat) (dflt : α) : List α :=
  l.take n ++ List.replicate (n - l.length) dflt

namespace TermEnv

/-- Initial state (`term_env_impl::term_env_impl`). -/
def init : TermEnv :=
  { heap := [], register_hb := 0, register_h := 0, stack := [], temp := [], trail := [] }

/-- Current heap size as the environment sees it (`heap_size`). -/
def heap_size (s : TermEnv) : Nat := s.register_h

/-- Depth of the work stack (`stack_depth`). -/
def stack_depth (s : TermEnv) : Nat := s.stack.length

/-- Depth of the trail (`trail_depth`). -/
def trail_depth (s : TermEnv) : Nat := s.trail.length

/-- Depth of the temporary stack (`temp_depth`). -/
def temp_depth (s : TermEnv) : Nat := s.temp.length

/-- Push a cell on the work stack (`push`). -/
def push (s : TermEnv) (c : Cell) : TermEnv := { s with stack := c :: s.stack }

/-- Pop the work stack (`pop`). -/
def pop (s : TermEnv) : Option (Cell × TermEnv) :=
  match s.stack with
  | [] => none
  | c :: rest => some (c, { s with stack := rest })

/-- Push on the temporary stack (`temp_push`). -/
def temp_push (s : TermEnv) (c : Cell) : TermEnv := { s with temp := c :: s.temp }

/-- Pop the temporary stack (`temp_pop`). -/
def temp_pop (s : TermEnv) : Option (Cell × TermEnv) :=
  match s.temp with
  | [] => none
  | c :: rest => some (c, { s with temp := rest })

/-- Resize the work stack (`trim_stack`). -/
def trim_stack (s : TermEnv) (depth : Nat) : TermEnv :=
  { s with stack := resize_top s.stack depth (.ref 0) }

/-- Trim the heap (`trim_heap`): only the heap itself is trimmed. -/
def trim_heap (s : TermEnv) (new_size : Nat) : TermEnv :=
  { s with heap := s.heap.trim new_size }

/-- Append an index to the trail (`push_trail`). -/
def push_trail (s : TermEnv) (i : Nat) : TermEnv := { s with trail := s.trail ++ [i] }

/-- Record a binding if it happened before the latest choice point
(`trail`). -/
def do_trail (s : TermEnv) (index : Nat) : TermEnv :=
  if index < s.register_hb then s.push_trail index else s

/-- Resize the trail (`trim_trail`). -/
def trim_trail (s : TermEnv) (upto : Nat) : TermEnv :=
  { s with trail := resize_back s.trail upto 0 }

/-- Set register HB (`set_last_choice_heap`). -/
def set_last_choice_heap (s : TermEnv) (at_index : Nat) : TermEnv :=
  { s with register_hb := at_index }

/-- Bind `a` to `b` (`bind`): `a` is a REF cell; `b` is written into its heap
slot and the index goes through the trail rule. -/
def bind (s : TermEnv) (a b : Cell) : Option TermEnv :=
  match a with
  | .ref index =>
    if index < s.heap.length then
      some (({ s with heap := s.heap.set index b } : TermEnv).do_trail index)
    else none
  | _ => none

/-- Loop of `unwind_trail`: `n` iterations starting at trail position `i`. -/
def unwind_trail_loop (trail : List Nat) : Nat → Nat → Heap → Option Heap
  | _, 0, heap => some heap
  | i, n + 1, heap =>
    match trail[i]? with
    | none => none
    | some index =>
      if index < heap.length then
        unwind_trail_loop trail (i + 1) n (heap.set index (.ref index))
      else none

/-- Reset the cells recorded in `trail[from, to)` to unbound (`unwind_trail`). -/
def unwind_trail (s : TermEnv) (frm upto : Nat) : Option TermEnv :=
  match unwind_trail_loop s.trail frm (upto - frm) s.heap with
  | none => none
  | some heap => some { s with heap := heap }

/-- Push the argument pairs of two structures, argument `n-1` first, so that
argument 0 is on top (the `for` loop of `equal` and `unify_helper`); `k` is
the number of pairs still to push. -/
def push_arg_pairs (heap : Heap) (a b : Cell) (num_args : Nat) :
    Nat → List Cell → Option (List Cell)
  | 0, stack => some stack
  | k + 1, stack =>
    let i := num_args - (k + 1)
    match arg heap a (num_args - i - 1), arg heap b (num_args - i - 1) with
    | some ai, some bi => push_arg_pairs heap a b num_args k (ai :: bi :: stack)
    | _, _ => none

/-- Outcome of one loop iteration: go on, or return a boolean. -/
inductive Step where
  | next
  | done (r : Bool)
  deriving DecidableEq, Repr

/-- One iteration of the `while` loop of `equal`. -/
def equal_iter (fuel : Nat) (d : Nat) (s : TermEnv) : Option (Step × TermEnv) :=
  match s.stack with
  | a0 :: b0 :: rest =>
    match deref s.heap fuel a0, deref s.heap fuel b0 with
    | some a, some b =>
      let s1 : TermEnv := { s with stack := rest }
      if a = b then some (.next, s1)
      else if a.tag ≠ b.tag then some (.done false, s1.trim_stack d)
      else if a.tag ≠ .STR then some (.done false, s1.trim_stack d)
      else
        match functor s.heap a, functor s.heap b with
        | some fa, some fb =>
          if fa ≠ fb then some (.done false, s1.trim_stack d)
          else
            match push_arg_pairs s.heap a b fa.arity fa.arity rest with
            | some st => some (.next, { s with stack := st })
            | none => none
        | _, _ => none
    | _, _ => none
  | _ => none

/-- The `while (stack_depth() > d)` loop of `equal`. -/
def equal_loop (d : Nat) : Nat → TermEnv → Option (Bool × TermEnv)
  | 0, _ => none
  | fuel + 1, s =>
    if d < s.stack.length then
      match equal_iter fuel d s with
      | none => none
      | some (.done r, s1) => some (r, s1)
      | some (.next, s1) => equal_loop d fuel s1
    else some (true, s)

/-- Structural equality of two terms (`equal`); the work stack is `mutable`
and so part of the result. -/
def equal (fuel : Nat) (s : TermEnv) (a b : Cell) : Option (Bool × TermEnv) :=
  equal_loop s.stack.length fuel ((s.push b).push a)

/-- One iteration of the `while` loop of `unify_helper`. -/
def unify_iter (fuel : Nat) (s : TermEnv) : Option (Step × TermEnv) :=
  match s.stack with
  | a0 :: b0 :: rest =>
    match deref s.heap fuel a0, deref s.heap fuel b0 with
    | some a, some b =>
      let s1 : TermEnv := { s with stack := rest }
      if a = b then some (.next, s1)
      else if a.tag = .REF then
        if b.tag = .REF then
          match a, b with
          | .ref ia, .ref ib =>
            if ia < ib then (s1.bind b a).map (fun s2 => (.next, s2))
            else (s1.bind a b).map (fun s2 => (.next, s2))
          | _, _ => none
        else (s1.bind a b).map (fun s2 => (.next, s2))
      else if b.tag = .REF then (s1.bind b a).map (fun s2 => (.next, s2))
      else if a.tag ≠ b.tag then some (.done false, s1)
      else
        match a.tag with
        | .CON | .INT => if a ≠ b then some (.done false, s1) else some (.next, s1)
        | .STR =>
          match functor s.heap a, functor s.heap b with
          | some f, some fb =>
            if f ≠ fb then some (.done false, s1)
            else
              match push_arg_pairs s.heap a b f.arity f.arity rest with
              | some st => some (.next, { s with stack := st })
              | none => none
          | _, _ => none
        | _ => none
    | _, _ => none
  | _ => none

/-- The `while (stack_depth() > d)` loop of `unify_helper`. -/
def unify_loop (d : Nat) : Nat → TermEnv → Option (Bool × TermEnv)
  | 0, _ => none
  | fuel + 1, s =>
    if d < s.stack.length then
      match unify_iter fuel s with
      | none => none
      | some (.done r, s1) => some (r, s1)
      | some (.next, s1) => unify_loop d fuel s1
    else some (true, s)

/-- The basic unification algorithm (`unify_helper`). -/
def unify_helper (fuel : Nat) (s : TermEnv) (a b : Cell) : Option (Bool × TermEnv) :=
  unify_loop s.stack.length fuel ((s.push b).push a)

/-- Unification with undo on failure (`unify`). -/
def unify (fuel : Nat) (s : TermEnv) (a b : Cell) : Option (Bool × TermEnv) :=
  let start_trail := s.trail_depth
  let start_stack := s.stack_depth
  let old_register_hb := s.register_hb
  match unify_helper fuel { s with register_hb := s.register_h } a b with
  | none => none
  | some (r, s1) =>
    if !r then
      match s1.unwind_trail start_trail s1.trail_depth with
      | none => none
      | some s2 =>
        some (false,
          { ((s2.trim_trail start_trail).trim_stack start_stack) with
            register_hb := old_register_hb })
    else some (true, { s1 with register_hb := old_register_hb })

/-- Lookup in the `var_map` of `copy` (`std::unordered_map::find`). -/
def var_map_find : List (Cell × Cell) → Cell → Option Cell
  | [], _ => none
  | (k, v) :: rest, c => if k = c then some v else var_map_find rest c

/-- The loop of `copy` that fills the arguments of the new structure from the
temporary stack, argument `n-1` first; `k` iterations remain. -/
def copy_set_args (newstr : Cell) (num_args : Nat) :
    Nat → List Cell → Heap → Option (List Cell × Heap)
  | 0, temp, heap => some (temp, heap)
  | k + 1, temp, heap =>
    let i := num_args - (k + 1)
    match temp with
    | [] => none
    | v :: rest =>
      match set_arg heap newstr (num_args - i - 1) v with
      | none => none
      | some heap1 => copy_set_args newstr num_args k rest heap1

/-- The loop of `copy` that pushes the arguments to be processed, each with
the flag `int_cell(0)`, argument `n-1` first; `k` iterations remain. -/
def copy_push_args (heap : Heap) (c : Cell) (num_args : Nat) :
    Nat → List Cell → Option (List Cell)
  | 0, stack => some stack
  | k + 1, stack =>
    let i := num_args - (k + 1)
    match arg heap c (num_args - i - 1) with
    | none => none
    | some ai => copy_push_args heap c num_args k (.int 0 :: ai :: stack)

/-- One iteration of the `while` loop of `copy`. -/
def copy_iter (s : TermEnv) (var_map : List (Cell × Cell)) :
    Option (TermEnv × List (Cell × Cell)) :=
  match s.stack with
  | p :: c :: rest =>
    let processed : Bool := decide (p = .int 1)
    let s1 : TermEnv := { s with stack := rest }
    match c.tag with
    | .REF =>
      match var_map_find var_map c with
      | none =>
        let r := new_ref s1.heap
        some (({ s1 with heap := r.2 } : TermEnv).temp_push r.1, (c, r.1) :: var_map)
      | some v => some (s1.temp_push v, var_map)
    | .CON | .INT => some (s1.temp_push c, var_map)
    | .STR =>
      match functor s1.heap c with
      | none => none
      | some f =>
        let num_args := f.arity
        if processed then
          let r := new_str s1.heap f
          match copy_set_args r.1 num_args num_args s1.temp r.2 with
          | none => none
          | some (temp, heap) =>
            some (({ s1 with heap := heap, temp := temp } : TermEnv).temp_push r.1, var_map)
        else
          match copy_push_args s1.heap c num_args num_args (.int 1 :: c :: rest) with
          | none => none
          | some st => some ({ s1 with stack := st }, var_map)
    | .BIG | .GBL => none
  | _ => none

/-- The `while (stack_depth() > current_stack)` loop of `copy`. -/
def copy_loop (current_stack : Nat) :
    Nat → TermEnv → List (Cell × Cell) → Option (TermEnv × List (Cell × Cell))
  | 0, _, _ => none
  | fuel + 1, s, var_map =>
    if current_stack < s.stack.length then
      match copy_iter s var_map with
      | none => none
      | some (s1, var_map1) => copy_loop current_stack fuel s1 var_map1
    else some (s, var_map)

/-- Copy a term (`copy`). -/
def copy (fuel : Nat) (s : TermEnv) (c : Cell) : Option (Cell × TermEnv) :=
  match copy_loop s.stack_depth fuel ((s.push c).push (.int 0)) [] with
  | none => none
  | some (s1, _) => ({ s1 with register_h := s1.heap.length } : TermEnv).temp_pop

end TermEnv

/-! ## The interpreter (`interpreter_base`) -/

/-- Builtin functions, named as the C++ functions that `load_builtins` and
`load_builtins_file_io` register. -/
inductive Builtin where
  | profile_0 | true_0
  | operator_comma | operator_cut | operator_cut_if | operator_disjunction | operator_if_then
  | operator_at_less_than | operator_at_equals_less_than | operator_at_greater_than
  | operator_at_greater_than_equals | operator_equals | operator_not_equals | compare_3
  | operator_unification | operator_cannot_unify
  | var_1 | nonvar_1 | integer_1 | number_1 | atom_1 | atomic_1 | compound_1 | callable_1
  | ground_1
  | is_2
  | functor_3 | copy_term_2 | operator_deconstruct
  | operator_disprove
  | open_3 | close_1 | read_2 | at_end_of_stream_1 | write_1 | nl_0
  deriving DecidableEq, Repr

/-- Optimized builtin functions registered by `load_builtins_opt`. -/
inductive BuiltinOpt where
  | member_2 | sort_2
  deriving DecidableEq, Repr

/-- Result of an optimized builtin (`tribool`). -/
inductive Tribool where
  | true_value | false_value | indeterminate
  deriving DecidableEq, Repr

/-- Errors raised through `abort` or thrown by the syntax checks. -/
inductive InterpError where
  | undefined_predicate (f : Cell)
  | program_not_a_list (t : Cell)
  | clause_bad_head (t : Cell) (msg : String)
  | bad_goal (t : Cell) (msg : String)
  | raised (kind : String)
  | undefined_function (f : Cell)
  | not_sufficiently_instantiated
  | unsupported
  deriving DecidableEq, Repr

/-- The arithmetic functions that `load_fns` registers, named as the C++
functions of `arithmetics_fn`. -/
inductive ArithFn where
  | plus_2 | minus_2 | times_2
  deriving DecidableEq, Repr

/-- State of `arithmetics`: the function table `fn_map_` (a map, kept as a
list of its entries with one entry for each key) and the argument buffer
`args_` in vector order. -/
structure Arithmetics where
  fn_map : List (Cell × ArithFn)
  args : List Cell
  deriving DecidableEq, Repr

/-- Pending syntax check (an entry of `syntax_check_stack_`: the member
function bound to its argument). -/
inductive CheckTask where
  | check_program (t : Cell)
  | check_clause (t : Cell)
  | check_head (t : Cell)
  | check_body (t : Cell)
  | check_goal (t : Cell)
  deriving DecidableEq, Repr

/-- Modelled from the spec: environment frame (the frame types are declared
in `interpreter_base.hpp`, not among the sources).  Records the continuation
code-point CP, the previous environment E, the query QR and, when extended,
the cut barrier B0. -/
structure Environment where
  ce : Option Nat
  ce_is_extended : Bool
  cp : Cell
  qr : Cell
  b0 : Option Nat
  deriving DecidableEq, Repr

/-- Modelled from the spec: choice-point frame.  Records the saved argument
registers, previous E, previous CP, heap watermark H, trail watermark TR,
previous choice point B, cut barrier B0, next alternative BP, predicate PR and
query QR. -/
structure ChoicePoint where
  args : List Cell
  ce : Option Nat
  ce_is_extended : Bool
  cp : Cell
  tr : Nat
  h : Nat
  b : Option Nat
  b0 : Option Nat
  bp : Cell
  pr : Cell
  qr : Cell
  deriving DecidableEq, Repr

/-- Frame on the machine stack. -/
inductive Frame where
  | environment (e : Environment)
  | choice_point (c : ChoicePoint)
  deriving DecidableEq, Repr

/-- Entry of the meta stack `meta_`: the callback, by name, and its saved
context. -/
structure MetaEntry where
  fn : String
  context : List Cell
  deriving DecidableEq, Repr

/-- State of `interpreter_base` (which is a `term_env`).  The machine stack is
the list of its frames, bottom first; a frame pointer is the position of the
frame, `none` is `nullptr`.  A map of the C++ code is a function to `Option`;
`builtins` and `builtins_opt` keep apart an absent key and a key that holds
`nullptr`.  `arith` is the member `arith_`, the arithmetic evaluator. -/
structure Interp where
  env : TermEnv
  program_db : Cell → Option (List Cell)
  program_predicates : List Cell
  predicate_id : Cell × Option Cell → Option Nat
  id_to_predicate : List (List Cell)
  syntax_check_stack : List CheckTask
  builtins : Cell → Option (Option Builtin)
  builtins_opt : Cell → Option (Option BuiltinOpt)
  frames : List Frame
  meta_stack : List MetaEntry
  register_cp : Cell
  register_qr : Cell
  register_pr : Cell
  register_b : Option Nat
  register_e : Option Nat
  register_e_is_extended : Bool
  register_b0 : Option Nat
  register_top_b : Option Nat
  register_top_e : Option Nat
  register_ai : List Cell
  num_of_args : Nat
  top_fail : Bool
  arith : Arithmetics

/-- Result of a builtin: it returns a boolean or aborts, and leaves a
state. -/
abbrev BuiltinResult := Except InterpError Bool × Interp

/-- The collaborators of the interpreter core whose code is not among the
sources: the builtin functions, the optimized builtins and the meta
callbacks. -/
structure Collab where
  call_builtin : Builtin → Interp → Nat → List Cell → Option BuiltinResult
  call_builtin_opt :
    BuiltinOpt → Interp → Nat → List Cell → Option (Except InterpError Tribool × Interp)
  call_meta_fn : MetaEntry → Interp → Option (Except InterpError Unit × Interp)

namespace Interp

/-- The constant `comma_`. -/
def comma : Cell := .con "," 2

/-- The constant `empty_list_`. -/
def empty_list : Cell := .con "[]" 0

/-- The constant `implied_by_`. -/
def implied_by : Cell := .con ":-" 2

/-- Update of a map at one key (`map[k] = v`). -/
def map_set {κ ν : Type} [DecidableEq κ] (m : κ → Option ν) (k : κ) (v : ν) : κ → Option ν :=
  fun x => if x = k then some v else m x

/-- The entry `program_db_[f]`: a missing key is inserted with an empty clause
list, as `operator[]` does. -/
def db_entry (s : Interp) (f : Cell) : List Cell × Interp :=
  match s.program_db f with
  | some clauses => (clauses, s)
  | none => ([], { s with program_db := map_set s.program_db f [] })

/-- Whether a term is a structure after dereferencing (`is_functor`). -/
def is_functor (s : Interp) (fuel : Nat) (c : Cell) : Option Bool :=
  (deref s.env.heap fuel c).map (fun d => decide (d.tag = .STR))

/-- Head of a clause (`clause_head`). -/
def clause_head (heap : Heap) (clause : Cell) : Option Cell :=
  match functor heap clause with
  | none => none
  | some f => if f = implied_by then arg heap clause 0 else some clause

/-- Body of a clause (`clause_body`). -/
def clause_body (heap : Heap) (clause : Cell) : Option Cell :=
  match functor heap clause with
  | none => none
  | some f => if f = implied_by then arg heap clause 1 else some empty_list

/-- Whether two first arguments can be told apart without unification
(`definitely_inequal`). -/
def definitely_inequal (heap : Heap) (a b : Cell) : Option Bool :=
  if a.tag = .REF ∨ b.tag = .REF then some false
  else if a.tag ≠ b.tag then some true
  else
    match a.tag with
    | .REF => some false
    | .CON => some (decide (a ≠ b))
    | .STR =>
      match functor heap a, functor heap b with
      | some fa, some fb => some (decide (fa ≠ fb))
      | _, _ => none
    | .INT => some (decide (a ≠ b))
    | .BIG => some false
    | .GBL => some false

/-- Index key of a first argument (`first_arg_index`). -/
def first_arg_index (heap : Heap) (t : Cell) : Option Cell :=
  match t.tag with
  | .STR => functor heap t
  | _ => some t

/-- The loop of `compute_matched_predicate` over the clauses of the
functor. -/
def compute_matched_loop (heap : Heap) (first_arg : Cell) :
    List Cell → List Cell → Option (List Cell)
  | [], matched => some matched
  | clause :: rest, matched =>
    match clause_head heap clause with
    | none => none
    | some head =>
      match functor heap head with
      | none => none
      | some head_functor =>
        if head_functor.arity > 0 then
          match arg heap head 0 with
          | none => none
          | some head_first_arg =>
            match definitely_inequal heap head_first_arg first_arg with
            | none => none
            | some true => compute_matched_loop heap first_arg rest matched
            | some false => compute_matched_loop heap first_arg rest (matched ++ [clause])
        else compute_matched_loop heap first_arg rest (matched ++ [clause])

/-- Filter the clauses of `func` by the first argument into `matched`
(`compute_matched_predicate`). -/
def compute_matched_predicate (s : Interp) (func first_arg : Cell) (matched : List Cell) :
    Option (List Cell × Interp) :=
  let r := s.db_entry func
  match compute_matched_loop s.env.heap first_arg r.1 matched with
  | none => none
  | some m => some (m, r.2)

/-- Identifier of the memoized clause list for a functor and a first argument
(`matched_predicate_id`). -/
def matched_predicate_id (s : Interp) (func first_arg : Cell) : Option (Nat × Interp) :=
  let index_arg : Option (Option Cell) :=
    match first_arg.tag with
    | .STR => (functor s.env.heap first_arg).map some
    | .CON | .INT => some (some first_arg)
    | .REF => some none
    | _ => some (some first_arg)
  match index_arg with
  | none => none
  | some index_arg =>
    let findex := (func, index_arg)
    match s.predicate_id findex with
    | none =>
      let id := s.id_to_predicate.length
      let s1 : Interp :=
        { s with id_to_predicate := s.id_to_predicate ++ [[]],
                 predicate_id := map_set s.predicate_id findex id }
      match s1.compute_matched_predicate func first_arg [] with
      | none => none
      | some (pred, s2) => some (id, { s2 with id_to_predicate := s2.id_to_predicate.set id pred })
    | some id => some (id, s)

/-- The memoized clause list of an identifier (`get_predicate(id)`). -/
def get_predicate (s : Interp) (id : Nat) : Option (List Cell) := s.id_to_predicate[id]?

/-- First argument register, or the empty list when the goal has no
argument (`get_first_arg`). -/
def get_first_arg (s : Interp) : Option Cell :=
  if s.num_of_args = 0 then some empty_list else s.register_ai[0]?

/-! ### Syntax checks and loading -/

/-- Modelled from the spec: the elements of a list term (`list_iterator`, with
`is_list`): a chain of `'.'/2` cells that ends in the empty list; `none` when
the term is not such a chain or the fuel runs out. -/
def list_elements (heap : Heap) : Nat → Cell → Option (List Cell)
  | 0, _ => none
  | fuel + 1, t =>
    match deref heap fuel t with
    | none => none
    | some d =>
      if d = empty_list then some []
      else if functor heap d = some (.con "." 2) then
        match arg heap d 0, arg heap d 1 with
        | some x, some rest => (list_elements heap fuel rest).map (fun l => x :: l)
        | _, _ => none
      else none

/-- One pending check run by `syntax_check`: the remaining stack (top first)
with what the check pushed, or the exception it throws.  `none` when the heap
access of the check has no defined result. -/
def run_check (s : Interp) (fuel : Nat) (task : CheckTask) (rest : List CheckTask) :
    Option (Except InterpError (List CheckTask)) :=
  match task with
  | .check_program t =>
    match list_elements s.env.heap fuel t with
    | none => some (.error (.program_not_a_list t))
    | some clauses => some (.ok (clauses.map CheckTask.check_clause ++ rest))
  | .check_clause t =>
    match functor s.env.heap t with
    | none => none
    | some f =>
      if f = .con ":-" 2 then
        match arg s.env.heap t 0, arg s.env.heap t 1 with
        | some head, some body => some (.ok (.check_body body :: .check_head head :: rest))
        | _, _ => none
      else some (.ok (.check_head t :: rest))
  | .check_head t =>
    match s.is_functor fuel t with
    | none => none
    | some false => some (.error (.clause_bad_head t "Head of clause is not a functor"))
    | some true =>
      match functor s.env.heap t with
      | none => none
      | some f =>
        if f = .con ":-" 2 ∨ f = .con ";" 2 ∨ f = .con "," 2 ∨ f = .con "\\+" 1 then
          some (.error (.clause_bad_head t
            "Clause has an invalid head; cannot be '->', ';', ',' or '\\+'"))
        else some (.ok rest)
  | .check_body t =>
    match s.is_functor fuel t with
    | none => none
    | some true =>
      match functor s.env.heap t with
      | none => none
      | some f =>
        if f = .con "->" 2 ∨ f = .con ";" 2 ∨ f = .con "," 2 ∨ f = .con "\\+" 1 then
          match (List.range f.arity).mapM (fun i => arg s.env.heap t i) with
          | none => none
          | some args => some (.ok ((args.map CheckTask.check_body).reverse ++ rest))
        else some (.ok (.check_goal t :: rest))
    | some false => some (.ok (.check_goal t :: rest))
  | .check_goal t =>
    match s.is_functor fuel t with
    | none => none
    | some true => some (.ok rest)
    | some false =>
      if t.tag = .REF then some (.ok rest)
      else some (.error (.bad_goal t "Goal is not callable."))

/-- Run the pending checks until the stack is empty (`syntax_check`); an
exception leaves the stack as it is at the throw. -/
def syntax_check : Nat → Interp → Option (Except InterpError Unit × Interp)
  | 0, _ => none
  | fuel + 1, s =>
    match s.syntax_check_stack with
    | [] => some (.ok (), s)
    | task :: rest =>
      match s.run_check fuel task rest with
      | none => none
      | some (.error e) => some (.error e, { s with syntax_check_stack := rest })
      | some (.ok st) => syntax_check fuel { s with syntax_check_stack := st }

/-- Load one clause (`load_clause`). -/
def load_clause (fuel : Nat) (s : Interp) (t : Cell) : Option (Except InterpError Unit × Interp) :=
  match syntax_check fuel { s with syntax_check_stack := .check_clause t :: s.syntax_check_stack } with
  | none => none
  | some (.error e, s1) => some (.error e, s1)
  | some (.ok (), s1) =>
    match clause_head s1.env.heap t with
    | none => none
    | some head =>
      match functor s1.env.heap head with
      | none => none
      | some predicate =>
        let s2 : Interp :=
          match s1.program_db predicate with
          | none =>
            { s1 with program_db := map_set s1.program_db predicate [],
                      program_predicates := s1.program_predicates ++ [predicate] }
          | some _ => s1
        let r := s2.db_entry predicate
        some (.ok (), { r.2 with program_db := map_set r.2.program_db predicate (r.1 ++ [t]) })

/-! ### Machine stack, choice points and execution -/

/-- Load a builtin unless the functor has an entry (`load_builtin`). -/
def load_builtin (s : Interp) (f : Cell) (b : Option Builtin) : Interp :=
  match s.builtins f with
  | none => { s with builtins := map_set s.builtins f b }
  | some _ => s

/-- Load an optimized builtin unless the functor has an entry
(`load_builtin_opt`). -/
def load_builtin_opt (s : Interp) (f : Cell) (b : Option BuiltinOpt) : Interp :=
  match s.builtins_opt f with
  | none => { s with builtins_opt := map_set s.builtins_opt f b }
  | some _ => s

/-- The entry `builtins_[f]`: a missing key is inserted with `nullptr`. -/
def builtins_entry (s : Interp) (f : Cell) : Option Builtin × Interp :=
  match s.builtins f with
  | some b => (b, s)
  | none => (none, { s with builtins := map_set s.builtins f none })

/-- The entry `builtins_opt_[f]`: a missing key is inserted with `nullptr`. -/
def builtins_opt_entry (s : Interp) (f : Cell) : Option BuiltinOpt × Interp :=
  match s.builtins_opt f with
  | some b => (b, s)
  | none => (none, { s with builtins_opt := map_set s.builtins_opt f none })

/-- Size of the trail (`trail_size`). -/
def trail_size (s : Interp) : Nat := s.env.trail_depth

/-- Size of the machine stack. -/
def stack_size (s : Interp) : Nat := s.frames.length

/-- The choice point `b()` points to. -/
def choice_point_at (s : Interp) (b : Option Nat) : Option ChoicePoint :=
  match b with
  | none => none
  | some i =>
    match s.frames[i]? with
    | some (.choice_point c) => some c
    | _ => none

/-- Write the field `bp` of the choice point `b()` points to. -/
def set_bp (s : Interp) (bp : Cell) : Option Interp :=
  match s.register_b with
  | none => none
  | some i =>
    match s.frames[i]? with
    | some (.choice_point c) =>
      some { s with frames := s.frames.set i (.choice_point { c with bp := bp }) }
    | _ => none

/-- Modelled from the spec: `allocate_environment`.  Pushes an environment
frame that records CP, the previous E and QR (and B0 when extended) and makes
it the current environment. -/
def allocate_environment (s : Interp) (extended : Bool) : Interp :=
  { s with
    frames := s.frames ++ [.environment
      { ce := s.register_e, ce_is_extended := s.register_e_is_extended,
        cp := s.register_cp, qr := s.register_qr,
        b0 := if extended then s.register_b0 else none }],
    register_e := some s.frames.length,
    register_e_is_extended := extended }

/-- Modelled from the spec: `deallocate_environment`.  Restores CP and E from
the current environment; the frame is popped only if B does not point past
it. -/
def deallocate_environment (s : Interp) : Option Interp :=
  match s.register_e with
  | none => none
  | some i =>
    match s.frames[i]? with
    | some (.environment e) =>
      let keep : Bool :=
        match s.register_b with
        | none => false
        | some b => decide (i < b)
      some { s with
        register_cp := e.cp, register_e := e.ce, register_e_is_extended := e.ce_is_extended,
        register_b0 := if s.register_e_is_extended then e.b0 else s.register_b0,
        frames := if keep then s.frames else s.frames.take i }
    | _ => none

/-- Modelled from the spec: `allocate_choice_point`.  Pushes a choice point
that saves the argument registers, E, CP, the heap and trail watermarks, B, B0,
PR and QR, with BP set to the given code point; it becomes B and HB becomes the
heap size. -/
def allocate_choice_point (s : Interp) (bp : Cell) : Interp :=
  { s with
    frames := s.frames ++ [.choice_point
      { args := s.register_ai.take s.num_of_args,
        ce := s.register_e, ce_is_extended := s.register_e_is_extended,
        cp := s.register_cp, tr := s.trail_size, h := s.env.heap_size,
        b := s.register_b, b0 := s.register_b0, bp := bp,
        pr := s.register_pr, qr := s.register_qr }],
    register_b := some s.frames.length,
    env := s.env.set_last_choice_heap s.env.heap_size }

/-- Unbind the variables recorded on the trail from `from_tr` on
(`unwind`). -/
def unwind (s : Interp) (from_tr : Nat) : Option Interp :=
  match s.env.unwind_trail from_tr s.trail_size with
  | none => none
  | some env => some { s with env := env.trim_trail from_tr }

/-- Restore the registers saved in a choice point
(`reset_to_choice_point`). -/
def reset_to_choice_point (s : Interp) (b : Option Nat) : Option (ChoicePoint × Interp) :=
  match s.choice_point_at b with
  | none => none
  | some ch =>
    let s1 : Interp :=
      { s with register_e := ch.ce, register_e_is_extended := ch.ce_is_extended,
               register_cp := ch.cp }
    match s1.unwind ch.tr with
    | none => none
    | some s2 =>
      let s3 : Interp := { s2 with env := s2.env.trim_heap ch.h, register_b0 := ch.b0 }
      let s4 : Interp := { s3 with env := s3.env.set_last_choice_heap s3.env.heap_size }
      some (ch, { s4 with register_qr := ch.qr, register_pr := ch.pr })

/-- Arithmetic on `size_t`. -/
def size_t (n : Nat) : Nat := n % 2 ^ 64

/-- The `for` loop of `select_clause` over the clauses from position `i`. -/
def select_clause_loop (fuel : Nat) (instruction : Cell) (index_id num_clauses : Nat) :
    List Cell → Nat → Interp → Option (Bool × Interp)
  | [], _, s => some (false, s)
  | clause :: rest, i, s =>
    let has_choices : Bool := decide (num_clauses > 1)
    let current_heap := s.env.heap_size
    match s.env.copy fuel clause with
    | none => none
    | some (copy_clause, env1) =>
      match clause_head env1.heap copy_clause, clause_body env1.heap copy_clause with
      | some copy_head, some copy_body =>
        match env1.unify fuel copy_head instruction with
        | none => none
        | some (true, env2) =>
          let s1 : Interp := { s with env := env2 }
          let s2 : Option Interp :=
            if has_choices then
              if i = num_clauses - 1 then s1.set_bp (.int 0)
              else s1.set_bp (.int (size_t (size_t (index_id * 2 ^ 8) + (i + 1))))
            else some s1
          match s2 with
          | none => none
          | some s2 =>
            let s3 := s2.allocate_environment true
            some (true, { s3 with register_cp := copy_body, register_qr := copy_head })
        | some (false, env2) =>
          select_clause_loop fuel instruction index_id num_clauses rest (i + 1)
            { s with env := env2.trim_heap current_heap }
      | _, _ => none

/-- Select the first clause from `from_clause` on whose head unifies with the
goal (`select_clause`); identifier 0 stands for a disjunction. -/
def select_clause (fuel : Nat) (s : Interp) (instruction : Cell) (index_id : Nat)
    (clauses : List Cell) (from_clause : Nat) : Option (Bool × Interp) :=
  if index_id = 0 then
    if from_clause > 1 then some (false, s)
    else
      match arg s.env.heap s.register_qr from_clause with
      | none => none
      | some c =>
        (({ s with register_cp := c } : Interp).set_bp (.int (from_clause + 1))).map
          (fun s1 => (true, s1))
  else
    select_clause_loop fuel instruction index_id clauses.length (clauses.drop from_clause)
      from_clause s

/-- Value of the code point `bp` read as an `int_cell` and converted to
`size_t`. -/
def bp_value (bp : Cell) : Option Nat :=
  match bp with
  | .int v => some (v.toNat % 2 ^ 64)
  | _ => none

/-- The `do ... while (!ok)` loop of `fail`, with its local variables
`current_tr` and `unbound`; what follows the loop is done where the loop is
left. -/
def fail_loop : Nat → Interp → Nat → Bool → Option Interp
  | 0, _, _, _ => none
  | fuel + 1, s, current_tr, _ =>
    if s.register_b = s.register_top_b then some { s with top_fail := true }
    else
      match s.reset_to_choice_point s.register_b with
      | none => none
      | some (ch, s1) =>
        match bp_value ch.bp with
        | none => none
        | some bpval =>
          if bpval ≠ 0 then
            let index_id := bpval >>> 8
            match s1.unwind current_tr with
            | none => none
            | some s2 =>
              let current_tr1 := s2.trail_size
              match s2.id_to_predicate[index_id]? with
              | none => none
              | some clauses =>
                let from_clause := bpval &&& 0xff
                match select_clause fuel s2 s2.register_qr index_id clauses from_clause with
                | none => none
                | some (true, s3) => some s3
                | some (false, s3) =>
                  fail_loop fuel { s3 with register_b := ch.b } current_tr1 false
          else fail_loop fuel { s1 with register_b := ch.b } current_tr false

/-- Backtrack to the most recent choice point (`fail`). -/
def fail (fuel : Nat) (s : Interp) : Option Interp :=
  fail_loop fuel s s.trail_size false

/-- Copy the arguments of the goal into the argument registers. -/
def load_args (heap : Heap) (t : Cell) (arity : Nat) : Option (List Cell) :=
  (List.range arity).mapM (fun i => arg heap t i)

/-- Run a boolean outcome of `dispatch`: on `false` call `fail`. -/
def fail_unless (fuel : Nat) (r : Bool) (s : Interp) : Option (Except InterpError Unit × Interp) :=
  if r then some (.ok (), s) else (fail fuel s).map (fun s1 => (.ok (), s1))

/-- Where the first part of `dispatch` leaves a goal: it is done (the goal
was the empty list, or a builtin ran), or it goes on to the clauses of the
functor `f`. -/
inductive Dispatched where
  | done (r : Except InterpError Unit × Interp)
  | user (f : Cell) (s : Interp)

/-- The first part of `dispatch`: return from a clause body, load the argument
registers, run a builtin or an optimized builtin. -/
def dispatch_builtin (P : Collab) (fuel : Nat) (s : Interp) (instruction : Cell) :
    Option Dispatched :=
  let s : Interp := { s with register_qr := instruction }
  match functor s.env.heap s.register_qr with
  | none => none
  | some f =>
    if f = empty_list then s.deallocate_environment.map (fun s1 => .done (.ok (), s1))
    else
      let arity := f.arity
      match load_args s.env.heap instruction arity with
      | none => none
      | some args =>
        let s : Interp := { s with register_ai := args ++ s.register_ai.drop arity,
                                   num_of_args := arity }
        let bf := s.builtins_entry f
        let s := bf.2
        match bf.1 with
        | some b =>
          match P.call_builtin b s arity (s.register_ai.take arity) with
          | none => none
          | some (.error e, s1) => some (.done (.error e, s1))
          | some (.ok r, s1) => (fail_unless fuel r s1).map .done
        | none =>
          let obf := s.builtins_opt_entry f
          let s := obf.2
          let opt : Option (Except InterpError Tribool × Interp) :=
            match obf.1 with
            | some b => P.call_builtin_opt b s arity (s.register_ai.take arity)
            | none => some (.ok .indeterminate, s)
          match opt with
          | none => none
          | some (.error e, s1) => some (.done (.error e, s1))
          | some (.ok .true_value, s1) => some (.done (.ok (), s1))
          | some (.ok .false_value, s1) => (fail_unless fuel false s1).map .done
          | some (.ok .indeterminate, s1) => some (.user f s1)

/-- The second part of `dispatch`, from `get_first_arg` on: the clauses of
the functor `f` under first-argument indexing. -/
def dispatch_user (fuel : Nat) (s : Interp) (f : Cell) (instruction : Cell) :
    Option (Except InterpError Unit × Interp) :=
  match s.get_first_arg with
  | none => none
  | some first_arg =>
    match s.matched_predicate_id f first_arg with
    | none => none
    | some (predicate_id, s) =>
      match s.get_predicate predicate_id with
      | none => none
      | some p =>
        let s : Interp := { s with register_pr := f }
        if p = [] then
          let r := s.db_entry f
          let s : Interp :=
            { r.2 with id_to_predicate := r.2.id_to_predicate.set predicate_id r.1 }
          if r.1 = [] then some (.error (.undefined_predicate f), s)
          else fail_unless fuel false s
        else
          let num_clauses := p.length
          let has_choices : Bool := decide (num_clauses > 1)
          let index_id := predicate_id
          let s : Interp :=
            if has_choices then
              ({ s with register_b0 := s.register_b } : Interp).allocate_choice_point
                (.int index_id)
            else s
          match select_clause fuel s instruction index_id p 0 with
          | none => none
          | some (r, s1) => fail_unless fuel r s1

/-- Dispatch one goal (`dispatch`). -/
def dispatch (P : Collab) (fuel : Nat) (s : Interp) (instruction : Cell) :
    Option (Except InterpError Unit × Interp) :=
  match dispatch_builtin P fuel s instruction with
  | none => none
  | some (.done r) => some r
  | some (.user f s1) => dispatch_user fuel s1 f instruction

/-- One execution step (`execute_once`). -/
def execute_once (P : Collab) (fuel : Nat) (s : Interp) :
    Option (Except InterpError Unit × Interp) :=
  let instruction := s.register_cp
  dispatch P fuel { s with register_cp := empty_list } instruction

/-- The inner loop of `cont`: `do execute_once() while (e != top_e && !top_fail)`. -/
def cont_inner (P : Collab) : Nat → Interp → Option (Except InterpError Unit × Interp)
  | 0, _ => none
  | fuel + 1, s =>
    match execute_once P fuel s with
    | none => none
    | some (.error e, s1) => some (.error e, s1)
    | some (.ok (), s1) =>
      if s1.register_e ≠ s1.register_top_e ∧ s1.top_fail = false then cont_inner P fuel s1
      else some (.ok (), s1)

/-- The outer loop of `cont`. -/
def cont_outer (P : Collab) : Nat → Interp → Option (Except InterpError Unit × Interp)
  | 0, _ => none
  | fuel + 1, s =>
    match cont_inner P fuel s with
    | none => none
    | some (.error e, s1) => some (.error e, s1)
    | some (.ok (), s1) =>
      let after_meta : Option (Except InterpError Unit × Interp) :=
        match s1.meta_stack with
        | [] => some (.ok (), s1)
        | e :: _ =>
          match P.call_meta_fn e s1 with
          | none => none
          | some (.error err, s2) => some (.error err, s2)
          | some (.ok (), s2) =>
            if s2.top_fail then
              (fail fuel { s2 with top_fail := false }).map (fun s3 => (.ok (), s3))
            else some (.ok (), s2)
      match after_meta with
      | none => none
      | some (.error err, s2) => some (.error err, s2)
      | some (.ok (), s2) =>
        if s2.register_e ≠ none ∧ s2.top_fail = false then cont_outer P fuel s2
        else some (.ok (), s2)

/-- Continue the execution (`cont`); the boolean is `!top_fail_`. -/
def cont (P : Collab) (fuel : Nat) (s : Interp) : Option (Except InterpError Bool × Interp) :=
  match cont_outer P fuel s with
  | none => none
  | some (.error e, s1) => some (.error e, s1)
  | some (.ok (), s1) => some (.ok (!s1.top_fail), s1)

/-- Reset the machine registers (`prepare_execution`). -/
def prepare_execution (s : Interp) : Interp :=
  { s with frames := [], num_of_args := 0,
           register_ai := s.register_ai.map (fun _ => Cell.ref 0),
           top_fail := false, register_b := none, register_e := none,
           register_e_is_extended := false, register_b0 := none,
           register_top_b := none, register_top_e := none }

/-- Prove a query (`execute`).  The recording of the variable names of the
query, used only for printing, is left out. -/
def execute (P : Collab) (fuel : Nat) (s : Interp) (query : Cell) :
    Option (Except InterpError Bool × Interp) :=
  let s1 : Interp := { s with top_fail := false }
  let s2 : Interp := { s1 with env := s1.env.trim_trail 0 }
  let s3 := s2.prepare_execution
  cont P fuel { s3 with register_cp := query, register_qr := query }

/-- Ask for the next solution (`next`). -/
def next (P : Collab) (fuel : Nat) (s : Interp) : Option (Except InterpError Bool × Interp) :=
  match fail fuel s with
  | none => none
  | some s1 =>
    if !s1.top_fail then
      match cont P fuel s1 with
      | none => none
      | some (.error e, s2) => some (.error e, s2)
      | some (.ok _, s2) => some (.ok (!s2.top_fail), s2)
    else some (.ok (!s1.top_fail), s1)

/-- Register the builtins (`load_builtins`). -/
def load_builtins (s : Interp) : Interp :=
  [ ((Cell.con "profile" 0), Builtin.profile_0),
    (.con "true" 0, .true_0),
    (.con "," 2, .operator_comma),
    (.con "!" 0, .operator_cut),
    (.con "_!" 0, .operator_cut_if),
    (.con ";" 2, .operator_disjunction),
    (.con "->" 2, .operator_if_then),
    (.con "@<" 2, .operator_at_less_than),
    (.con "@=<" 2, .operator_at_equals_less_than),
    (.con "@>" 2, .operator_at_greater_than),
    (.con "@>=" 2, .operator_at_greater_than_equals),
    (.con "==" 2, .operator_equals),
    (.con "\\==" 2, .operator_not_equals),
    (.con "compare" 3, .compare_3),
    (.con "=" 2, .operator_unification),
    (.con "\\=" 2, .operator_cannot_unify),
    (.con "var" 1, .var_1),
    (.con "nonvar" 1, .nonvar_1),
    (.con "integer" 1, .integer_1),
    (.con "number" 1, .number_1),
    (.con "atom" 1, .atom_1),
    (.con "atomic" 1, .atomic_1),
    (.con "compound" 1, .compound_1),
    (.con "callable" 1, .callable_1),
    (.con "ground" 1, .ground_1),
    (.con "is" 2, .is_2),
    (.con "functor" 3, .functor_3),
    (.con "copy_term" 2, .copy_term_2),
    (.con "=.." 2, .operator_deconstruct),
    (.con "\\+" 1, .operator_disprove) ].foldl
    (fun s fb => s.load_builtin fb.1 (some fb.2)) s

/-- Register the optimized builtins (`load_builtins_opt`). -/
def load_builtins_opt (s : Interp) : Interp :=
  (s.load_builtin_opt (.con "member" 2) (some .member_2)).load_builtin_opt (.con "sort" 2)
    (some .sort_2)

/-- Register the file builtins (`load_builtins_file_io`, `enable_file_io`). -/
def load_builtins_file_io (s : Interp) : Interp :=
  [ ((Cell.con "open" 3), Builtin.open_3),
    (.con "close" 1, .close_1),
    (.con "read" 2, .read_2),
    (.con "at_end_of_stream" 1, .at_end_of_stream_1),
    (.con "write" 1, .write_1),
    (.con "nl" 0, .nl_0) ].foldl
    (fun s fb => s.load_builtin fb.1 (some fb.2)) s

/-- A new interpreter over a term environment (the constructor with `init`,
`load_builtins` and `load_builtins_opt`). -/
def init (env : TermEnv) : Interp :=
  let s : Interp :=
    { env := env, program_db := fun _ => none, program_predicates := [],
      predicate_id := fun _ => none, id_to_predicate := [[]],
      syntax_check_stack := [], builtins := fun _ => none, builtins_opt := fun _ => none,
      frames := [], meta_stack := [], register_cp := .ref 0, register_qr := .ref 0,
      register_pr := .con "" 0, register_b := none, register_e := none,
      register_e_is_extended := false, register_b0 := none, register_top_b := none,
      register_top_e := none, register_ai := [], num_of_args := 0, top_fail := false,
      arith := { fn_map := [], args := [] } }
  s.prepare_execution.load_builtins.load_builtins_opt

end Interp


namespace Interp

/-- The loop of `load_program` over the clauses of the list: `load_clause` for
each, until one throws. -/
def load_clauses (fuel : Nat) : Interp → List Cell → Option (Except InterpError Unit × Interp)
  | s, [] => some (.ok (), s)
  | s, clause :: rest =>
    match s.load_clause fuel clause with
    | none => none
    | some (.error e, s1) => some (.error e, s1)
    | some (.ok (), s1) => load_clauses fuel s1 rest

/-- Load a program, a list of clauses (`load_program`): the syntax check of
the whole program, then `load_clause` for every clause of the list. -/
def load_program (fuel : Nat) (s : Interp) (t : Cell) :
    Option (Except InterpError Unit × Interp) :=
  match syntax_check fuel
      { s with syntax_check_stack := .check_program t :: s.syntax_check_stack } with
  | none => none
  | some (.error e, s1) => some (.error e, s1)
  | some (.ok (), s1) =>
    match list_elements s1.env.heap fuel t with
    | none => none
    | some clauses => load_clauses fuel s1 clauses

/-- The pending checks `st` all pass on the heap of `s` with the fuel `n`. -/
def ChecksPass (s : Interp) (n : Nat) (st : List CheckTask) : Prop :=
  ∃ s1, syntax_check n { s with syntax_check_stack := st } = some (.ok (), s1)

end Interp

/-! ## Arithmetic evaluation (`arithmetics`) -/

/-- Modelled from the spec: the value that an `int_cell` built from the
integer `v` holds (`int_cell` is declared in `term.hpp`, not among the
sources): the payload of a cell has 61 bits and is sign-extended. -/
def int_cell_value (v : Int) : Int := (v + 2 ^ 60) % 2 ^ 61 - 2 ^ 60

namespace arithmetics_fn

/-- The integer of an argument (`arithmetics_fn::get_int`); `none` when the
cell is not an `INT` cell, where the cast has no defined result. -/
def get_int : Cell → Option Int
  | .int v => some v
  | _ => none

/-- Addition (`arithmetics_fn::plus_2`) on the arguments `args[0]`,
`args[1]`. -/
def plus_2 (args : List Cell) : Option Cell :=
  match args with
  | x :: y :: _ =>
    match get_int x, get_int y with
    | some a, some b => some (.int (int_cell_value (a + b)))
    | _, _ => none
  | _ => none

/-- Subtraction (`arithmetics_fn::minus_2`). -/
def minus_2 (args : List Cell) : Option Cell :=
  match args with
  | x :: y :: _ =>
    match get_int x, get_int y with
    | some a, some b => some (.int (int_cell_value (a - b)))
    | _, _ => none
  | _ => none

/-- Multiplication (`arithmetics_fn::times_2`). -/
def times_2 (args : List Cell) : Option Cell :=
  match args with
  | x :: y :: _ =>
    match get_int x, get_int y with
    | some a, some b => some (.int (int_cell_value (a * b)))
    | _, _ => none
  | _ => none

end arithmetics_fn

/-- Call through a function pointer of the table. -/
def ArithFn.call : ArithFn → List Cell → Option Cell
  | .plus_2, args => arithmetics_fn.plus_2 args
  | .minus_2, args => arithmetics_fn.minus_2 args
  | .times_2, args => arithmetics_fn.times_2 args

namespace Arithmetics

/-- Register a function (`load_fn`): `fn_map_[f] = fn`. -/
def load_fn (a : Arithmetics) (name : String) (arity : Nat) (fn : ArithFn) : Arithmetics :=
  let f : Cell := .con name arity
  if a.fn_map.any (fun e => decide (e.1 = f)) then
    { a with fn_map := a.fn_map.map (fun e => if e.1 = f then (f, fn) else e) }
  else { a with fn_map := a.fn_map ++ [(f, fn)] }

/-- Register addition, subtraction and multiplication, each of arity 2,
unless the table has entries (`load_fns`). -/
def load_fns (a : Arithmetics) : Arithmetics :=
  if a.fn_map.length ≠ 0 then a
  else ((a.load_fn "+" 2 .plus_2).load_fn "-" 2 .minus_2).load_fn "*" 2 .times_2

/-- Clear the table and the argument buffer (`unload`). -/
def unload (_ : Arithmetics) : Arithmetics := { fn_map := [], args := [] }

/-- Modelled from the spec: `lookup` (defined in `arithmetics.hpp`, not among
the sources) looks up the arithmetic function by `(name, arity)` in the table;
`none` is `nullptr`. -/
def lookup (a : Arithmetics) (f : Cell) : Option ArithFn :=
  (a.fn_map.find? (fun e => decide (e.1 = f))).map (fun e => e.2)

/-- State of the loop of `eval`: the arithmetics object, the term environment
of the interpreter and the local `result`, which is `none` as long as it is
the default-constructed term. -/
structure EvalState where
  arith : Arithmetics
  env : TermEnv
  result : Option Cell
  deriving DecidableEq, Repr

/-- The loop of `eval` that pushes the arguments of a functor, each with the
flag `int_cell(0)`, argument `n-1` first; `k` iterations remain. -/
def eval_push_args (heap : Heap) (t : Cell) (n : Nat) : Nat → List Cell → Option (List Cell)
  | 0, stack => some stack
  | k + 1, stack =>
    let i := n - (k + 1)
    match arg heap t (n - i - 1) with
    | none => none
    | some a => eval_push_args heap t n k (.int 0 :: a :: stack)

/-- One iteration of the `while` loop of `eval`: the state it leaves, with the
exception if it aborts.  `none` where the C++ code has no defined result: a
cast to a cell type that the cell does not have, an access outside `args_`
(with fewer than `arity` values in `args_` the unsigned `end - arity` wraps
around and `&args_[off]` is outside the vector), `assert(false)`. -/
def eval_iter (st : EvalState) : Option (Except InterpError Unit × EvalState) :=
  match st.env.stack with
  | visited0 :: t :: rest =>
    let env1 : TermEnv := { st.env with stack := rest }
    if t.tag = .INT then
      some (.ok (), { st with env := env1, arith := { st.arith with args := st.arith.args ++ [t] } })
    else
      match visited0 with
      | .int visited =>
        if visited ≠ 0 then
          match t with
          | .con _ arity =>
            match st.arith.lookup t with
            | none => some (.error (.undefined_function t), { st with env := env1 })
            | some fn_call =>
              let end_ := st.arith.args.length
              if arity ≤ end_ then
                let off := end_ - arity
                match fn_call.call (st.arith.args.drop off) with
                | none => none
                | some result =>
                  some (.ok (),
                    { arith := { st.arith with args := resize_back st.arith.args off (.ref 0) },
                      env := (env1.push result).push (.int 1),
                      result := some result })
              else none
          | _ => none
        else
          match t.tag with
          | .CON | .STR =>
            match functor env1.heap t with
            | none => none
            | some f =>
              let env2 := (env1.push f).push (.int 1)
              match eval_push_args env1.heap t f.arity f.arity env2.stack with
              | none => none
              | some stack => some (.ok (), { st with env := { env2 with stack := stack } })
          | .REF => some (.error .not_sufficiently_instantiated, { st with env := env1 })
          | .BIG => some (.error .unsupported, { st with env := env1 })
          | .INT => none
          | .GBL => some (.ok (), { st with env := env1 })
      | _ => none
  | _ => none

/-- The `while (stack_start < env.stack_size())` loop of `eval`. -/
def eval_loop (stack_start : Nat) : Nat → EvalState → Option (Except InterpError Unit × EvalState)
  | 0, _ => none
  | fuel + 1, st =>
    if stack_start < st.env.stack_depth then
      match eval_iter st with
      | none => none
      | some (.error e, st1) => some (.error e, st1)
      | some (.ok (), st1) => eval_loop stack_start fuel st1
    else some (.ok (), st)

/-- Evaluate an expression (`arithmetics::eval`).  The result is the local
`result`: `none` when no function was applied and it still is the
default-constructed term.  An abort leaves the state as it is at the
throw. -/
def eval (fuel : Nat) (a : Arithmetics) (env : TermEnv) (expr : Cell) :
    Option (Except InterpError (Option Cell) × Arithmetics × TermEnv) :=
  let a := a.load_fns
  let stack_start := env.stack_depth
  let env := (env.push expr).push (.int 0)
  match eval_loop stack_start fuel { arith := a, env := env, result := none } with
  | none => none
  | some (.error e, st) => some (.error e, st.arith, st.env)
  | some (.ok (), st) => some (.ok st.result, { st.arith with args := [] }, st.env)

end Arithmetics

/-- The evaluator of the interpreter (`arith_.eval`), on the state of the
interpreter. -/
def Interp.eval (fuel : Nat) (s : Interp) (expr : Cell) :
    Option (Except InterpError (Option Cell) × Interp) :=
  (Arithmetics.eval fuel s.arith s.env expr).map
    (fun r => (r.1, { s with arith := r.2.1, env := r.2.2 }))
/-! ## Invariants used in the proofs -/

/-- Relation between the state `s0` in which the loop of `unify_helper`
starts and a later state `s` of the loop: `loc` is what the loop has on the
work stack above the entry depth, `new` the trail entries it has added.  Every
cell recorded in `new` was an unbound REF in `s0`, every other cell is as in
`s0`. -/
structure UnifyInv (s0 s : TermEnv) (loc : List Cell) (new : List Nat) : Prop where
  len : s.heap.length = s0.heap.length
  hb : s.register_hb = s0.register_hb
  h : s.register_h = s0.register_h
  temp : s.temp = s0.temp
  trail : s.trail = s0.trail ++ new
  old : ∀ j ∈ new, s0.heap[j]? = some (.ref j)
  same : ∀ j, j ∉ new → s.heap[j]? = s0.heap[j]?
  stack : s.stack = loc ++ s0.stack

/-- `d` is what `deref` returns for `c` when the fuel suffices. -/
def DerefTo (heap : Heap) (c d : Cell) : Prop := ∃ n, deref heap n c = some d

/-- REF chains end: every cell stored in the heap dereferences to some
cell. -/
def RefChainsEnd (heap : Heap) : Prop :=
  ∀ (i : Nat) (c : Cell), heap[i]? = some c → ∃ e, DerefTo heap c e

/-- `h1` arises from `h` by binding unbound REF cells: the size is the same
and a cell that differs was an unbound REF in `h`. -/
def Binds (h h1 : Heap) : Prop :=
  h1.length = h.length ∧ ∀ i : Nat, h1[i]? = h[i]? ∨ h[i]? = some (.ref i)

/-- Two cells dereference to the same cell. -/
def SameDeref (heap : Heap) (c c1 : Cell) : Prop :=
  ∃ e, DerefTo heap c e ∧ DerefTo heap c1 e

/-- Decision procedure for `RefChainsEnd`: a chain that ends does so within
as many steps as the heap has cells. -/
def ref_chains_end (heap : Heap) : Bool :=
  heap.all (fun c => (deref heap (heap.length + 1) c).isSome)

/-- Finite term, read from the heap without dereferencing (as `copy` reads
it): a REF, `CON` or `INT` cell, or an `STR` cell whose header is a `CON` cell
in the heap and whose arguments are in the heap and are such terms. -/
inductive RawTerm (heap : Heap) : Cell → Prop
  | ref (i : Nat) : RawTerm heap (.ref i)
  | con (f : String) (n : Nat) : RawTerm heap (.con f n)
  | int (v : Int) : RawTerm heap (.int v)
  | str (h : Nat) (f : String) (n : Nat) :
      heap[h]? = some (.con f n) → h + 1 + n ≤ heap.length →
      (∀ k a, k < n → heap[h + 1 + k]? = some a → RawTerm heap a) →
      RawTerm heap (.str h)

/-- Finite term without REF cells. -/
inductive NoRefTerm (heap : Heap) : Cell → Prop
  | con (f : String) (n : Nat) : NoRefTerm heap (.con f n)
  | int (v : Int) : NoRefTerm heap (.int v)
  | str (h : Nat) (f : String) (n : Nat) :
      heap[h]? = some (.con f n) → h + 1 + n ≤ heap.length →
      (∀ k a, k < n → heap[h + 1 + k]? = some a → NoRefTerm heap a) →
      NoRefTerm heap (.str h)

/-- The term `c1` is the term `c` with its REF cells renamed by `m`, both read
without dereferencing: the same `INT` and `CON` cells and the same functors at
the same positions, and at the position of a REF cell of `c` its image under
`m`. -/
inductive CopyOf (heap : Heap) (m : List (Cell × Cell)) : Cell → Cell → Prop
  | ref (i : Nat) (v : Cell) : TermEnv.var_map_find m (.ref i) = some v →
      CopyOf heap m (.ref i) v
  | con (f : String) (n : Nat) : CopyOf heap m (.con f n) (.con f n)
  | int (v : Int) : CopyOf heap m (.int v) (.int v)
  | str (h h1 : Nat) (f : String) (n : Nat) :
      heap[h]? = some (.con f n) → heap[h1]? = some (.con f n) →
      h + 1 + n ≤ heap.length → h1 + 1 + n ≤ heap.length →
      (∀ k a a1, k < n → heap[h + 1 + k]? = some a → heap[h1 + 1 + k]? = some a1 →
        CopyOf heap m a a1) →
      CopyOf heap m (.str h) (.str h1)

/-- The cell `r` occurs in the term `c` read without dereferencing. -/
inductive RawOccurs (heap : Heap) : Cell → Cell → Prop
  | here (c : Cell) : RawOccurs heap c c
  | arg (h : Nat) (f : String) (n k : Nat) (a r : Cell) :
      heap[h]? = some (.con f n) → k < n → heap[h + 1 + k]? = some a →
      RawOccurs heap a r → RawOccurs heap (.str h) r

/-- The variable map of `copy` renames REF cells to fresh unbound REF cells,
one for each: every value is an unbound REF at an index `≥ n0`, and no two
keys have the same value. -/
structure VarMapOk (n0 : Nat) (heap : Heap) (m : List (Cell × Cell)) : Prop where
  fresh : ∀ key v, TermEnv.var_map_find m key = some v →
    ∃ j, v = .ref j ∧ n0 ≤ j ∧ heap[j]? = some (.ref j)
  inj : ∀ k1 k2 v, TermEnv.var_map_find m k1 = some v → TermEnv.var_map_find m k2 = some v →
    k1 = k2

/-- The heap `h1` extends `h`: the cells of `h` are the first cells of `h1`. -/
def Extends (h h1 : Heap) : Prop :=
  h.length ≤ h1.length ∧ ∀ j : Nat, j < h.length → h1[j]? = h[j]?

/-- The work-stack entries of `copy` for the arguments still to be processed:
each with the flag `int_cell(0)` on top of it. -/
def arg_items : List Cell → List Cell
  | [] => []
  | a :: rest => .int 0 :: a :: arg_items rest

/-- The pairs `unify_helper` and `equal` push for two argument lists. -/
def arg_pairs : List Cell → List Cell → List Cell
  | a :: as, b :: bs => a :: b :: arg_pairs as bs
  | _, _ => []

/-- Decision procedure for `RawTerm` (with `allow_ref`) and `NoRefTerm`
(without): the term is traversed to the depth `fuel`. -/
def term_check (heap : Heap) (allow_ref : Bool) : Nat → Cell → Bool
  | _, .ref _ => allow_ref
  | _, .con _ _ => true
  | _, .int _ => true
  | 0, .str _ => false
  | fuel + 1, .str p =>
    match heap[p]? with
    | some (.con _ n) =>
      decide (p + 1 + n ≤ heap.length) &&
        (List.range n).all (fun k =>
          match heap[p + 1 + k]? with
          | some a => term_check heap allow_ref fuel a
          | none => false)
    | _ => false
  | _, _ => false

/-- The cells of the heap from index `n0` on are terminal: not a REF, or a
REF to an unbound REF cell. -/
def NewCellsOk (n0 : Nat) (heap : Heap) : Prop :=
  ∀ (j : Nat) (c : Cell), n0 ≤ j → heap[j]? = some c →
    c.tag ≠ .REF ∨ ∃ k, c = .ref k ∧ heap[k]? = some (.ref k)

/-- What a run of iterations of the loop of `copy` does for one entry `c` of
the work stack: after `k` iterations the entry is gone and its copy `c1` is on
the temporary stack. -/
structure CopyStep (n0 d : Nat) (s : TermEnv) (vm : List (Cell × Cell)) (c : Cell)
    (rest : List Cell) (k : Nat) (s1 : TermEnv) (vm1 : List (Cell × Cell)) (c1 : Cell) :
    Prop where
  run : ∀ fuel, TermEnv.copy_loop d (fuel + k) s vm = TermEnv.copy_loop d fuel s1 vm1
  stack : s1.stack = rest
  temp : s1.temp = c1 :: s.temp
  trail : s1.trail = s.trail
  hb : s1.register_hb = s.register_hb
  h : s1.register_h = s.register_h
  ext : Extends s.heap s1.heap
  sub : ∀ key v, TermEnv.var_map_find vm key = some v → TermEnv.var_map_find vm1 key = some v
  ok : VarMapOk n0 s1.heap vm1
  copy : CopyOf s1.heap vm1 c c1
  cells : NewCellsOk n0 s.heap → NewCellsOk n0 s1.heap

/-- The loop of `copy` processes the entry `c` of the work stack, whatever
lies below it: the statement proved by induction on the term. -/
def CopyItem (heap0 : Heap) (n0 : Nat) (c : Cell) : Prop :=
  ∀ (s : TermEnv) (vm : List (Cell × Cell)) (rest : List Cell) (d : Nat),
    Extends heap0 s.heap → s.stack = .int 0 :: c :: rest → d ≤ rest.length →
    VarMapOk n0 s.heap vm → n0 ≤ s.heap.length →
    ∃ k s1 vm1 c1, CopyStep n0 d s vm c rest k s1 vm1 c1

/-- The loop of `equal` processes the pair `a`, `b` on top of the work stack
and finds the two terms equal. -/
def EqualItem (heap : Heap) (a b : Cell) : Prop :=
  ∀ (st : TermEnv) (rest : List Cell) (d : Nat),
    st.heap = heap → st.stack = a :: b :: rest → d ≤ rest.length →
    ∃ k, ∀ fuel, TermEnv.equal_loop d (fuel + k) st =
      TermEnv.equal_loop d fuel { st with stack := rest }

/-- The heap `h2` while `unify` runs on a term of the heap `h0` and its copy
in the heap `h1`: the cells of `h0` are untouched, and a cell from `h0.length`
on is as in `h1` or is a fresh variable of the copy, bound to what its source
variable dereferences to. -/
structure CopyUnifyInv (h0 h1 : Heap) (vm : List (Cell × Cell)) (h2 : Heap) : Prop where
  len : h2.length = h1.length
  old : ∀ j : Nat, j < h0.length → h2[j]? = h0[j]?
  new : ∀ j : Nat, h0.length ≤ j → h2[j]? = h1[j]? ∨
    ∃ i e, TermEnv.var_map_find vm (.ref i) = some (.ref j) ∧ h2[j]? = some e ∧
      DerefTo h0 (.ref i) e

/-- A pair that `unify` meets on a term and its copy: a cell of the term with
its copy, or with the cell it dereferences to. -/
def CopyPair (h0 h1 : Heap) (vm : List (Cell × Cell)) (x y : Cell) : Prop :=
  CopyOf h1 vm x y ∨ DerefTo h0 x y

/-- The loop of `unify_helper` processes the pair of `x` and its copy on top
of the work stack and goes on. -/
def UnifyItem (h0 h1 : Heap) (vm : List (Cell × Cell)) (x : Cell) : Prop :=
  ∀ (y : Cell) (st : TermEnv) (rest : List Cell) (d : Nat),
    CopyPair h0 h1 vm x y → CopyUnifyInv h0 h1 vm st.heap → st.stack = x :: y :: rest →
    d ≤ rest.length →
    ∃ (k F : Nat) (st1 : TermEnv),
      (∀ fuel, F ≤ fuel → TermEnv.unify_loop d (fuel + k) st = TermEnv.unify_loop d fuel st1) ∧
      st1.stack = rest ∧ CopyUnifyInv h0 h1 vm st1.heap

/-! ## Definitions used to state the properties -/

/-- The clauses stored for a functor, empty when the functor has no entry. -/
def Interp.clauses_of (s : Interp) (f : Cell) : List Cell := (s.program_db f).getD []

/-- Whether first-argument indexing keeps a clause for the query argument
`first_arg`: its head has arity 0 or the first argument of its head is not
definitely unequal to `first_arg`. -/
def Interp.clause_kept (heap : Heap) (first_arg : Cell) (clause : Cell) : Bool :=
  match Interp.clause_head heap clause with
  | none => false
  | some head =>
    match functor heap head with
    | none => false
    | some head_functor =>
      if head_functor.arity = 0 then true
      else
        match arg heap head 0 with
        | none => false
        | some head_first_arg =>
          decide (Interp.definitely_inequal heap head_first_arg first_arg = some false)

/-- The discriminator of a first argument: an `STR` collapses to its functor,
a REF is erased. -/
def Interp.discriminator (heap : Heap) (first_arg : Cell) : Option (Option Cell) :=
  match first_arg.tag with
  | .STR => (functor heap first_arg).map some
  | .REF => some none
  | _ => some (some first_arg)

/-- Every identifier in `predicate_id_` is a position of `id_to_predicate_`,
and a memoized clause list holds clauses only when the database holds clauses
for its functor. -/
structure Interp.MemoSound (s : Interp) : Prop where
  valid : ∀ key id, s.predicate_id key = some id → id < s.id_to_predicate.length
  nonempty : ∀ f k id, s.predicate_id (f, k) = some id → s.clauses_of f = [] →
    s.id_to_predicate[id]? = some []

/-! ## Example states -/

/-- Heap with the clauses `p(1)` at cells 0 and 2, `p(2)` at cell 4, and the
goals `q(7)` at cell 6 and `p(3)` at cell 8. -/
def example_db_heap : Heap :=
  [.con "p" 1, .int 1, .con "p" 1, .int 1, .con "p" 1, .int 2, .con "q" 1, .int 7,
   .con "p" 1, .int 3]

/-- Interpreter over `example_db_heap` with an empty clause database. -/
def example_db_interp : Interp :=
  Interp.init { TermEnv.init with heap := example_db_heap, register_h := 10 }

/-- The state after `load_clause(t)`; the state itself if the call has no
result. -/
def Interp.loaded (s : Interp) (t : Cell) : Interp :=
  match s.load_clause 10 t with
  | some (_, s1) => s1
  | none => s

/-- Collaborators with no builtin but `=/2`.  Modelled from the spec: `=/2`
unifies its two arguments. -/
def example_collab : Collab :=
  { call_builtin := fun b s _ args =>
      match b, args with
      | .operator_unification, [x, y] =>
        (s.env.unify 100 x y).map (fun r => (.ok r.1, { s with env := r.2 }))
      | _, _ => none,
    call_builtin_opt := fun _ _ _ _ => none,
    call_meta_fn := fun _ _ => none }

/-- Interpreter whose heap holds the query `X = 1`: the structure at cell 0,
the variable `X` at cell 1. -/
def example_query_interp : Interp :=
  Interp.init { TermEnv.init with heap := [.con "=" 2, .ref 1, .int 1], register_h := 3 }

/-- The terms of `test_failed_unification`: `foo(X, X, bar(Y))` at cell 4 and
`foo(baz(Q), yes, bar(B))` at cell 14, with the variables `X`, `Y`, `Q`, `B`
at cells 0, 1, 8, 9. -/
def example_failed_env : TermEnv :=
  { TermEnv.init with
    heap := [.ref 0, .ref 1, .con "bar" 1, .ref 1, .con "foo" 3, .ref 0, .ref 0, .str 2,
      .ref 8, .ref 9, .con "baz" 1, .ref 8, .con "bar" 1, .ref 9, .con "foo" 3, .str 10,
      .con "yes" 0, .str 12],
    register_h := 18 }

/-- The terms of `test_unification`: `foo(X, B, bar(Y))` at cell 5 and
`foo(baz(Q), yes, bar(B))` at cell 15, with the variables `X`, `B`, `Y` of the
first term at cells 0, 1, 2 and `Q`, `B` of the second at cells 9, 10. -/
def example_unify_env : TermEnv :=
  { TermEnv.init with
    heap := [.ref 0, .ref 1, .ref 2, .con "bar" 1, .ref 2, .con "foo" 3, .ref 0, .ref 1, .str 3,
      .ref 9, .ref 10, .con "baz" 1, .ref 9, .con "bar" 1, .ref 10, .con "foo" 3, .str 11,
      .con "yes" 0, .str 13],
    register_h := 19 }

/-- The state after the unification of `test_unification`: `X` is bound to
`baz(Q)`, the first `B` to `yes` and the second `B` to `Y`. -/
def example_unified_env : TermEnv :=
  { TermEnv.init with
    heap := [.str 11, .con "yes" 0, .ref 2, .con "bar" 1, .ref 2, .con "foo" 3, .ref 0, .ref 1,
      .str 3, .ref 9, .ref 2, .con "baz" 1, .ref 9, .con "bar" 1, .ref 10, .con "foo" 3, .str 11,
      .con "yes" 0, .str 13],
    register_h := 19, trail := [0, 1, 10] }

/-- The term of `test_copy_term`: `foo(X, 42, X, bar(Y))` at cell 4, with the
variables `X`, `Y` at cells 0, 1. -/
def example_copy_env : TermEnv :=
  { TermEnv.init with
    heap := [.ref 0, .ref 1, .con "bar" 1, .ref 1, .con "foo" 4, .ref 0, .int 42, .ref 0, .str 2],
    register_h := 9 }

/-- The state after `copy` of the term of `test_copy_term`: the copy is at
cell 13, its variables at cells 9 and 10. -/
def example_copied_env : TermEnv :=
  { TermEnv.init with
    heap := [.ref 0, .ref 1, .con "bar" 1, .ref 1, .con "foo" 4, .ref 0, .int 42, .ref 0, .str 2,
      .ref 9, .ref 10, .con "bar" 1, .ref 10, .con "foo" 4, .ref 9, .int 42, .ref 9, .str 11],
    register_h := 18 }

/-- The term `f(X, X)` at cell 0 as `new_str` and `set_arg` build it: the
variable `X` is the first argument cell (cell 1), the second argument cell
refers to it. -/
def example_bound_env : TermEnv :=
  { TermEnv.init with heap := [.con "f" 2, .ref 1, .ref 1], register_h := 3 }


/-! ## Arithmetic expressions -/

/-- The binary operators of the initial function table. -/
inductive Op where
  | add | sub | mul
  deriving DecidableEq, Repr

/-- The name of an operator. -/
def Op.symbol : Op → String
  | .add => "+"
  | .sub => "-"
  | .mul => "*"

/-- The operation on integers: the first operand is the left one. -/
def Op.apply : Op → Int → Int → Int
  | .add, a, b => a + b
  | .sub, a, b => a - b
  | .mul, a, b => a * b

/-- Expression tree with `INT` leaves and binary operators. -/
inductive Expr where
  | int (v : Int)
  | op (o : Op) (l r : Expr)
  deriving DecidableEq, Repr

/-- The recursive evaluation of an expression tree in the arithmetic of
`int_cell`: the value of a node is the operation on the value of argument 0
(left) and the value of argument 1 (right), held in 61 bits. -/
def Expr.value : Expr → Int
  | .int v => v
  | .op o l r => int_cell_value (o.apply l.value r.value)

/-- The recursive evaluation of an expression tree in exact integer
arithmetic. -/
def Expr.exact : Expr → Int
  | .int v => v
  | .op o l r => o.apply l.exact r.exact

/-- Every leaf of the tree is a value that an `INT` cell can hold. -/
def Expr.LeavesInRange : Expr → Prop
  | .int v => -(2 ^ 60) ≤ v ∧ v < 2 ^ 60
  | .op _ l r => l.LeavesInRange ∧ r.LeavesInRange

/-- The cell `c` is the root of the expression tree `e` in the heap, read
without dereferencing: an `INT` cell is a leaf; an `STR` cell whose header is
an operator of arity 2 is a node with argument 0 as left and argument 1 as
right subtree. -/
inductive ExprAt (heap : Heap) : Cell → Expr → Prop
  | int (v : Int) : ExprAt heap (.int v) (.int v)
  | op (o : Op) (p : Nat) (a b : Cell) (l r : Expr) :
      heap[p]? = some (.con o.symbol 2) → heap[p + 1]? = some a → heap[p + 2]? = some b →
      ExprAt heap a l → ExprAt heap b r → ExprAt heap (.str p) (.op o l r)

/-- The function table after `load_fns` on an empty table. -/
def Arithmetics.std : Arithmetics := Arithmetics.load_fns { fn_map := [], args := [] }

/-- The table of `a` is the initial one: it is empty (`load_fns` will fill it)
or it is as `load_fns` fills it. -/
def Arithmetics.InitialTable (a : Arithmetics) : Prop :=
  a.fn_map = [] ∨ a.fn_map = Arithmetics.std.fn_map

/-- Finite term as `eval` reads it, without dereferencing: an `INT` cell, an
unbound REF cell, an atom, or an `STR` cell whose header and arguments are in
the heap, the arguments being such terms. -/
inductive EvalTerm (heap : Heap) : Cell → Prop
  | int (v : Int) : EvalTerm heap (.int v)
  | ref (i : Nat) : heap[i]? = some (.ref i) → EvalTerm heap (.ref i)
  | atom (f : String) : EvalTerm heap (.con f 0)
  | str (p : Nat) (f : String) (n : Nat) :
      heap[p]? = some (.con f n) → p + 1 + n ≤ heap.length →
      (∀ k a, k < n → heap[p + 1 + k]? = some a → EvalTerm heap a) →
      EvalTerm heap (.str p)

/-- The term `c` holds an unbound variable, or an atom or a functor that has
no entry in the initial function table, and `err` is the error of the first
of them in the order of `eval`: the arguments of a functor from left to right,
then the functor itself. -/
inductive EvalAborts (heap : Heap) : Cell → InterpError → Prop
  | ref (i : Nat) : EvalAborts heap (.ref i) .not_sufficiently_instantiated
  | atom (f : String) : EvalAborts heap (.con f 0) (.undefined_function (.con f 0))
  | arg (p : Nat) (f : String) (n k : Nat) (a : Cell) (err : InterpError) :
      heap[p]? = some (.con f n) → p + 1 + n ≤ heap.length → k < n →
      (∀ j x, j < k → heap[p + 1 + j]? = some x → ∃ e, ExprAt heap x e) →
      heap[p + 1 + k]? = some a → EvalAborts heap a err → EvalAborts heap (.str p) err
  | apply (p : Nat) (f : String) (n : Nat) :
      heap[p]? = some (.con f n) → p + 1 + n ≤ heap.length →
      (∀ j x, j < n → heap[p + 1 + j]? = some x → ∃ e, ExprAt heap x e) →
      Arithmetics.std.lookup (.con f n) = none →
      EvalAborts heap (.str p) (.undefined_function (.con f n))

/-- The work-stack entries of `eval` for the arguments still to be evaluated:
each with the flag `int_cell(0)` on top of it. -/
def eval_items : List Cell → List Cell
  | [] => []
  | a :: rest => .int 0 :: a :: eval_items rest

/-- The loop of `eval` evaluates the entry `c` of the work stack, whatever
lies below it: the value of `e` is appended to the argument buffer, and
`result` holds it if `c` is not a leaf. -/
def EvalItem (heap : Heap) (c : Cell) (e : Expr) : Prop :=
  ∀ (st : Arithmetics.EvalState) (rest : List Cell) (d : Nat),
    st.env.heap = heap → st.env.stack = .int 0 :: c :: rest → d ≤ rest.length →
    st.arith.fn_map = Arithmetics.std.fn_map →
    ∃ (k : Nat) (res : Option Cell), (c.tag = .STR → res = some (.int e.value)) ∧
      (c.tag ≠ .STR → res = st.result) ∧
      ∀ fuel, Arithmetics.eval_loop d (fuel + k) st =
        Arithmetics.eval_loop d fuel
          { arith := { st.arith with args := st.arith.args ++ [.int e.value] },
            env := { st.env with stack := rest }, result := res }

/-- The loop of `eval` aborts with `err` while it evaluates the entry `c` of
the work stack. -/
def AbortItem (heap : Heap) (c : Cell) (err : InterpError) : Prop :=
  ∀ (st : Arithmetics.EvalState) (rest : List Cell) (d : Nat),
    st.env.heap = heap → st.env.stack = .int 0 :: c :: rest → d ≤ rest.length →
    st.arith.fn_map = Arithmetics.std.fn_map →
    ∃ (k : Nat) (st1 : Arithmetics.EvalState),
      ∀ fuel, Arithmetics.eval_loop d (fuel + k + 1) st = some (.error err, st1)

/-- The function that the initial table holds for an operator. -/
def Op.fn : Op → ArithFn
  | .add => .plus_2
  | .sub => .minus_2
  | .mul => .times_2

/-- Heap with the expression `(1 + 2) - (4 * 5)` at cell 6. -/
def example_expr_env : TermEnv :=
  { TermEnv.init with
    heap := [.con "+" 2, .int 1, .int 2, .con "*" 2, .int 4, .int 5, .con "-" 2, .str 0, .str 3],
    register_h := 9 }

/-- The tree of the expression `(1 + 2) - (4 * 5)`. -/
def example_expr : Expr := .op .sub (.op .add (.int 1) (.int 2)) (.op .mul (.int 4) (.int 5))

/-- Heap with the term `foo(1) + X` at cell 2; the variable `X` is cell 4. -/
def example_abort_env : TermEnv :=
  { TermEnv.init with
    heap := [.con "foo" 1, .int 1, .con "+" 2, .str 0, .ref 4],
    register_h := 5 }

/-- Heap with the program `[p(1), (q(2) :- 3)]` at cell 10: the clause `p(1)`
at cell 0, the clause `q(2) :- 3` at cell 4 with the integer `3` as its
body. -/
def example_program_heap : Heap :=
  [.con "p" 1, .int 1, .con "q" 1, .int 2, .con ":-" 2, .str 2, .int 3,
   .con "." 2, .str 4, .con "[]" 0, .con "." 2, .str 0, .str 7]

/-- Interpreter over `example_program_heap` with an empty clause database. -/
def example_program_interp : Interp :=
  Interp.init { TermEnv.init with heap := example_program_heap, register_h := 13 }

/-- Interpreter whose heap holds the clause `'->'(a, b)` at cell 0 and the
clause `(p(1) :- p(1)) :- p(1)` at cell 8, whose head `p(1) :- p(1)` is at
cell 5. -/
def example_head_interp : Interp :=
  Interp.init { TermEnv.init with
    heap := [.con "->" 2, .con "a" 0, .con "b" 0, .con "p" 1, .int 1, .con ":-" 2, .str 3,
      .str 3, .con ":-" 2, .str 5, .str 3],
    register_h := 11 }

/-- Interpreter whose heap holds the clauses `p(1) :- true` at cell 2 and
`p(1) :- !` at cell 5. -/
def example_body_interp : Interp :=
  Interp.init { TermEnv.init with
    heap := [.con "p" 1, .int 1, .con ":-" 2, .str 0, .con "true" 0, .con ":-" 2, .str 0,
      .con "!" 0],
    register_h := 8 }

/-- Collaborators with the builtins for unification and `is`.  Modelled from
the spec: the unification builtin unifies its two arguments; `is` invokes the
evaluator on its right-hand side and unifies the result with its left-hand
side. -/
def example_arith_collab : Collab :=
  { call_builtin := fun b s _ args =>
      match b, args with
      | .operator_unification, [x, y] =>
        (s.env.unify 100 x y).map (fun r => (.ok r.1, { s with env := r.2 }))
      | .is_2, [lhs, rhs] =>
        match s.eval 100 rhs with
        | none => none
        | some (.error e, s1) => some (.error e, s1)
        | some (.ok none, _) => none
        | some (.ok (some v), s1) =>
          (s1.env.unify 100 lhs v).map (fun r => (.ok r.1, { s1 with env := r.2 }))
      | _, _ => none,
    call_builtin_opt := fun _ _ _ _ => none,
    call_meta_fn := fun _ _ => none }

/-- Interpreter with the clause `p(1, Y) :- Y is 1 + Z` (at cell 9) loaded and
the query `p(A, B)` at cell 12; the variables `A` and `B` are the cells 13 and
14. -/
def example_arith_interp : Interp :=
  (Interp.init { TermEnv.init with
    heap := [.con "p" 2, .int 1, .ref 2, .con "+" 2, .int 1, .ref 5, .con "is" 2, .ref 2, .str 3,
      .con ":-" 2, .str 0, .str 6, .con "p" 2, .ref 13, .ref 14],
    register_h := 15 }).loaded (.str 9)

/-- The error `e` was raised with the state `s1`: by a builtin, an optimized
builtin or a meta callback that left the state `s1` when it raised `e`, or by
the clause lookup of `dispatch`. -/
def Collab.RaisedAt (P : Collab) (e : InterpError) (s1 : Interp) : Prop :=
  (∃ b s0 n args, P.call_builtin b s0 n args = some (.error e, s1)) ∨
  (∃ b s0 n args, P.call_builtin_opt b s0 n args = some (.error e, s1)) ∨
  (∃ m s0, P.call_meta_fn m s0 = some (.error e, s1)) ∨
  (∃ n s0 f instruction, Interp.dispatch_user n s0 f instruction = some (.error e, s1))

/-- The state in which `execute` of the query `p(A, B)` on
`example_arith_interp` ends. -/
def example_aborted_interp : Interp :=
  match Interp.execute example_arith_collab 20 example_arith_interp (.str 12) with
  | some (_, s1) => s1
  | none => example_arith_interp

/-! ## Printing the database -/

/-- What `print_db` prints: for each functor of `program_predicates_` that has
an entry in `program_db_`, the clauses of the entry, in the order of the
list. -/
def Interp.print_db (s : Interp) : List (List Cell) :=
  s.program_predicates.filterMap (fun p => s.program_db p)

/-! ## The observatory (`observatory.hpp`) -/

/-- Modelled from the spec: the 128-bit seed, a siphash key pair
(`siphash_keys` is declared in `siphash.hpp`, not among the sources). -/
structure SiphashKeys where
  k0 : Nat
  k1 : Nat
  deriving DecidableEq, Repr

/-- The collaborators of the observatory whose code is not among the sources:
the derivation of the keys from the bytes of a message, and the keyed
pseudo-random function on the counters of the range `[lo, hi)`, which fills
`out` with one value for each counter. -/
structure PowCollab where
  siphash_keys : List Nat → SiphashKeys
  siphash : SiphashKeys → Nat → Nat → List Nat

/-- A star as `get_star` builds it: its id and the three values of the
pseudo-random function it is built from. -/
structure Star where
  id : Nat
  out0 : Nat
  out1 : Nat
  out2 : Nat
  deriving DecidableEq, Repr

/-- State of an observatory: the keys, the number of stars the galaxy was
initialised with (0 for the default) and the ids of the cameras. -/
structure Observatory where
  keys : SiphashKeys
  galaxy_stars : Nat
  cameras : List Nat
  deriving DecidableEq, Repr

/-- Arithmetic on `uint32_t`. -/
def uint32_t (n : Nat) : Nat := n % 2 ^ 32

namespace Observatory

/-- Add a camera (`new_camera`); its id is the number of cameras so far. -/
def new_camera (o : Observatory) : Nat × Observatory :=
  (o.cameras.length, { o with cameras := o.cameras ++ [o.cameras.length] })

/-- Initialise the observatory from a message (`init`): the keys come from
the message, the galaxy from `num_stars`, and camera 0 is created. -/
def init (P : PowCollab) (o : Observatory) (msg : List Nat) (num_stars : Nat) : Observatory :=
  (new_camera { o with keys := P.siphash_keys msg, galaxy_stars := num_stars, cameras := [] }).2

/-- The counter range that `get_star` passes to `siphash`: `3*id` and
`3*id+3` are computed in `uint32_t`, the type of `id`, and then converted to
`uint64_t` by `checked_cast`, which cannot fail on a 32-bit value. -/
def star_counters (id : Nat) : Nat × Nat :=
  (uint32_t (3 * id), uint32_t (uint32_t (3 * id) + 3))

/-- The star with the given id (`get_star`); `none` when the pseudo-random
function did not fill the three values of `out`. -/
def get_star (P : PowCollab) (o : Observatory) (id : Nat) : Option Star :=
  match P.siphash o.keys (star_counters id).1 (star_counters id).2 with
  | o0 :: o1 :: o2 :: _ => some { id := id, out0 := o0, out1 := o1, out2 := o2 }
  | _ => none

end Observatory

/-! ## The worker pool (`worker_pool`, `worker`)

The counter `busy_count_` and the queue `ready_workers_` are only touched
under `workers_lock_`, so a run of the pool is a sequence of the events
below, each of them the body of one locked section or one step of a
thread. -/

/-- Where the thread of a worker stands in `worker::run`. -/
inductive WorkerPc where
  | waiting
  | working
  | finished
  | leaving
  | exited
  deriving DecidableEq, Repr

/-- The fields of a `worker` that steer its thread. -/
structure Worker where
  ready : Bool
  killed : Bool
  found_done : Bool
  pc : WorkerPc
  deriving DecidableEq, Repr

/-- State of a `worker_pool`; `ready_workers` has its back at the end of the
list. -/
structure WorkerPool where
  num_workers : Nat
  busy_count : Nat
  ready_workers : List Nat
  workers : List Worker
  deriving DecidableEq, Repr

/-- The events of a run of the pool. -/
inductive PoolEvent where
  | find_ready_worker
  | set_index_range (w : Nat)
  | kill (w : Nat)
  | wake (w : Nat)
  | search_ends (w : Nat) (found : Bool)
  | add_ready_worker (w : Nat)
  | remove_worker (w : Nat)
  deriving DecidableEq, Repr

namespace WorkerPool

/-- A new pool (the constructor): every worker is ready and waits. -/
def init (num_workers : Nat) : WorkerPool :=
  { num_workers := num_workers, busy_count := 0,
    ready_workers := List.range num_workers,
    workers := List.replicate num_workers
      { ready := true, killed := false, found_done := false, pc := .waiting } }

/-- Update of one worker. -/
def update (p : WorkerPool) (w : Nat) (f : Worker → Worker) : WorkerPool :=
  { p with workers := p.workers.modify f w }

/-- One event; `none` when the event cannot happen in the state.
`find_ready_worker` waits while `busy_count_ == num_workers_`, then pops the
back of the queue and increments the counter; `set_index_range` with the
`set_ready(false)` that follows it in `scan` hands a range to a worker;
`kill` is `worker::kill`; `wake` is the worker leaving the wait on its
condition variable, to work or, when killed, to leave the loop;
`search_ends` is the end of the `for` loop with `ready_ = true`;
`add_ready_worker` and `remove_worker` decrement the counter, which is a
`size_t`. -/
def step (p : WorkerPool) : PoolEvent → Option WorkerPool
  | .find_ready_worker =>
    if p.busy_count = p.num_workers then none
    else
      match p.ready_workers.getLast? with
      | none => none
      | some _ =>
        some { p with ready_workers := p.ready_workers.dropLast,
                      busy_count := Interp.size_t (p.busy_count + 1) }
  | .set_index_range w =>
    match p.workers[w]? with
    | none => none
    | some _ => some (p.update w (fun x => { x with found_done := false, ready := false }))
  | .kill w =>
    match p.workers[w]? with
    | none => none
    | some _ => some (p.update w (fun x => { x with killed := true, ready := false }))
  | .wake w =>
    match p.workers[w]? with
    | some x =>
      if x.pc = .waiting ∧ (x.ready = false ∨ x.killed = true) then
        some (p.update w (fun x =>
          { x with pc := if x.killed then .leaving else .working }))
      else none
    | none => none
  | .search_ends w found =>
    match p.workers[w]? with
    | some x =>
      if x.pc = .working then
        some (p.update w (fun x =>
          { x with found_done := found, ready := true, pc := .finished }))
      else none
    | none => none
  | .add_ready_worker w =>
    match p.workers[w]? with
    | some x =>
      if x.pc = .finished then
        some { (p.update w (fun x => { x with pc := .waiting })) with
          busy_count := Interp.size_t (p.busy_count + 2 ^ 64 - 1),
          ready_workers := p.ready_workers ++ [w] }
      else none
    | none => none
  | .remove_worker w =>
    match p.workers[w]? with
    | some x =>
      if x.pc = .leaving then
        some { (p.update w (fun x => { x with pc := .exited })) with
          busy_count := Interp.size_t (p.busy_count + 2 ^ 64 - 1) }
      else none
    | none => none

/-- A run: the events one after the other. -/
def run (p : WorkerPool) : List PoolEvent → Option WorkerPool
  | [] => some p
  | e :: rest =>
    match p.step e with
    | none => none
    | some p1 => run p1 rest

end WorkerPool

/-! ## Examples for clause selection and backtracking -/

/-- Interpreter with the clauses `q(X, a)` (cell 0), `q(Y, b)` (cell 3) and
`m(V) :- q(0, V = 1)` (cell 14) loaded.  The goal `q(0, V = 1)` is at cell 9,
its second argument `V = 1` at cell 6 with the variable `V` at cell 7; the
query `m(W)` is at cell 17 with the variable `W` at cell 18. -/
def example_choice_interp : Interp :=
  (((Interp.init { TermEnv.init with
    heap := [.con "q" 2, .ref 1, .con "a" 0, .con "q" 2, .ref 4, .con "b" 0,
      .con "=" 2, .ref 7, .int 1, .con "q" 2, .int 0, .str 6,
      .con "m" 1, .ref 7, .con ":-" 2, .str 12, .str 9, .con "m" 1, .ref 18],
    register_h := 19 }).loaded (.str 0)).loaded (.str 3)).loaded (.str 14)

/-- Interpreter whose heap holds the clause `p(1)` (cell 0) and the clause
`r(9)` (cell 2), with the memoized clause lists of three predicate ids: the
reserved id 0, id 1 with 257 times the clause `p(1)`, and id 2 with the clause
`r(9)`; a choice point for the goal `p(1)` is on the stack. -/
def example_many_interp : Interp :=
  ({ Interp.init { TermEnv.init with
      heap := [.con "p" 1, .int 1, .con "r" 1, .int 9], register_h := 4 } with
    id_to_predicate := [[], List.replicate 257 (.str 0), [.str 2]],
    register_qr := .str 0 } : Interp).allocate_choice_point (.int 1)

/-! ## Structural equality: the reference definition -/

/-- Finite term, read with dereferencing: a cell that dereferences to a cell
other than an `STR` cell, or to an `STR` cell whose header and arguments are
in the heap, the arguments being such terms. -/
inductive FinTerm (heap : Heap) : Cell → Prop
  | atomic (a e : Cell) : DerefTo heap a e → e.tag ≠ .STR → FinTerm heap a
  | str (a : Cell) (p : Nat) (f : String) (n : Nat) :
      DerefTo heap a (.str p) → heap[p]? = some (.con f n) → p + 1 + n ≤ heap.length →
      (∀ k x, k < n → heap[p + 1 + k]? = some x → FinTerm heap x) → FinTerm heap a

/-- The reference definition of structural equality, by recursion on the
dereferenced terms: both dereference to the same cell that is not an `STR`
cell (the same `CON` cell, the same `INT` cell, the same unbound variable), or
both dereference to `STR` cells with the same functor whose arguments are
pairwise equal. -/
inductive SameTerm (heap : Heap) : Cell → Cell → Prop
  | atomic (a b e : Cell) : DerefTo heap a e → DerefTo heap b e → e.tag ≠ .STR →
      SameTerm heap a b
  | str (a b : Cell) (pa pb : Nat) (f : String) (n : Nat) :
      DerefTo heap a (.str pa) → DerefTo heap b (.str pb) →
      heap[pa]? = some (.con f n) → heap[pb]? = some (.con f n) →
      pa + 1 + n ≤ heap.length → pb + 1 + n ≤ heap.length →
      (∀ k x y, k < n → heap[pa + 1 + k]? = some x → heap[pb + 1 + k]? = some y →
        SameTerm heap x y) →
      SameTerm heap a b

/-- The two terms differ: they dereference to different cells of which one is
not an `STR` cell, or to `STR` cells with different functors, or to `STR`
cells with the same functor of which the arguments before position `k` are
pairwise equal and those at position `k` differ. -/
inductive DiffTerm (heap : Heap) : Cell → Cell → Prop
  | cell (a b ea eb : Cell) : DerefTo heap a ea → DerefTo heap b eb → ea ≠ eb →
      (ea.tag ≠ eb.tag ∨ ea.tag ≠ .STR) → DiffTerm heap a b
  | functor (a b : Cell) (pa pb : Nat) (fa fb : Cell) :
      DerefTo heap a (.str pa) → DerefTo heap b (.str pb) →
      functor heap (.str pa) = some fa → functor heap (.str pb) = some fb → fa ≠ fb →
      DiffTerm heap a b
  | arg (a b : Cell) (pa pb : Nat) (f : String) (n k : Nat) (x y : Cell) :
      DerefTo heap a (.str pa) → DerefTo heap b (.str pb) → pa ≠ pb →
      heap[pa]? = some (.con f n) → heap[pb]? = some (.con f n) →
      pa + 1 + n ≤ heap.length → pb + 1 + n ≤ heap.length → k < n →
      (∀ j u v, j < k → heap[pa + 1 + j]? = some u → heap[pb + 1 + j]? = some v →
        SameTerm heap u v) →
      heap[pa + 1 + k]? = some x → heap[pb + 1 + k]? = some y → DiffTerm heap x y →
      DiffTerm heap a b

/-- The loop of `equal` processes the pair `x`, `y` on top of the work stack
and goes on with what lies below. -/
def SameItem (heap : Heap) (x y : Cell) : Prop :=
  ∀ (st : TermEnv) (rest : List Cell) (d : Nat),
    st.heap = heap → st.stack = x :: y :: rest → d ≤ rest.length →
    ∃ (k F : Nat), ∀ fuel, F ≤ fuel →
      TermEnv.equal_loop d (fuel + k) st = TermEnv.equal_loop d fuel { st with stack := rest }

/-- The loop of `equal` returns false while it processes the pair `x`, `y` on
top of the work stack, with the stack cut back to the entry depth. -/
def DiffItem (heap : Heap) (x y : Cell) : Prop :=
  ∀ (st : TermEnv) (loc base : List Cell),
    st.heap = heap → st.stack = x :: y :: (loc ++ base) →
    ∃ (k F : Nat), ∀ fuel, F ≤ fuel →
      TermEnv.equal_loop base.length (fuel + k + 1) st = some (false, { st with stack := base })

/-! ## Examples for the memo tables, the syntax checks and the builtin table -/

/-- Interpreter over `example_db_heap` with the clauses `p(1)` (cells 0 and 2)
and `p(2)` (cell 4) loaded; the goal `p(3)` is at cell 8. -/
def example_loaded_interp : Interp :=
  ((example_db_interp.loaded (.str 0)).loaded (.str 2)).loaded (.str 4)

/-- Interpreter whose heap holds the term `1 :- 2` (cell 0), which is not a
clause, and the clause `p(1)` (cell 3). -/
def example_syntax_interp : Interp :=
  Interp.init { TermEnv.init with
    heap := [.con ":-" 2, .int 1, .int 2, .con "p" 1, .int 1], register_h := 5 }

/-- Interpreter whose heap holds the goal `write(1)` (cell 0). -/
def example_write_interp : Interp :=
  Interp.init { TermEnv.init with heap := [.con "write" 1, .int 1], register_h := 2 }

/-- Collaborators for the examples of the builtin table: every builtin
returns true and leaves the state as it is. -/
def example_true_collab : Collab :=
  { call_builtin := fun _ s _ _ => some (.ok true, s),
    call_builtin_opt := fun _ _ _ _ => none,
    call_meta_fn := fun _ _ => none }

/-- The identifiers of `predicate_id_` are well formed: position 0 of
`id_to_predicate_` exists and is reserved, every identifier is a position of
`id_to_predicate_` other than 0, and no two keys have the same identifier. -/
structure Interp.IdsOk (s : Interp) : Prop where
  reserved : 0 < s.id_to_predicate.length
  pos : ∀ key id, s.predicate_id key = some id → 0 < id ∧ id < s.id_to_predicate.length
  inj : ∀ k1 k2 id, s.predicate_id k1 = some id → s.predicate_id k2 = some id → k1 = k2

/-! ## The scanning loop of a worker and `scan` (`observatory.hpp`) -/

/-- The fields of a `worker` that its scanning loop reads and writes, and the
indices at which it has set the target, taken the picture and run the
detector, in this order. -/
structure ScanWorker where
  index : Nat
  index_end : Nat
  found_done : Bool
  examined : List Nat
  deriving DecidableEq, Repr

namespace ScanWorker

/-- A new worker (the constructor of `worker`). -/
def init : ScanWorker := { index := 0, index_end := 0, found_done := false, examined := [] }

/-- Hand a range to the worker (`set_index_range`). -/
def set_index_range (w : ScanWorker) (index_start index_end : Nat) : ScanWorker :=
  { w with index := index_start, index_end := index_end, found_done := false }

/-- The `for` loop of `worker::run`.  The collaborator `detect i` is the
outcome of `set_target`, `take_picture` and `detector_.search` at the index
`i`; the index is a `size_t`. -/
def search_loop (detect : Nat → Bool) : Nat → ScanWorker → Option ScanWorker
  | 0, _ => none
  | fuel + 1, w =>
    if w.index ≠ w.index_end then
      let w1 : ScanWorker := { w with examined := w.examined ++ [w.index] }
      if detect w.index then some { w1 with found_done := true }
      else search_loop detect fuel { w1 with index := Interp.size_t (w.index + 1) }
    else some w

end ScanWorker

/-- The `while (!is_done)` loop of `scan` with the one worker of its pool: the
coordinator takes the worker from the queue, stops if it is done, and else
hands it the next range of `index_delta = 100` indices and waits in
`find_ready_worker` until the worker has scanned the range. -/
def Observatory.scan_loop (detect : Nat → Nat → Bool) (proof_num : Nat) :
    Nat → Nat → ScanWorker → Option ScanWorker
  | 0, _, _ => none
  | fuel + 1, index, w =>
    if w.found_done then some w
    else
      match (w.set_index_range index (Interp.size_t (index + 100))).search_loop
          (detect proof_num) fuel with
      | none => none
      | some w1 => Observatory.scan_loop detect proof_num fuel (Interp.size_t (index + 100)) w1

/-- The scan for a proof number (`scan`): the result and the value of the
output parameter `nonce`, which is assigned the `index()` of the successful
worker. -/
def Observatory.scan (detect : Nat → Nat → Bool) (fuel : Nat) (proof_num nonce : Nat) :
    Option (Bool × Nat) :=
  (Observatory.scan_loop detect proof_num fuel 0 ScanWorker.init).map
    (fun w => if w.found_done then (true, w.index) else (false, nonce))

/-- The terms `f(X, Y, X)` (cell 6) and `f(g(X), g(Y), Y)` (cell 10), with the
variables `X`, `Y` at cells 0, 1 and `g(X)`, `g(Y)` at cells 2, 4. -/
def example_occurs_env : TermEnv :=
  { TermEnv.init with
    heap := [.ref 0, .ref 1, .con "g" 1, .ref 0, .con "g" 1, .ref 1,
      .con "f" 3, .ref 0, .ref 1, .ref 0, .con "f" 3, .str 2, .str 4, .ref 1],
    register_h := 14 }

/-- The state of `unify` on the terms of `example_occurs_env` after three
iterations of its loop: `X` is bound to `g(X)`, `Y` to `g(Y)`, and the pair
`X`, `Y` is on the work stack. -/
def example_occurs_loop_env : TermEnv :=
  { TermEnv.init with
    heap := [.str 2, .str 4, .con "g" 1, .ref 0, .con "g" 1, .ref 1,
      .con "f" 3, .ref 0, .ref 1, .ref 0, .con "f" 3, .str 2, .str 4, .ref 1],
    register_h := 14, register_hb := 14, trail := [0, 1], stack := [.ref 0, .ref 1] }

/-! ## Definitions for the termination of `unify` -/

/-- The cell `p` of the heap is the header of a structure: a functor cell
followed by its arguments. -/
def StrOk (heap : Heap) (p : Nat) : Prop :=
  ∃ f n, heap[p]? = some (.con f n) ∧ p + 1 + n ≤ heap.length

/-- Every `STR` cell of the heap points to the header of a structure. -/
def StrCellsOk (heap : Heap) : Prop :=
  ∀ c ∈ heap, ∀ p, c = .str p → StrOk heap p

/-- The cell can be dereferenced, and if it is an `STR` cell it points to the
header of a structure. -/
def CellOk (heap : Heap) (c : Cell) : Prop :=
  (∃ e, DerefTo heap c e) ∧ ∀ p, c = .str p → StrOk heap p

/-- The heap while `unify` runs against a term without variables: it arises
from the heap of the call by bindings, its REF chains end and its `STR` cells
point to structures. -/
structure GroundInv (heap0 heap : Heap) : Prop where
  binds : Binds heap0 heap
  chains : RefChainsEnd heap
  strs : StrCellsOk heap

/-- The loop of `unify_helper` gets done with the pair of `x` and the term
`y` on top of the work stack: it returns false, or it goes on with the rest
of the work stack. -/
def GroundItem (heap0 : Heap) (y : Cell) : Prop :=
  ∀ (x : Cell) (st : TermEnv) (rest : List Cell) (d : Nat),
    GroundInv heap0 st.heap → CellOk st.heap x → st.stack = x :: y :: rest → d ≤ rest.length →
    ∃ (k F : Nat),
      (∀ fuel, F ≤ fuel → ∃ st1, TermEnv.unify_loop d (fuel + k) st = some (false, st1)) ∨
      ∃ st1 : TermEnv,
        (∀ fuel, F ≤ fuel →
          TermEnv.unify_loop d (fuel + k) st = TermEnv.unify_loop d fuel st1) ∧
        st1.stack = rest ∧ Binds st.heap st1.heap ∧ GroundInv heap0 st1.heap

/-- The terms `f(X, g(X))` (cell 3) and `f(1, g(1))` (cell 8), with the
variable `X` at cell 0. -/
def example_ground_env : TermEnv :=
  { TermEnv.init with
    heap := [.ref 0, .con "g" 1, .ref 0, .con "f" 2, .ref 0, .str 1,
      .con "g" 1, .int 1, .con "f" 2, .int 1, .str 6],
    register_h := 11 }

/-! ## Examples for loading after a rejected load and for indexing -/

/-- Interpreter with the clause `r(1)` (cell 0) loaded; its heap also holds
the clause `r(2)` (cell 2) and the term `5 :- 6` (cell 4), which is not a
clause. -/
def example_stale_interp : Interp :=
  (Interp.init { TermEnv.init with
    heap := [.con "r" 1, .int 1, .con "r" 1, .int 2, .con ":-" 2, .int 5, .int 6],
    register_h := 7 }).loaded (.str 0)

/-- Interpreter with the clauses `p(1, a)` (cell 0) and `p(2, b)` (cell 3)
loaded.  The goal `p(3, V = 1)` is at cell 9 and the goal `p(Z, V = 1)` at
cell 13, where the variable `Z` is cell 12, bound to `3`; both goals have the
term `V = 1` of cell 6 as second argument, with the variable `V` at cell 7. -/
def example_index_interp : Interp :=
  ((Interp.init { TermEnv.init with
    heap := [.con "p" 2, .int 1, .con "a" 0, .con "p" 2, .int 2, .con "b" 0,
      .con "=" 2, .ref 7, .int 1, .con "p" 2, .int 3, .str 6, .int 3,
      .con "p" 2, .ref 12, .str 6],
    register_h := 16 }).loaded (.str 0)).loaded (.str 3)

/-! ## Term patterns (`term_match.hpp`) -/

mutual
/-- A pattern: `pattern_con` with its `con_cell`, `pattern_any` with the
variable that `any_` refers to, `pattern_str` with its functor and its
`pattern_args`. -/
inductive Pattern where
  | con (name : String) (arity : Nat)
  | any (v : Nat)
  | str (name : String) (arity : Nat) (args : PatternArgs)
/-- The sub-patterns of a `pattern_str` (`pattern_args<N, K, Arg, Args...>`);
`last` is the specialisation for `N = 1`. -/
inductive PatternArgs where
  | last (arg : Pattern)
  | more (arg : Pattern) (args : PatternArgs)
end

/-- What the application of a pattern reads and writes besides the term: the
variables that the `pattern_any` of the pattern refer to, and the calls
`env.arg(t, K)` made so far. -/
structure MatchState where
  captures : Nat → Option Cell
  reads : List (Cell × Nat)

/-- The assignment `any_ = t`. -/
def MatchState.assign (st : MatchState) (v : Nat) (t : Cell) : MatchState :=
  { st with captures := fun x => if x = v then some t else st.captures x }

/-- The call `env.arg(t, K)`. -/
def MatchState.read_arg (heap : Heap) (st : MatchState) (t : Cell) (k : Nat) :
    Option (Cell × MatchState) :=
  (arg heap t k).map (fun a => (a, { st with reads := st.reads ++ [(t, k)] }))

mutual
/-- Application of a pattern to a term (`operator()` of `pattern_con`,
`pattern_any` and `pattern_str`). -/
def Pattern.apply (heap : Heap) : Pattern → Cell → MatchState → Option (Bool × MatchState)
  | .con name arity, t, st => some (decide (t.tag = .CON) && decide (t = .con name arity), st)
  | .any v, t, st => some (true, st.assign v t)
  | .str name arity args, t, st =>
    if t.tag = .STR then
      match functor heap t with
      | none => none
      | some f => if f = .con name arity then args.apply heap 0 t st else some (false, st)
    else some (false, st)
/-- Application of the sub-patterns from argument `K` on (`operator()` of
`pattern_args`). -/
def PatternArgs.apply (heap : Heap) :
    PatternArgs → Nat → Cell → MatchState → Option (Bool × MatchState)
  | .last p, k, t, st =>
    match st.read_arg heap t k with
    | none => none
    | some (a, st1) => p.apply heap a st1
  | .more p ps, k, t, st =>
    match st.read_arg heap t k with
    | none => none
    | some (a, st1) =>
      match p.apply heap a st1 with
      | none => none
      | some (true, st2) => ps.apply heap (k + 1) t st2
      | some (false, st2) => some (false, st2)
end

mutual
/-- Reference definition of a match: a `con` pattern matches its `CON` cell,
an `any` pattern every term, a `str` pattern an `STR` cell with its functor
whose arguments match the sub-patterns. -/
def Pattern.matches (heap : Heap) : Pattern → Cell → Bool
  | .con name arity, t => decide (t = .con name arity)
  | .any _, _ => true
  | .str name arity args, t =>
    decide (t.tag = .STR) && decide (functor heap t = some (.con name arity)) &&
      args.matches heap 0 t
/-- Reference definition: the sub-patterns match the arguments from `k`
on. -/
def PatternArgs.matches (heap : Heap) : PatternArgs → Nat → Cell → Bool
  | .last p, k, t =>
    match arg heap t k with
    | none => false
    | some a => p.matches heap a
  | .more p ps, k, t =>
    match arg heap t k with
    | none => false
    | some a => p.matches heap a && ps.matches heap (k + 1) t
end

mutual
/-- Reference definition of the captures of an application, in the order in
which they are made: the sub-patterns are visited from left to right, up to
and including the first that does not match. -/
def Pattern.captured (heap : Heap) : Pattern → Cell → List (Nat × Cell)
  | .con _ _, _ => []
  | .any v, t => [(v, t)]
  | .str name arity args, t =>
    if t.tag = .STR ∧ functor heap t = some (.con name arity) then args.captured heap 0 t
    else []
/-- Reference definition of the captures of the sub-patterns from argument
`k` on. -/
def PatternArgs.captured (heap : Heap) : PatternArgs → Nat → Cell → List (Nat × Cell)
  | .last p, k, t =>
    match arg heap t k with
    | none => []
    | some a => p.captured heap a
  | .more p ps, k, t =>
    match arg heap t k with
    | none => []
    | some a =>
      p.captured heap a ++ (if p.matches heap a then ps.captured heap (k + 1) t else [])
end

/-- Number of sub-patterns. -/
def PatternArgs.length : PatternArgs → Nat
  | .last _ => 1
  | .more _ ps => ps.length + 1

mutual
/-- Every `str` pattern has as many sub-patterns as its functor has
arguments. -/
def Pattern.Sized : Pattern → Prop
  | .con _ _ => True
  | .any _ => True
  | .str _ arity args => args.length = arity ∧ args.Sized
/-- Every `str` pattern among the sub-patterns is `Sized`. -/
def PatternArgs.Sized : PatternArgs → Prop
  | .last p => p.Sized
  | .more p ps => p.Sized ∧ ps.Sized
end

/-- The captures after the assignments of a list, made in its order. -/
def MatchState.assigned (c : Nat → Option Cell) : List (Nat × Cell) → Nat → Option Cell
  | [] => c
  | (v, t) :: rest => MatchState.assigned (fun x => if x = v then some t else c x) rest

/-- The calls `env.arg(t, K)` of a list stay inside the structures: `t` is an
`STR` cell and `K` is below the arity of its functor. -/
def ReadsOk (heap : Heap) (new : List (Cell × Nat)) : Prop :=
  ∀ t k, (t, k) ∈ new →
    ∃ name arity, t.tag = .STR ∧ functor heap t = some (.con name arity) ∧ k < arity

theorem deref_ref_self (heap : Heap) :
    ∀ (fuel : Nat) (c : Cell) (i : Nat), deref heap fuel c = some (.ref i) →
      heap[i]? = some (.ref i) := by
  intro fuel
  induction fuel with
  | zero =>
    intro c i h
    cases c <;> simp [deref] at h
  | succ n ih =>
    intro c i h
    cases c with
    | ref j =>
      simp only [deref] at h
      split at h
      · simp at h
      · rename_i nc hnc
        split at h
        · rename_i heq
          simp only [Option.some.injEq, Cell.ref.injEq] at h
          subst h
          rw [hnc, heq]
        · exact ih nc i h
    | con f k => simp [deref] at h
    | int v => simp [deref] at h
    | str k => simp [deref] at h
    | big k => simp [deref] at h
    | gbl k => simp [deref] at h

theorem resize_back_append {α : Type} (l m : List α) (d : α) :
    resize_back (l ++ m) l.length d = l := by
  simp [resize_back]

theorem resize_top_append {α : Type} (l m : List α) (d : α) :
    resize_top (l ++ m) m.length d = m := by
  simp [resize_top]

/-- Pointwise description of the heap after the loop of `unwind_trail`. -/
theorem unwind_trail_loop_spec (trail : List Nat) :
    ∀ (n i : Nat) (heap : Heap),
      (∀ j ∈ (trail.drop i).take n, j < heap.length) → i + n ≤ trail.length →
      ∃ heap1, TermEnv.unwind_trail_loop trail i n heap = some heap1 ∧
        heap1.length = heap.length ∧
        ∀ j, heap1[j]? =
          if j ∈ (trail.drop i).take n ∧ j < heap.length then some (.ref j) else heap[j]? := by
  intro n
  induction n with
  | zero =>
    intro i heap _ _
    exact ⟨heap, rfl, rfl, by simp⟩
  | succ n ih =>
    intro i heap hlt hlen
    have hi : i < trail.length := by omega
    have hdrop : trail.drop i = trail[i] :: trail.drop (i + 1) := by
      rw [List.drop_eq_getElem_cons hi]
    have hidx : trail[i] < heap.length := by
      apply hlt
      rw [hdrop, List.take_succ_cons]
      exact List.mem_cons_self _ _
    simp only [TermEnv.unwind_trail_loop, List.getElem?_eq_getElem hi, hidx, if_true]
    obtain ⟨heap1, h1, h2, h3⟩ := ih (i + 1) (heap.set trail[i] (.ref trail[i]))
      (by
        intro j hj
        rw [List.length_set]
        apply hlt
        rw [hdrop, List.take_succ_cons]
        exact List.mem_cons_of_mem _ hj)
      (by omega)
    refine ⟨heap1, h1, by rw [h2, List.length_set], ?_⟩
    intro j
    rw [h3 j, hdrop, List.take_succ_cons, List.length_set]
    by_cases hj : j = trail[i]
    · subst hj
      simp [hidx]
    · have hne : trail[i] ≠ j := fun h => hj h.symm
      simp [List.getElem?_set_ne hne, hj]

/-! ## Failed unification restores the state -/

theorem push_arg_pairs_append (heap : Heap) (a b : Cell) (n : Nat) :
    ∀ (k : Nat) (stack st : List Cell),
      TermEnv.push_arg_pairs heap a b n k stack = some st →
      ∃ l, st = l ++ stack ∧ l.length = 2 * k := by
  intro k
  induction k with
  | zero =>
    intro stack st h
    simp only [TermEnv.push_arg_pairs, Option.some.injEq] at h
    exact ⟨[], by simp [h], rfl⟩
  | succ k ih =>
    intro stack st h
    simp only [TermEnv.push_arg_pairs] at h
    split at h
    · rename_i ai bi _ _
      obtain ⟨l, hl, hlen⟩ := ih _ _ h
      refine ⟨l ++ [ai, bi], by simp [hl], ?_⟩
      simp [hlen]
      omega
    · simp at h

theorem bind_inv {s0 s s2 : TermEnv} {loc : List Cell} {new : List Nat} {i : Nat} {b : Cell}
    (hinv : UnifyInv s0 s loc new) (hwf : s0.heap.length ≤ s0.register_hb)
    (hi : s.heap[i]? = some (.ref i)) (h : s.bind (.ref i) b = some s2) :
    UnifyInv s0 s2 loc (new ++ [i]) := by
  have hlt : i < s.heap.length := by
    rcases List.getElem?_eq_some.1 hi with ⟨hlt, _⟩
    exact hlt
  have hhb : i < s.register_hb := by
    rw [hinv.hb]
    have := hinv.len
    omega
  simp only [TermEnv.bind, hlt, if_true, Option.some.injEq, TermEnv.do_trail, hhb,
    TermEnv.push_trail] at h
  subst h
  refine ⟨?_, hinv.hb, hinv.h, hinv.temp, ?_, ?_, ?_, hinv.stack⟩
  · simp [hinv.len]
  · simp [hinv.trail]
  · intro j hj
    rcases List.mem_append.1 hj with hj | hj
    · exact hinv.old j hj
    · have hji : j = i := by simpa using hj
      subst hji
      by_cases hmem : j ∈ new
      · exact hinv.old j hmem
      · rw [← hinv.same j hmem, hi]
  · intro j hj
    have hj1 : j ∉ new := fun h => hj (List.mem_append_left _ h)
    have hj2 : i ≠ j := fun h => hj (by simp [h])
    show (s.heap.set i b)[j]? = s0.heap[j]?
    rw [List.getElem?_set_ne hj2]
    exact hinv.same j hj1

theorem stack_inv {s0 s : TermEnv} {loc : List Cell} {new : List Nat} (st loc1 : List Cell)
    (hinv : UnifyInv s0 s loc new) (hst : st = loc1 ++ s0.stack) :
    UnifyInv s0 { s with stack := st } loc1 new :=
  ⟨hinv.len, hinv.hb, hinv.h, hinv.temp, hinv.trail, hinv.old, hinv.same, hst⟩

theorem unify_iter_inv {s0 s s1 : TermEnv} {a0 b0 : Cell} {loc : List Cell} {new : List Nat}
    {fuel : Nat} {r : TermEnv.Step}
    (hinv : UnifyInv s0 s (a0 :: b0 :: loc) new) (hwf : s0.heap.length ≤ s0.register_hb)
    (h : TermEnv.unify_iter fuel s = some (r, s1)) :
    ∃ loc1 new1, UnifyInv s0 s1 loc1 new1 ∧ loc1.length % 2 = loc.length % 2 := by
  have hstack : s.stack = a0 :: b0 :: (loc ++ s0.stack) := by simp [hinv.stack]
  have hpop : UnifyInv s0 { s with stack := loc ++ s0.stack } loc new :=
    stack_inv _ _ hinv rfl
  unfold TermEnv.unify_iter at h
  rw [hstack] at h
  simp only at h
  split at h
  · rename_i a b ha hb
    split_ifs at h with h1 h2 h3 h4 h5
    · simp only [Option.some.injEq, Prod.mk.injEq] at h
      rw [← h.2]
      exact ⟨loc, new, hpop, rfl⟩
    · cases a <;> cases b <;> simp [Cell.tag] at h2 h3
      rename_i ia ib
      simp only at h
      split_ifs at h
      · rcases Option.map_eq_some'.1 h with ⟨s2, hs2, heq⟩
        simp only [Prod.mk.injEq] at heq
        rw [← heq.2]
        exact ⟨loc, _, bind_inv hpop hwf (deref_ref_self _ _ _ _ hb) hs2, rfl⟩
      · rcases Option.map_eq_some'.1 h with ⟨s2, hs2, heq⟩
        simp only [Prod.mk.injEq] at heq
        rw [← heq.2]
        exact ⟨loc, _, bind_inv hpop hwf (deref_ref_self _ _ _ _ ha) hs2, rfl⟩
    · cases a <;> simp [Cell.tag] at h2
      rcases Option.map_eq_some'.1 h with ⟨s2, hs2, heq⟩
      simp only [Prod.mk.injEq] at heq
      rw [← heq.2]
      exact ⟨loc, _, bind_inv hpop hwf (deref_ref_self _ _ _ _ ha) hs2, rfl⟩
    · cases b <;> simp [Cell.tag] at h4
      rcases Option.map_eq_some'.1 h with ⟨s2, hs2, heq⟩
      simp only [Prod.mk.injEq] at heq
      rw [← heq.2]
      exact ⟨loc, _, bind_inv hpop hwf (deref_ref_self _ _ _ _ hb) hs2, rfl⟩
    · simp only [Option.some.injEq, Prod.mk.injEq] at h
      rw [← h.2]
      exact ⟨loc, new, hpop, rfl⟩
    · split at h
      · simp only [Option.some.injEq, Prod.mk.injEq] at h
        rw [← h.2]
        exact ⟨loc, new, hpop, rfl⟩
      · simp only [Option.some.injEq, Prod.mk.injEq] at h
        rw [← h.2]
        exact ⟨loc, new, hpop, rfl⟩
      · split at h
        · split_ifs at h
          · simp only [Option.some.injEq, Prod.mk.injEq] at h
            rw [← h.2]
            exact ⟨loc, new, hpop, rfl⟩
          · split at h
            · rename_i f fb _ _ st hst
              simp only [Option.some.injEq, Prod.mk.injEq] at h
              rw [← h.2]
              obtain ⟨l, hl, hlen⟩ := push_arg_pairs_append _ _ _ _ _ _ _ hst
              refine ⟨l ++ loc, new, stack_inv _ _ hinv (by simp [hl]), ?_⟩
              simp [hlen]
              omega
            · simp at h
        · simp at h
      · simp at h
  · simp at h

theorem unify_loop_inv {s0 : TermEnv} (hwf : s0.heap.length ≤ s0.register_hb) :
    ∀ (fuel : Nat) (s s1 : TermEnv) (loc : List Cell) (new : List Nat) (r : Bool),
      UnifyInv s0 s loc new → loc.length % 2 = 0 →
      TermEnv.unify_loop s0.stack.length fuel s = some (r, s1) →
      ∃ loc1 new1, UnifyInv s0 s1 loc1 new1 := by
  intro fuel
  induction fuel with
  | zero =>
    intro s s1 loc new r _ _ h
    simp [TermEnv.unify_loop] at h
  | succ n ih =>
    intro s s1 loc new r hinv heven h
    simp only [TermEnv.unify_loop] at h
    split_ifs at h with hd
    · have hloc : ∃ a0 b0 loc2, loc = a0 :: b0 :: loc2 := by
        rw [hinv.stack, List.length_append] at hd
        match loc, heven, hd with
        | [], _, hd => simp at hd
        | [_], heven, _ => simp at heven
        | a0 :: b0 :: loc2, _, _ => exact ⟨a0, b0, loc2, rfl⟩
      obtain ⟨a0, b0, loc2, hloc⟩ := hloc
      subst hloc
      split at h
      · simp at h
      · rename_i r1 s2 hiter
        obtain ⟨loc1, new1, hinv1, _⟩ := unify_iter_inv hinv hwf hiter
        simp only [Option.some.injEq, Prod.mk.injEq] at h
        rw [← h.2]
        exact ⟨loc1, new1, hinv1⟩
      · rename_i s2 hiter
        obtain ⟨loc1, new1, hinv1, hlen⟩ := unify_iter_inv hinv hwf hiter
        refine ih s2 s1 loc1 new1 r hinv1 ?_ h
        simp only [List.length_cons] at heven
        omega
    · simp only [Option.some.injEq, Prod.mk.injEq] at h
      rw [← h.2]
      exact ⟨loc, new, hinv⟩

/-- A failed `unify` gives back the state in which it was called. -/
theorem unify_false_state (fuel : Nat) (s s1 : TermEnv) (a b : Cell)
    (hwf : s.heap.length ≤ s.register_h)
    (h : TermEnv.unify fuel s a b = some (false, s1)) : s1 = s := by
  unfold TermEnv.unify at h
  simp only at h
  split at h
  · simp at h
  · rename_i r s2 hhelp
    cases r with
    | true => simp at h
    | false =>
      simp only [Bool.not_false, if_true] at h
      have hinit : UnifyInv { s with register_hb := s.register_h }
          (({ s with register_hb := s.register_h } : TermEnv).push b |>.push a) [a, b] [] :=
        ⟨rfl, rfl, rfl, rfl, by simp [TermEnv.push], by simp, fun _ _ => rfl, rfl⟩
      obtain ⟨loc1, new1, hinv⟩ :=
        @unify_loop_inv { s with register_hb := s.register_h } hwf fuel _ s2 _ _ false
          hinit (by simp) hhelp
      have htrail : s2.trail = s.trail ++ new1 := hinv.trail
      have hdrop : (s2.trail.drop s.trail.length).take (s2.trail.length - s.trail.length) = new1 := by
        simp [htrail]
      obtain ⟨heap1, hu, hlen1, hget⟩ := unwind_trail_loop_spec s2.trail
        (s2.trail.length - s.trail.length) s.trail.length s2.heap
        (by
          intro j hj
          rw [hdrop] at hj
          have := hinv.old j hj
          rcases List.getElem?_eq_some.1 this with ⟨hlt, _⟩
          rw [hinv.len]
          exact hlt)
        (by simp [htrail])
      simp only [TermEnv.unwind_trail, TermEnv.trail_depth, hu] at h
      simp only [Option.some.injEq, Prod.mk.injEq, true_and] at h
      have hheap : heap1 = s.heap := by
        apply List.ext_getElem?
        intro j
        rw [hget j, hdrop]
        by_cases hj : j ∈ new1
        · have hold : s.heap[j]? = some (.ref j) := hinv.old j hj
          have hlt : j < s2.heap.length := by
            rcases List.getElem?_eq_some.1 hold with ⟨hlt, _⟩
            rw [hinv.len]
            exact hlt
          simp [hj, hlt, hold]
        · simp only [hj, false_and, if_false]
          exact hinv.same j hj
      rw [← h]
      have hstack : s2.stack = loc1 ++ s.stack := hinv.stack
      have htemp : s2.temp = s.temp := hinv.temp
      have hh : s2.register_h = s.register_h := hinv.h
      cases s
      simp only [TermEnv.trim_trail, TermEnv.trim_stack, TermEnv.stack_depth, TermEnv.mk.injEq]
      simp only at hheap hstack htemp hh htrail
      refine ⟨hheap, trivial, hh, ?_, htemp, ?_⟩
      · rw [hstack]
        exact resize_top_append _ _ _
      · rw [htrail]
        exact resize_back_append _ _ _

/-- C1: if `unify(a, b)` returns false, the trail depth, the work-stack depth,
the heap size and register HB are as at the call and every heap cell holds the
value it held before the call.  The heap size the environment records
(`register_h_`) is not below the size of the heap, as after `parse` and
`copy`. -/
theorem unify_failure_restores (fuel : Nat) (s s1 : TermEnv) (a b : Cell)
    (hwf : s.heap.length ≤ s.register_h)
    (h : TermEnv.unify fuel s a b = some (false, s1)) :
    s1.trail_depth = s.trail_depth ∧ s1.stack_depth = s.stack_depth ∧
    s1.heap.length = s.heap.length ∧ s1.register_hb = s.register_hb ∧
    ∀ i : Nat, s1.heap[i]? = s.heap[i]? := by
  have hs := unify_false_state fuel s s1 a b hwf h
  subst hs
  exact ⟨rfl, rfl, rfl, rfl, fun _ => rfl⟩

theorem unify_failure_restores_witness :
    TermEnv.unify 100 example_failed_env (.str 4) (.str 14) = some (false, example_failed_env) ∧
    example_failed_env.trail_depth = 0 ∧ example_failed_env.stack_depth = 0 ∧
    (example_failed_env.trail_depth = example_failed_env.trail_depth ∧
     example_failed_env.stack_depth = example_failed_env.stack_depth ∧
     example_failed_env.heap.length = example_failed_env.heap.length ∧
     example_failed_env.register_hb = example_failed_env.register_hb ∧
     ∀ i : Nat, example_failed_env.heap[i]? = example_failed_env.heap[i]?) :=
  ⟨by decide, rfl, rfl,
    unify_failure_restores 100 example_failed_env example_failed_env (.str 4) (.str 14)
      (by decide) (by decide)⟩

/-! ## The clause database and first-argument indexing -/

theorem syntax_check_frame :
    ∀ (fuel : Nat) (s s1 : Interp) (r : Except InterpError Unit),
      Interp.syntax_check fuel s = some (r, s1) →
      s1 = { s with syntax_check_stack := s1.syntax_check_stack } := by
  intro fuel
  induction fuel with
  | zero =>
    intro s s1 r h
    simp [Interp.syntax_check] at h
  | succ n ih =>
    intro s s1 r h
    simp only [Interp.syntax_check] at h
    split at h
    · simp only [Option.some.injEq, Prod.mk.injEq] at h
      rw [← h.2]
    · split at h
      · simp at h
      · simp only [Option.some.injEq, Prod.mk.injEq] at h
        rw [← h.2]
      · have := ih _ _ _ h
        rw [this]

theorem map_set_same {κ ν : Type} [DecidableEq κ] (m : κ → Option ν) (k : κ) (v : ν) :
    Interp.map_set m k v k = some v := by
  simp [Interp.map_set]

theorem map_set_other {κ ν : Type} [DecidableEq κ] (m : κ → Option ν) (k x : κ) (v : ν)
    (h : x ≠ k) : Interp.map_set m k v x = m x := by
  simp [Interp.map_set, h]

/-- What `load_clause` does to the state when the syntax check passes. -/
theorem load_clause_ok {fuel : Nat} {s s1 : Interp} {t : Cell}
    (h : Interp.load_clause fuel s t = some (.ok (), s1)) :
    ∃ head f, Interp.clause_head s.env.heap t = some head ∧ functor s.env.heap head = some f ∧
      s1.env = s.env ∧ s1.predicate_id = s.predicate_id ∧
      s1.id_to_predicate = s.id_to_predicate ∧
      s1.program_db f = some (s.clauses_of f ++ [t]) ∧
      (∀ g, g ≠ f → s1.program_db g = s.program_db g) ∧
      s1.program_predicates =
        (if s.program_db f = none then s.program_predicates ++ [f] else s.program_predicates) := by
  unfold Interp.load_clause at h
  split at h
  · simp at h
  · simp at h
  · rename_i s2 hchk
    have hfr := syntax_check_frame _ _ _ _ hchk
    have henv : s2.env = s.env := by rw [hfr]
    have hdb : s2.program_db = s.program_db := by rw [hfr]
    have hpp : s2.program_predicates = s.program_predicates := by rw [hfr]
    have hpid : s2.predicate_id = s.predicate_id := by rw [hfr]
    have hitp : s2.id_to_predicate = s.id_to_predicate := by rw [hfr]
    clear hfr hchk
    cases s2
    simp only at henv hdb hpp hpid hitp
    subst henv hdb hpp hpid hitp
    simp only at h
    split at h
    · simp at h
    · rename_i head hhead
      split at h
      · simp at h
      · rename_i f hf
        simp only [Option.some.injEq, Prod.mk.injEq, true_and] at h
        refine ⟨head, f, hhead, hf, ?_⟩
        rw [← h]
        cases hsf : s.program_db f with
        | none =>
          simp only [Interp.db_entry, Interp.map_set, Interp.clauses_of, hsf, if_true,
            Option.getD_none, List.nil_append, true_and, and_true]
          intro g hg
          simp [hg]
        | some cl =>
          simp only [Interp.db_entry, Interp.map_set, Interp.clauses_of, hsf, if_true,
            Option.getD_some, true_and]
          refine ⟨?_, ?_⟩
          · intro g hg
            simp [hg]
          · simp

theorem compute_matched_loop_spec (heap : Heap) (a : Cell) :
    ∀ (clauses matched m : List Cell),
      Interp.compute_matched_loop heap a clauses matched = some m →
      m = matched ++ clauses.filter (Interp.clause_kept heap a) := by
  intro clauses
  induction clauses with
  | nil =>
    intro matched m h
    simp only [Interp.compute_matched_loop, Option.some.injEq] at h
    simp [h]
  | cons c rest ih =>
    intro matched m h
    simp only [Interp.compute_matched_loop] at h
    split at h
    · simp at h
    · rename_i head hhead
      split at h
      · simp at h
      · rename_i hfun hhf
        split_ifs at h with har
        · split at h
          · simp at h
          · rename_i hfa hharg
            split at h
            · simp at h
            · rename_i hdi
              have hk : Interp.clause_kept heap a c = false := by
                have : hfun.arity ≠ 0 := by omega
                simp [Interp.clause_kept, hhead, hhf, this, hharg, hdi]
              rw [ih _ _ h, List.filter_cons, hk]
              simp
            · rename_i hdi
              have hk : Interp.clause_kept heap a c = true := by
                have : hfun.arity ≠ 0 := by omega
                simp [Interp.clause_kept, hhead, hhf, this, hharg, hdi]
              rw [ih _ _ h, List.filter_cons, hk]
              simp
        · have hk : Interp.clause_kept heap a c = true := by
            have : hfun.arity = 0 := by omega
            simp [Interp.clause_kept, hhead, hhf, this]
          rw [ih _ _ h, List.filter_cons, hk]
          simp

theorem compute_matched_loop_ref (heap : Heap) (a : Cell) (ha : a.tag = .REF) :
    ∀ (clauses matched m : List Cell),
      Interp.compute_matched_loop heap a clauses matched = some m → m = matched ++ clauses := by
  intro clauses
  induction clauses with
  | nil =>
    intro matched m h
    simp only [Interp.compute_matched_loop, Option.some.injEq] at h
    simp [h]
  | cons c rest ih =>
    intro matched m h
    simp only [Interp.compute_matched_loop] at h
    split at h
    · simp at h
    · split at h
      · simp at h
      · split_ifs at h
        · split at h
          · simp at h
          · split at h
            · simp at h
            · rename_i hdi
              simp [Interp.definitely_inequal, ha] at hdi
            · rw [ih _ _ h]
              simp
        · rw [ih _ _ h]
          simp

theorem matched_index_arg_eq (heap : Heap) (a : Cell) :
    (match a.tag with
      | .STR => (functor heap a).map some
      | .CON | .INT => some (some a)
      | .REF => some none
      | _ => some (some a)) = Interp.discriminator heap a := by
  cases a <;> rfl

theorem db_entry_spec (s0 : Interp) (f : Cell) :
    (s0.db_entry f).1 = s0.clauses_of f ∧ (s0.db_entry f).2.env = s0.env ∧
    (s0.db_entry f).2.predicate_id = s0.predicate_id ∧
    (s0.db_entry f).2.id_to_predicate = s0.id_to_predicate ∧
    (∀ g, (s0.db_entry f).2.clauses_of g = s0.clauses_of g) := by
  cases hdb : s0.program_db f with
  | none =>
    simp only [Interp.db_entry, hdb, Interp.clauses_of, Option.getD_none, true_and]
    intro g
    by_cases hg : g = f
    · simp [Interp.map_set, hg, hdb]
    · simp [Interp.map_set, hg]
  | some cl => simp [Interp.db_entry, hdb, Interp.clauses_of]

/-- What `matched_predicate_id` does on the first call for a key. -/
theorem matched_predicate_id_new {s s1 : Interp} {f a : Cell} {k : Option Cell} {id : Nat}
    (hk : Interp.discriminator s.env.heap a = some k) (hnew : s.predicate_id (f, k) = none)
    (h : s.matched_predicate_id f a = some (id, s1)) :
    id = s.id_to_predicate.length ∧ s1.env = s.env ∧
    s1.predicate_id = Interp.map_set s.predicate_id (f, k) id ∧
    s1.id_to_predicate =
      s.id_to_predicate ++ [(s.clauses_of f).filter (Interp.clause_kept s.env.heap a)] ∧
    (a.tag = .REF → s1.id_to_predicate = s.id_to_predicate ++ [s.clauses_of f]) ∧
    (∀ g, s1.clauses_of g = s.clauses_of g) := by
  unfold Interp.matched_predicate_id at h
  simp only [matched_index_arg_eq, hk, hnew] at h
  split at h
  · simp at h
  · rename_i pred s2 hcmp
    simp only [Option.some.injEq, Prod.mk.injEq] at h
    obtain ⟨hid, hs1⟩ := h
    unfold Interp.compute_matched_predicate at hcmp
    simp only at hcmp
    split at hcmp
    · simp at hcmp
    · rename_i m hm
      simp only [Option.some.injEq, Prod.mk.injEq] at hcmp
      obtain ⟨hpred, hs2⟩ := hcmp
      obtain ⟨he1, he2, he3, he4, he5⟩ := db_entry_spec
        { s with id_to_predicate := s.id_to_predicate ++ [[]],
                 predicate_id := Interp.map_set s.predicate_id (f, k) s.id_to_predicate.length } f
      rw [he1] at hm
      rw [hs2] at he2 he3 he4 he5
      change Interp.compute_matched_loop s.env.heap a (s.clauses_of f) [] = some m at hm
      have hset : ∀ l : List Cell,
          (s.id_to_predicate ++ [[]]).set s.id_to_predicate.length l = s.id_to_predicate ++ [l] := by
        intro l
        rw [List.set_append_right _ _ (le_refl _)]
        simp
      subst hs1 hid hpred
      refine ⟨rfl, he2, he3, ?_, ?_, he5⟩
      · show List.set _ _ _ = _
        rw [he4, compute_matched_loop_spec _ _ _ _ _ hm]
        exact hset _
      · intro href
        show List.set _ _ _ = _
        rw [he4, compute_matched_loop_ref _ _ href _ _ _ hm]
        exact hset _

theorem load_builtin_predicate_id (s : Interp) (f : Cell) (b : Option Builtin) :
    (s.load_builtin f b).predicate_id = s.predicate_id := by
  unfold Interp.load_builtin
  split <;> rfl

theorem load_builtin_opt_predicate_id (s : Interp) (f : Cell) (b : Option BuiltinOpt) :
    (s.load_builtin_opt f b).predicate_id = s.predicate_id := by
  unfold Interp.load_builtin_opt
  split <;> rfl

theorem foldl_load_builtin_predicate_id (l : List (Cell × Builtin)) :
    ∀ s : Interp,
      (l.foldl (fun s fb => s.load_builtin fb.1 (some fb.2)) s).predicate_id = s.predicate_id := by
  induction l with
  | nil => intro s; rfl
  | cons x rest ih =>
    intro s
    rw [List.foldl_cons, ih, load_builtin_predicate_id]

theorem init_predicate_id (env : TermEnv) (key : Cell × Option Cell) :
    (Interp.init env).predicate_id key = none := by
  unfold Interp.init Interp.load_builtins_opt Interp.load_builtins
  simp only [load_builtin_opt_predicate_id, foldl_load_builtin_predicate_id]
  rfl

theorem init_memoSound (env : TermEnv) : (Interp.init env).MemoSound := by
  constructor
  · intro key id h
    rw [init_predicate_id] at h
    simp at h
  · intro f k id h
    rw [init_predicate_id] at h
    simp at h

theorem load_clause_memoSound {fuel : Nat} {s s1 : Interp} {t : Cell}
    (h : Interp.load_clause fuel s t = some (.ok (), s1)) (hm : s.MemoSound) : s1.MemoSound := by
  obtain ⟨head, f, _, _, _, hpid, hitp, hdbf, hdbg, _⟩ := load_clause_ok h
  constructor
  · intro key id hk
    rw [hpid] at hk
    rw [hitp]
    exact hm.valid key id hk
  · intro g k id hk hcl
    rw [hpid] at hk
    rw [hitp]
    apply hm.nonempty g k id hk
    by_cases hg : g = f
    · subst hg
      simp [Interp.clauses_of, hdbf] at hcl
    · simpa [Interp.clauses_of, hdbg g hg] using hcl

theorem matched_predicate_id_old {s : Interp} {f a : Cell} {k : Option Cell} {id : Nat}
    (hk : Interp.discriminator s.env.heap a = some k) (hold : s.predicate_id (f, k) = some id) :
    s.matched_predicate_id f a = some (id, s) := by
  unfold Interp.matched_predicate_id
  simp only [matched_index_arg_eq, hk, hold]

theorem matched_predicate_id_memoSound {s s1 : Interp} {f a : Cell} {id : Nat}
    (h : s.matched_predicate_id f a = some (id, s1)) (hm : s.MemoSound) : s1.MemoSound := by
  cases hk : Interp.discriminator s.env.heap a with
  | none =>
    unfold Interp.matched_predicate_id at h
    simp [matched_index_arg_eq, hk] at h
  | some k =>
    cases hold : s.predicate_id (f, k) with
    | some id0 =>
      rw [matched_predicate_id_old hk hold] at h
      simp only [Option.some.injEq, Prod.mk.injEq] at h
      rw [← h.2]
      exact hm
    | none =>
      obtain ⟨hid, _, hpid, hitp, _, hcl⟩ := matched_predicate_id_new hk hold h
      constructor
      · intro key id1 hkey
        rw [hpid] at hkey
        rw [hitp, List.length_append]
        by_cases hkk : key = (f, k)
        · subst hkk
          simp [Interp.map_set] at hkey
          simp
          omega
        · rw [map_set_other _ _ _ _ hkk] at hkey
          have := hm.valid key id1 hkey
          omega
      · intro g k1 id1 hkey hempty
        rw [hpid] at hkey
        rw [hcl] at hempty
        rw [hitp]
        by_cases hkk : (g, k1) = (f, k)
        · rw [hkk, map_set_same] at hkey
          simp only [Prod.mk.injEq] at hkk
          simp only [Option.some.injEq] at hkey
          rw [← hkey, hid, List.getElem?_append_right (le_refl _)]
          simp [← hkk.1, hempty]
        · rw [map_set_other _ _ _ _ hkk] at hkey
          have hlt := hm.valid _ id1 hkey
          rw [List.getElem?_append_left hlt]
          exact hm.nonempty g k1 id1 hkey hempty

/-- When the syntax check of `load_clause(t)` passes and the head of `t` has
functor `f`, the clause list of `f` afterwards is the old list followed by
`t`, and the clause list of every other functor is unchanged. -/
theorem load_clause_appends (fuel : Nat) (s s1 : Interp) (t head f : Cell)
    (hhead : Interp.clause_head s.env.heap t = some head)
    (hf : functor s.env.heap head = some f)
    (h : Interp.load_clause fuel s t = some (.ok (), s1)) :
    s1.program_db f = some (s.clauses_of f ++ [t]) ∧
    ∀ g, g ≠ f → s1.program_db g = s.program_db g := by
  obtain ⟨head1, f1, hhead1, hf1, _, _, _, hdbf, hdbg, _⟩ := load_clause_ok h
  rw [hhead] at hhead1
  simp only [Option.some.injEq] at hhead1
  subst hhead1
  rw [hf] at hf1
  simp only [Option.some.injEq] at hf1
  subst hf1
  exact ⟨hdbf, hdbg⟩

theorem load_clause_appends_witness :
    (((example_db_interp.loaded (.str 0)).loaded (.str 4)).loaded (.str 2)).program_db
        (.con "p" 1) = some ([.str 0, .str 4] ++ [.str 2]) ∧
    ∀ g, g ≠ .con "p" 1 →
      (((example_db_interp.loaded (.str 0)).loaded (.str 4)).loaded (.str 2)).program_db g =
        ((example_db_interp.loaded (.str 0)).loaded (.str 4)).program_db g :=
  load_clause_appends 10 ((example_db_interp.loaded (.str 0)).loaded (.str 4)) _ (.str 2)
    (.str 2) (.con "p" 1) rfl rfl rfl

/-- C8 fails as stated: after `p(1)` (cell 0) is loaded and the key `(p/1, 1)`
is queried, loading a second clause `p(1)` (cell 2) leaves the memoized list as
it was; the next `matched_predicate_id(p/1, 1)` returns the same id, whose list
is `[p(1) at 0]` although the database holds both clauses and indexing keeps
the new one. -/
theorem load_clause_memo_counterexample :
    (do
      let (_, s1) ← example_db_interp.load_clause 10 (.str 0)
      let (id1, s2) ← s1.matched_predicate_id (.con "p" 1) (.int 1)
      let (_, s3) ← s2.load_clause 10 (.str 2)
      let (id2, s4) ← s3.matched_predicate_id (.con "p" 1) (.int 1)
      pure (id1, id2, s3.clauses_of (.con "p" 1),
        Interp.clause_kept s3.env.heap (.int 1) (.str 2), s4.get_predicate id2) :
      Option (Nat × Nat × List Cell × Bool × Option (List Cell))) =
    some (1, 1, [.str 0, .str 2], true, some [.str 0]) := by
  decide

/-- C8 as amended: `load_clause(t)` leaves `predicate_id_` and
`id_to_predicate_` as they are.  For a key that was queried before the load,
`matched_predicate_id` returns the old id and its list is the one memoized
before the load; for a key queried for the first time after the load, the list
contains `t` whenever indexing keeps `t` for the query argument. -/
theorem load_clause_keeps_memo (fuel : Nat) (s s1 : Interp) (t head f : Cell)
    (hhead : Interp.clause_head s.env.heap t = some head)
    (hf : functor s.env.heap head = some f)
    (h : Interp.load_clause fuel s t = some (.ok (), s1)) :
    s1.predicate_id = s.predicate_id ∧ s1.id_to_predicate = s.id_to_predicate ∧
    (∀ a k id, Interp.discriminator s.env.heap a = some k → s.predicate_id (f, k) = some id →
      s1.matched_predicate_id f a = some (id, s1) ∧ s1.get_predicate id = s.get_predicate id) ∧
    (∀ a k id s2, Interp.discriminator s.env.heap a = some k → s.predicate_id (f, k) = none →
      s1.matched_predicate_id f a = some (id, s2) →
      Interp.clause_kept s.env.heap a t = true →
      ∃ l, s2.get_predicate id = some l ∧ t ∈ l) := by
  obtain ⟨head1, f1, hhead1, hf1, henv, hpid, hitp, hdbf, hdbg, _⟩ := load_clause_ok h
  rw [hhead] at hhead1
  simp only [Option.some.injEq] at hhead1
  subst hhead1
  rw [hf] at hf1
  simp only [Option.some.injEq] at hf1
  subst hf1
  refine ⟨hpid, hitp, ?_, ?_⟩
  · intro a k id hk hold
    refine ⟨matched_predicate_id_old (by rw [henv]; exact hk) (by rw [hpid]; exact hold), ?_⟩
    simp [Interp.get_predicate, hitp]
  · intro a k id s2 hk hnew hq hkept
    obtain ⟨hid, _, _, hitp2, _, _⟩ :=
      @matched_predicate_id_new s1 s2 f a k id (by rw [henv]; exact hk) (by rw [hpid]; exact hnew) hq
    refine ⟨List.filter (Interp.clause_kept s1.env.heap a) (s1.clauses_of f), ?_, ?_⟩
    · simp only [Interp.get_predicate]
      rw [hitp2, hid, List.getElem?_append_right (le_refl _)]
      simp
    · rw [henv]
      simp [Interp.clauses_of, hdbf, hkept]

theorem load_clause_keeps_memo_witness :
    (example_db_interp.loaded (.str 0)).predicate_id = example_db_interp.predicate_id ∧
    (example_db_interp.loaded (.str 0)).id_to_predicate = example_db_interp.id_to_predicate ∧
    (∀ a k id, Interp.discriminator example_db_interp.env.heap a = some k →
      example_db_interp.predicate_id (.con "p" 1, k) = some id →
      (example_db_interp.loaded (.str 0)).matched_predicate_id (.con "p" 1) a =
        some (id, example_db_interp.loaded (.str 0)) ∧
      (example_db_interp.loaded (.str 0)).get_predicate id = example_db_interp.get_predicate id) ∧
    (∀ a k id s2, Interp.discriminator example_db_interp.env.heap a = some k →
      example_db_interp.predicate_id (.con "p" 1, k) = none →
      (example_db_interp.loaded (.str 0)).matched_predicate_id (.con "p" 1) a = some (id, s2) →
      Interp.clause_kept example_db_interp.env.heap a (.str 0) = true →
      ∃ l, s2.get_predicate id = some l ∧ Cell.str 0 ∈ l) :=
  load_clause_keeps_memo 10 example_db_interp _ (.str 0) (.str 0) (.con "p" 1) rfl rfl rfl

/-- C9: on the first call of `matched_predicate_id(f, a)` for a key, the list
stored under the returned id is the sublist, in database order, of the clauses
of `f` whose head has arity 0 or whose head's first argument is not definitely
unequal to `a`; for a REF argument it is the full clause list of `f`. -/
theorem matched_predicate_id_first_call (s s1 : Interp) (f a : Cell) (k : Option Cell)
    (id : Nat) (hk : Interp.discriminator s.env.heap a = some k)
    (hnew : s.predicate_id (f, k) = none)
    (h : s.matched_predicate_id f a = some (id, s1)) :
    s1.get_predicate id = some ((s.clauses_of f).filter (Interp.clause_kept s.env.heap a)) ∧
    (a.tag = .REF → s1.get_predicate id = some (s.clauses_of f)) := by
  obtain ⟨hid, _, _, hitp, href, _⟩ := matched_predicate_id_new hk hnew h
  constructor
  · simp only [Interp.get_predicate]
    rw [hitp, hid, List.getElem?_append_right (le_refl _)]
    simp
  · intro ha
    simp only [Interp.get_predicate]
    rw [href ha, hid, List.getElem?_append_right (le_refl _)]
    simp

theorem matched_predicate_id_first_call_witness :
    ∃ s1 : Interp,
      ((example_db_interp.loaded (.str 0)).loaded (.str 4)).matched_predicate_id
        (.con "p" 1) (.int 2) = some (1, s1) ∧
      s1.get_predicate 1 = some [.str 4] := by
  obtain ⟨s1, h⟩ : ∃ s1, ((example_db_interp.loaded (.str 0)).loaded (.str 4)).matched_predicate_id
      (.con "p" 1) (.int 2) = some (1, s1) := ⟨_, rfl⟩
  refine ⟨s1, h, ?_⟩
  have := (matched_predicate_id_first_call _ s1 (.con "p" 1) (.int 2) (some (.int 2)) 1 rfl rfl
    h).1
  rw [this]
  decide

/-! ## Dispatch and failure -/

theorem matched_predicate_id_clauses_of {s s1 : Interp} {f a : Cell} {id : Nat}
    (h : s.matched_predicate_id f a = some (id, s1)) : ∀ g, s1.clauses_of g = s.clauses_of g := by
  cases hk : Interp.discriminator s.env.heap a with
  | none =>
    unfold Interp.matched_predicate_id at h
    simp [matched_index_arg_eq, hk] at h
  | some k =>
    cases hold : s.predicate_id (f, k) with
    | some id0 =>
      rw [matched_predicate_id_old hk hold] at h
      simp only [Option.some.injEq, Prod.mk.injEq] at h
      rw [← h.2]
      intro g
      rfl
    | none => exact (matched_predicate_id_new hk hold h).2.2.2.2.2

theorem matched_predicate_id_defined {s : Interp} {f a : Cell} {k : Option Cell}
    (hk : Interp.discriminator s.env.heap a = some k) (hm : s.MemoSound)
    (hempty : s.clauses_of f = []) :
    ∃ id s1, s.matched_predicate_id f a = some (id, s1) ∧ s1.get_predicate id = some [] := by
  cases hold : s.predicate_id (f, k) with
  | some id0 =>
    exact ⟨id0, s, matched_predicate_id_old hk hold, hm.nonempty f k id0 hold hempty⟩
  | none =>
    have hq : ∃ r, s.matched_predicate_id f a = some r := by
      unfold Interp.matched_predicate_id
      simp only [matched_index_arg_eq, hk, hold, Interp.compute_matched_predicate]
      rw [(db_entry_spec _ f).1]
      have : ({ s with id_to_predicate := s.id_to_predicate ++ [[]],
                       predicate_id := Interp.map_set s.predicate_id (f, k)
                         s.id_to_predicate.length } : Interp).clauses_of f = [] := hempty
      rw [this]
      simp [Interp.compute_matched_loop]
    obtain ⟨⟨id, s1⟩, hq⟩ := hq
    refine ⟨id, s1, hq, ?_⟩
    have := (matched_predicate_id_first_call s s1 f a k id hk hold hq).1
    rw [this, hempty]
    rfl

/-- C10: for a goal that the builtin part of `dispatch` passes on to the
clauses of its functor `f`: if the database holds no clause for `f`, `dispatch`
aborts with the undefined-predicate error; if the database holds clauses for
`f` and the clause list under the id of the goal's key is empty, `dispatch`
does not abort: its result is that of `fail()`. -/
theorem dispatch_undefined_or_fail (P : Collab) (fuel : Nat) (s s1 : Interp)
    (instruction f first_arg : Cell) (k : Option Cell)
    (hb : Interp.dispatch_builtin P fuel s instruction = some (.user f s1))
    (hfa : s1.get_first_arg = some first_arg)
    (hk : Interp.discriminator s1.env.heap first_arg = some k)
    (hmemo : s1.MemoSound) :
    (s1.clauses_of f = [] →
      ∃ s2, Interp.dispatch P fuel s instruction = some (.error (.undefined_predicate f), s2)) ∧
    (∀ id s2, s1.matched_predicate_id f first_arg = some (id, s2) →
      s2.get_predicate id = some [] → s1.clauses_of f ≠ [] →
      Interp.dispatch P fuel s instruction =
        (Interp.fail fuel
          { s2 with register_pr := f,
                    id_to_predicate := s2.id_to_predicate.set id (s1.clauses_of f) }).map
          (fun s3 => (.ok (), s3))) := by
  have hd : Interp.dispatch P fuel s instruction = Interp.dispatch_user fuel s1 f instruction := by
    simp [Interp.dispatch, hb]
  rw [hd]
  unfold Interp.dispatch_user
  simp only [hfa]
  constructor
  · intro hempty
    obtain ⟨id, s2, hq, hget⟩ := matched_predicate_id_defined hk hmemo hempty
    have hcl := matched_predicate_id_clauses_of hq f
    rw [hempty] at hcl
    simp only [hq, hget, if_true]
    have h1 := (db_entry_spec { s2 with register_pr := f } f).1
    have h2 : ({ s2 with register_pr := f } : Interp).clauses_of f = [] := hcl
    rw [h2] at h1
    simp only [h1, if_true]
    exact ⟨_, rfl⟩
  · intro id s2 hq hget hne
    have hcl := matched_predicate_id_clauses_of hq f
    simp only [hq, hget, if_true]
    have h2 : ∃ cl, s2.program_db f = some cl ∧ cl = s1.clauses_of f := by
      cases hdb : s2.program_db f with
      | none =>
        exfalso
        apply hne
        rw [← hcl]
        simp [Interp.clauses_of, hdb]
      | some cl =>
        refine ⟨cl, rfl, ?_⟩
        rw [← hcl]
        simp [Interp.clauses_of, hdb]
    obtain ⟨cl, hdb, hcleq⟩ := h2
    subst hcleq
    simp only [Interp.db_entry, hdb, hne, if_false, Interp.fail_unless]
    rfl

theorem dispatch_undefined_or_fail_witness :
    (∃ s2, Interp.dispatch example_collab 10 example_db_interp (.str 6) =
      some (.error (.undefined_predicate (.con "q" 1)), s2)) ∧
    (∃ s2, (example_db_interp.loaded (.str 0)).program_db (.con "p" 1) = some [.str 0] ∧
      Interp.dispatch example_collab 10 (example_db_interp.loaded (.str 0)) (.str 8) =
        (Interp.fail 10 s2).map (fun s3 => (.ok (), s3))) :=
  ⟨(dispatch_undefined_or_fail example_collab 10 example_db_interp _ (.str 6) (.con "q" 1)
      (.int 7) (some (.int 7)) rfl rfl rfl
      (by
        have h : Interp.MemoSound (Interp.init { TermEnv.init with
            heap := example_db_heap, register_h := 10 }) := init_memoSound _
        constructor
        · intro key id hkey
          exact h.valid key id hkey
        · intro f k id hkey hcl
          exact h.nonempty f k id hkey hcl)).1 rfl,
   ⟨_, rfl,
    (dispatch_undefined_or_fail example_collab 10 (example_db_interp.loaded (.str 0)) _ (.str 8)
      (.con "p" 1) (.int 3) (some (.int 3)) rfl rfl rfl
      (by
        have h : Interp.MemoSound (example_db_interp.loaded (.str 0)) :=
          @load_clause_memoSound 10 example_db_interp _ (.str 0) rfl
            (init_memoSound _)
        constructor
        · intro key id hkey
          exact h.valid key id hkey
        · intro f k id hkey hcl
          exact h.nonempty f k id hkey hcl)).2 1 _ rfl rfl (by decide)⟩⟩

/-- C6 fails as stated: the query `X = 1` succeeds and binds `X` (cell 1); the
`next()` that follows finds no choice point and returns false with `top_fail`
set, while the trail still holds the entry for `X` and `X` is still bound to
`1`. -/
theorem top_fail_keeps_bindings_counterexample :
    (do
      let (r1, s1) ← Interp.execute example_collab 10 example_query_interp (.str 0)
      let (r2, s2) ← Interp.next example_collab 10 s1
      pure (example_query_interp.env.heap[1]?, r1.toOption, r2.toOption, s2.top_fail,
        s2.env.trail, s2.env.heap[1]?) :
      Option (Option Cell × Option Bool × Option Bool × Bool × List Nat × Option Cell)) =
    some (some (.ref 1), some true, some false, true, [1], some (.int 1)) := by
  rfl

/-- C6 as amended: when `fail()` finds no choice point left (B = top_B) it
only sets `top_fail`; `next()` then returns false and the trail, the heap with
its bindings and the machine stack are as they were at the call. -/
theorem fail_without_choice_point (P : Collab) (fuel : Nat) (s : Interp)
    (h : s.register_b = s.register_top_b) :
    Interp.fail (fuel + 1) s = some { s with top_fail := true } ∧
    Interp.next P (fuel + 1) s = some (.ok false, { s with top_fail := true }) := by
  have hf : Interp.fail (fuel + 1) s = some { s with top_fail := true } := by
    simp [Interp.fail, Interp.fail_loop, h]
  refine ⟨hf, ?_⟩
  simp [Interp.next, hf]

theorem fail_without_choice_point_witness :
    Interp.fail 1 example_query_interp = some { example_query_interp with top_fail := true } ∧
    Interp.next example_collab 1 example_query_interp =
      some (.ok false, { example_query_interp with top_fail := true }) :=
  fail_without_choice_point example_collab 0 example_query_interp rfl

/-! ## Dereferencing -/

theorem deref_mono (heap : Heap) :
    ∀ (n m : Nat) (c d : Cell), deref heap n c = some d → n ≤ m → deref heap m c = some d := by
  intro n
  induction n with
  | zero =>
    intro m c d h _
    cases c with
    | ref i => simp [deref] at h
    | con f k => cases m <;> simpa [deref] using h
    | int v => cases m <;> simpa [deref] using h
    | str k => cases m <;> simpa [deref] using h
    | big k => cases m <;> simpa [deref] using h
    | gbl k => cases m <;> simpa [deref] using h
  | succ n ih =>
    intro m c d h hle
    obtain ⟨m1, rfl⟩ : ∃ m1, m = m1 + 1 := ⟨m - 1, by omega⟩
    cases c with
    | ref i =>
      cases hnc : heap[i]? with
      | none => simp [deref, hnc] at h
      | some nc =>
        simp only [deref, hnc] at h ⊢
        split_ifs at h with heq
        · simp [heq, h]
        · simp only [heq, if_false]
          exact ih m1 nc d h (by omega)
    | con f k => simpa [deref] using h
    | int v => simpa [deref] using h
    | str k => simpa [deref] using h
    | big k => simpa [deref] using h
    | gbl k => simpa [deref] using h

theorem derefTo_det {heap : Heap} {c d e : Cell} (h1 : DerefTo heap c d) (h2 : DerefTo heap c e) :
    d = e := by
  obtain ⟨n, hn⟩ := h1
  obtain ⟨m, hm⟩ := h2
  have a := deref_mono heap n (max n m) c d hn (le_max_left _ _)
  have b := deref_mono heap m (max n m) c e hm (le_max_right _ _)
  rw [a] at b
  exact Option.some.inj b

theorem deref_nonref (heap : Heap) (n : Nat) (c : Cell) (hc : c.tag ≠ .REF) :
    deref heap n c = some c := by
  cases c <;> cases n <;> simp [deref, Cell.tag] at hc ⊢

theorem derefTo_nonref (heap : Heap) (c : Cell) (hc : c.tag ≠ .REF) : DerefTo heap c c :=
  ⟨0, deref_nonref heap 0 c hc⟩

theorem derefTo_self {heap : Heap} {i : Nat} (h : heap[i]? = some (.ref i)) :
    DerefTo heap (.ref i) (.ref i) :=
  ⟨1, by simp [deref, h]⟩

theorem derefTo_step {heap : Heap} {i : Nat} {nc e : Cell} (h : heap[i]? = some nc)
    (hne : nc ≠ .ref i) (hd : DerefTo heap nc e) : DerefTo heap (.ref i) e := by
  obtain ⟨n, hn⟩ := hd
  exact ⟨n + 1, by simp [deref, h, hne, hn]⟩

/-- The cell `deref` returns is terminal: not a REF, or an unbound REF. -/
theorem deref_terminal (heap : Heap) :
    ∀ (n : Nat) (c d : Cell), deref heap n c = some d →
      d.tag ≠ .REF ∨ ∃ j, d = .ref j ∧ heap[j]? = some (.ref j) := by
  intro n c d h
  cases d with
  | ref j => exact Or.inr ⟨j, rfl, deref_ref_self heap n c j h⟩
  | con f k => exact Or.inl (by simp [Cell.tag])
  | int v => exact Or.inl (by simp [Cell.tag])
  | str k => exact Or.inl (by simp [Cell.tag])
  | big k => exact Or.inl (by simp [Cell.tag])
  | gbl k => exact Or.inl (by simp [Cell.tag])

theorem derefTo_terminal {heap : Heap} {d : Cell}
    (h : d.tag ≠ .REF ∨ ∃ j, d = .ref j ∧ heap[j]? = some (.ref j)) : DerefTo heap d d := by
  rcases h with h | ⟨j, rfl, hj⟩
  · exact derefTo_nonref heap d h
  · exact derefTo_self hj

theorem binds_refl (h : Heap) : Binds h h := ⟨rfl, fun _ => Or.inl rfl⟩

theorem binds_trans {h h1 h2 : Heap} (a : Binds h h1) (b : Binds h1 h2) : Binds h h2 := by
  refine ⟨by rw [b.1, a.1], ?_⟩
  intro i
  rcases a.2 i with ha | ha
  · rcases b.2 i with hb | hb
    · exact Or.inl (by rw [hb, ha])
    · exact Or.inr (by rw [← ha, hb])
  · exact Or.inr ha

theorem binds_keep {h h1 : Heap} (a : Binds h h1) {i : Nat} {c : Cell} (hc : h[i]? = some c)
    (hne : c ≠ .ref i) : h1[i]? = some c := by
  rcases a.2 i with ha | ha
  · rw [ha, hc]
  · rw [hc] at ha
    exact absurd (Option.some.inj ha) hne

theorem binds_set {h : Heap} {i : Nat} (b : Cell) (hi : h[i]? = some (.ref i)) :
    Binds h (h.set i b) := by
  refine ⟨by simp, ?_⟩
  intro j
  by_cases hj : i = j
  · subst hj
    exact Or.inr hi
  · exact Or.inl (List.getElem?_set_ne hj)

/-- A dereference chain of `h` is still there after bindings: what the end of
the chain dereferences to in `h1` is what its start dereferences to. -/
theorem binds_deref {h h1 : Heap} (a : Binds h h1) :
    ∀ (n : Nat) (c d e : Cell), deref h n c = some d → DerefTo h1 d e → DerefTo h1 c e := by
  intro n
  induction n with
  | zero =>
    intro c d e hd he
    cases c with
    | ref i => simp [deref] at hd
    | con f k => simp only [deref, Option.some.injEq] at hd; rw [hd]; exact he
    | int v => simp only [deref, Option.some.injEq] at hd; rw [hd]; exact he
    | str k => simp only [deref, Option.some.injEq] at hd; rw [hd]; exact he
    | big k => simp only [deref, Option.some.injEq] at hd; rw [hd]; exact he
    | gbl k => simp only [deref, Option.some.injEq] at hd; rw [hd]; exact he
  | succ n ih =>
    intro c d e hd he
    cases c with
    | ref i =>
      simp only [deref] at hd
      split at hd
      · simp at hd
      · rename_i nc hnc
        split_ifs at hd with heq
        · simp only [Option.some.injEq] at hd
          rw [hd]
          exact he
        · exact derefTo_step (binds_keep a hnc heq) heq (ih nc d e hd he)
    | con f k => simp only [deref, Option.some.injEq] at hd; rw [hd]; exact he
    | int v => simp only [deref, Option.some.injEq] at hd; rw [hd]; exact he
    | str k => simp only [deref, Option.some.injEq] at hd; rw [hd]; exact he
    | big k => simp only [deref, Option.some.injEq] at hd; rw [hd]; exact he
    | gbl k => simp only [deref, Option.some.injEq] at hd; rw [hd]; exact he

/-- Binding an unbound REF to a terminal cell other than itself keeps every
dereference chain finite. -/
theorem set_derefTo {h : Heap} {i : Nat} {y : Cell} (hi : h[i]? = some (.ref i))
    (hy : y.tag ≠ .REF ∨ ∃ j, y = .ref j ∧ h[j]? = some (.ref j)) (hne : y ≠ .ref i) :
    ∀ (n : Nat) (c d : Cell), deref h n c = some d → ∃ e, DerefTo (h.set i y) c e := by
  have hyy : DerefTo (h.set i y) y y := by
    rcases hy with hy | ⟨j, rfl, hj⟩
    · exact derefTo_nonref _ y hy
    · have hij : i ≠ j := fun hij => hne (by rw [hij])
      exact derefTo_self (by rw [List.getElem?_set_ne hij]; exact hj)
  have hlt : i < h.length := (List.getElem?_eq_some.1 hi).1
  have hset : (h.set i y)[i]? = some y := by
    rw [List.getElem?_set_self hlt]
  intro n
  induction n with
  | zero =>
    intro c d hd
    cases c with
    | ref k => simp [deref] at hd
    | con f k => exact ⟨_, derefTo_nonref _ _ (by simp [Cell.tag])⟩
    | int v => exact ⟨_, derefTo_nonref _ _ (by simp [Cell.tag])⟩
    | str k => exact ⟨_, derefTo_nonref _ _ (by simp [Cell.tag])⟩
    | big k => exact ⟨_, derefTo_nonref _ _ (by simp [Cell.tag])⟩
    | gbl k => exact ⟨_, derefTo_nonref _ _ (by simp [Cell.tag])⟩
  | succ n ih =>
    intro c d hd
    cases c with
    | ref k =>
      by_cases hk : k = i
      · subst hk
        exact ⟨y, derefTo_step hset hne hyy⟩
      · simp only [deref] at hd
        split at hd
        · simp at hd
        · rename_i nc hnc
          have hnc1 : (h.set i y)[k]? = some nc := by
            rw [List.getElem?_set_ne (fun h => hk h.symm)]
            exact hnc
          split_ifs at hd with heq
          · exact ⟨.ref k, derefTo_self (by rw [hnc1, heq])⟩
          · obtain ⟨e, he⟩ := ih nc d hd
            exact ⟨e, derefTo_step hnc1 heq he⟩
    | con f k => exact ⟨_, derefTo_nonref _ _ (by simp [Cell.tag])⟩
    | int v => exact ⟨_, derefTo_nonref _ _ (by simp [Cell.tag])⟩
    | str k => exact ⟨_, derefTo_nonref _ _ (by simp [Cell.tag])⟩
    | big k => exact ⟨_, derefTo_nonref _ _ (by simp [Cell.tag])⟩
    | gbl k => exact ⟨_, derefTo_nonref _ _ (by simp [Cell.tag])⟩

theorem set_refChainsEnd {h : Heap} {i : Nat} {y : Cell} (hw : RefChainsEnd h)
    (hi : h[i]? = some (.ref i))
    (hy : y.tag ≠ .REF ∨ ∃ j, y = .ref j ∧ h[j]? = some (.ref j)) (hne : y ≠ .ref i) :
    RefChainsEnd (h.set i y) := by
  intro k c hc
  by_cases hk : i = k
  · subst hk
    have hlt : i < h.length := (List.getElem?_eq_some.1 hi).1
    rw [List.getElem?_set_self hlt] at hc
    simp only [Option.some.injEq] at hc
    subst hc
    rcases hy with hy | ⟨j, rfl, hj⟩
    · exact ⟨_, derefTo_nonref _ _ hy⟩
    · have hij : i ≠ j := fun hij => hne (by rw [hij])
      exact ⟨_, derefTo_self (by rw [List.getElem?_set_ne hij]; exact hj)⟩
  · rw [List.getElem?_set_ne hk] at hc
    obtain ⟨e, n, hn⟩ := hw k c hc
    exact set_derefTo hi hy hne n c e hn

/-! ## A successful unification makes the terms equal -/

theorem equal_iter_mono {n m d : Nat} {s : TermEnv} {r : TermEnv.Step × TermEnv}
    (h : TermEnv.equal_iter n d s = some r) (hle : n ≤ m) : TermEnv.equal_iter m d s = some r := by
  unfold TermEnv.equal_iter at h ⊢
  match hst : s.stack with
  | [] => simp [hst] at h
  | [_] => simp [hst] at h
  | a0 :: b0 :: rest =>
    rw [hst] at h
    simp only at h ⊢
    cases ha : deref s.heap n a0 with
    | none => simp [ha] at h
    | some a =>
      cases hb : deref s.heap n b0 with
      | none => simp [ha, hb] at h
      | some b =>
        rw [deref_mono _ _ _ _ _ ha hle, deref_mono _ _ _ _ _ hb hle]
        simpa [ha, hb] using h

theorem equal_loop_mono (d : Nat) :
    ∀ (n m : Nat) (s : TermEnv) (r : Bool × TermEnv),
      TermEnv.equal_loop d n s = some r → n ≤ m → TermEnv.equal_loop d m s = some r := by
  intro n
  induction n with
  | zero =>
    intro m s r h _
    simp [TermEnv.equal_loop] at h
  | succ n ih =>
    intro m s r h hle
    obtain ⟨m1, rfl⟩ : ∃ m1, m = m1 + 1 := ⟨m - 1, by omega⟩
    simp only [TermEnv.equal_loop] at h ⊢
    split_ifs at h with hd
    · simp only [hd, if_true]
      cases hi : TermEnv.equal_iter n d s with
      | none => simp [hi] at h
      | some r1 =>
        rw [equal_iter_mono hi (by omega : n ≤ m1)]
        obtain ⟨st, s1⟩ := r1
        cases st with
        | done b => simpa [hi] using h
        | next =>
          simp only [hi] at h
          exact ih m1 s1 r h (by omega)
    · simpa [hd] using h

/-- The cases of one iteration of `unify_helper`. -/
theorem unify_iter_cases {fuel : Nat} {s s1 : TermEnv} {r : TermEnv.Step} {a0 b0 : Cell}
    {rest : List Cell} (hst : s.stack = a0 :: b0 :: rest)
    (h : TermEnv.unify_iter fuel s = some (r, s1)) :
    ∃ a b, deref s.heap fuel a0 = some a ∧ deref s.heap fuel b0 = some b ∧
      ((a = b ∧ r = .next ∧ s1 = { s with stack := rest }) ∨
       (∃ i y, ((a = .ref i ∧ y = b) ∨ (b = .ref i ∧ y = a)) ∧ y ≠ .ref i ∧ r = .next ∧
          ({ s with stack := rest } : TermEnv).bind (.ref i) y = some s1) ∨
       r = .done false ∨
       (a ≠ b ∧ a.tag = .STR ∧ b.tag = .STR ∧ ∃ f st, functor s.heap a = some f ∧
          functor s.heap b = some f ∧
          TermEnv.push_arg_pairs s.heap a b f.arity f.arity rest = some st ∧ r = .next ∧
          s1 = { s with stack := st })) := by
  unfold TermEnv.unify_iter at h
  rw [hst] at h
  simp only at h
  split at h
  · rename_i a b ha hb
    refine ⟨a, b, ha, hb, ?_⟩
    split_ifs at h with h1 h2 h3 h4 h5
    · simp only [Option.some.injEq, Prod.mk.injEq] at h
      exact Or.inl ⟨h1, h.1.symm, h.2.symm⟩
    · cases a <;> cases b <;> simp [Cell.tag] at h2 h3
      rename_i ia ib
      simp only at h
      split_ifs at h with hlt
      · rcases Option.map_eq_some'.1 h with ⟨s2, hs2, heq⟩
        simp only [Prod.mk.injEq] at heq
        refine Or.inr (Or.inl ⟨ib, .ref ia, Or.inr ⟨rfl, rfl⟩, ?_, heq.1.symm, ?_⟩)
        · intro hc
          simp only [Cell.ref.injEq] at hc
          omega
        · rw [← heq.2]; exact hs2
      · rcases Option.map_eq_some'.1 h with ⟨s2, hs2, heq⟩
        simp only [Prod.mk.injEq] at heq
        refine Or.inr (Or.inl ⟨ia, .ref ib, Or.inl ⟨rfl, rfl⟩, ?_, heq.1.symm, ?_⟩)
        · intro hc
          exact h1 hc.symm
        · rw [← heq.2]; exact hs2
    · cases a <;> simp [Cell.tag] at h2
      rename_i ia
      rcases Option.map_eq_some'.1 h with ⟨s2, hs2, heq⟩
      simp only [Prod.mk.injEq] at heq
      refine Or.inr (Or.inl ⟨ia, b, Or.inl ⟨rfl, rfl⟩, ?_, heq.1.symm, ?_⟩)
      · intro hc
        exact h1 hc.symm
      · rw [← heq.2]; exact hs2
    · cases b <;> simp [Cell.tag] at h4
      rename_i ib
      rcases Option.map_eq_some'.1 h with ⟨s2, hs2, heq⟩
      simp only [Prod.mk.injEq] at heq
      refine Or.inr (Or.inl ⟨ib, a, Or.inr ⟨rfl, rfl⟩, ?_, heq.1.symm, ?_⟩)
      · intro hc
        exact h1 hc
      · rw [← heq.2]; exact hs2
    · simp only [Option.some.injEq, Prod.mk.injEq] at h
      exact Or.inr (Or.inr (Or.inl h.1.symm))
    · have htag : a.tag = b.tag := by
        by_contra hne
        exact h5 hne
      split at h
      · simp only [Option.some.injEq, Prod.mk.injEq] at h
        exact Or.inr (Or.inr (Or.inl h.1.symm))
      · simp only [Option.some.injEq, Prod.mk.injEq] at h
        exact Or.inr (Or.inr (Or.inl h.1.symm))
      · rename_i hastr
        split at h
        · rename_i f fb hf hfb
          split_ifs at h with hff
          · simp only [Option.some.injEq, Prod.mk.injEq] at h
            exact Or.inr (Or.inr (Or.inl h.1.symm))
          · split at h
            · rename_i st hpush
              simp only [Option.some.injEq, Prod.mk.injEq] at h
              have hfeq : f = fb := by
                by_contra hne
                exact hff hne
              subst hfeq
              exact Or.inr (Or.inr (Or.inr ⟨h1, hastr, by rw [← htag]; exact hastr, f, st, hf,
                hfb, hpush, h.1.symm, h.2.symm⟩))
            · simp at h
        · simp at h
      · simp at h
  · simp at h

theorem derefTo_of_cell {h : Heap} (hw : RefChainsEnd h) {j : Nat} {c : Cell}
    (hc : h[j]? = some c) : ∃ e, DerefTo h (.ref j) e := by
  by_cases heq : c = .ref j
  · exact ⟨.ref j, derefTo_self (by rw [hc, heq])⟩
  · obtain ⟨e, he⟩ := hw j c hc
    exact ⟨e, derefTo_step hc heq he⟩

theorem binds_some {h h1 : Heap} (a : Binds h h1) {j : Nat} {c : Cell} (hc : h[j]? = some c) :
    ∃ c1, h1[j]? = some c1 := by
  have hlt : j < h1.length := by
    rw [a.1]
    exact (List.getElem?_eq_some.1 hc).1
  exact ⟨h1[j], List.getElem?_eq_getElem hlt⟩

/-- A terminal cell of `h` dereferences to some cell after bindings. -/
theorem binds_terminal_derefTo {h h1 : Heap} (a : Binds h h1) (hw : RefChainsEnd h1) {d : Cell}
    (hd : d.tag ≠ .REF ∨ ∃ j, d = .ref j ∧ h[j]? = some (.ref j)) : ∃ e, DerefTo h1 d e := by
  rcases hd with hd | ⟨j, rfl, hj⟩
  · exact ⟨d, derefTo_nonref _ _ hd⟩
  · obtain ⟨c1, hc1⟩ := binds_some a hj
    exact derefTo_of_cell hw hc1

/-- A cell of `h` and the cell at the same place after bindings dereference
to the same cell. -/
theorem binds_cell_sameDeref {h h1 : Heap} (a : Binds h h1) (hw : RefChainsEnd h1) {i : Nat}
    {c : Cell} (hc : h[i]? = some c) : ∃ c1, h1[i]? = some c1 ∧ SameDeref h1 c c1 := by
  obtain ⟨c1, hc1⟩ := binds_some a hc
  refine ⟨c1, hc1, ?_⟩
  obtain ⟨e, he⟩ := hw i c1 hc1
  rcases a.2 i with hsame | hself
  · rw [hc1, hc] at hsame
    simp only [Option.some.injEq] at hsame
    subst hsame
    exact ⟨e, he, he⟩
  · rw [hc] at hself
    simp only [Option.some.injEq] at hself
    subst hself
    by_cases heq : c1 = .ref i
    · subst heq
      exact ⟨e, he, he⟩
    · exact ⟨e, derefTo_step hc1 heq he, he⟩

theorem binds_functor {h h1 : Heap} (a : Binds h h1) {c f : Cell} (hf : functor h c = some f) :
    functor h1 c = some f := by
  cases c with
  | str k =>
    simp only [functor] at hf ⊢
    split at hf
    · rename_i g n hg
      rw [binds_keep a hg (by simp)]
      exact hf
    · simp at hf
  | con g n => exact hf
  | ref k => simp [functor] at hf
  | int v => simp [functor] at hf
  | big k => simp [functor] at hf
  | gbl k => simp [functor] at hf

/-- The argument pairs pushed from the heap `h` and those pushed from the heap
after bindings dereference to the same cells. -/
theorem push_arg_pairs_binds {h h1 : Heap} (hb : Binds h h1) (hw : RefChainsEnd h1)
    (a b : Cell) (n : Nat) :
    ∀ (k : Nat) (stack stack1 st : List Cell),
      TermEnv.push_arg_pairs h a b n k stack = some st →
      ∃ l l1, st = l ++ stack ∧ TermEnv.push_arg_pairs h1 a b n k stack1 = some (l1 ++ stack1) ∧
        List.Forall₂ (SameDeref h1) l l1 ∧ l.length = 2 * k := by
  intro k
  induction k with
  | zero =>
    intro stack stack1 st hp
    simp only [TermEnv.push_arg_pairs, Option.some.injEq] at hp
    exact ⟨[], [], by simp [hp], by simp [TermEnv.push_arg_pairs], List.Forall₂.nil, rfl⟩
  | succ k ih =>
    intro stack stack1 st hp
    simp only [TermEnv.push_arg_pairs] at hp
    split at hp
    · rename_i ai bi hai hbi
      have harg : ∀ (c x : Cell), arg h c (n - (n - (k + 1)) - 1) = some x →
          ∃ x1, arg h1 c (n - (n - (k + 1)) - 1) = some x1 ∧ SameDeref h1 x x1 := by
        intro c x hx
        cases c with
        | str p =>
          simp only [arg] at hx ⊢
          exact binds_cell_sameDeref hb hw hx
        | ref p => simp [arg] at hx
        | con g p => simp [arg] at hx
        | int v => simp [arg] at hx
        | big p => simp [arg] at hx
        | gbl p => simp [arg] at hx
      obtain ⟨ai1, hai1, hsa⟩ := harg a ai hai
      obtain ⟨bi1, hbi1, hsb⟩ := harg b bi hbi
      obtain ⟨l, l1, hl, hl1, hfa, hlen⟩ := ih (ai :: bi :: stack) (ai1 :: bi1 :: stack1) st hp
      refine ⟨l ++ [ai, bi], l1 ++ [ai1, bi1], by simp [hl], ?_, ?_, ?_⟩
      · simp only [TermEnv.push_arg_pairs, hai1, hbi1]
        rw [hl1]
        simp
      · exact List.rel_append hfa (List.Forall₂.cons hsa (List.Forall₂.cons hsb List.Forall₂.nil))
      · simp [hlen]
        omega
    · simp at hp

theorem equal_iter_same {n d : Nat} {st : TermEnv} {a0 b0 e : Cell} {rest : List Cell}
    (hst : st.stack = a0 :: b0 :: rest) (ha : deref st.heap n a0 = some e)
    (hb : deref st.heap n b0 = some e) :
    TermEnv.equal_iter n d st = some (.next, { st with stack := rest }) := by
  unfold TermEnv.equal_iter
  rw [hst]
  simp [ha, hb]

theorem equal_iter_str {n d : Nat} {st : TermEnv} {a0 b0 a b f : Cell} {rest st1 : List Cell}
    (hst : st.stack = a0 :: b0 :: rest) (ha : deref st.heap n a0 = some a)
    (hb : deref st.heap n b0 = some b) (hne : a ≠ b) (hta : a.tag = .STR) (htb : b.tag = .STR)
    (hfa : functor st.heap a = some f) (hfb : functor st.heap b = some f)
    (hp : TermEnv.push_arg_pairs st.heap a b f.arity f.arity rest = some st1) :
    TermEnv.equal_iter n d st = some (.next, { st with stack := st1 }) := by
  unfold TermEnv.equal_iter
  rw [hst]
  simp [ha, hb, hne, hta, htb, hfa, hfb, hp]

theorem equal_loop_next {n d : Nat} {st st1 : TermEnv} {r : Bool × TermEnv}
    (hd : d < st.stack.length) (hi : TermEnv.equal_iter n d st = some (.next, st1))
    (hl : TermEnv.equal_loop d n st1 = some r) : TermEnv.equal_loop d (n + 1) st = some r := by
  simp [TermEnv.equal_loop, hd, hi, hl]

theorem bind_heap {s s1 : TermEnv} {i : Nat} {y : Cell} (h : s.bind (.ref i) y = some s1) :
    s1.heap = s.heap.set i y ∧ s1.stack = s.stack := by
  simp only [TermEnv.bind] at h
  split_ifs at h with hlt
  simp only [Option.some.injEq] at h
  rw [← h]
  simp only [TermEnv.do_trail, TermEnv.push_trail]
  split_ifs <;> exact ⟨rfl, rfl⟩

theorem deref_sameDeref_final {h hf : Heap} (hb : Binds h hf) (hw : RefChainsEnd hf) {n : Nat}
    {c0 c1 d : Cell} (hd : deref h n c0 = some d) (hs : SameDeref hf c0 c1) {e : Cell}
    (he : DerefTo hf d e) : DerefTo hf c1 e := by
  obtain ⟨e1, h0, h1⟩ := hs
  have := binds_deref hb n c0 d e hd he
  rw [← derefTo_det this h0] at h1
  exact h1

/-- The run of `equal` on the heap a successful `unify_helper` loop leaves
follows that loop and returns true. -/
theorem unify_loop_equal (d : Nat) :
    ∀ (fuel : Nat) (s sf : TermEnv) (loc base : List Cell),
      TermEnv.unify_loop d fuel s = some (true, sf) → s.stack = loc ++ base →
      base.length = d → loc.length % 2 = 0 → RefChainsEnd s.heap →
      Binds s.heap sf.heap ∧ RefChainsEnd sf.heap ∧ sf.stack = base ∧
      ∀ loc1, List.Forall₂ (SameDeref sf.heap) loc loc1 →
        ∀ st : TermEnv, st.heap = sf.heap → st.stack = loc1 ++ base →
          ∃ n, TermEnv.equal_loop d n st = some (true, { st with stack := base }) := by
  intro fuel
  induction fuel with
  | zero =>
    intro s sf loc base h
    simp [TermEnv.unify_loop] at h
  | succ fuel ih =>
    intro s sf loc base h hst hbase heven hw
    simp only [TermEnv.unify_loop] at h
    split_ifs at h with hd
    · -- one more iteration
      have hloc : ∃ a0 b0 rest, loc = a0 :: b0 :: rest := by
        rw [hst, List.length_append] at hd
        match loc, heven, hd with
        | [], _, hd => simp at hd; omega
        | [_], heven, _ => simp at heven
        | a0 :: b0 :: rest, _, _ => exact ⟨a0, b0, rest, rfl⟩
      obtain ⟨a0, b0, rest, rfl⟩ := hloc
      have hrest : rest.length % 2 = 0 := by
        simp only [List.length_cons] at heven
        omega
      have hst1 : s.stack = a0 :: b0 :: (rest ++ base) := by simp [hst]
      cases hiter : TermEnv.unify_iter fuel s with
      | none => simp [hiter] at h
      | some r1 =>
        obtain ⟨r, s1⟩ := r1
        obtain ⟨a, b, ha, hb, hcases⟩ := unify_iter_cases hst1 hiter
        have hta := deref_terminal _ _ _ _ ha
        have htb := deref_terminal _ _ _ _ hb
        rcases hcases with ⟨hab, hr, hs1⟩ | ⟨i, y, hiy, hne, hr, hbind⟩ | hr |
            ⟨hne, htaga, htagb, f, st1, hfa, hfb, hpush, hr, hs1⟩
        · -- equal cells
          subst hr hs1 hab
          simp only [hiter] at h
          obtain ⟨hbinds, hwf, hsf, heq⟩ := ih _ sf rest base h rfl hbase hrest hw
          refine ⟨hbinds, hwf, hsf, ?_⟩
          intro loc1 hsim st hheap hstack
          obtain ⟨a1, t1, hsa, ht1, rfl⟩ := List.forall₂_cons_left_iff.1 hsim
          obtain ⟨b1, rest1, hsb, hrest1, rfl⟩ := List.forall₂_cons_left_iff.1 ht1
          obtain ⟨e, he⟩ := binds_terminal_derefTo hbinds hwf hta
          obtain ⟨n1, hn1⟩ := deref_sameDeref_final hbinds hwf ha hsa he
          obtain ⟨n2, hn2⟩ := deref_sameDeref_final hbinds hwf hb hsb he
          obtain ⟨n3, hn3⟩ := heq rest1 hrest1 { st with stack := rest1 ++ base } hheap rfl
          refine ⟨max (max n1 n2) n3 + 1, ?_⟩
          have hstack1 : st.stack = a1 :: b1 :: (rest1 ++ base) := by simp [hstack]
          refine equal_loop_next (by rw [hstack1, ← hbase]; simp; omega)
            (@equal_iter_same _ _ _ _ _ e _ hstack1 ?_ ?_) ?_
          · rw [hheap]
            exact deref_mono _ _ _ _ _ hn1 (by omega)
          · rw [hheap]
            exact deref_mono _ _ _ _ _ hn2 (by omega)
          · exact equal_loop_mono d _ _ _ _ hn3 (by omega)
        · -- a binding
          subst hr
          simp only [hiter] at h
          obtain ⟨hheap1, hstack1⟩ := bind_heap hbind
          simp only at hheap1 hstack1
          have hi : s.heap[i]? = some (.ref i) := by
            rcases hiy with ⟨rfl, _⟩ | ⟨rfl, _⟩
            · exact deref_ref_self _ _ _ _ ha
            · exact deref_ref_self _ _ _ _ hb
          have hty : y.tag ≠ .REF ∨ ∃ j, y = .ref j ∧ s.heap[j]? = some (.ref j) := by
            rcases hiy with ⟨_, rfl⟩ | ⟨_, rfl⟩
            · exact htb
            · exact hta
          have hw1 : RefChainsEnd s1.heap := by
            rw [hheap1]
            exact set_refChainsEnd hw hi hty hne
          obtain ⟨hbinds1, hwf, hsf, heq⟩ := ih s1 sf rest base h hstack1 hbase hrest hw1
          have hb01 : Binds s.heap s1.heap := by
            rw [hheap1]
            exact binds_set y hi
          have hbinds : Binds s.heap sf.heap := binds_trans hb01 hbinds1
          refine ⟨hbinds, hwf, hsf, ?_⟩
          intro loc1 hsim st hheap hstack
          obtain ⟨a1, t1, hsa, ht1, rfl⟩ := List.forall₂_cons_left_iff.1 hsim
          obtain ⟨b1, rest1, hsb, hrest1, rfl⟩ := List.forall₂_cons_left_iff.1 ht1
          have hlt : i < s.heap.length := (List.getElem?_eq_some.1 hi).1
          have hy1 : s1.heap[i]? = some y := by
            rw [hheap1, List.getElem?_set_self hlt]
          have hyf : sf.heap[i]? = some y := binds_keep hbinds1 hy1 hne
          obtain ⟨e, he⟩ := binds_terminal_derefTo hbinds hwf hty
          have hei : DerefTo sf.heap (.ref i) e := derefTo_step hyf hne he
          have hea : DerefTo sf.heap a e := by
            rcases hiy with ⟨rfl, rfl⟩ | ⟨rfl, rfl⟩
            · exact hei
            · exact he
          have heb : DerefTo sf.heap b e := by
            rcases hiy with ⟨rfl, rfl⟩ | ⟨rfl, rfl⟩
            · exact he
            · exact hei
          obtain ⟨n1, hn1⟩ := deref_sameDeref_final hbinds hwf ha hsa hea
          obtain ⟨n2, hn2⟩ := deref_sameDeref_final hbinds hwf hb hsb heb
          obtain ⟨n3, hn3⟩ := heq rest1 hrest1 { st with stack := rest1 ++ base } hheap rfl
          refine ⟨max (max n1 n2) n3 + 1, ?_⟩
          have hstack2 : st.stack = a1 :: b1 :: (rest1 ++ base) := by simp [hstack]
          refine equal_loop_next (by rw [hstack2, ← hbase]; simp; omega)
            (@equal_iter_same _ _ _ _ _ e _ hstack2 ?_ ?_) ?_
          · rw [hheap]
            exact deref_mono _ _ _ _ _ hn1 (by omega)
          · rw [hheap]
            exact deref_mono _ _ _ _ _ hn2 (by omega)
          · exact equal_loop_mono d _ _ _ _ hn3 (by omega)
        · -- the iteration returns false
          subst hr
          simp [hiter] at h
        · -- two structures
          subst hr hs1
          simp only [hiter] at h
          obtain ⟨l, hl, hlen⟩ := push_arg_pairs_append _ _ _ _ _ _ _ hpush
          obtain ⟨hbinds, hwf, hsf, heq⟩ := ih _ sf (l ++ rest) base h (by simp [hl]) hbase
            (by simp [hlen]; omega) hw
          refine ⟨hbinds, hwf, hsf, ?_⟩
          intro loc1 hsim st hheap hstack
          obtain ⟨a1, t1, hsa, ht1, rfl⟩ := List.forall₂_cons_left_iff.1 hsim
          obtain ⟨b1, rest1, hsb, hrest1, rfl⟩ := List.forall₂_cons_left_iff.1 ht1
          obtain ⟨n1, hn1⟩ := deref_sameDeref_final hbinds hwf ha hsa
            (derefTo_nonref _ a (by rw [htaga]; simp))
          obtain ⟨n2, hn2⟩ := deref_sameDeref_final hbinds hwf hb hsb
            (derefTo_nonref _ b (by rw [htagb]; simp))
          obtain ⟨l2, l1, hl2, hpush1, hsiml, _⟩ :=
            push_arg_pairs_binds hbinds hwf a b f.arity f.arity (rest ++ base) (rest1 ++ base) st1
              hpush
          have hll : l2 = l := by
            have := hl2.symm.trans hl
            exact List.append_cancel_right this
          subst hll
          obtain ⟨n3, hn3⟩ := heq (l1 ++ rest1) (List.rel_append hsiml hrest1)
            { st with stack := l1 ++ (rest1 ++ base) } hheap (by simp)
          refine ⟨max (max n1 n2) n3 + 1, ?_⟩
          have hstack2 : st.stack = a1 :: b1 :: (rest1 ++ base) := by simp [hstack]
          refine equal_loop_next (by rw [hstack2, ← hbase]; simp; omega)
            (@equal_iter_str _ _ _ _ _ a b f _ (l1 ++ (rest1 ++ base)) hstack2 ?_ ?_ hne htaga htagb
              ?_ ?_ ?_) ?_
          · rw [hheap]
            exact deref_mono _ _ _ _ _ hn1 (by omega)
          · rw [hheap]
            exact deref_mono _ _ _ _ _ hn2 (by omega)
          · rw [hheap]
            exact binds_functor hbinds hfa
          · rw [hheap]
            exact binds_functor hbinds hfb
          · rw [hheap]
            exact hpush1
          · exact equal_loop_mono d _ _ _ _ hn3 (by omega)
    · -- the loop ends
      simp only [Option.some.injEq, Prod.mk.injEq, true_and] at h
      subst h
      have hnil : loc = [] := by
        rw [hst, List.length_append, hbase] at hd
        exact List.eq_nil_of_length_eq_zero (by omega)
      subst hnil
      refine ⟨binds_refl _, hw, by simpa using hst, ?_⟩
      intro loc1 hsim st hheap hstack
      cases hsim
      refine ⟨1, ?_⟩
      have hlen : ¬ d < st.stack.length := by
        rw [hstack, ← hbase]
        simp
      simp only [TermEnv.equal_loop, hlen, if_false, Option.some.injEq, Prod.mk.injEq, true_and]
      cases st
      simp only [List.nil_append] at hstack
      simp [hstack]

theorem ref_chains_end_sound {heap : Heap} (h : ref_chains_end heap = true) :
    RefChainsEnd heap := by
  intro i c hc
  have hmem : c ∈ heap := List.getElem?_mem hc
  have := List.all_eq_true.1 h c hmem
  obtain ⟨e, he⟩ := Option.isSome_iff_exists.1 this
  exact ⟨e, _, he⟩

theorem unify_loop_first {d fuel : Nat} {s : TermEnv} {r : Bool × TermEnv} {a0 b0 : Cell}
    {rest : List Cell} (h : TermEnv.unify_loop d fuel s = some r)
    (hst : s.stack = a0 :: b0 :: rest) (hd : d < s.stack.length) :
    ∃ n a b, deref s.heap n a0 = some a ∧ deref s.heap n b0 = some b := by
  cases fuel with
  | zero => simp [TermEnv.unify_loop] at h
  | succ fuel =>
    simp only [TermEnv.unify_loop, hd, if_true] at h
    cases hiter : TermEnv.unify_iter fuel s with
    | none => simp [hiter] at h
    | some r1 =>
      obtain ⟨a, b, ha, hb, _⟩ := @unify_iter_cases fuel s r1.2 r1.1 a0 b0 rest hst hiter
      exact ⟨fuel, a, b, ha, hb⟩

/-- After a successful `unify` the loop of `equal` follows the same traversal
and finds the two terms equal. -/
theorem unify_equal_core (fuel : Nat) (s s1 : TermEnv) (a b : Cell)
    (hw : RefChainsEnd s.heap) (h : TermEnv.unify fuel s a b = some (true, s1)) :
    ∃ n, TermEnv.equal n s1 a b = some (true, s1) := by
  unfold TermEnv.unify at h
  simp only at h
  split at h
  · simp at h
  · rename_i r s2 hhelp
    cases r with
    | false =>
      simp only [Bool.not_false, if_true] at h
      split at h <;> simp at h
    | true =>
      simp only [Bool.not_true, Bool.false_eq_true, if_false, Option.some.injEq, Prod.mk.injEq,
        true_and] at h
      unfold TermEnv.unify_helper at hhelp
      have hst : (({ s with register_hb := s.register_h } : TermEnv).push b |>.push a).stack =
          [a, b] ++ s.stack := rfl
      obtain ⟨hbinds, hwf, hsf, heq⟩ := unify_loop_equal _ fuel _ s2 [a, b] s.stack hhelp hst rfl
        (by simp) hw
      obtain ⟨n0, a1, b1, ha1, hb1⟩ := @unify_loop_first _ _ _ _ a b s.stack hhelp rfl
        (by simp only [TermEnv.push, List.length_cons]; omega)
      have hsame : ∀ (c c1 : Cell), deref s.heap n0 c = some c1 → SameDeref s2.heap c c := by
        intro c c1 hc
        obtain ⟨e, he⟩ := binds_terminal_derefTo hbinds hwf (deref_terminal _ _ _ _ hc)
        have := binds_deref hbinds n0 c c1 e hc he
        exact ⟨e, this, this⟩
      have hs1 : s1.heap = s2.heap ∧ s1.stack = s.stack := by
        rw [← h]
        exact ⟨rfl, hsf⟩
      obtain ⟨n, hn⟩ := heq [a, b]
        (List.Forall₂.cons (hsame a a1 ha1) (List.Forall₂.cons (hsame b b1 hb1) List.Forall₂.nil))
        ((s1.push b).push a) hs1.1 (by simp [TermEnv.push, hs1.2])
      refine ⟨n, ?_⟩
      unfold TermEnv.equal
      rw [hs1.2, hn]
      simp only [Option.some.injEq, Prod.mk.injEq, true_and]
      cases s1
      simp only at hs1
      simp [TermEnv.push, hs1.2]

/-- C2: if `unify(a, b)` returns true on a heap whose REF chains end, then
`equal(a, b)` returns true on the resulting heap (and leaves the state as it
is). -/
theorem unify_success_equal (fuel : Nat) (s s1 : TermEnv) (a b : Cell)
    (hw : RefChainsEnd s.heap) (h : TermEnv.unify fuel s a b = some (true, s1)) :
    ∃ n, TermEnv.equal n s1 a b = some (true, s1) :=
  unify_equal_core fuel s s1 a b hw h

theorem unify_success_equal_witness :
    TermEnv.unify 100 example_unify_env (.str 5) (.str 15) = some (true, example_unified_env) ∧
    ∃ n, TermEnv.equal n example_unified_env (.str 5) (.str 15) =
      some (true, example_unified_env) :=
  ⟨by decide,
   unify_success_equal 100 example_unify_env example_unified_env (.str 5) (.str 15)
    (ref_chains_end_sound (by decide)) (by decide)⟩

/-! ## Copying a term -/

theorem extends_refl (h : Heap) : Extends h h := ⟨le_refl _, fun _ _ => rfl⟩

theorem extends_trans {h h1 h2 : Heap} (a : Extends h h1) (b : Extends h1 h2) : Extends h h2 :=
  ⟨le_trans a.1 b.1, fun j hj => by rw [b.2 j (lt_of_lt_of_le hj a.1), a.2 j hj]⟩

theorem extends_get {h h1 : Heap} (a : Extends h h1) {j : Nat} {c : Cell}
    (hc : h[j]? = some c) : h1[j]? = some c := by
  rw [a.2 j (List.getElem?_eq_some.1 hc).1]
  exact hc

theorem extends_get_back {h h1 : Heap} (a : Extends h h1) {j : Nat} {c : Cell}
    (hj : j < h.length) (hc : h1[j]? = some c) : h[j]? = some c := by
  rw [← a.2 j hj]
  exact hc

theorem extends_append (h x : Heap) : Extends h (h ++ x) :=
  ⟨by simp, fun j hj => List.getElem?_append_left hj⟩

theorem rawTerm_extends {h h1 : Heap} (a : Extends h h1) {c : Cell} (hr : RawTerm h c) :
    RawTerm h1 c := by
  induction hr with
  | ref i => exact RawTerm.ref i
  | con f n => exact RawTerm.con f n
  | int v => exact RawTerm.int v
  | str p f n hp hlen _ ih =>
    refine RawTerm.str p f n (extends_get a hp) (le_trans hlen a.1) ?_
    intro k x hk hx
    exact ih k x hk (extends_get_back a (by omega) hx)

theorem copyOf_extends {h h1 : Heap} {m m1 : List (Cell × Cell)} (a : Extends h h1)
    (hsub : ∀ key v, TermEnv.var_map_find m key = some v → TermEnv.var_map_find m1 key = some v)
    {c c1 : Cell} (hc : CopyOf h m c c1) : CopyOf h1 m1 c c1 := by
  induction hc with
  | ref i v hv => exact CopyOf.ref i v (hsub _ _ hv)
  | con f n => exact CopyOf.con f n
  | int v => exact CopyOf.int v
  | str p p1 f n hp hp1 hlen hlen1 _ ih =>
    refine CopyOf.str p p1 f n (extends_get a hp) (extends_get a hp1) (le_trans hlen a.1)
      (le_trans hlen1 a.1) ?_
    intro k x x1 hk hx hx1
    exact ih k x x1 hk (extends_get_back a (by omega) hx) (extends_get_back a (by omega) hx1)

theorem varMapOk_extends {n0 : Nat} {h h1 : Heap} {m : List (Cell × Cell)} (a : Extends h h1)
    (hm : VarMapOk n0 h m) : VarMapOk n0 h1 m := by
  refine ⟨?_, hm.inj⟩
  intro key v hv
  obtain ⟨j, hj, hn, hg⟩ := hm.fresh key v hv
  exact ⟨j, hj, hn, extends_get a hg⟩

theorem copy_loop_step {d fuel : Nat} {s s1 : TermEnv} {vm vm1 : List (Cell × Cell)}
    (hd : d < s.stack.length) (hi : TermEnv.copy_iter s vm = some (s1, vm1)) :
    TermEnv.copy_loop d (fuel + 1) s vm = TermEnv.copy_loop d fuel s1 vm1 := by
  simp [TermEnv.copy_loop, hd, hi]

theorem copy_loop_mono (d : Nat) :
    ∀ (n m : Nat) (s : TermEnv) (vm : List (Cell × Cell)) (r : TermEnv × List (Cell × Cell)),
      TermEnv.copy_loop d n s vm = some r → n ≤ m → TermEnv.copy_loop d m s vm = some r := by
  intro n
  induction n with
  | zero =>
    intro m s vm r h _
    simp [TermEnv.copy_loop] at h
  | succ n ih =>
    intro m s vm r h hle
    obtain ⟨m1, rfl⟩ : ∃ m1, m = m1 + 1 := ⟨m - 1, by omega⟩
    simp only [TermEnv.copy_loop] at h ⊢
    split_ifs at h with hd
    · simp only [hd, if_true]
      cases hi : TermEnv.copy_iter s vm with
      | none => simp [hi] at h
      | some r1 =>
        simp only [hi] at h ⊢
        exact ih m1 _ _ r h (by omega)
    · simpa [hd] using h

theorem arg_items_append (l : List Cell) (a : Cell) :
    arg_items (l ++ [a]) = arg_items l ++ [.int 0, a] := by
  induction l with
  | nil => rfl
  | cons x rest ih => simp [arg_items, ih]

theorem arg_items_length (l : List Cell) : (arg_items l).length = 2 * l.length := by
  induction l with
  | nil => rfl
  | cons x rest ih => simp [arg_items, ih]; omega

/-- The arguments of the structure at `p`, as a list. -/
theorem args_list (heap : Heap) (p n : Nat) (hlen : p + 1 + n ≤ heap.length) :
    ∃ args : List Cell, args.length = n ∧ ∀ k, k < n → heap[p + 1 + k]? = args[k]? := by
  refine ⟨(heap.drop (p + 1)).take n, ?_, ?_⟩
  · simp
    omega
  · intro k hk
    rw [List.getElem?_take_of_lt hk, List.getElem?_drop]

theorem copy_push_args_spec (heap : Heap) (p n : Nat) (args : List Cell)
    (hlen : args.length = n) (hargs : ∀ k, k < n → heap[p + 1 + k]? = args[k]?) :
    ∀ (k : Nat) (stack : List Cell), k ≤ n →
      TermEnv.copy_push_args heap (.str p) n k stack = some (arg_items (args.take k) ++ stack) := by
  intro k
  induction k with
  | zero =>
    intro stack _
    simp [TermEnv.copy_push_args, arg_items]
  | succ k ih =>
    intro stack hk
    have hk1 : k < args.length := by omega
    have hidx : n - (n - (k + 1)) - 1 = k := by omega
    have harg : arg heap (.str p) k = some args[k] := by
      simp only [arg]
      rw [hargs k (by omega), List.getElem?_eq_getElem hk1]
    simp only [TermEnv.copy_push_args, hidx, harg]
    rw [ih _ (by omega)]
    have : List.take (k + 1) args = List.take k args ++ [args[k]] := by
      rw [List.take_succ, List.getElem?_eq_getElem hk1]
      rfl
    rw [this, arg_items_append]
    simp

theorem copy_set_args_spec (p n : Nat) (temp0 : List Cell) :
    ∀ (k : Nat) (vals : List Cell) (heap : Heap), vals.length = k → k ≤ n →
      p + 1 + k ≤ heap.length →
      ∃ heap1, TermEnv.copy_set_args (.str p) n k (vals.reverse ++ temp0) heap =
          some (temp0, heap1) ∧
        heap1.length = heap.length ∧ (∀ j, j < k → heap1[p + 1 + j]? = vals[j]?) ∧
        ∀ x : Nat, x < p + 1 ∨ p + 1 + k ≤ x → heap1[x]? = heap[x]? := by
  intro k
  induction k with
  | zero =>
    intro vals heap hv _ _
    have : vals = [] := List.eq_nil_of_length_eq_zero hv
    subst this
    exact ⟨heap, by simp [TermEnv.copy_set_args], rfl, by intro j hj; omega, fun _ _ => rfl⟩
  | succ k ih =>
    intro vals heap hv hk hlen
    obtain ⟨ini, last, rfl⟩ : ∃ ini last, vals = ini ++ [last] := by
      have hk1 : k < vals.length := by omega
      refine ⟨vals.take k, vals[k], ?_⟩
      have h1 : vals.take (k + 1) = vals := List.take_of_length_le (by omega)
      rw [List.take_succ, List.getElem?_eq_getElem hk1] at h1
      exact h1.symm
    have hini : ini.length = k := by simpa using hv
    have hidx : n - (n - (k + 1)) - 1 = k := by omega
    have hlt : p + 1 + k < heap.length := by omega
    obtain ⟨heap1, hrun, hl1, hget, hother⟩ := ih ini (heap.set (p + 1 + k) last) hini
      (by omega) (by simp; omega)
    refine ⟨heap1, ?_, by simpa using hl1, ?_, ?_⟩
    · rw [List.reverse_append]
      simp only [List.reverse_cons, List.reverse_nil, List.nil_append, List.singleton_append,
        List.cons_append, TermEnv.copy_set_args, hidx, set_arg, hlt, if_true]
      exact hrun
    · intro j hj
      by_cases hjk : j = k
      · subst hjk
        rw [hother (p + 1 + j) (Or.inr (le_refl _)), List.getElem?_set_self hlt,
          List.getElem?_append_right (by omega)]
        simp [hini]
      · have hjlt : j < k := by omega
        rw [hget j hjlt, List.getElem?_append_left (by omega)]
    · intro x hx
      have hne : p + 1 + k ≠ x := by omega
      rw [hother x (by omega), List.getElem?_set_ne hne]

theorem var_map_find_cons (key v c : Cell) (m : List (Cell × Cell)) :
    TermEnv.var_map_find ((key, v) :: m) c = if key = c then some v else TermEnv.var_map_find m c :=
  rfl

theorem newCellsOk_extends {n0 : Nat} {h h1 : Heap} (a : Extends h h1) (hn : NewCellsOk n0 h)
    (hnew : ∀ (j : Nat) (c : Cell), h.length ≤ j → h1[j]? = some c →
      c.tag ≠ .REF ∨ ∃ k, c = .ref k ∧ h1[k]? = some (.ref k)) : NewCellsOk n0 h1 := by
  intro j c hj hc
  by_cases hlt : j < h.length
  · rcases hn j c hj (extends_get_back a hlt hc) with h2 | ⟨k, hk, hg⟩
    · exact Or.inl h2
    · exact Or.inr ⟨k, hk, extends_get a hg⟩
  · exact hnew j c (by omega) hc

theorem copyOf_result_ok {n0 : Nat} {heap : Heap} {m : List (Cell × Cell)} {c c1 : Cell}
    (hok : VarMapOk n0 heap m) (hc : CopyOf heap m c c1) :
    c1.tag ≠ .REF ∨ ∃ k, c1 = .ref k ∧ heap[k]? = some (.ref k) := by
  cases hc with
  | ref i v hv =>
    obtain ⟨j, hj, _, hg⟩ := hok.fresh _ _ hv
    exact Or.inr ⟨j, hj, hg⟩
  | con f n => exact Or.inl (by simp [Cell.tag])
  | int v => exact Or.inl (by simp [Cell.tag])
  | str p p1 f n _ _ _ _ _ => exact Or.inl (by simp [Cell.tag])

theorem copy_item_ref {n0 d : Nat} {s : TermEnv} {vm : List (Cell × Cell)} {i : Nat}
    {rest : List Cell} (hst : s.stack = .int 0 :: .ref i :: rest) (hd : d ≤ rest.length)
    (hok : VarMapOk n0 s.heap vm) (hn0 : n0 ≤ s.heap.length) :
    ∃ k s1 vm1 c1, CopyStep n0 d s vm (.ref i) rest k s1 vm1 c1 := by
  have hdl : d < s.stack.length := by rw [hst]; simp; omega
  cases hfind : TermEnv.var_map_find vm (.ref i) with
  | some v =>
    have hiter : TermEnv.copy_iter s vm = some (({ s with stack := rest } : TermEnv).temp_push v, vm) := by
      unfold TermEnv.copy_iter
      rw [hst]
      simp [Cell.tag, hfind]
    exact ⟨1, _, vm, v, ⟨fun fuel => copy_loop_step hdl hiter, rfl, rfl, rfl, rfl, rfl,
      extends_refl _, fun _ _ h => h, hok, CopyOf.ref i v hfind, fun h => h⟩⟩
  | none =>
    have hiter : TermEnv.copy_iter s vm =
        some (({ s with stack := rest, heap := s.heap ++ [.ref s.heap.length] } : TermEnv).temp_push
          (.ref s.heap.length), (.ref i, .ref s.heap.length) :: vm) := by
      unfold TermEnv.copy_iter
      rw [hst]
      simp [Cell.tag, hfind, new_ref, TermEnv.temp_push]
    have hext : Extends s.heap (s.heap ++ [.ref s.heap.length]) := extends_append _ _
    have hsub : ∀ key v, TermEnv.var_map_find vm key = some v →
        TermEnv.var_map_find ((.ref i, .ref s.heap.length) :: vm) key = some v := by
      intro key v hv
      rw [var_map_find_cons]
      split_ifs with hk
      · rw [← hk, hfind] at hv
        simp at hv
      · exact hv
    refine ⟨1, _, _, .ref s.heap.length, ⟨fun fuel => copy_loop_step hdl hiter, rfl, rfl, rfl,
      rfl, rfl, hext, hsub, ?_, CopyOf.ref i _ (by simp [var_map_find_cons]), ?_⟩⟩
    rotate_left
    · intro hn
      show NewCellsOk n0 (s.heap ++ [Cell.ref s.heap.length])
      refine newCellsOk_extends hext hn ?_
      intro j c hj hc
      have hjl : j = s.heap.length := by
        have := (List.getElem?_eq_some.1 hc).1
        simp at this
        omega
      subst hjl
      have hcell : (s.heap ++ [Cell.ref s.heap.length])[s.heap.length]? =
          some (.ref s.heap.length) := by simp
      rw [hcell] at hc
      simp only [Option.some.injEq] at hc
      exact Or.inr ⟨s.heap.length, hc.symm, hcell⟩
    constructor
    · intro key v hv
      rw [var_map_find_cons] at hv
      split_ifs at hv with hk
      · simp only [Option.some.injEq] at hv
        refine ⟨s.heap.length, hv.symm, hn0, ?_⟩
        show (s.heap ++ [Cell.ref s.heap.length])[s.heap.length]? = _
        simp
      · obtain ⟨j, hj, hn, hg⟩ := hok.fresh key v hv
        exact ⟨j, hj, hn, extends_get hext hg⟩
    · intro k1 k2 v h1 h2
      rw [var_map_find_cons] at h1 h2
      have hold : ∀ key, TermEnv.var_map_find vm key = some v → v ≠ .ref s.heap.length := by
        intro key hv hc
        obtain ⟨j, hj, _, hg⟩ := hok.fresh key v hv
        rw [hc] at hj
        simp only [Cell.ref.injEq] at hj
        have := (List.getElem?_eq_some.1 hg).1
        omega
      split_ifs at h1 with hk1 <;> split_ifs at h2 with hk2
      · rw [← hk1, ← hk2]
      · simp only [Option.some.injEq] at h1
        exact absurd h1.symm (hold k2 h2)
      · simp only [Option.some.injEq] at h2
        exact absurd h2.symm (hold k1 h1)
      · exact hok.inj k1 k2 v h1 h2

theorem copy_item_atomic {n0 d : Nat} {s : TermEnv} {vm : List (Cell × Cell)} {c : Cell}
    {rest : List Cell} (hst : s.stack = .int 0 :: c :: rest) (hd : d ≤ rest.length)
    (hok : VarMapOk n0 s.heap vm) (hc : c.tag = .CON ∨ c.tag = .INT) :
    ∃ k s1 vm1 c1, CopyStep n0 d s vm c rest k s1 vm1 c1 := by
  have hdl : d < s.stack.length := by rw [hst]; simp; omega
  have hiter : TermEnv.copy_iter s vm = some (({ s with stack := rest } : TermEnv).temp_push c, vm) := by
    unfold TermEnv.copy_iter
    rw [hst]
    rcases hc with hc | hc <;> simp [hc]
  refine ⟨1, _, vm, c, ⟨fun fuel => copy_loop_step hdl hiter, rfl, rfl, rfl, rfl, rfl,
    extends_refl _, fun _ _ h => h, hok, ?_, fun h => h⟩⟩
  cases c with
  | con f n => exact CopyOf.con f n
  | int v => exact CopyOf.int v
  | ref i => simp [Cell.tag] at hc
  | str i => simp [Cell.tag] at hc
  | big i => simp [Cell.tag] at hc
  | gbl i => simp [Cell.tag] at hc

theorem copy_args {heap0 : Heap} {n0 : Nat} :
    ∀ (args : List Cell), (∀ a ∈ args, CopyItem heap0 n0 a) →
      ∀ (s : TermEnv) (vm : List (Cell × Cell)) (tail : List Cell) (d : Nat),
        Extends heap0 s.heap → s.stack = arg_items args ++ tail → d ≤ tail.length →
        VarMapOk n0 s.heap vm → n0 ≤ s.heap.length →
        ∃ (k : Nat) (s1 : TermEnv) (vm1 : List (Cell × Cell)) (cs : List Cell),
          (∀ fuel, TermEnv.copy_loop d (fuel + k) s vm = TermEnv.copy_loop d fuel s1 vm1) ∧
          s1.stack = tail ∧ s1.temp = cs.reverse ++ s.temp ∧ cs.length = args.length ∧
          (∀ (j : Nat) (a c1 : Cell), args[j]? = some a → cs[j]? = some c1 →
            CopyOf s1.heap vm1 a c1) ∧
          s1.trail = s.trail ∧ s1.register_hb = s.register_hb ∧ s1.register_h = s.register_h ∧
          Extends s.heap s1.heap ∧
          (∀ key v, TermEnv.var_map_find vm key = some v →
            TermEnv.var_map_find vm1 key = some v) ∧
          VarMapOk n0 s1.heap vm1 ∧ (NewCellsOk n0 s.heap → NewCellsOk n0 s1.heap) := by
  intro args
  induction args with
  | nil =>
    intro _ s vm tail d _ hst _ hok _
    refine ⟨0, s, vm, [], fun _ => rfl, by simpa [arg_items] using hst, rfl, rfl, ?_, rfl, rfl,
      rfl, extends_refl _, fun _ _ h => h, hok, fun h => h⟩
    intro j a c1 ha
    simp at ha
  | cons a rest ih =>
    intro hall s vm tail d hext hst hd hok hn0
    have hst1 : s.stack = .int 0 :: a :: (arg_items rest ++ tail) := by
      simpa [arg_items] using hst
    obtain ⟨k1, s1, vm1, c1, hstep⟩ := hall a (List.mem_cons_self _ _) s vm
      (arg_items rest ++ tail) d hext hst1 (by simp; omega) hok hn0
    obtain ⟨k2, s2, vm2, cs, hrun2, hstack2, htemp2, hlen2, hcopy2, htr2, hhb2, hh2, hext2,
        hsub2, hok2, hcells2⟩ :=
      ih (fun x hx => hall x (List.mem_cons_of_mem _ hx)) s1 vm1 tail d
        (extends_trans hext hstep.ext) hstep.stack hd hstep.ok (le_trans hn0 hstep.ext.1)
    refine ⟨k2 + k1, s2, vm2, c1 :: cs, ?_, hstack2, ?_, by simp [hlen2], ?_,
      by rw [htr2, hstep.trail], by rw [hhb2, hstep.hb], by rw [hh2, hstep.h],
      extends_trans hstep.ext hext2, fun key v h => hsub2 key v (hstep.sub key v h), hok2,
      fun h => hcells2 (hstep.cells h)⟩
    · intro fuel
      rw [← Nat.add_assoc, hstep.run, hrun2]
    · rw [htemp2, hstep.temp]
      simp
    · intro j x x1 hx hx1
      cases j with
      | zero =>
        simp only [List.getElem?_cons_zero, Option.some.injEq] at hx hx1
        subst hx hx1
        exact copyOf_extends hext2 hsub2 hstep.copy
      | succ j =>
        simp only [List.getElem?_cons_succ] at hx hx1
        exact hcopy2 j x x1 hx hx1

theorem fresh_args_length (h n : Nat) : (fresh_args h n).length = n := by
  simp [fresh_args]

theorem copy_item_str {heap0 : Heap} {n0 : Nat} {p : Nat} {f : String} {n : Nat}
    (hp : heap0[p]? = some (.con f n)) (hlen : p + 1 + n ≤ heap0.length)
    (ih : ∀ (k : Nat) (a : Cell), k < n → heap0[p + 1 + k]? = some a → CopyItem heap0 n0 a) :
    CopyItem heap0 n0 (.str p) := by
  intro s vm rest d hext hst hd hok hn0
  obtain ⟨args, hargslen, hargs⟩ := args_list heap0 p n hlen
  have hall : ∀ a ∈ args, CopyItem heap0 n0 a := by
    intro a ha
    obtain ⟨k, hk, hka⟩ := List.mem_iff_getElem.1 ha
    refine ih k a (by omega) ?_
    rw [hargs k (by omega), List.getElem?_eq_getElem hk, hka]
  have hargs_s : ∀ (h1 : Heap), Extends heap0 h1 → ∀ k, k < n → h1[p + 1 + k]? = args[k]? := by
    intro h1 he k hk
    rw [he.2 (p + 1 + k) (by omega)]
    exact hargs k hk
  have hdl : d < s.stack.length := by rw [hst]; simp; omega
  -- first visit: the arguments are pushed
  have hfun : functor s.heap (.str p) = some (.con f n) := by
    simp [functor, extends_get hext hp]
  have hiter1 : TermEnv.copy_iter s vm =
      some ({ s with stack := arg_items args ++ (.int 1 :: .str p :: rest) }, vm) := by
    unfold TermEnv.copy_iter
    rw [hst]
    have hpush := copy_push_args_spec s.heap p n args hargslen (hargs_s s.heap hext) n
      (.int 1 :: .str p :: rest) (le_refl _)
    rw [List.take_of_length_le (by omega)] at hpush
    simp [Cell.tag, hfun, Cell.arity, hpush]
  -- the arguments are processed
  obtain ⟨k2, s2, vm2, cs, hrun2, hstack2, htemp2, hlen2, hcopy2, htr2, hhb2, hh2, hext2, hsub2,
      hok2, hcells2⟩ :=
    copy_args args hall { s with stack := arg_items args ++ (.int 1 :: .str p :: rest) } vm
      (.int 1 :: .str p :: rest) d hext rfl (by simp; omega) hok hn0
  simp only at htemp2 htr2 hhb2 hh2 hext2
  -- second visit: the new structure is built
  have hext02 : Extends heap0 s2.heap := extends_trans hext hext2
  have hfun2 : functor s2.heap (.str p) = some (.con f n) := by
    simp [functor, extends_get hext02 hp]
  obtain ⟨heap3, hset, hl3, hget3, hother3⟩ := copy_set_args_spec s2.heap.length n s.temp n cs
    (s2.heap ++ .con f n :: fresh_args s2.heap.length n) (by omega) (le_refl _)
    (by simp [fresh_args_length]; omega)
  have hl3a : heap3.length = s2.heap.length + 1 + n := by
    rw [hl3]
    simp [fresh_args_length]
    omega
  have hiter3 : TermEnv.copy_iter s2 vm2 =
      some (({ s2 with stack := rest, heap := heap3, temp := s.temp } : TermEnv).temp_push
        (.str s2.heap.length), vm2) := by
    unfold TermEnv.copy_iter
    rw [hstack2]
    simp [Cell.tag, hfun2, Cell.arity, new_str, htemp2, hset]
  have hext23 : Extends s2.heap heap3 := by
    refine ⟨by omega, ?_⟩
    intro j hj
    rw [hother3 j (Or.inl (by omega)), List.getElem?_append_left hj]
  have hhead3 : heap3[s2.heap.length]? = some (.con f n) := by
    rw [hother3 _ (Or.inl (by omega)), List.getElem?_append_right (le_refl _)]
    simp
  have hdl2 : d < s2.stack.length := by rw [hstack2]; simp; omega
  refine ⟨1 + k2 + 1,
    ({ s2 with stack := rest, heap := heap3, temp := s.temp } : TermEnv).temp_push
      (.str s2.heap.length),
    vm2, .str s2.heap.length, ⟨?_, rfl, rfl, htr2, hhb2, hh2,
    extends_trans hext2 hext23, hsub2, varMapOk_extends hext23 hok2, ?_, ?_⟩⟩
  rotate_left 2
  · intro hn
    show NewCellsOk n0 heap3
    refine newCellsOk_extends hext23 (hcells2 hn) ?_
    intro j c hj hc
    by_cases hjl : j = s2.heap.length
    · subst hjl
      rw [hhead3] at hc
      simp only [Option.some.injEq] at hc
      rw [← hc]
      exact Or.inl (by simp [Cell.tag])
    · have hjlt : j < heap3.length := (List.getElem?_eq_some.1 hc).1
      obtain ⟨k, rfl⟩ : ∃ k, j = s2.heap.length + 1 + k := ⟨j - (s2.heap.length + 1), by omega⟩
      have hk : k < n := by omega
      rw [hget3 k hk] at hc
      have hka : k < args.length := by omega
      rcases copyOf_result_ok hok2 (hcopy2 k args[k] c (List.getElem?_eq_getElem hka) hc) with
        h1 | ⟨k1, hk1, hg⟩
      · exact Or.inl h1
      · exact Or.inr ⟨k1, hk1, extends_get hext23 hg⟩
  · intro fuel
    rw [← Nat.add_assoc, copy_loop_step hdl hiter1, ← Nat.add_assoc, hrun2,
      copy_loop_step hdl2 hiter3]
  · refine CopyOf.str p s2.heap.length f n (extends_get (extends_trans hext02 hext23) hp) hhead3
      (le_trans hlen (extends_trans hext02 hext23).1) (by show _ ≤ heap3.length; omega) ?_
    intro k a a1 hk ha ha1
    have ha2 : args[k]? = some a := by
      rw [← hargs_s heap3 (extends_trans hext02 hext23) k hk]
      exact ha
    have ha3 : cs[k]? = some a1 := by
      rw [← hget3 k hk]
      exact ha1
    exact copyOf_extends hext23 (fun _ _ h => h) (hcopy2 k a a1 ha2 ha3)

/-- The loop of `copy` processes every finite term. -/
theorem copy_item (heap0 : Heap) (n0 : Nat) {c : Cell} (hr : RawTerm heap0 c) :
    CopyItem heap0 n0 c := by
  induction hr with
  | ref i =>
    intro s vm rest d _ hst hd hok hn0
    exact copy_item_ref hst hd hok hn0
  | con f n =>
    intro s vm rest d _ hst hd hok _
    exact copy_item_atomic hst hd hok (Or.inl rfl)
  | int v =>
    intro s vm rest d _ hst hd hok _
    exact copy_item_atomic hst hd hok (Or.inr rfl)
  | str p f n hp hlen _ ih => exact copy_item_str hp hlen ih

/-- The result of `copy` on a finite term. -/
theorem copy_spec (s : TermEnv) (c : Cell) (hr : RawTerm s.heap c) :
    ∃ (k : Nat) (c1 : Cell) (s1 : TermEnv) (vm : List (Cell × Cell)),
      TermEnv.copy k s c = some (c1, s1) ∧ Extends s.heap s1.heap ∧
      s1.stack = s.stack ∧ s1.temp = s.temp ∧ s1.trail = s.trail ∧
      s1.register_hb = s.register_hb ∧ s1.register_h = s1.heap.length ∧
      VarMapOk s.heap.length s1.heap vm ∧ CopyOf s1.heap vm c c1 ∧
      NewCellsOk s.heap.length s1.heap := by
  obtain ⟨k, s1, vm1, c1, hstep⟩ := copy_item s.heap s.heap.length hr
    ((s.push c).push (.int 0)) [] s.stack s.stack.length (extends_refl _) rfl (le_refl _)
    ⟨by intro key v h; simp [TermEnv.var_map_find] at h,
     by intro k1 k2 v h; simp [TermEnv.var_map_find] at h⟩ (le_refl _)
  refine ⟨k + 1, c1, { s1 with register_h := s1.heap.length, temp := s.temp }, vm1, ?_,
    hstep.ext, hstep.stack, rfl, hstep.trail, hstep.hb, rfl, hstep.ok, hstep.copy, ?_⟩
  swap
  · refine hstep.cells ?_
    intro j x hj hx
    have := (List.getElem?_eq_some.1 hx).1
    simp only [TermEnv.push] at this
    omega
  unfold TermEnv.copy
  have hrun := hstep.run 1
  rw [Nat.add_comm] at hrun
  rw [show s.stack_depth = s.stack.length from rfl, hrun]
  have hend : TermEnv.copy_loop s.stack.length 1 s1 vm1 = some (s1, vm1) := by
    simp [TermEnv.copy_loop, hstep.stack]
  rw [hend]
  simp only [TermEnv.temp_pop, hstep.temp]
  rfl

theorem copy_unique {s : TermEnv} {c : Cell} {n m : Nat} {r1 r2 : Cell × TermEnv}
    (h1 : TermEnv.copy n s c = some r1) (h2 : TermEnv.copy m s c = some r2) : r1 = r2 := by
  unfold TermEnv.copy at h1 h2
  cases hl1 : TermEnv.copy_loop s.stack_depth n ((s.push c).push (.int 0)) [] with
  | none => simp [hl1] at h1
  | some x1 =>
    cases hl2 : TermEnv.copy_loop s.stack_depth m ((s.push c).push (.int 0)) [] with
    | none => simp [hl2] at h2
    | some x2 =>
      have a := copy_loop_mono _ _ (max n m) _ _ _ hl1 (le_max_left _ _)
      have b := copy_loop_mono _ _ (max n m) _ _ _ hl2 (le_max_right _ _)
      rw [a] at b
      simp only [Option.some.injEq] at b
      subst b
      rw [hl1] at h1
      rw [hl2] at h2
      simp only at h1 h2
      rw [h1] at h2
      exact Option.some.inj h2

theorem copyOf_ref_result {n0 : Nat} {heap : Heap} {m : List (Cell × Cell)} {c : Cell} {j : Nat}
    (hok : VarMapOk n0 heap m) (hc : CopyOf heap m c (.ref j)) :
    n0 ≤ j ∧ heap[j]? = some (.ref j) := by
  cases hc with
  | ref i v hv =>
    obtain ⟨j1, hj1, hn, hg⟩ := hok.fresh _ _ hv
    simp only [Cell.ref.injEq] at hj1
    subst hj1
    exact ⟨hn, hg⟩

/-- Every REF cell that occurs in a copy is one of the fresh cells of the
variable map. -/
theorem copyOf_occurs {n0 : Nat} {heap : Heap} {m : List (Cell × Cell)}
    (hok : VarMapOk n0 heap m) {c1 r : Cell} (ho : RawOccurs heap c1 r) :
    ∀ (c : Cell) (i : Nat), r = .ref i → CopyOf heap m c c1 → n0 ≤ i := by
  induction ho with
  | here x =>
    intro c i hr hc
    subst hr
    exact (copyOf_ref_result hok hc).1
  | arg p1 f n k a r hp1 hk ha _ ih =>
    intro c i hr hc
    cases hc with
    | ref i0 v hv =>
      obtain ⟨j, hj, _, _⟩ := hok.fresh _ _ hv
      simp at hj
    | str p _ f1 n1 hp hp1a hlen hlen1 hargs =>
      rw [hp1] at hp1a
      simp only [Option.some.injEq, Cell.con.injEq] at hp1a
      obtain ⟨_, hn⟩ := hp1a
      subst hn
      have hlt : p + 1 + k < heap.length := by omega
      exact ih heap[p + 1 + k] i hr
        (hargs k heap[p + 1 + k] a hk (List.getElem?_eq_getElem hlt) ha)

/-- C4: for a finite term `c`, `copy(c)` shares no REF cell with its source
and does not disturb it: every REF cell that occurs in the copy has an index
not below the heap size before the call, every heap cell below that size is
unchanged, and the depths of the work stack and of the temporary stack are as
at entry. -/
theorem copy_frame (fuel : Nat) (s s1 : TermEnv) (c c1 : Cell) (hr : RawTerm s.heap c)
    (h : TermEnv.copy fuel s c = some (c1, s1)) :
    (∀ i, RawOccurs s1.heap c1 (.ref i) → s.heap.length ≤ i) ∧
    (∀ j : Nat, j < s.heap.length → s1.heap[j]? = s.heap[j]?) ∧
    s1.stack_depth = s.stack_depth ∧ s1.temp_depth = s.temp_depth := by
  obtain ⟨k, c2, s2, vm, hcopy, hext, hstack, htemp, _, _, _, hok, hcp, _⟩ := copy_spec s c hr
  have := copy_unique h hcopy
  simp only [Prod.mk.injEq] at this
  obtain ⟨rfl, rfl⟩ := this
  refine ⟨?_, hext.2, ?_, ?_⟩
  · intro i ho
    exact copyOf_occurs hok ho c i rfl hcp
  · simp [TermEnv.stack_depth, hstack]
  · simp [TermEnv.temp_depth, htemp]

theorem term_check_raw (heap : Heap) :
    ∀ (fuel : Nat) (c : Cell), term_check heap true fuel c = true → RawTerm heap c := by
  intro fuel
  induction fuel with
  | zero =>
    intro c h
    cases c with
    | ref i => exact RawTerm.ref i
    | con f n => exact RawTerm.con f n
    | int v => exact RawTerm.int v
    | str p => simp [term_check] at h
    | big p => simp [term_check] at h
    | gbl p => simp [term_check] at h
  | succ fuel ih =>
    intro c h
    cases c with
    | ref i => exact RawTerm.ref i
    | con f n => exact RawTerm.con f n
    | int v => exact RawTerm.int v
    | str p =>
      simp only [term_check] at h
      split at h
      · rename_i f n hp
        simp only [Bool.and_eq_true, decide_eq_true_eq, List.all_eq_true, List.mem_range] at h
        refine RawTerm.str p f n hp h.1 ?_
        intro k a hk ha
        have := h.2 k hk
        rw [ha] at this
        exact ih a this
      · simp at h
    | big p => simp [term_check] at h
    | gbl p => simp [term_check] at h

theorem term_check_noRef (heap : Heap) :
    ∀ (fuel : Nat) (c : Cell), term_check heap false fuel c = true → NoRefTerm heap c := by
  intro fuel
  induction fuel with
  | zero =>
    intro c h
    cases c with
    | ref i => simp [term_check] at h
    | con f n => exact NoRefTerm.con f n
    | int v => exact NoRefTerm.int v
    | str p => simp [term_check] at h
    | big p => simp [term_check] at h
    | gbl p => simp [term_check] at h
  | succ fuel ih =>
    intro c h
    cases c with
    | ref i => simp [term_check] at h
    | con f n => exact NoRefTerm.con f n
    | int v => exact NoRefTerm.int v
    | str p =>
      simp only [term_check] at h
      split at h
      · rename_i f n hp
        simp only [Bool.and_eq_true, decide_eq_true_eq, List.all_eq_true, List.mem_range] at h
        refine NoRefTerm.str p f n hp h.1 ?_
        intro k a hk ha
        have := h.2 k hk
        rw [ha] at this
        exact ih a this
      · simp at h
    | big p => simp [term_check] at h
    | gbl p => simp [term_check] at h

theorem noRefTerm_extends {h h1 : Heap} (a : Extends h h1) {c : Cell} (hr : NoRefTerm h c) :
    NoRefTerm h1 c := by
  induction hr with
  | con f n => exact NoRefTerm.con f n
  | int v => exact NoRefTerm.int v
  | str p f n hp hlen _ ih =>
    refine NoRefTerm.str p f n (extends_get a hp) (le_trans hlen a.1) ?_
    intro k x hk hx
    exact ih k x hk (extends_get_back a (by omega) hx)

theorem arg_pairs_append (l m : List Cell) (a b : Cell) (h : l.length = m.length) :
    arg_pairs (l ++ [a]) (m ++ [b]) = arg_pairs l m ++ [a, b] := by
  induction l generalizing m with
  | nil =>
    cases m with
    | nil => rfl
    | cons y ys => simp at h
  | cons x xs ih =>
    cases m with
    | nil => simp at h
    | cons y ys =>
      simp only [List.length_cons, Nat.add_right_cancel_iff] at h
      simp [arg_pairs, ih ys h]

theorem arg_pairs_length (l m : List Cell) (h : l.length = m.length) :
    (arg_pairs l m).length = 2 * l.length := by
  induction l generalizing m with
  | nil =>
    cases m with
    | nil => rfl
    | cons y ys => simp at h
  | cons x xs ih =>
    cases m with
    | nil => simp at h
    | cons y ys =>
      simp only [List.length_cons, Nat.add_right_cancel_iff] at h
      simp [arg_pairs, ih ys h]
      omega

theorem push_arg_pairs_spec (heap : Heap) (pa pb n : Nat) (as bs : List Cell)
    (hla : as.length = n) (hlb : bs.length = n)
    (ha : ∀ k, k < n → heap[pa + 1 + k]? = as[k]?)
    (hb : ∀ k, k < n → heap[pb + 1 + k]? = bs[k]?) :
    ∀ (k : Nat) (stack : List Cell), k ≤ n →
      TermEnv.push_arg_pairs heap (.str pa) (.str pb) n k stack =
        some (arg_pairs (as.take k) (bs.take k) ++ stack) := by
  intro k
  induction k with
  | zero =>
    intro stack _
    simp [TermEnv.push_arg_pairs, arg_pairs]
  | succ k ih =>
    intro stack hk
    have hka : k < as.length := by omega
    have hkb : k < bs.length := by omega
    have hidx : n - (n - (k + 1)) - 1 = k := by omega
    have harga : arg heap (.str pa) k = some as[k] := by
      simp only [arg]
      rw [ha k (by omega), List.getElem?_eq_getElem hka]
    have hargb : arg heap (.str pb) k = some bs[k] := by
      simp only [arg]
      rw [hb k (by omega), List.getElem?_eq_getElem hkb]
    simp only [TermEnv.push_arg_pairs, hidx, harga, hargb]
    rw [ih _ (by omega)]
    have h1 : List.take (k + 1) as = List.take k as ++ [as[k]] := by
      rw [List.take_succ, List.getElem?_eq_getElem hka]
      rfl
    have h2 : List.take (k + 1) bs = List.take k bs ++ [bs[k]] := by
      rw [List.take_succ, List.getElem?_eq_getElem hkb]
      rfl
    rw [h1, h2, arg_pairs_append _ _ _ _ (by simp; omega)]
    simp

theorem equal_args {heap : Heap} :
    ∀ (as bs : List Cell), as.length = bs.length →
      (∀ (j : Nat) (a b : Cell), as[j]? = some a → bs[j]? = some b → EqualItem heap a b) →
      ∀ (st : TermEnv) (tail : List Cell) (d : Nat),
        st.heap = heap → st.stack = arg_pairs as bs ++ tail → d ≤ tail.length →
        ∃ k, ∀ fuel, TermEnv.equal_loop d (fuel + k) st =
          TermEnv.equal_loop d fuel { st with stack := tail } := by
  intro as
  induction as with
  | nil =>
    intro bs hlen _ st tail d _ hst _
    cases bs with
    | cons y ys => simp at hlen
    | nil =>
      refine ⟨0, fun fuel => ?_⟩
      have : st = { st with stack := tail } := by
        cases st
        simp only [arg_pairs, List.nil_append] at hst
        simp [hst]
      rw [← this]
      rfl
  | cons x xs ih =>
    intro bs hlen hall st tail d hheap hst hd
    cases bs with
    | nil => simp at hlen
    | cons y ys =>
      simp only [List.length_cons, Nat.add_right_cancel_iff] at hlen
      have hst1 : st.stack = x :: y :: (arg_pairs xs ys ++ tail) := by
        simpa [arg_pairs] using hst
      obtain ⟨k1, hk1⟩ := hall 0 x y (by simp) (by simp) st (arg_pairs xs ys ++ tail) d hheap hst1
        (by simp; omega)
      obtain ⟨k2, hk2⟩ := ih ys hlen
        (fun j a b ha hb => hall (j + 1) a b (by simpa using ha) (by simpa using hb))
        { st with stack := arg_pairs xs ys ++ tail } tail d hheap rfl hd
      refine ⟨k2 + k1, fun fuel => ?_⟩
      rw [← Nat.add_assoc, hk1, hk2]

theorem equal_loop_step {d fuel : Nat} {st st1 : TermEnv} (hd : d < st.stack.length)
    (hi : TermEnv.equal_iter fuel d st = some (.next, st1)) :
    TermEnv.equal_loop d (fuel + 1) st = TermEnv.equal_loop d fuel st1 := by
  simp [TermEnv.equal_loop, hd, hi]

/-- On a copy of a term without REF cells `equal` finds the copy and the term
equal. -/
theorem equal_item_of_copy {heap : Heap} {m : List (Cell × Cell)} {c c1 : Cell}
    (hc : CopyOf heap m c c1) : NoRefTerm heap c → EqualItem heap c1 c := by
  induction hc with
  | ref i v _ =>
    intro hn
    cases hn
  | con f n =>
    intro _ st rest d _ hst hd
    refine ⟨1, fun fuel => equal_loop_step (by rw [hst]; simp; omega)
      (@equal_iter_same _ _ _ _ _ (.con f n) _ hst (deref_nonref _ _ _ (by simp [Cell.tag]))
        (deref_nonref _ _ _ (by simp [Cell.tag])))⟩
  | int v =>
    intro _ st rest d _ hst hd
    refine ⟨1, fun fuel => equal_loop_step (by rw [hst]; simp; omega)
      (@equal_iter_same _ _ _ _ _ (.int v) _ hst (deref_nonref _ _ _ (by simp [Cell.tag]))
        (deref_nonref _ _ _ (by simp [Cell.tag])))⟩
  | str p p1 f n hp hp1 hlen hlen1 hargs ih =>
    intro hn st rest d hheap hst hd
    have hdl : d < st.stack.length := by rw [hst]; simp; omega
    by_cases hpp : p1 = p
    · subst hpp
      exact ⟨1, fun fuel => equal_loop_step hdl
        (@equal_iter_same _ _ _ _ _ (.str p1) _ hst (deref_nonref _ _ _ (by simp [Cell.tag]))
          (deref_nonref _ _ _ (by simp [Cell.tag])))⟩
    · obtain ⟨as, hasl, has⟩ := args_list heap p1 n hlen1
      obtain ⟨bs, hbsl, hbs⟩ := args_list heap p n hlen
      have hnargs : ∀ k a, k < n → heap[p + 1 + k]? = some a → NoRefTerm heap a := by
        cases hn with
        | str _ f1 n1 hp2 _ hall =>
          rw [hp] at hp2
          simp only [Option.some.injEq, Cell.con.injEq] at hp2
          obtain ⟨_, hn1⟩ := hp2
          subst hn1
          exact hall
      have hpush := push_arg_pairs_spec heap p1 p n as bs hasl hbsl has hbs n rest (le_refl _)
      rw [List.take_of_length_le (by omega), List.take_of_length_le (by omega)] at hpush
      have hiter : ∀ fuel, TermEnv.equal_iter fuel d st =
          some (.next, { st with stack := arg_pairs as bs ++ rest }) := by
        intro fuel
        refine @equal_iter_str _ _ _ _ _ (.str p1) (.str p) (.con f n) _ _ hst
          (deref_nonref _ _ _ (by simp [Cell.tag])) (deref_nonref _ _ _ (by simp [Cell.tag]))
          (by simpa using hpp) rfl rfl ?_ ?_ ?_
        · rw [hheap]; simp [functor, hp1]
        · rw [hheap]; simp [functor, hp]
        · rw [hheap]; exact hpush
      obtain ⟨k2, hk2⟩ := equal_args as bs (by omega)
        (by
          intro j a b ha hb
          have hj : j < n := by
            have := (List.getElem?_eq_some.1 ha).1
            omega
          have hb1 : heap[p + 1 + j]? = some b := by rw [hbs j hj]; exact hb
          have ha1 : heap[p1 + 1 + j]? = some a := by rw [has j hj]; exact ha
          exact ih j b a hj hb1 ha1 (hnargs j b hj hb1))
        { st with stack := arg_pairs as bs ++ rest } rest d hheap rfl hd
      refine ⟨k2 + 1, fun fuel => ?_⟩
      rw [← Nat.add_assoc, equal_loop_step hdl (hiter _), hk2]

/-- C4 at the term of `test_copy_term`. -/
theorem copy_frame_witness :
    TermEnv.copy 100 example_copy_env (.str 4) = some (.str 13, example_copied_env) ∧
    (∀ i, RawOccurs example_copied_env.heap (.str 13) (.ref i) →
      example_copy_env.heap.length ≤ i) ∧
    (∀ j : Nat, j < example_copy_env.heap.length →
      example_copied_env.heap[j]? = example_copy_env.heap[j]?) ∧
    example_copied_env.stack_depth = example_copy_env.stack_depth ∧
    example_copied_env.temp_depth = example_copy_env.temp_depth :=
  ⟨by decide,
   copy_frame 100 example_copy_env example_copied_env (.str 4) (.str 13)
    (term_check_raw _ 10 _ (by decide)) (by decide)⟩

/-- C3 fails as stated: after `X` is bound to `5`, the copy of `f(X, X)` is
`f(5, _)` with a fresh unbound variable where the dereferenced term holds `5`,
and `equal` of the copy and the term returns false although the term is
ground. -/
theorem copy_bound_variable_counterexample :
    (do
      let (r, s1) ← TermEnv.unify 10 example_bound_env (.ref 1) (.int 5)
      let (c1, s2) ← TermEnv.copy 10 s1 (.str 0)
      let (e, _) ← TermEnv.equal 10 s2 c1 (.str 0)
      pure (r, s1.heap, c1, s2.heap, e) :
      Option (Bool × Heap × Cell × Heap × Bool)) =
    some (true, [.con "f" 2, .int 5, .ref 1], .str 4,
      [.con "f" 2, .int 5, .ref 1, .ref 3, .con "f" 2, .int 5, .ref 3], false) := by
  decide

/-- C3 as amended: for every finite term `c`, read without dereferencing (a
REF cell counts as a variable, bound or not), `copy(c)` returns a term that is
`c` with its REF cells renamed to fresh unbound REF cells, one for each: the
same `INT` and `CON` cells and functors at the same positions, and two REF
positions of the copy hold the same cell iff the positions of `c` do; for a
`c` without REF cells `equal(c', c)` returns true. -/
theorem copy_renames (s : TermEnv) (c : Cell) (hr : RawTerm s.heap c) :
    ∃ (fuel : Nat) (c1 : Cell) (s1 : TermEnv) (m : List (Cell × Cell)),
      TermEnv.copy fuel s c = some (c1, s1) ∧
      (∀ fuel2 r, TermEnv.copy fuel2 s c = some r → r = (c1, s1)) ∧
      CopyOf s1.heap m c c1 ∧ VarMapOk s.heap.length s1.heap m ∧
      (NoRefTerm s.heap c → ∃ n, TermEnv.equal n s1 c1 c = some (true, s1)) := by
  obtain ⟨k, c1, s1, vm, hcopy, hext, _, _, _, _, _, hok, hcp, _⟩ := copy_spec s c hr
  refine ⟨k, c1, s1, vm, hcopy, fun fuel2 r h => copy_unique h hcopy, hcp, hok, ?_⟩
  intro hn
  obtain ⟨k1, hk1⟩ := equal_item_of_copy hcp (noRefTerm_extends hext hn) ((s1.push c).push c1)
    s1.stack s1.stack.length rfl rfl (le_refl _)
  refine ⟨1 + k1, ?_⟩
  unfold TermEnv.equal
  rw [hk1 1]
  have : ({ (s1.push c).push c1 with stack := s1.stack } : TermEnv) = s1 := by
    cases s1
    rfl
  rw [this]
  simp [TermEnv.equal_loop]

theorem copy_renames_witness :
    ∃ (fuel : Nat) (c1 : Cell) (s1 : TermEnv) (m : List (Cell × Cell)),
      TermEnv.copy fuel example_copy_env (.str 4) = some (c1, s1) ∧
      (∀ fuel2 r, TermEnv.copy fuel2 example_copy_env (.str 4) = some r → r = (c1, s1)) ∧
      CopyOf s1.heap m (.str 4) c1 ∧ VarMapOk example_copy_env.heap.length s1.heap m ∧
      (NoRefTerm example_copy_env.heap (.str 4) →
        ∃ n, TermEnv.equal n s1 c1 (.str 4) = some (true, s1)) :=
  copy_renames example_copy_env (.str 4) (term_check_raw _ 10 _ (by decide))

/-! ## Unifying a term with its copy -/

theorem deref_agree {h0 h2 : Heap} (hold : ∀ j : Nat, j < h0.length → h2[j]? = h0[j]?) :
    ∀ (n : Nat) (c e : Cell), deref h0 n c = some e → deref h2 n c = some e := by
  intro n
  induction n with
  | zero =>
    intro c e h
    cases c with
    | ref i => simp [deref] at h
    | con f k => simpa [deref] using h
    | int v => simpa [deref] using h
    | str k => simpa [deref] using h
    | big k => simpa [deref] using h
    | gbl k => simpa [deref] using h
  | succ n ih =>
    intro c e h
    cases c with
    | ref i =>
      cases hnc : h0[i]? with
      | none => simp [deref, hnc] at h
      | some nc =>
        have hi : i < h0.length := (List.getElem?_eq_some.1 hnc).1
        simp only [deref, hnc] at h
        simp only [deref, hold i hi, hnc]
        split_ifs at h with heq
        · simp [heq, h]
        · simp only [heq, if_false]
          exact ih nc e h
    | con f k => simpa [deref] using h
    | int v => simpa [deref] using h
    | str k => simpa [deref] using h
    | big k => simpa [deref] using h
    | gbl k => simpa [deref] using h

/-- A terminal cell of `h0` dereferences to itself in a heap with the cells of
`h0`. -/
theorem deref_terminal_agree {h0 h2 : Heap}
    (hold : ∀ j : Nat, j < h0.length → h2[j]? = h0[j]?) {e : Cell}
    (he : e.tag ≠ .REF ∨ ∃ k, e = .ref k ∧ h0[k]? = some (.ref k)) (n : Nat) :
    deref h2 (n + 1) e = some e := by
  rcases he with he | ⟨k, rfl, hk⟩
  · exact deref_nonref _ _ _ he
  · have hlt : k < h0.length := (List.getElem?_eq_some.1 hk).1
    simp [deref, hold k hlt, hk]

theorem derefTo_terminal_of {h0 : Heap} {c e : Cell} (h : DerefTo h0 c e) :
    e.tag ≠ .REF ∨ ∃ k, e = .ref k ∧ h0[k]? = some (.ref k) := by
  obtain ⟨n, hn⟩ := h
  exact deref_terminal _ _ _ _ hn

theorem unify_loop_step {d fuel : Nat} {st st1 : TermEnv} (hd : d < st.stack.length)
    (hi : TermEnv.unify_iter fuel st = some (.next, st1)) :
    TermEnv.unify_loop d (fuel + 1) st = TermEnv.unify_loop d fuel st1 := by
  simp [TermEnv.unify_loop, hd, hi]

theorem unify_iter_same {n : Nat} {st : TermEnv} {a0 b0 e : Cell} {rest : List Cell}
    (hst : st.stack = a0 :: b0 :: rest) (ha : deref st.heap n a0 = some e)
    (hb : deref st.heap n b0 = some e) :
    TermEnv.unify_iter n st = some (.next, { st with stack := rest }) := by
  unfold TermEnv.unify_iter
  rw [hst]
  simp [ha, hb]

theorem unify_iter_str {n : Nat} {st : TermEnv} {a0 b0 a b f : Cell} {rest st1 : List Cell}
    (hst : st.stack = a0 :: b0 :: rest) (ha : deref st.heap n a0 = some a)
    (hb : deref st.heap n b0 = some b) (hne : a ≠ b) (hta : a.tag = .STR) (htb : b.tag = .STR)
    (hfa : functor st.heap a = some f) (hfb : functor st.heap b = some f)
    (hp : TermEnv.push_arg_pairs st.heap a b f.arity f.arity rest = some st1) :
    TermEnv.unify_iter n st = some (.next, { st with stack := st1 }) := by
  unfold TermEnv.unify_iter
  rw [hst]
  simp [ha, hb, hne, hta, htb, hfa, hfb, hp]

theorem bind_spec (st : TermEnv) (rest : List Cell) (j : Nat) (a : Cell)
    (hj : j < st.heap.length) :
    ∃ st1, ({ st with stack := rest } : TermEnv).bind (.ref j) a = some st1 ∧
      st1.heap = st.heap.set j a ∧ st1.stack = rest := by
  simp only [TermEnv.bind, hj, if_true, TermEnv.do_trail, TermEnv.push_trail]
  split_ifs
  · exact ⟨_, rfl, rfl, rfl⟩
  · exact ⟨_, rfl, rfl, rfl⟩

/-- An unbound REF on the right is bound to a terminal cell on the left that
is not a REF or is a REF at a lower index. -/
theorem unify_iter_bind {n : Nat} {st st1 : TermEnv} {a0 b0 a : Cell} {j : Nat}
    {rest : List Cell} (hst : st.stack = a0 :: b0 :: rest) (ha : deref st.heap n a0 = some a)
    (hb : deref st.heap n b0 = some (.ref j))
    (hlow : a.tag ≠ .REF ∨ ∃ k, a = .ref k ∧ k < j)
    (hb1 : ({ st with stack := rest } : TermEnv).bind (.ref j) a = some st1) :
    TermEnv.unify_iter n st = some (.next, st1) := by
  unfold TermEnv.unify_iter
  rw [hst]
  simp only [ha, hb]
  rcases hlow with hlow | ⟨k, rfl, hk⟩
  · have hne : a ≠ .ref j := by
      intro hc
      rw [hc] at hlow
      simp [Cell.tag] at hlow
    have htb : (Cell.ref j).tag = .REF := rfl
    rw [if_neg hne, if_neg hlow, if_pos htb, hb1]
    rfl
  · have hne : Cell.ref k ≠ .ref j := by
      intro hc
      injection hc with hc
      omega
    have hta : (Cell.ref k).tag = .REF := rfl
    have htb : (Cell.ref j).tag = .REF := rfl
    rw [if_neg hne, if_pos hta, if_pos htb]
    simp only [hk, if_true, hb1]
    rfl

theorem copyUnifyInv_set {h0 h1 h2 : Heap} {vm : List (Cell × Cell)}
    (hJ : CopyUnifyInv h0 h1 vm h2) {i j : Nat} {e : Cell} (hj : h0.length ≤ j)
    (hf : TermEnv.var_map_find vm (.ref i) = some (.ref j)) (hjl : j < h2.length)
    (he : DerefTo h0 (.ref i) e) : CopyUnifyInv h0 h1 vm (h2.set j e) := by
  refine ⟨by rw [List.length_set]; exact hJ.len, ?_, ?_⟩
  · intro j1 hj1
    rw [List.getElem?_set_ne (by omega)]
    exact hJ.old j1 hj1
  · intro j1 hj1
    by_cases hjj : j1 = j
    · subst hjj
      exact Or.inr ⟨i, e, hf, by rw [List.getElem?_set_self hjl], he⟩
    · rw [List.getElem?_set_ne (fun hc => hjj hc.symm)]
      exact hJ.new j1 hj1

/-- Both sides dereference to the same cell: the pair is dropped. -/
theorem unify_item_same {h0 h1 : Heap} {vm : List (Cell × Cell)} {x y e : Cell} {st : TermEnv}
    {rest : List Cell} {d : Nat} (hJ : CopyUnifyInv h0 h1 vm st.heap)
    (hst : st.stack = x :: y :: rest) (hd : d ≤ rest.length) (F : Nat)
    (hx : ∀ fuel, F ≤ fuel → deref st.heap fuel x = some e)
    (hy : ∀ fuel, F ≤ fuel → deref st.heap fuel y = some e) :
    ∃ (k F : Nat) (st1 : TermEnv),
      (∀ fuel, F ≤ fuel → TermEnv.unify_loop d (fuel + k) st = TermEnv.unify_loop d fuel st1) ∧
      st1.stack = rest ∧ CopyUnifyInv h0 h1 vm st1.heap :=
  ⟨1, F, { st with stack := rest },
    fun fuel hf => unify_loop_step (by rw [hst]; simp; omega)
      (unify_iter_same hst (hx fuel hf) (hy fuel hf)),
    rfl, hJ⟩

theorem unify_args {h0 h1 : Heap} {vm : List (Cell × Cell)} :
    ∀ (as bs : List Cell), as.length = bs.length →
      (∀ (j : Nat) (a b : Cell), as[j]? = some a → bs[j]? = some b →
        UnifyItem h0 h1 vm a ∧ CopyPair h0 h1 vm a b) →
      ∀ (st : TermEnv) (tail : List Cell) (d : Nat),
        CopyUnifyInv h0 h1 vm st.heap → st.stack = arg_pairs as bs ++ tail → d ≤ tail.length →
        ∃ (k F : Nat) (st1 : TermEnv),
          (∀ fuel, F ≤ fuel →
            TermEnv.unify_loop d (fuel + k) st = TermEnv.unify_loop d fuel st1) ∧
          st1.stack = tail ∧ CopyUnifyInv h0 h1 vm st1.heap := by
  intro as
  induction as with
  | nil =>
    intro bs hlen _ st tail d hJ hst _
    cases bs with
    | cons y ys => simp at hlen
    | nil => exact ⟨0, 0, st, fun fuel _ => rfl, by simpa [arg_pairs] using hst, hJ⟩
  | cons x xs ih =>
    intro bs hlen hall st tail d hJ hst hd
    cases bs with
    | nil => simp at hlen
    | cons y ys =>
      simp only [List.length_cons, Nat.add_right_cancel_iff] at hlen
      have hst1 : st.stack = x :: y :: (arg_pairs xs ys ++ tail) := by
        simpa [arg_pairs] using hst
      obtain ⟨hitem, hpair⟩ := hall 0 x y (by simp) (by simp)
      obtain ⟨k1, F1, st1, hk1, hs1, hJ1⟩ := hitem y st (arg_pairs xs ys ++ tail) d hpair hJ hst1
        (by simp; omega)
      obtain ⟨k2, F2, st2, hk2, hs2, hJ2⟩ := ih ys hlen
        (fun j a b ha hb => hall (j + 1) a b (by simpa using ha) (by simpa using hb))
        st1 tail d hJ1 hs1 hd
      refine ⟨k2 + k1, max F1 F2, st2, fun fuel hf => ?_, hs2, hJ2⟩
      rw [← Nat.add_assoc, hk1 _ (by omega), hk2 _ (by omega)]

theorem deref_ref_step {h : Heap} {j : Nat} {c : Cell} (hj : h[j]? = some c) (n : Nat) :
    deref h (n + 1) (.ref j) = if c = .ref j then some (.ref j) else deref h n c := by
  simp [deref, hj]

/-- The loop of `unify_helper` processes a term of the heap `h0` paired with
its copy: only fresh variables of the copy are bound. -/
theorem unify_item {h0 h1 : Heap} {vm : List (Cell × Cell)} (hext : Extends h0 h1)
    (hvm : VarMapOk h0.length h1 vm) (hw : RefChainsEnd h0) {x : Cell} (hr : RawTerm h0 x) :
    (∃ e, DerefTo h0 x e) → UnifyItem h0 h1 vm x := by
  induction hr with
  | ref i =>
    intro hde y st rest d hp hJ hst hd
    obtain ⟨e, m, hm⟩ := hde
    have hterm := deref_terminal _ _ _ _ hm
    have hx : ∀ fuel, m ≤ fuel → deref st.heap fuel (.ref i) = some e := fun fuel hf =>
      deref_agree hJ.old _ _ _ (deref_mono _ _ _ _ _ hm hf)
    have hee : ∀ fuel, 1 ≤ fuel → deref st.heap fuel e = some e := by
      intro fuel hf
      obtain ⟨n, rfl⟩ : ∃ n, fuel = n + 1 := ⟨fuel - 1, by omega⟩
      exact deref_terminal_agree hJ.old hterm n
    have hyy : DerefTo h0 (.ref i) y → ∃ (k F : Nat) (st1 : TermEnv),
        (∀ fuel, F ≤ fuel →
          TermEnv.unify_loop d (fuel + k) st = TermEnv.unify_loop d fuel st1) ∧
        st1.stack = rest ∧ CopyUnifyInv h0 h1 vm st1.heap := by
      intro hdy
      have hye : y = e := derefTo_det hdy ⟨m, hm⟩
      subst hye
      exact unify_item_same hJ hst hd (max m 1) (fun fuel hf => hx fuel (by omega))
        (fun fuel hf => hee fuel (by omega))
    rcases hp with hc | hdy
    · cases hc with
      | ref _ v hfind =>
        obtain ⟨j, rfl, hj, hj1⟩ := hvm.fresh _ _ hfind
        have hej : e ≠ .ref j := by
          intro hc
          rcases hterm with ht | ⟨k, hk, hk1⟩
          · rw [hc] at ht
            simp [Cell.tag] at ht
          · rw [hc] at hk
            injection hk with hk
            have := (List.getElem?_eq_some.1 hk1).1
            omega
        rcases hJ.new j hj with h2 | ⟨i1, e1, hf1, h2, hd1⟩
        · rw [hj1] at h2
          have hjl : j < st.heap.length := (List.getElem?_eq_some.1 h2).1
          obtain ⟨st1, hb1, hh, hs⟩ := bind_spec st rest j e hjl
          have hlow : e.tag ≠ .REF ∨ ∃ k, e = .ref k ∧ k < j := by
            rcases hterm with ht | ⟨k, rfl, hk⟩
            · exact Or.inl ht
            · exact Or.inr ⟨k, rfl, by have := (List.getElem?_eq_some.1 hk).1; omega⟩
          refine ⟨1, max m 1, st1, ?_, hs, ?_⟩
          · intro fuel hf
            obtain ⟨n, rfl⟩ : ∃ n, fuel = n + 1 := ⟨fuel - 1, by omega⟩
            refine unify_loop_step (by rw [hst]; simp; omega)
              (unify_iter_bind hst (hx _ (by omega)) ?_ hlow hb1)
            rw [deref_ref_step h2]
            simp
          · rw [hh]
            exact copyUnifyInv_set hJ hj hfind hjl ⟨m, hm⟩
        · have hii : Cell.ref i1 = Cell.ref i := hvm.inj _ _ _ hf1 hfind
          injection hii with hii
          subst hii
          have he1 : e1 = e := derefTo_det hd1 ⟨m, hm⟩
          subst he1
          refine unify_item_same hJ hst hd (max m 2) (fun fuel hf => hx fuel (by omega)) ?_
          intro fuel hf
          obtain ⟨n, rfl⟩ : ∃ n, fuel = n + 1 := ⟨fuel - 1, by omega⟩
          rw [deref_ref_step h2, if_neg hej]
          exact hee n (by omega)
    · exact hyy hdy
  | con f n =>
    intro _ y st rest d hp hJ hst hd
    have hy : y = .con f n := by
      rcases hp with hc | hdy
      · cases hc
        rfl
      · exact derefTo_det hdy (derefTo_nonref _ _ (by simp [Cell.tag]))
    subst hy
    exact unify_item_same hJ hst hd 0 (fun fuel _ => deref_nonref _ _ _ (by simp [Cell.tag]))
      (fun fuel _ => deref_nonref _ _ _ (by simp [Cell.tag]))
  | int v =>
    intro _ y st rest d hp hJ hst hd
    have hy : y = .int v := by
      rcases hp with hc | hdy
      · cases hc
        rfl
      · exact derefTo_det hdy (derefTo_nonref _ _ (by simp [Cell.tag]))
    subst hy
    exact unify_item_same hJ hst hd 0 (fun fuel _ => deref_nonref _ _ _ (by simp [Cell.tag]))
      (fun fuel _ => deref_nonref _ _ _ (by simp [Cell.tag]))
  | str p f n hp0 hlen hargs ih =>
    intro _ y st rest d hp hJ hst hd
    have hdl : d < st.stack.length := by rw [hst]; simp; omega
    have hsame : y = .str p → ∃ (k F : Nat) (st1 : TermEnv),
        (∀ fuel, F ≤ fuel →
          TermEnv.unify_loop d (fuel + k) st = TermEnv.unify_loop d fuel st1) ∧
        st1.stack = rest ∧ CopyUnifyInv h0 h1 vm st1.heap := by
      intro hy
      subst hy
      exact unify_item_same hJ hst hd 0 (fun fuel _ => deref_nonref _ _ _ (by simp [Cell.tag]))
        (fun fuel _ => deref_nonref _ _ _ (by simp [Cell.tag]))
    rcases hp with hc | hdy
    · cases hc with
      | str _ p1 f1 n1 hq hq1 hl hl1 hcargs =>
        have hfn : f1 = f ∧ n1 = n := by
          have := extends_get hext hp0
          rw [hq] at this
          simpa using this
        obtain ⟨hf, hn⟩ := hfn
        subst hf
        subst hn
        by_cases hpp : p1 = p
        · exact hsame (by rw [hpp])
        · have hplt : p < h0.length := by omega
          have h2p : st.heap[p]? = some (.con f1 n1) := by rw [hJ.old p hplt]; exact hp0
          have h2p1 : st.heap[p1]? = some (.con f1 n1) := by
            by_cases hlt : p1 < h0.length
            · rw [hJ.old p1 hlt]
              exact extends_get_back hext hlt hq1
            · rcases hJ.new p1 (by omega) with h2 | ⟨i1, e1, hf1, _, _⟩
              · rw [h2]; exact hq1
              · obtain ⟨j, hje, _, hj1⟩ := hvm.fresh _ _ hf1
                injection hje with hje
                subst hje
                rw [hq1] at hj1
                simp at hj1
          obtain ⟨as, hasl, has⟩ := args_list st.heap p n1 (by rw [hJ.len]; exact hl)
          obtain ⟨bs, hbsl, hbs⟩ := args_list st.heap p1 n1 (by rw [hJ.len]; exact hl1)
          have hpush := push_arg_pairs_spec st.heap p p1 n1 as bs hasl hbsl has hbs n1 rest
            (le_refl _)
          rw [List.take_of_length_le (by omega), List.take_of_length_le (by omega)] at hpush
          have hiter : ∀ fuel, TermEnv.unify_iter fuel st =
              some (.next, { st with stack := arg_pairs as bs ++ rest }) := by
            intro fuel
            refine @unify_iter_str _ _ _ _ (.str p) (.str p1) (.con f1 n1) _ _ hst
              (deref_nonref _ _ _ (by simp [Cell.tag])) (deref_nonref _ _ _ (by simp [Cell.tag]))
              (by simpa using fun hc => hpp hc.symm) rfl rfl ?_ ?_ ?_
            · simp [functor, h2p]
            · simp [functor, h2p1]
            · exact hpush
          obtain ⟨k2, F2, st2, hk2, hs2, hJ2⟩ := @unify_args h0 h1 vm as bs (by omega)
            (by
              intro j a b ha hb
              have hj : j < n1 := by
                have := (List.getElem?_eq_some.1 ha).1
                omega
              have ha2 : st.heap[p + 1 + j]? = some a := by rw [has j hj]; exact ha
              have hb2 : st.heap[p1 + 1 + j]? = some b := by rw [hbs j hj]; exact hb
              have ha0 : h0[p + 1 + j]? = some a := by
                rw [← hJ.old (p + 1 + j) (by omega)]; exact ha2
              refine ⟨ih j a hj ha0 (hw _ _ ha0), ?_⟩
              have ha1 : h1[p + 1 + j]? = some a := extends_get hext ha0
              have hb1lt : p1 + 1 + j < h1.length := by omega
              have hcopy : CopyOf h1 vm a (h1[p1 + 1 + j]) :=
                hcargs j a _ hj ha1 (List.getElem?_eq_getElem hb1lt)
              have hfromh1 : st.heap[p1 + 1 + j]? = h1[p1 + 1 + j]? → CopyPair h0 h1 vm a b := by
                intro h2
                rw [hb2, List.getElem?_eq_getElem hb1lt] at h2
                injection h2 with h2
                rw [h2]
                exact Or.inl hcopy
              by_cases hlt : p1 + 1 + j < h0.length
              · apply hfromh1
                rw [hJ.old _ hlt, hext.2 _ hlt]
              · rcases hJ.new (p1 + 1 + j) (by omega) with h2 | ⟨i1, e1, hf1, h2, hd1⟩
                · exact hfromh1 h2
                · obtain ⟨j1, hje, _, hj1⟩ := hvm.fresh _ _ hf1
                  injection hje with hje
                  subst hje
                  rw [List.getElem?_eq_getElem hb1lt] at hj1
                  injection hj1 with hj1
                  rw [hj1] at hcopy
                  rw [hb2] at h2
                  injection h2 with h2
                  subst h2
                  cases hcopy with
                  | ref i2 _ hf2 =>
                    have hii : Cell.ref i1 = Cell.ref i2 := hvm.inj _ _ _ hf1 hf2
                    rw [← hii]
                    exact Or.inr hd1)
            { st with stack := arg_pairs as bs ++ rest } rest d hJ rfl hd
          refine ⟨k2 + 1, F2, st2, fun fuel hf => ?_, hs2, hJ2⟩
          rw [← Nat.add_assoc, unify_loop_step hdl (hiter _), hk2 _ hf]
    · exact hsame (derefTo_det hdy (derefTo_nonref _ _ (by simp [Cell.tag])))

theorem refChainsEnd_extends {h0 h1 : Heap} (hw : RefChainsEnd h0) (hext : Extends h0 h1)
    (hnew : NewCellsOk h0.length h1) : RefChainsEnd h1 := by
  intro i c hc
  by_cases hi : i < h0.length
  · obtain ⟨e, n, hn⟩ := hw i c (extends_get_back hext hi hc)
    exact ⟨e, n, deref_agree hext.2 _ _ _ hn⟩
  · exact ⟨c, derefTo_terminal (hnew i c (by omega) hc)⟩

/-- C5: for a finite term `t` on a heap whose REF chains end, `copy(t)`
returns a term `c1`, `unify(t, c1)` returns true, the cells of the heap that
were there before the copy are unchanged by the unification (only the fresh
variables of the copy are bound, so `t` still is the original term), and
afterwards `equal(t, c1)` returns true. -/
theorem unify_copy_succeeds (s : TermEnv) (t : Cell) (hr : RawTerm s.heap t)
    (hw : RefChainsEnd s.heap) (ht : ∃ e, DerefTo s.heap t e) :
    ∃ (n1 n2 : Nat) (c1 : Cell) (s1 s2 : TermEnv),
      TermEnv.copy n1 s t = some (c1, s1) ∧
      TermEnv.unify n2 s1 t c1 = some (true, s2) ∧
      s2.heap.length = s1.heap.length ∧
      (∀ j : Nat, j < s.heap.length → s2.heap[j]? = s.heap[j]?) ∧
      ∃ n, TermEnv.equal n s2 t c1 = some (true, s2) := by
  obtain ⟨k, c1, s1, vm, hcopy, hext, _, _, _, _, _, hok, hcp, hcells⟩ := copy_spec s t hr
  have hJ0 : CopyUnifyInv s.heap s1.heap vm s1.heap :=
    ⟨rfl, fun j hj => hext.2 j hj, fun j _ => Or.inl rfl⟩
  obtain ⟨k2, F, st1, hrun, hs1, hJ1⟩ := unify_item hext hok hw hr ht c1
    ((({ s1 with register_hb := s1.register_h } : TermEnv).push c1).push t) s1.stack
    s1.stack.length (Or.inl hcp) hJ0 rfl (le_refl _)
  have hun : TermEnv.unify (F + 1 + k2) s1 t c1 =
      some (true, { st1 with register_hb := s1.register_hb }) := by
    unfold TermEnv.unify TermEnv.unify_helper
    have hloop : TermEnv.unify_loop s1.stack.length (F + 1 + k2)
        ((({ s1 with register_hb := s1.register_h } : TermEnv).push c1).push t) =
        some (true, st1) := by
      rw [hrun (F + 1) (by omega)]
      simp [TermEnv.unify_loop, hs1]
    have hdepth : ({ s1 with register_hb := s1.register_h } : TermEnv).stack.length =
        s1.stack.length := rfl
    simp only [hdepth, hloop]
    rfl
  refine ⟨k, F + 1 + k2, c1, s1, _, hcopy, hun, hJ1.len, hJ1.old, ?_⟩
  exact unify_equal_core _ s1 _ t c1 (refChainsEnd_extends hw hext hcells) hun

theorem unify_copy_succeeds_witness :
    term_check example_copy_env.heap true 10 (.str 4) = true ∧
    ref_chains_end example_copy_env.heap = true ∧
    ∃ (n1 n2 : Nat) (c1 : Cell) (s1 s2 : TermEnv),
      TermEnv.copy n1 example_copy_env (.str 4) = some (c1, s1) ∧
      TermEnv.unify n2 s1 (.str 4) c1 = some (true, s2) ∧
      s2.heap.length = s1.heap.length ∧
      (∀ j : Nat, j < example_copy_env.heap.length →
        s2.heap[j]? = example_copy_env.heap[j]?) ∧
      ∃ n, TermEnv.equal n s2 (.str 4) c1 = some (true, s2) :=
  ⟨by decide, by decide,
   unify_copy_succeeds example_copy_env (.str 4) (term_check_raw _ 10 _ (by decide))
    (ref_chains_end_sound (by decide)) ⟨.str 4, 0, rfl⟩⟩

/-! ## Trail, binding and the heap size -/

/-- C18: for `from ≤ to ≤ trail depth`, with the recorded indices inside the
heap, `unwind_trail(from, to)` leaves every heap cell whose index is recorded
in `trail[from, to)` as the unbound cell `REF(index)`; every other heap cell,
the trail and the rest of the state are unchanged. -/
theorem unwind_trail_resets (s : TermEnv) (frm upto : Nat) (h1 : frm ≤ upto)
    (h2 : upto ≤ s.trail_depth)
    (hin : ∀ j ∈ (s.trail.drop frm).take (upto - frm), j < s.heap.length) :
    ∃ s1, s.unwind_trail frm upto = some s1 ∧ s1.trail = s.trail ∧
      s1.heap.length = s.heap.length ∧
      (∀ j ∈ (s.trail.drop frm).take (upto - frm), s1.heap[j]? = some (.ref j)) ∧
      (∀ j : Nat, j ∉ (s.trail.drop frm).take (upto - frm) → s1.heap[j]? = s.heap[j]?) ∧
      s1.stack = s.stack ∧ s1.temp = s.temp ∧ s1.register_hb = s.register_hb ∧
      s1.register_h = s.register_h := by
  obtain ⟨heap1, hrun, hlen, hcells⟩ := unwind_trail_loop_spec s.trail (upto - frm) frm s.heap hin
    (by simp only [TermEnv.trail_depth] at h2; omega)
  refine ⟨{ s with heap := heap1 }, ?_, rfl, hlen, ?_, ?_, rfl, rfl, rfl, rfl⟩
  · simp [TermEnv.unwind_trail, hrun]
  · intro j hj
    show heap1[j]? = _
    rw [hcells j, if_pos ⟨hj, hin j hj⟩]
  · intro j hj
    show heap1[j]? = _
    rw [hcells j, if_neg (fun hc => hj hc.1)]

theorem unwind_trail_resets_witness :
    ∃ s1, example_unified_env.unwind_trail 1 3 = some s1 ∧
      s1.trail = example_unified_env.trail ∧
      s1.heap.length = example_unified_env.heap.length ∧
      (∀ j ∈ (example_unified_env.trail.drop 1).take (3 - 1), s1.heap[j]? = some (.ref j)) ∧
      (∀ j : Nat, j ∉ (example_unified_env.trail.drop 1).take (3 - 1) →
        s1.heap[j]? = example_unified_env.heap[j]?) ∧
      s1.stack = example_unified_env.stack ∧ s1.temp = example_unified_env.temp ∧
      s1.register_hb = example_unified_env.register_hb ∧
      s1.register_h = example_unified_env.register_h :=
  unwind_trail_resets example_unified_env 1 3 (by decide) (by decide) (by decide)

/-- C19: `bind(a, b)` for the REF cell `a` with heap index `i` writes `b` into
`heap[i]` and changes no other heap cell; it appends `i` to the trail if
`i < HB`, and leaves the trail unchanged otherwise. -/
theorem bind_writes_and_trails (s : TermEnv) (i : Nat) (b : Cell) (hi : i < s.heap.length) :
    ∃ s1, s.bind (.ref i) b = some s1 ∧ s1.heap[i]? = some b ∧
      s1.heap.length = s.heap.length ∧
      (∀ j : Nat, j ≠ i → s1.heap[j]? = s.heap[j]?) ∧
      (i < s.register_hb → s1.trail = s.trail ++ [i]) ∧
      (¬ i < s.register_hb → s1.trail = s.trail) ∧
      s1.stack = s.stack ∧ s1.temp = s.temp ∧ s1.register_hb = s.register_hb ∧
      s1.register_h = s.register_h := by
  by_cases hb : i < s.register_hb
  · refine ⟨{ s with heap := s.heap.set i b, trail := s.trail ++ [i] }, ?_, ?_, ?_, ?_, ?_, ?_,
      rfl, rfl, rfl, rfl⟩
    · simp [TermEnv.bind, hi, TermEnv.do_trail, TermEnv.push_trail, hb]
    · simp [List.getElem?_set_self hi]
    · simp
    · intro j hj
      simp [List.getElem?_set_ne (fun hc => hj hc.symm)]
    · intro _
      rfl
    · intro hc
      exact absurd hb hc
  · refine ⟨{ s with heap := s.heap.set i b }, ?_, ?_, ?_, ?_, ?_, ?_, rfl, rfl, rfl, rfl⟩
    · simp [TermEnv.bind, hi, TermEnv.do_trail, hb]
    · simp [List.getElem?_set_self hi]
    · simp
    · intro j hj
      simp [List.getElem?_set_ne (fun hc => hj hc.symm)]
    · intro hc
      exact absurd hc hb
    · intro _
      rfl

theorem bind_writes_and_trails_witness :
    ∃ s1, ({ example_bound_env with register_hb := 3 } : TermEnv).bind (.ref 1) (.int 5) =
        some s1 ∧ s1.heap[1]? = some (.int 5) ∧
      s1.heap.length = example_bound_env.heap.length ∧
      (∀ j : Nat, j ≠ 1 → s1.heap[j]? = example_bound_env.heap[j]?) ∧
      (1 < 3 → s1.trail = example_bound_env.trail ++ [1]) ∧
      (¬ 1 < 3 → s1.trail = example_bound_env.trail) ∧
      s1.stack = example_bound_env.stack ∧ s1.temp = example_bound_env.temp ∧
      s1.register_hb = 3 ∧ s1.register_h = example_bound_env.register_h :=
  bind_writes_and_trails { example_bound_env with register_hb := 3 } 1 (.int 5) (by decide)

/-- C20 at the failing input: after `copy` of the term of `test_copy_term` the
heap has 18 cells and `heap_size()` is 18; `trim_heap(9)` cuts the heap to 9
cells, but `heap_size()` still returns 18, since `trim_heap` does not touch
`register_h_`. -/
theorem trim_heap_keeps_heap_size :
    TermEnv.copy 100 example_copy_env (.str 4) = some (.str 13, example_copied_env) ∧
    example_copied_env.heap_size = 18 ∧
    (example_copied_env.trim_heap 9).heap.length = 9 ∧
    (example_copied_env.trim_heap 9).heap_size = 18 := by
  decide

/-! ## The arithmetic evaluator -/

theorem std_lookup_op (o : Op) : Arithmetics.std.lookup (.con o.symbol 2) = some o.fn := by
  cases o <;> decide

theorem lookup_of_fn_map {a b : Arithmetics} (h : a.fn_map = b.fn_map) (f : Cell) :
    a.lookup f = b.lookup f := by
  simp [Arithmetics.lookup, h]

theorem load_fns_initial {a : Arithmetics} (h : a.InitialTable) :
    a.load_fns.fn_map = Arithmetics.std.fn_map ∧ a.load_fns.args = a.args := by
  rcases h with h | h
  · cases a
    simp only at h
    subst h
    exact ⟨rfl, rfl⟩
  · have hne : a.fn_map.length ≠ 0 := by
      rw [h]
      decide
    have hl : a.load_fns = a := by
      unfold Arithmetics.load_fns
      rw [if_pos hne]
    rw [hl]
    exact ⟨h, rfl⟩

theorem op_call (o : Op) (a b : Int) (rest : List Cell) :
    o.fn.call (.int a :: .int b :: rest) = some (.int (int_cell_value (o.apply a b))) := by
  cases o <;> rfl

theorem eval_items_append (l : List Cell) (a : Cell) :
    eval_items (l ++ [a]) = eval_items l ++ [.int 0, a] := by
  induction l with
  | nil => rfl
  | cons x xs ih => simp [eval_items, ih]

theorem eval_push_args_spec (heap : Heap) (p n : Nat) (args : List Cell)
    (hlen : args.length = n) (hargs : ∀ k, k < n → heap[p + 1 + k]? = args[k]?) :
    ∀ (k : Nat) (stack : List Cell), k ≤ n →
      Arithmetics.eval_push_args heap (.str p) n k stack =
        some (eval_items (args.take k) ++ stack) := by
  intro k
  induction k with
  | zero =>
    intro stack _
    simp [Arithmetics.eval_push_args, eval_items]
  | succ k ih =>
    intro stack hk
    have hk1 : k < args.length := by omega
    have hidx : n - (n - (k + 1)) - 1 = k := by omega
    have harg : arg heap (.str p) k = some args[k] := by
      simp only [arg]
      rw [hargs k (by omega), List.getElem?_eq_getElem hk1]
    simp only [Arithmetics.eval_push_args, hidx, harg]
    rw [ih _ (by omega)]
    have h1 : List.take (k + 1) args = List.take k args ++ [args[k]] := by
      rw [List.take_succ, List.getElem?_eq_getElem hk1]
      rfl
    rw [h1, eval_items_append]
    simp

theorem eval_loop_step {d fuel : Nat} {st st1 : Arithmetics.EvalState}
    (hd : d < st.env.stack.length) (hi : Arithmetics.eval_iter st = some (.ok (), st1)) :
    Arithmetics.eval_loop d (fuel + 1) st = Arithmetics.eval_loop d fuel st1 := by
  simp [Arithmetics.eval_loop, TermEnv.stack_depth, hd, hi]

theorem eval_loop_abort {d fuel : Nat} {st st1 : Arithmetics.EvalState} {err : InterpError}
    (hd : d < st.env.stack.length) (hi : Arithmetics.eval_iter st = some (.error err, st1)) :
    Arithmetics.eval_loop d (fuel + 1) st = some (.error err, st1) := by
  simp [Arithmetics.eval_loop, TermEnv.stack_depth, hd, hi]

/-- An `INT` cell on the work stack goes to the argument buffer. -/
theorem eval_iter_int {st : Arithmetics.EvalState} {flag : Cell} {v : Int} {rest : List Cell}
    (hst : st.env.stack = flag :: .int v :: rest) :
    Arithmetics.eval_iter st =
      some (.ok (), { st with env := { st.env with stack := rest },
                              arith := { st.arith with args := st.arith.args ++ [.int v] } }) := by
  simp [Arithmetics.eval_iter, hst, Cell.tag]

/-- First visit of a structure: its functor and its arguments are pushed. -/
theorem eval_iter_str {st : Arithmetics.EvalState} {p n : Nat} {f : String}
    {rest args : List Cell} (hst : st.env.stack = .int 0 :: .str p :: rest)
    (hp : st.env.heap[p]? = some (.con f n)) (hlen : args.length = n)
    (hargs : ∀ k, k < n → st.env.heap[p + 1 + k]? = args[k]?) :
    Arithmetics.eval_iter st =
      some (.ok (), { st with env := { st.env with
        stack := eval_items args ++ .int 1 :: .con f n :: rest } }) := by
  have hpush := eval_push_args_spec st.env.heap p n args hlen hargs n
    (.int 1 :: .con f n :: rest) (le_refl _)
  rw [List.take_of_length_le (by omega)] at hpush
  simp [Arithmetics.eval_iter, hst, Cell.tag, functor, hp, Cell.arity, TermEnv.push, hpush]

/-- Second visit of a functor of the table: the function is applied to the
last two values of the argument buffer and the result is pushed. -/
theorem eval_iter_apply {st : Arithmetics.EvalState} {o : Op} {a b : Int}
    {rest args0 : List Cell} (hst : st.env.stack = .int 1 :: .con o.symbol 2 :: rest)
    (htab : st.arith.fn_map = Arithmetics.std.fn_map)
    (hargs : st.arith.args = args0 ++ [.int a, .int b]) :
    Arithmetics.eval_iter st =
      some (.ok (),
        { arith := { st.arith with args := args0 },
          env := { st.env with
            stack := .int 1 :: .int (int_cell_value (o.apply a b)) :: rest },
          result := some (.int (int_cell_value (o.apply a b))) }) := by
  have hl : st.arith.lookup (.con o.symbol 2) = some o.fn := by
    rw [lookup_of_fn_map htab, std_lookup_op]
  have hle : 2 ≤ st.arith.args.length := by rw [hargs]; simp
  have hdrop : List.drop (st.arith.args.length - 2) st.arith.args = [.int a, .int b] := by
    rw [hargs]
    simp
  have hres : resize_back st.arith.args (st.arith.args.length - 2) (.ref 0) = args0 := by
    rw [hargs]
    simp [resize_back]
  simp [Arithmetics.eval_iter, hst, Cell.tag, hl, hle, hdrop, op_call, hres, TermEnv.push]

/-- The loop of `eval` evaluates an expression tree on the work stack: the
value of the tree is appended to the argument buffer. -/
theorem eval_item {heap : Heap} {c : Cell} {e : Expr} (h : ExprAt heap c e) :
    EvalItem heap c e := by
  induction h with
  | int v =>
    intro st rest d _ hst hd _
    refine ⟨1, st.result, by simp [Cell.tag], fun _ => rfl, fun fuel => ?_⟩
    rw [eval_loop_step (by rw [hst]; simp; omega) (eval_iter_int hst)]
    rfl
  | op o p a b l r hp ha hb _ _ iha ihb =>
    intro st rest d hheap hst hd htab
    subst hheap
    have hargs : ∀ k, k < 2 → st.env.heap[p + 1 + k]? = [a, b][k]? := by
      intro k hk
      interval_cases k
      · simpa using ha
      · simpa using hb
    have h1 := @eval_iter_str st p 2 o.symbol rest [a, b] hst hp rfl hargs
    obtain ⟨ka, resa, _, _, hka⟩ := iha
      { st with env := { st.env with
          stack := eval_items [a, b] ++ .int 1 :: .con o.symbol 2 :: rest } }
      (.int 0 :: b :: .int 1 :: .con o.symbol 2 :: rest) d rfl rfl
      (by simp only [List.length_cons]; omega) htab
    obtain ⟨kb, resb, _, _, hkb⟩ := ihb
      { arith := { st.arith with args := st.arith.args ++ [.int l.value] },
        env := { st.env with stack := .int 0 :: b :: .int 1 :: .con o.symbol 2 :: rest },
        result := resa }
      (.int 1 :: .con o.symbol 2 :: rest) d rfl rfl
      (by simp only [List.length_cons]; omega) htab
    have h3 := @eval_iter_apply
      { arith := { st.arith with args := st.arith.args ++ [.int l.value] ++ [.int r.value] },
        env := { st.env with stack := .int 1 :: .con o.symbol 2 :: rest },
        result := resb }
      o l.value r.value rest st.arith.args rfl htab (by simp)
    have h4 := @eval_iter_int
      { arith := { st.arith with args := st.arith.args },
        env := { st.env with
          stack := .int 1 :: .int (int_cell_value (o.apply l.value r.value)) :: rest },
        result := some (.int (int_cell_value (o.apply l.value r.value))) }
      (.int 1) (int_cell_value (o.apply l.value r.value)) rest rfl
    refine ⟨1 + 1 + kb + ka + 1, some (.int (Expr.op o l r).value), fun _ => rfl,
      fun hc => absurd rfl hc, fun fuel => ?_⟩
    have hk : fuel + (1 + 1 + kb + ka + 1) = fuel + 1 + 1 + kb + ka + 1 := by omega
    rw [hk, eval_loop_step (by rw [hst]; simp; omega) h1, hka, hkb,
      eval_loop_step (by simp; omega) h3, eval_loop_step (by simp; omega) h4]
    rfl

theorem eval_loop_done {d : Nat} {st : Arithmetics.EvalState} (fuel : Nat)
    (h : st.env.stack.length ≤ d) :
    Arithmetics.eval_loop d (fuel + 1) st = some (.ok (), st) := by
  have : ¬ d < st.env.stack.length := by omega
  simp [Arithmetics.eval_loop, TermEnv.stack_depth, this]

/-- What `eval` returns on an expression tree: the local `result`, which holds
the value of the tree unless the tree is a leaf. -/
theorem eval_expr (a : Arithmetics) (env : TermEnv) (c : Cell) (e : Expr)
    (htab : a.InitialTable) (h : ExprAt env.heap c e) :
    ∃ (fuel : Nat) (res : Option Cell),
      (c.tag = .STR → res = some (.int e.value)) ∧ (c.tag ≠ .STR → res = none) ∧
      a.eval fuel env c = some (.ok res, { a.load_fns with args := [] }, env) := by
  obtain ⟨hfn, _⟩ := load_fns_initial htab
  obtain ⟨k, res, h1, h2, hk⟩ := eval_item h
    { arith := a.load_fns, env := (env.push c).push (.int 0), result := none }
    env.stack env.stack.length rfl rfl (le_refl _) hfn
  refine ⟨1 + k, res, h1, h2, ?_⟩
  unfold Arithmetics.eval
  simp only [TermEnv.stack_depth]
  rw [hk 1, eval_loop_done 0 (by simp)]
  cases env
  rfl

theorem int_cell_value_modEq (x : Int) : int_cell_value x ≡ x [ZMOD 2 ^ 61] := by
  unfold int_cell_value
  have h : (x + 2 ^ 60) % 2 ^ 61 ≡ x + 2 ^ 60 [ZMOD 2 ^ 61] := Int.mod_modEq _ _
  have h2 := Int.ModEq.sub_right (2 ^ 60) h
  simpa using h2

theorem int_cell_value_congr {x y : Int} (h : x ≡ y [ZMOD 2 ^ 61]) :
    int_cell_value x = int_cell_value y := by
  unfold int_cell_value
  have h2 : (x + 2 ^ 60) % 2 ^ 61 = (y + 2 ^ 60) % 2 ^ 61 := Int.ModEq.add_right (2 ^ 60) h
  rw [h2]

theorem int_cell_value_in_range {v : Int} (h1 : -(2 ^ 60) ≤ v) (h2 : v < 2 ^ 60) :
    int_cell_value v = v := by
  unfold int_cell_value
  rw [Int.emod_eq_of_lt (by omega) (by omega)]
  omega

theorem op_apply_modEq (o : Op) {a b a1 b1 : Int} (ha : a ≡ a1 [ZMOD 2 ^ 61])
    (hb : b ≡ b1 [ZMOD 2 ^ 61]) : o.apply a b ≡ o.apply a1 b1 [ZMOD 2 ^ 61] := by
  cases o
  · exact Int.ModEq.add ha hb
  · exact Int.ModEq.sub ha hb
  · exact Int.ModEq.mul ha hb

/-- With leaves that `INT` cells can hold, the evaluation in the arithmetic of
`int_cell` is the exact value of the tree, held in 61 bits. -/
theorem value_eq_exact (e : Expr) (h : e.LeavesInRange) : e.value = int_cell_value e.exact := by
  induction e with
  | int v => exact (int_cell_value_in_range h.1 h.2).symm
  | op o l r ihl ihr =>
    simp only [Expr.value, Expr.exact]
    apply int_cell_value_congr
    apply op_apply_modEq
    · rw [ihl h.1]
      exact int_cell_value_modEq _
    · rw [ihr h.2]
      exact int_cell_value_modEq _

/-- For every expression tree with an operator at its root, built from
`INT` leaves and the binary functors for addition, subtraction and
multiplication, of every depth and shape, `eval` returns the `INT` cell whose
value is the recursive evaluation of the tree, with argument 0 as left and
argument 1 as right operand; the value is the exact one, held in the 61 bits
of a cell.  The argument buffer is empty afterwards and the term environment
is as before. -/
theorem eval_tree_value (a : Arithmetics) (env : TermEnv) (p : Nat) (e : Expr)
    (htab : a.InitialTable) (h : ExprAt env.heap (.str p) e) :
    (∃ fuel, a.eval fuel env (.str p) =
      some (.ok (some (.int e.value)), { a.load_fns with args := [] }, env)) ∧
    (e.LeavesInRange → e.value = int_cell_value e.exact) := by
  obtain ⟨fuel, res, h1, _, hev⟩ := eval_expr a env (.str p) e htab h
  rw [h1 rfl] at hev
  exact ⟨⟨fuel, hev⟩, value_eq_exact e⟩

theorem eval_tree_value_witness :
    (∃ fuel, ({ fn_map := [], args := [] } : Arithmetics).eval fuel example_expr_env (.str 6) =
      some (.ok (some (.int (-17))),
        { ({ fn_map := [], args := [] } : Arithmetics).load_fns with args := [] },
        example_expr_env)) ∧
    (example_expr.LeavesInRange → example_expr.value = int_cell_value example_expr.exact) :=
  eval_tree_value { fn_map := [], args := [] } example_expr_env 6 example_expr (Or.inl rfl)
    (ExprAt.op .sub 6 (.str 0) (.str 3) _ _ rfl rfl rfl
      (ExprAt.op .add 0 (.int 1) (.int 2) _ _ rfl rfl rfl (ExprAt.int 1) (ExprAt.int 2))
      (ExprAt.op .mul 3 (.int 4) (.int 5) _ _ rfl rfl rfl (ExprAt.int 4) (ExprAt.int 5)))

/-- C12 at the failing input: on the expression that is just the `INT` cell
`n`, the loop of `eval` moves the cell to the argument buffer and applies no
function, so the local `result` is never assigned: `eval` clears the buffer
and returns the default-constructed term, not the `INT` cell `n`. -/
theorem eval_int_returns_default (a : Arithmetics) (env : TermEnv) (n : Int) :
    a.eval 2 env (.int n) = some (.ok none, { a.load_fns with args := [] }, env) := by
  unfold Arithmetics.eval
  simp only [TermEnv.stack_depth]
  rw [eval_loop_step (by simp only [TermEnv.push, List.length_cons]; omega)
      (@eval_iter_int _ (.int 0) n env.stack rfl),
    eval_loop_done 0 (by simp)]
  cases env
  rfl

theorem eval_items_append_list (l m : List Cell) :
    eval_items (l ++ m) = eval_items l ++ eval_items m := by
  induction l with
  | nil => rfl
  | cons x xs ih => simp [eval_items, ih]

theorem std_fn_map :
    Arithmetics.std.fn_map =
      [(.con "+" 2, .plus_2), (.con "-" 2, .minus_2), (.con "*" 2, .times_2)] := by
  decide

theorem std_lookup_arity {f : String} {n : Nat} (hn : n ≠ 2) :
    Arithmetics.std.lookup (.con f n) = none := by
  have h : ¬ (2 = n) := fun hc => hn hc.symm
  simp [Arithmetics.lookup, std_fn_map, List.find?, h]

/-- An unbound variable on the work stack: `eval` aborts. -/
theorem eval_iter_ref {st : Arithmetics.EvalState} {i : Nat} {rest : List Cell}
    (hst : st.env.stack = .int 0 :: .ref i :: rest) :
    Arithmetics.eval_iter st =
      some (.error .not_sufficiently_instantiated,
        { st with env := { st.env with stack := rest } }) := by
  simp [Arithmetics.eval_iter, hst, Cell.tag]

/-- First visit of an atom: it is pushed back as a functor to apply. -/
theorem eval_iter_atom {st : Arithmetics.EvalState} {f : String} {rest : List Cell}
    (hst : st.env.stack = .int 0 :: .con f 0 :: rest) :
    Arithmetics.eval_iter st =
      some (.ok (), { st with env := { st.env with stack := .int 1 :: .con f 0 :: rest } }) := by
  simp [Arithmetics.eval_iter, hst, Cell.tag, functor, Cell.arity, TermEnv.push,
    Arithmetics.eval_push_args]

/-- Second visit of a functor without an entry in the table: `eval` aborts. -/
theorem eval_iter_undefined {st : Arithmetics.EvalState} {f : String} {n : Nat}
    {rest : List Cell} (hst : st.env.stack = .int 1 :: .con f n :: rest)
    (hl : st.arith.lookup (.con f n) = none) :
    Arithmetics.eval_iter st =
      some (.error (.undefined_function (.con f n)),
        { st with env := { st.env with stack := rest } }) := by
  simp [Arithmetics.eval_iter, hst, Cell.tag, hl]

/-- The loop of `eval` evaluates a list of expression trees on the work
stack. -/
theorem eval_args_ok {heap : Heap} :
    ∀ (xs : List Cell), (∀ x ∈ xs, ∃ e, ExprAt heap x e) →
      ∀ (st : Arithmetics.EvalState) (tail : List Cell) (d : Nat),
        st.env.heap = heap → st.env.stack = eval_items xs ++ tail → d ≤ tail.length →
        st.arith.fn_map = Arithmetics.std.fn_map →
        ∃ (k : Nat) (st1 : Arithmetics.EvalState),
          (∀ fuel, Arithmetics.eval_loop d (fuel + k) st = Arithmetics.eval_loop d fuel st1) ∧
          st1.env = { st.env with stack := tail } ∧ st1.arith.fn_map = st.arith.fn_map := by
  intro xs
  induction xs with
  | nil =>
    intro _ st tail d _ hst _ _
    refine ⟨0, st, fun _ => rfl, ?_, rfl⟩
    cases st with
    | mk arith env result =>
      cases env
      simp only [eval_items, List.nil_append] at hst
      simp [hst]
  | cons x xs ih =>
    intro hall st tail d hheap hst hd htab
    obtain ⟨e, he⟩ := hall x (List.mem_cons_self _ _)
    obtain ⟨k1, res, _, _, hk1⟩ := eval_item he st (eval_items xs ++ tail) d hheap
      (by simpa [eval_items] using hst) (by simp; omega) htab
    obtain ⟨k2, st2, hk2, henv2, htab2⟩ := ih (fun y hy => hall y (List.mem_cons_of_mem _ hy))
      { arith := { st.arith with args := st.arith.args ++ [.int e.value] },
        env := { st.env with stack := eval_items xs ++ tail }, result := res }
      tail d hheap rfl hd htab
    refine ⟨k2 + k1, st2, fun fuel => ?_, henv2, htab2⟩
    rw [← Nat.add_assoc, hk1, hk2]

theorem take_forall_exprAt {heap : Heap} {p n k : Nat} {as : List Cell} (hlen : as.length = n)
    (has : ∀ j, j < n → heap[p + 1 + j]? = as[j]?) (hk : k ≤ n)
    (hall : ∀ j x, j < k → heap[p + 1 + j]? = some x → ∃ e, ExprAt heap x e) :
    ∀ x ∈ as.take k, ∃ e, ExprAt heap x e := by
  intro x hx
  obtain ⟨j, hj, hjx⟩ := List.getElem_of_mem hx
  have hjk : j < k := by
    simp only [List.length_take] at hj
    omega
  apply hall j x hjk
  rw [has j (by omega)]
  rw [List.getElem_take] at hjx
  rw [← hjx]
  exact List.getElem?_eq_getElem _

/-- The loop of `eval` aborts on a term that holds an unbound variable or an
atom or functor without an entry in the table, with the error of the first of
them in its order of evaluation. -/
theorem abort_item {heap : Heap} {c : Cell} {err : InterpError} (h : EvalAborts heap c err) :
    AbortItem heap c err := by
  induction h with
  | ref i =>
    intro st rest d _ hst hd _
    exact ⟨0, { st with env := { st.env with stack := rest } },
      fun fuel => eval_loop_abort (by rw [hst]; simp; omega) (eval_iter_ref hst)⟩
  | atom f =>
    intro st rest d _ hst hd htab
    refine ⟨1, { st with env := { st.env with stack := rest } }, fun fuel => ?_⟩
    rw [eval_loop_step (by rw [hst]; simp; omega) (eval_iter_atom hst)]
    exact eval_loop_abort (by simp; omega)
      (@eval_iter_undefined _ f 0 rest rfl (by
        show st.arith.lookup _ = none
        rw [lookup_of_fn_map htab]
        exact std_lookup_arity (by decide)))
  | arg p f n k a err hp hlen hk hall ha _ ih =>
    intro st rest d hheap hst hd htab
    subst hheap
    obtain ⟨as, hasl, has⟩ := args_list st.env.heap p n hlen
    have h1 := @eval_iter_str st p n f rest as hst hp hasl has
    have hka : k < as.length := by omega
    have hak : as[k] = a := by
      have := has k hk
      rw [ha, List.getElem?_eq_getElem hka] at this
      injection this with this
      exact this.symm
    have hsplit : as = as.take k ++ a :: as.drop (k + 1) := by
      rw [← hak, ← List.drop_eq_getElem_cons hka, List.take_append_drop]
    have hstack : eval_items as ++ .int 1 :: .con f n :: rest =
        eval_items (as.take k) ++
          (.int 0 :: a :: (eval_items (as.drop (k + 1)) ++ .int 1 :: .con f n :: rest)) := by
      conv_lhs => rw [hsplit]
      simp [eval_items_append_list, eval_items]
    obtain ⟨k1, st1, hk1, henv1, htab1⟩ := eval_args_ok (as.take k)
      (take_forall_exprAt hasl has (by omega) hall)
      { st with env := { st.env with stack := eval_items as ++ .int 1 :: .con f n :: rest } }
      (.int 0 :: a :: (eval_items (as.drop (k + 1)) ++ .int 1 :: .con f n :: rest)) d rfl
      hstack (by simp; omega) htab
    obtain ⟨k2, st2, hk2⟩ := ih st1
      (eval_items (as.drop (k + 1)) ++ .int 1 :: .con f n :: rest) d
      (by rw [henv1]) (by rw [henv1]) (by simp; omega) (by rw [htab1]; exact htab)
    refine ⟨k2 + 1 + k1, st2, fun fuel => ?_⟩
    have hfuel : fuel + (k2 + 1 + k1) + 1 = fuel + k2 + 1 + k1 + 1 := by omega
    rw [hfuel, eval_loop_step (by rw [hst]; simp; omega) h1, hk1, hk2]
  | apply p f n hp hlen hall hl =>
    intro st rest d hheap hst hd htab
    subst hheap
    obtain ⟨as, hasl, has⟩ := args_list st.env.heap p n hlen
    have h1 := @eval_iter_str st p n f rest as hst hp hasl has
    obtain ⟨k1, st1, hk1, henv1, htab1⟩ := eval_args_ok as
      (by
        have := take_forall_exprAt hasl has (le_refl n) hall
        rwa [List.take_of_length_le (by omega)] at this)
      { st with env := { st.env with stack := eval_items as ++ .int 1 :: .con f n :: rest } }
      (.int 1 :: .con f n :: rest) d rfl rfl (by simp; omega) htab
    refine ⟨k1 + 1, { st1 with env := { st1.env with stack := rest } }, fun fuel => ?_⟩
    have hfuel : fuel + (k1 + 1) + 1 = fuel + 1 + k1 + 1 := by omega
    rw [hfuel, eval_loop_step (by rw [hst]; simp; omega) h1, hk1]
    exact eval_loop_abort (by rw [henv1]; simp; omega)
      (@eval_iter_undefined st1 f n rest (by rw [henv1])
        (by rw [lookup_of_fn_map (htab1.trans htab)]; exact hl))

theorem std_lookup_some {f : String} {n : Nat} {fn : ArithFn}
    (h : Arithmetics.std.lookup (.con f n) = some fn) : ∃ o : Op, f = o.symbol ∧ n = 2 := by
  by_cases h1 : f = "+" ∧ n = 2
  · exact ⟨.add, h1.1, h1.2⟩
  by_cases h2 : f = "-" ∧ n = 2
  · exact ⟨.sub, h2.1, h2.2⟩
  by_cases h3 : f = "*" ∧ n = 2
  · exact ⟨.mul, h3.1, h3.2⟩
  exfalso
  have e1 : ¬ ("+" = f ∧ 2 = n) := fun hc => h1 ⟨hc.1.symm, hc.2.symm⟩
  have e2 : ¬ ("-" = f ∧ 2 = n) := fun hc => h2 ⟨hc.1.symm, hc.2.symm⟩
  have e3 : ¬ ("*" = f ∧ 2 = n) := fun hc => h3 ⟨hc.1.symm, hc.2.symm⟩
  simp [Arithmetics.lookup, std_fn_map, List.find?, e1, e2, e3] at h

/-- A finite term is an expression tree, or it holds an unbound variable or
an atom or functor without an entry in the table. -/
theorem evalTerm_cases {heap : Heap} {c : Cell} (h : EvalTerm heap c) :
    (∃ e, ExprAt heap c e) ∨ (∃ err, EvalAborts heap c err) := by
  induction h with
  | int v => exact Or.inl ⟨_, ExprAt.int v⟩
  | ref i _ => exact Or.inr ⟨_, EvalAborts.ref i⟩
  | atom f => exact Or.inr ⟨_, EvalAborts.atom f⟩
  | str p f n hp hlen _ ih =>
    have hget : ∀ j, j < n → ∃ x, heap[p + 1 + j]? = some x := fun j hj =>
      ⟨heap[p + 1 + j], List.getElem?_eq_getElem (by omega)⟩
    have hpre : ∀ m, m ≤ n →
        (∀ j x, j < m → heap[p + 1 + j]? = some x → ∃ e, ExprAt heap x e) ∨
        (∃ err, EvalAborts heap (.str p) err) := by
      intro m
      induction m with
      | zero =>
        intro _
        exact Or.inl (fun j x hj _ => absurd hj (by omega))
      | succ m ihm =>
        intro hm
        rcases ihm (by omega) with hall | hab
        · obtain ⟨a, ha⟩ := hget m (by omega)
          rcases ih m a (by omega) ha with hex | ⟨err, herr⟩
          · left
            intro j x hj hx
            by_cases hjm : j = m
            · subst hjm
              rw [ha] at hx
              injection hx with hx
              subst hx
              exact hex
            · exact hall j x (by omega) hx
          · exact Or.inr ⟨err, EvalAborts.arg p f n m a err hp hlen (by omega) hall ha herr⟩
        · exact Or.inr hab
    rcases hpre n (le_refl n) with hall | hab
    · cases hl : Arithmetics.std.lookup (.con f n) with
      | none => exact Or.inr ⟨_, EvalAborts.apply p f n hp hlen hall hl⟩
      | some fn =>
        obtain ⟨o, hf, hn⟩ := std_lookup_some hl
        subst hf
        subst hn
        obtain ⟨a, ha⟩ := hget 0 (by omega)
        obtain ⟨b, hb⟩ := hget 1 (by omega)
        obtain ⟨l, hl1⟩ := hall 0 a (by omega) ha
        obtain ⟨r, hr1⟩ := hall 1 b (by omega) hb
        exact Or.inl ⟨_, ExprAt.op o p a b l r hp ha hb hl1 hr1⟩
    · exact Or.inr hab

theorem eval_loop_mono (d : Nat) :
    ∀ (n m : Nat) (st : Arithmetics.EvalState) (r : Except InterpError Unit × Arithmetics.EvalState),
      Arithmetics.eval_loop d n st = some r → n ≤ m → Arithmetics.eval_loop d m st = some r := by
  intro n
  induction n with
  | zero =>
    intro m st r h _
    simp [Arithmetics.eval_loop] at h
  | succ n ih =>
    intro m st r h hm
    obtain ⟨m1, rfl⟩ : ∃ m1, m = m1 + 1 := ⟨m - 1, by omega⟩
    simp only [Arithmetics.eval_loop] at h ⊢
    split_ifs at h ⊢ with hd
    · cases hi : Arithmetics.eval_iter st with
      | none => simp [hi] at h
      | some x =>
        obtain ⟨res, st1⟩ := x
        cases res with
        | error e => simpa [hi] using h
        | ok u =>
          simp only [hi] at h ⊢
          exact ih m1 st1 r h (by omega)
    · exact h

/-- When `eval` aborts with some fuel, it returns normally with no fuel. -/
theorem eval_abort_never_ok {a : Arithmetics} {env : TermEnv} {c : Cell} {n : Nat}
    {err : InterpError} {a1 : Arithmetics} {env1 : TermEnv}
    (h : a.eval n env c = some (.error err, a1, env1)) :
    ∀ (fuel : Nat) (res : Option Cell) (a2 : Arithmetics) (env2 : TermEnv),
      a.eval fuel env c ≠ some (.ok res, a2, env2) := by
  intro fuel res a2 env2 hok
  unfold Arithmetics.eval at h hok
  simp only at h hok
  cases h1 : Arithmetics.eval_loop env.stack_depth n
      { arith := a.load_fns, env := (env.push c).push (.int 0), result := none } with
  | none => simp [h1] at h
  | some r1 =>
    cases h2 : Arithmetics.eval_loop env.stack_depth fuel
        { arith := a.load_fns, env := (env.push c).push (.int 0), result := none } with
    | none => simp [h2] at hok
    | some r2 =>
      have e1 := eval_loop_mono _ _ (max n fuel) _ _ h1 (le_max_left _ _)
      have e2 := eval_loop_mono _ _ (max n fuel) _ _ h2 (le_max_right _ _)
      rw [e1] at e2
      injection e2 with e2
      subst e2
      obtain ⟨x, st⟩ := r1
      cases x with
      | error e => simp [h2] at hok
      | ok u => simp [h1] at h

/-- C13: on a finite term, with the initial function table, `eval` returns
normally if the term is built only from `INT` leaves and the three binary
operators; if the term holds an unbound variable or an atom or functor without
an entry in the table, `eval` aborts, with not-sufficiently-instantiated when
the first of them in its left-to-right order is an unbound variable and with
undefined-function when it is an atom or functor to apply, and it returns
normally with no amount of fuel.  Every finite term is of one of the two
kinds. -/
theorem eval_aborts_or_returns (a : Arithmetics) (env : TermEnv) (c : Cell)
    (htab : a.InitialTable) (ht : EvalTerm env.heap c) :
    ((∃ e, ExprAt env.heap c e) ∨ (∃ err, EvalAborts env.heap c err)) ∧
    ((∃ e, ExprAt env.heap c e) →
      ∃ fuel res, a.eval fuel env c = some (.ok res, { a.load_fns with args := [] }, env)) ∧
    (∀ err, EvalAborts env.heap c err →
      (∃ fuel a1 env1, a.eval fuel env c = some (.error err, a1, env1)) ∧
      ∀ (fuel : Nat) (res : Option Cell) (a2 : Arithmetics) (env2 : TermEnv),
        a.eval fuel env c ≠ some (.ok res, a2, env2)) := by
  refine ⟨evalTerm_cases ht, ?_, ?_⟩
  · rintro ⟨e, he⟩
    obtain ⟨fuel, res, _, _, hev⟩ := eval_expr a env c e htab he
    exact ⟨fuel, res, hev⟩
  · intro err herr
    obtain ⟨hfn, _⟩ := load_fns_initial htab
    obtain ⟨k, st1, hk⟩ := abort_item herr
      { arith := a.load_fns, env := (env.push c).push (.int 0), result := none }
      env.stack env.stack.length rfl rfl (le_refl _) hfn
    have hab : a.eval (0 + k + 1) env c = some (.error err, st1.arith, st1.env) := by
      unfold Arithmetics.eval
      simp only [TermEnv.stack_depth]
      rw [hk 0]
    exact ⟨⟨_, _, _, hab⟩, eval_abort_never_ok hab⟩

theorem eval_aborts_or_returns_witness :
    ((∃ e, ExprAt example_abort_env.heap (.str 2) e) ∨
      (∃ err, EvalAborts example_abort_env.heap (.str 2) err)) ∧
    ((∃ e, ExprAt example_abort_env.heap (.str 2) e) →
      ∃ fuel res, ({ fn_map := [], args := [] } : Arithmetics).eval fuel example_abort_env
          (.str 2) =
        some (.ok res, { ({ fn_map := [], args := [] } : Arithmetics).load_fns with args := [] },
          example_abort_env)) ∧
    (∀ err, EvalAborts example_abort_env.heap (.str 2) err →
      (∃ fuel a1 env1, ({ fn_map := [], args := [] } : Arithmetics).eval fuel example_abort_env
          (.str 2) = some (.error err, a1, env1)) ∧
      ∀ (fuel : Nat) (res : Option Cell) (a2 : Arithmetics) (env2 : TermEnv),
        ({ fn_map := [], args := [] } : Arithmetics).eval fuel example_abort_env (.str 2) ≠
          some (.ok res, a2, env2)) :=
  eval_aborts_or_returns { fn_map := [], args := [] } example_abort_env (.str 2) (Or.inl rfl)
    (EvalTerm.str 2 "+" 2 rfl (by decide) (fun k x hk hx => by
      have hk2 : k = 0 ∨ k = 1 := by omega
      rcases hk2 with rfl | rfl
      · have hx0 : x = .str 0 := by simpa [example_abort_env] using hx.symm
        rw [hx0]
        refine EvalTerm.str 0 "foo" 1 rfl (by decide) (fun j y hj hy => ?_)
        have hj0 : j = 0 := by omega
        subst hj0
        have hy0 : y = .int 1 := by simpa [example_abort_env] using hy.symm
        rw [hy0]
        exact EvalTerm.int 1
      · have hx1 : x = .ref 4 := by simpa [example_abort_env] using hx.symm
        rw [hx1]
        exact EvalTerm.ref 4 rfl))

/-! ## Loading a program -/

theorem run_check_env {s s1 : Interp} (h : s1.env = s.env) (fuel : Nat) (task : CheckTask)
    (rest : List CheckTask) : s1.run_check fuel task rest = s.run_check fuel task rest := by
  cases task <;> simp only [Interp.run_check, Interp.is_functor, h]

/-- A check pushes on top of the pending checks and does not look at them. -/
theorem run_check_push (s : Interp) (fuel : Nat) (task : CheckTask) (rest : List CheckTask) :
    s.run_check fuel task rest =
      (s.run_check fuel task []).map (fun r => r.map (fun st => st ++ rest)) := by
  cases task <;> simp only [Interp.run_check] <;> (repeat' split) <;>
    simp_all [Except.map]

theorem list_elements_mono (heap : Heap) :
    ∀ (n m : Nat) (t : Cell) (l : List Cell),
      Interp.list_elements heap n t = some l → n ≤ m → Interp.list_elements heap m t = some l := by
  intro n
  induction n with
  | zero =>
    intro m t l h _
    simp [Interp.list_elements] at h
  | succ n ih =>
    intro m t l h hm
    obtain ⟨m1, rfl⟩ : ∃ m1, m = m1 + 1 := ⟨m - 1, by omega⟩
    simp only [Interp.list_elements] at h ⊢
    cases hd : deref heap n t with
    | none => simp [hd] at h
    | some d =>
      rw [deref_mono heap n m1 t d hd (by omega)]
      simp only [hd] at h
      simp only
      split_ifs at h ⊢ with h1 h2
      · exact h
      · cases ha : arg heap d 0 with
        | none => simp [ha] at h
        | some x =>
          cases hb : arg heap d 1 with
          | none => simp [ha, hb] at h
          | some rest =>
            simp only [ha, hb] at h ⊢
            cases hr : Interp.list_elements heap n rest with
            | none => simp [hr] at h
            | some l1 =>
              rw [ih m1 rest l1 hr (by omega)]
              simpa [hr] using h

theorem is_functor_mono {s : Interp} {n m : Nat} {c : Cell} {b : Bool}
    (h : s.is_functor n c = some b) (hm : n ≤ m) : s.is_functor m c = some b := by
  simp only [Interp.is_functor] at h ⊢
  cases hd : deref s.env.heap n c with
  | none => simp [hd] at h
  | some d =>
    rw [deref_mono _ n m c d hd hm]
    simpa [hd] using h

theorem run_check_mono {s : Interp} {n m : Nat} {task : CheckTask} {rest st : List CheckTask}
    (h : s.run_check n task rest = some (.ok st)) (hm : n ≤ m) :
    s.run_check m task rest = some (.ok st) := by
  cases task with
  | check_program t =>
    simp only [Interp.run_check] at h ⊢
    cases hl : Interp.list_elements s.env.heap n t with
    | none => simp [hl] at h
    | some cl =>
      rw [list_elements_mono _ n m t cl hl hm]
      simpa [hl] using h
  | check_clause t => exact h
  | check_head t =>
    simp only [Interp.run_check] at h ⊢
    cases hf : s.is_functor n t with
    | none => simp [hf] at h
    | some b =>
      rw [is_functor_mono hf hm]
      simpa [hf] using h
  | check_body t =>
    simp only [Interp.run_check] at h ⊢
    cases hf : s.is_functor n t with
    | none => simp [hf] at h
    | some b =>
      rw [is_functor_mono hf hm]
      simpa [hf] using h
  | check_goal t =>
    simp only [Interp.run_check] at h ⊢
    cases hf : s.is_functor n t with
    | none => simp [hf] at h
    | some b =>
      rw [is_functor_mono hf hm]
      simpa [hf] using h

theorem syntax_check_cons (s : Interp) (n : Nat) (task : CheckTask) (rest : List CheckTask) :
    Interp.syntax_check (n + 1) { s with syntax_check_stack := task :: rest } =
      match s.run_check n task rest with
      | none => none
      | some (.error e) => some (.error e, { s with syntax_check_stack := rest })
      | some (.ok st) => Interp.syntax_check n { s with syntax_check_stack := st } := by
  simp only [Interp.syntax_check]
  rw [@run_check_env s { s with syntax_check_stack := task :: rest } rfl]

theorem syntax_check_ok_stack :
    ∀ (fuel : Nat) (s s1 : Interp), Interp.syntax_check fuel s = some (.ok (), s1) →
      s1.syntax_check_stack = [] := by
  intro fuel
  induction fuel with
  | zero =>
    intro s s1 h
    simp [Interp.syntax_check] at h
  | succ n ih =>
    intro s s1 h
    simp only [Interp.syntax_check] at h
    split at h
    · rename_i hnil
      simp only [Option.some.injEq, Prod.mk.injEq, true_and] at h
      rw [← h]
      exact hnil
    · split at h
      · simp at h
      · simp at h
      · exact ih _ _ h

theorem checksPass_nil (s : Interp) (n : Nat) : s.ChecksPass (n + 1) [] :=
  ⟨{ s with syntax_check_stack := [] }, by simp [Interp.syntax_check]⟩

theorem checksPass_env {s s1 : Interp} (h : s1.env = s.env) :
    ∀ (n : Nat) (st : List CheckTask), s.ChecksPass n st → s1.ChecksPass n st := by
  intro n
  induction n with
  | zero =>
    intro st hp
    obtain ⟨_, hp⟩ := hp
    simp [Interp.syntax_check] at hp
  | succ n ih =>
    intro st hp
    cases st with
    | nil => exact checksPass_nil _ _
    | cons task rest =>
      obtain ⟨s2, hp⟩ := hp
      rw [syntax_check_cons] at hp
      unfold Interp.ChecksPass
      rw [syntax_check_cons, run_check_env h]
      cases hr : s.run_check n task rest with
      | none => simp [hr] at hp
      | some r =>
        cases r with
        | error e => simp [hr] at hp
        | ok st1 =>
          simp only [hr] at hp ⊢
          exact ih st1 ⟨s2, hp⟩

theorem checksPass_mono {s : Interp} :
    ∀ (n m : Nat) (st : List CheckTask), s.ChecksPass n st → n ≤ m → s.ChecksPass m st := by
  intro n
  induction n with
  | zero =>
    intro m st hp _
    obtain ⟨_, hp⟩ := hp
    simp [Interp.syntax_check] at hp
  | succ n ih =>
    intro m st hp hm
    obtain ⟨m1, rfl⟩ : ∃ m1, m = m1 + 1 := ⟨m - 1, by omega⟩
    cases st with
    | nil => exact checksPass_nil _ _
    | cons task rest =>
      obtain ⟨s2, hp⟩ := hp
      rw [syntax_check_cons] at hp
      unfold Interp.ChecksPass
      rw [syntax_check_cons]
      cases hr : s.run_check n task rest with
      | none => simp [hr] at hp
      | some r =>
        cases r with
        | error e => simp [hr] at hp
        | ok st1 =>
          rw [run_check_mono hr (by omega)]
          simp only [hr] at hp ⊢
          exact ih m1 st1 ⟨s2, hp⟩ (by omega)

/-- When the pending checks `x ++ y` pass, the checks `x` pass on their own,
and so do the checks `y`. -/
theorem checksPass_split {s : Interp} :
    ∀ (n : Nat) (x y : List CheckTask), s.ChecksPass n (x ++ y) →
      s.ChecksPass n x ∧ s.ChecksPass n y := by
  intro n
  induction n with
  | zero =>
    intro x y hp
    obtain ⟨_, hp⟩ := hp
    simp [Interp.syntax_check] at hp
  | succ n ih =>
    intro x y hp
    cases x with
    | nil => exact ⟨checksPass_nil _ _, hp⟩
    | cons task rest =>
      obtain ⟨s2, hp⟩ := hp
      rw [List.cons_append, syntax_check_cons, run_check_push] at hp
      cases hr : s.run_check n task [] with
      | none => simp [hr] at hp
      | some r =>
        cases r with
        | error e => simp [hr, Except.map] at hp
        | ok pushed =>
          simp only [hr, Option.map_some', Except.map] at hp
          have hsplit := ih (pushed ++ rest) y (by
            rw [List.append_assoc]
            exact ⟨s2, hp⟩)
          refine ⟨?_, checksPass_mono n (n + 1) y hsplit.2 (by omega)⟩
          unfold Interp.ChecksPass
          rw [syntax_check_cons, run_check_push]
          simp only [hr, Option.map_some', Except.map]
          exact hsplit.1

theorem checksPass_mem {s : Interp} {n : Nat} {clauses : List Cell}
    (hp : s.ChecksPass n (clauses.map CheckTask.check_clause)) :
    ∀ c ∈ clauses, s.ChecksPass n [.check_clause c] := by
  induction clauses with
  | nil =>
    intro c hc
    cases hc
  | cons x xs ih =>
    intro c hc
    have hs := @checksPass_split s n [.check_clause x] (xs.map CheckTask.check_clause)
      (by simpa using hp)
    rcases List.mem_cons.1 hc with rfl | hmem
    · exact hs.1
    · exact ih hs.2 c hmem

/-- After the syntax check of a clause has passed, `load_clause` does not
throw; it leaves the term environment and an empty stack of pending
checks. -/
theorem load_clause_checked {fuel : Nat} {s s0 : Interp} {c : Cell} (henv : s.env = s0.env)
    (hst : s.syntax_check_stack = []) (hp : s0.ChecksPass fuel [.check_clause c])
    {r : Except InterpError Unit} {s1 : Interp} (h : s.load_clause fuel c = some (r, s1)) :
    r = .ok () ∧ s1.env = s0.env ∧ s1.syntax_check_stack = [] := by
  obtain ⟨s2, hp2⟩ := checksPass_env henv fuel _ hp
  unfold Interp.load_clause at h
  rw [hst, hp2] at h
  simp only at h
  have hfr := syntax_check_frame _ _ _ _ hp2
  have hstk := syntax_check_ok_stack _ _ _ hp2
  have henv2 : s2.env = s.env := by rw [hfr]
  split at h
  · simp at h
  · split at h
    · simp at h
    · simp only [Option.some.injEq, Prod.mk.injEq] at h
      obtain ⟨hr, hs⟩ := h
      refine ⟨hr.symm, ?_, ?_⟩
      · rw [← hs]
        simp only [Interp.db_entry]
        split <;> split <;> simp [henv2, henv]
      · rw [← hs]
        simp only [Interp.db_entry]
        split <;> split <;> simp [hstk]

theorem load_clauses_checked {fuel : Nat} {s0 : Interp} :
    ∀ (clauses : List Cell) (s : Interp), s.env = s0.env → s.syntax_check_stack = [] →
      (∀ c ∈ clauses, s0.ChecksPass fuel [.check_clause c]) →
      ∀ (r : Except InterpError Unit) (s1 : Interp),
        s.load_clauses fuel clauses = some (r, s1) → r = .ok () := by
  intro clauses
  induction clauses with
  | nil =>
    intro s _ _ _ r s1 h
    simp only [Interp.load_clauses, Option.some.injEq, Prod.mk.injEq] at h
    exact h.1.symm
  | cons c cs ih =>
    intro s henv hst hall r s1 h
    simp only [Interp.load_clauses] at h
    cases hl : s.load_clause fuel c with
    | none => simp [hl] at h
    | some x =>
      obtain ⟨r2, s2⟩ := x
      obtain ⟨hr2, henv2, hst2⟩ := load_clause_checked henv hst
        (hall c (List.mem_cons_self _ _)) hl
      subst hr2
      simp only [hl] at h
      exact ih s2 henv2 hst2 (fun y hy => hall y (List.mem_cons_of_mem _ hy)) r s1 h

/-- C15: when `load_program(t)` throws, no clause has been added: the clause
database and the list of predicates are as before the call.  The error comes
from the syntax check of the whole program, which runs before the first
`load_clause`; after it has passed, no `load_clause` throws. -/
theorem load_program_all_or_nothing (fuel : Nat) (s s1 : Interp) (t : Cell) (e : InterpError)
    (h : s.load_program fuel t = some (.error e, s1)) :
    s1.program_db = s.program_db ∧ s1.program_predicates = s.program_predicates ∧
    s1.env = s.env := by
  unfold Interp.load_program at h
  cases hchk : Interp.syntax_check fuel
      { s with syntax_check_stack := .check_program t :: s.syntax_check_stack } with
  | none => simp [hchk] at h
  | some x =>
    obtain ⟨r, s2⟩ := x
    have hfr := syntax_check_frame _ _ _ _ hchk
    cases r with
    | error e2 =>
      simp only [hchk, Option.some.injEq, Prod.mk.injEq] at h
      rw [← h.2, hfr]
      exact ⟨rfl, rfl, rfl⟩
    | ok u =>
      exfalso
      simp only [hchk] at h
      have henv2 : s2.env = s.env := by rw [hfr]
      cases hl : Interp.list_elements s2.env.heap fuel t with
      | none => simp [hl] at h
      | some clauses =>
        simp only [hl] at h
        obtain ⟨n, rfl⟩ : ∃ n, fuel = n + 1 := by
          cases fuel with
          | zero => simp [Interp.syntax_check] at hchk
          | succ n => exact ⟨n, rfl⟩
        rw [syntax_check_cons] at hchk
        cases hr : s.run_check n (.check_program t) s.syntax_check_stack with
        | none => simp [hr] at hchk
        | some r1 =>
          cases r1 with
          | error e1 => simp [hr] at hchk
          | ok st =>
            simp only [hr] at hchk
            simp only [Interp.run_check] at hr
            cases hl1 : Interp.list_elements s.env.heap n t with
            | none => simp [hl1] at hr
            | some cl =>
              simp only [hl1, Option.some.injEq, Except.ok.injEq] at hr
              have hcl : clauses = cl := by
                have := list_elements_mono _ n (n + 1) t cl hl1 (by omega)
                rw [henv2, this] at hl
                injection hl with hl
                exact hl.symm
              subst hcl
              have hpass : s.ChecksPass n (clauses.map CheckTask.check_clause) := by
                apply (checksPass_split n _ s.syntax_check_stack _).1
                rw [hr]
                exact ⟨s2, hchk⟩
              have hall : ∀ c ∈ clauses, s.ChecksPass (n + 1) [.check_clause c] := fun c hc =>
                checksPass_mono n (n + 1) _ (checksPass_mem hpass c hc) (by omega)
              have hok := load_clauses_checked clauses s2 henv2
                (syntax_check_ok_stack _ _ _ hchk) hall _ _ h
              cases hok

theorem load_program_all_or_nothing_witness :
    example_program_interp.load_program 20 (.str 10) =
      some (.error (.bad_goal (.int 3) "Goal is not callable."),
        { example_program_interp with syntax_check_stack := [.check_head (.str 2)] }) ∧
    ({ example_program_interp with syntax_check_stack := [.check_head (.str 2)] } :
        Interp).program_db = example_program_interp.program_db ∧
    ({ example_program_interp with syntax_check_stack := [.check_head (.str 2)] } :
        Interp).program_predicates = example_program_interp.program_predicates ∧
    ({ example_program_interp with syntax_check_stack := [.check_head (.str 2)] } :
        Interp).env = example_program_interp.env :=
  ⟨rfl, load_program_all_or_nothing 20 example_program_interp _ (.str 10) _ rfl⟩

/-- C16 at the failing input: the clause `'->'(a, b)`, whose head has the
functor `'->'/2`, passes the head check and `load_clause` stores it; the check
compares the functor of the head with `':-'/2` instead, so that the head
`p(1) :- p(1)` of the clause `(p(1) :- p(1)) :- p(1)` is rejected with the
message that names `'->'`. -/
theorem syntax_check_head_accepts_if_then :
    (example_head_interp.load_clause 10 (.str 0)).map
        (fun r => (r.1, r.2.clauses_of (.con "->" 2))) = some (.ok (), [.str 0]) ∧
    (example_head_interp.load_clause 10 (.str 8)).map (fun r => r.1) =
      some (.error (.clause_bad_head (.str 5)
        "Clause has an invalid head; cannot be '->', ';', ',' or '\\+'")) := by
  constructor <;> rfl

/-- C17 at the failing input: the clauses `p(1) :- true` and `p(1) :- !`,
whose bodies are atoms, are rejected with the bad-goal error, although `true`
and `!` are registered as builtins of arity 0: `is_functor` holds for `STR`
cells only. -/
theorem syntax_check_goal_rejects_atoms :
    (example_body_interp.load_clause 10 (.str 2)).map (fun r => r.1) =
      some (.error (.bad_goal (.con "true" 0) "Goal is not callable.")) ∧
    (example_body_interp.load_clause 10 (.str 5)).map (fun r => r.1) =
      some (.error (.bad_goal (.con "!" 0) "Goal is not callable.")) ∧
    example_body_interp.builtins (.con "true" 0) = some (some .true_0) ∧
    example_body_interp.builtins (.con "!" 0) = some (some .operator_cut) := by
  refine ⟨rfl, rfl, rfl, rfl⟩

/-! ## Errors raised during `execute` -/

theorem fail_unless_ok {fuel : Nat} {r : Bool} {s s1 : Interp} {x : Except InterpError Unit}
    (h : Interp.fail_unless fuel r s = some (x, s1)) : x = .ok () := by
  unfold Interp.fail_unless at h
  split_ifs at h
  · simp only [Option.some.injEq, Prod.mk.injEq] at h
    exact h.1.symm
  · cases hf : Interp.fail fuel s with
    | none => simp [hf] at h
    | some s2 =>
      simp only [hf, Option.map_some', Option.some.injEq, Prod.mk.injEq] at h
      exact h.1.symm

theorem dispatch_builtin_error {P : Collab} {fuel : Nat} {s s1 : Interp} {instruction : Cell}
    {e : InterpError}
    (h : Interp.dispatch_builtin P fuel s instruction = some (.done (.error e, s1))) :
    P.RaisedAt e s1 := by
  unfold Interp.dispatch_builtin at h
  simp only at h
  split at h
  · simp at h
  · split_ifs at h
    · cases hd : Interp.deallocate_environment { s with register_qr := instruction } with
      | none => simp [hd] at h
      | some s2 => simp [hd] at h
    · split at h
      · simp at h
      · split at h
        · split at h
          · simp at h
          · rename_i b _ e1 s2 hcall
            simp only [Option.some.injEq, Interp.Dispatched.done.injEq, Prod.mk.injEq,
              Except.error.injEq] at h
            obtain ⟨he, hs⟩ := h
            subst he
            subst hs
            exact Or.inl ⟨_, _, _, _, hcall⟩
          · rename_i r s2 _
            cases hf : Interp.fail_unless fuel r s2 with
            | none => simp [hf] at h
            | some x =>
              obtain ⟨x1, x2⟩ := x
              have := fail_unless_ok hf
              subst this
              simp [hf] at h
        · split at h
          · simp at h
          · rename_i e1 s2 hopt
            simp only [Option.some.injEq, Interp.Dispatched.done.injEq, Prod.mk.injEq,
              Except.error.injEq] at h
            obtain ⟨he, hs⟩ := h
            subst he
            subst hs
            split at hopt
            · exact Or.inr (Or.inl ⟨_, _, _, _, hopt⟩)
            · simp at hopt
          · simp at h
          · rename_i s2 _
            cases hf : Interp.fail_unless fuel false s2 with
            | none => simp [hf] at h
            | some x =>
              obtain ⟨x1, x2⟩ := x
              have := fail_unless_ok hf
              subst this
              simp [hf] at h
          · simp at h

theorem execute_once_error {P : Collab} {fuel : Nat} {s s1 : Interp} {e : InterpError}
    (h : Interp.execute_once P fuel s = some (.error e, s1)) : P.RaisedAt e s1 := by
  unfold Interp.execute_once Interp.dispatch at h
  simp only at h
  split at h
  · simp at h
  · rename_i r hd
    simp only [Option.some.injEq] at h
    subst h
    exact dispatch_builtin_error hd
  · exact Or.inr (Or.inr (Or.inr ⟨_, _, _, _, h⟩))

theorem cont_inner_error {P : Collab} :
    ∀ (fuel : Nat) (s s1 : Interp) (e : InterpError),
      Interp.cont_inner P fuel s = some (.error e, s1) → P.RaisedAt e s1 := by
  intro fuel
  induction fuel with
  | zero =>
    intro s s1 e h
    simp [Interp.cont_inner] at h
  | succ n ih =>
    intro s s1 e h
    simp only [Interp.cont_inner] at h
    split at h
    · simp at h
    · rename_i e1 s2 hx
      simp only [Option.some.injEq, Prod.mk.injEq, Except.error.injEq] at h
      obtain ⟨he, hs⟩ := h
      subst he
      subst hs
      exact execute_once_error hx
    · split_ifs at h
      · exact ih _ _ _ h
      · simp at h

theorem cont_outer_error {P : Collab} :
    ∀ (fuel : Nat) (s s1 : Interp) (e : InterpError),
      Interp.cont_outer P fuel s = some (.error e, s1) → P.RaisedAt e s1 := by
  intro fuel
  induction fuel with
  | zero =>
    intro s s1 e h
    simp [Interp.cont_outer] at h
  | succ n ih =>
    intro s s1 e h
    simp only [Interp.cont_outer] at h
    split at h
    · simp at h
    · rename_i e1 s2 hx
      simp only [Option.some.injEq, Prod.mk.injEq, Except.error.injEq] at h
      obtain ⟨he, hs⟩ := h
      subst he
      subst hs
      exact cont_inner_error _ _ _ _ hx
    · rename_i s2 _
      split at h
      · simp at h
      · rename_i err s3 hmeta
        simp only [Option.some.injEq, Prod.mk.injEq, Except.error.injEq] at h
        obtain ⟨he, hs⟩ := h
        subst he
        subst hs
        split at hmeta
        · simp at hmeta
        · split at hmeta
          · simp at hmeta
          · rename_i m _ err2 s4 hcall
            simp only [Option.some.injEq, Prod.mk.injEq, Except.error.injEq] at hmeta
            obtain ⟨he, hs⟩ := hmeta
            subst he
            subst hs
            exact Or.inr (Or.inr (Or.inl ⟨_, _, hcall⟩))
          · split_ifs at hmeta
            · rw [Option.map_eq_some'] at hmeta
              obtain ⟨_, _, hc⟩ := hmeta
              simp at hc
            · simp at hmeta
      · split_ifs at h
        · exact ih _ _ _ h
        · simp at h

/-- C14 fails as stated: the query `p(A, B)` against the clause
`p(1, Y) :- Y is 1 + Z` aborts inside `eval` with
not-sufficiently-instantiated, and `execute` ends with the state of the
throw: the heap has grown from 15 to 29 cells, `A` (cell 13) is still bound to
`1`, the trail holds two entries, the work stack of the term environment and
the argument buffer of `eval` hold what `eval` left there, and the environment
frame is still on the machine stack. -/
theorem abort_keeps_state_counterexample :
    (Interp.execute example_arith_collab 20 example_arith_interp (.str 12)).map
      (fun r => (r.1, example_arith_interp.env.heap.length, r.2.env.heap.length,
        example_arith_interp.env.heap[13]?, r.2.env.heap[13]?, r.2.env.trail, r.2.env.stack,
        r.2.arith.args, r.2.frames.length)) =
    some (.error .not_sufficiently_instantiated, 15, 29, some (.ref 13), some (.int 1),
      [13, 15], [.int 1, .con "+" 2], [.int 1], 1) := by
  rfl

/-- C14 as amended: an error raised during `execute` leaves `execute` with the
interpreter state exactly as the raising step left it, a builtin, an optimized
builtin, a meta callback or the clause lookup of `dispatch`: nothing is
unwound between the throw and the caller of `execute`. -/
theorem abort_leaves_state (P : Collab) (fuel : Nat) (s s1 : Interp) (query : Cell)
    (e : InterpError) (h : Interp.execute P fuel s query = some (.error e, s1)) :
    P.RaisedAt e s1 := by
  unfold Interp.execute Interp.cont at h
  simp only at h
  split at h
  · simp at h
  · rename_i e1 s2 hx
    simp only [Option.some.injEq, Prod.mk.injEq, Except.error.injEq] at h
    obtain ⟨he, hs⟩ := h
    subst he
    subst hs
    exact cont_outer_error _ _ _ _ hx
  · simp at h

theorem abort_leaves_state_witness :
    Interp.execute example_arith_collab 20 example_arith_interp (.str 12) =
      some (.error .not_sufficiently_instantiated, example_aborted_interp) ∧
    example_arith_collab.RaisedAt .not_sufficiently_instantiated example_aborted_interp :=
  ⟨rfl, abort_leaves_state example_arith_collab 20 example_arith_interp example_aborted_interp
    (.str 12) .not_sufficiently_instantiated rfl⟩

/-! ## The predicate list, the observatory and the worker pool -/

/-- C21 at the failing input: the goal `q(7)` is called while `q/1` has no
clause.  The call ends with the error "undefined predicate", but the lookup
`program_db_[f]` of the clause search has left an empty entry for `q/1`;
`load_clause` of `q(7)` then finds the entry and does not record `q/1` in the
list of predicates: the clause is stored, but `print_db` prints nothing.  The
lookup alone has the same effect; without it the functor is recorded and the
clause is printed. -/
theorem looked_up_functor_not_listed :
    ((Interp.execute example_collab 30 example_db_interp (.str 6)).bind
        (fun r => (r.2.load_clause 10 (.str 6)).map
          (fun q => (r.1, q.1, q.2.clauses_of (.con "q" 1), q.2.program_predicates,
            q.2.print_db)))) =
      some (.error (.undefined_predicate (.con "q" 1)), .ok (), [.str 6], [], []) ∧
    ((example_db_interp.db_entry (.con "q" 1)).2.load_clause 10 (.str 6)).map
        (fun r => (r.1, r.2.clauses_of (.con "q" 1), r.2.program_predicates, r.2.print_db)) =
      some (.ok (), [.str 6], [], []) ∧
    (example_db_interp.load_clause 10 (.str 6)).map
        (fun r => (r.1, r.2.clauses_of (.con "q" 1), r.2.program_predicates, r.2.print_db)) =
      some (.ok (), [.str 6], [.con "q" 1], [[.str 6]]) := by
  refine ⟨?_, ?_, ?_⟩ <;> rfl

/-- C22: two observatories initialised with the same message, whatever the
number of stars and whatever they were before, return the same star for every
id: `get_star` reads only the keys, which `init` derives from the message. -/
theorem get_star_deterministic (P : PowCollab) (o1 o2 : Observatory) (msg : List Nat)
    (n1 n2 id : Nat) :
    (Observatory.init P o1 msg n1).get_star P id = (Observatory.init P o2 msg n2).get_star P id ∧
    (Observatory.init P o1 msg n1).keys = P.siphash_keys msg := by
  constructor <;> rfl

/-- C23 at the failing input: for the id 1431655766 the products `3*id` and
`3*id+3` wrap around in `uint32_t` before they are converted to 64 bits: the
range passed to the pseudo-random function is `[2, 5)`, not
`[4294967298, 4294967301)`, and it overlaps the ranges `[0, 3)` of the id 0
and `[3, 6)` of the id 1. -/
theorem star_counters_wrap :
    Observatory.star_counters 1431655766 = (2, 5) ∧
    (3 * 1431655766, 3 * 1431655766 + 3) = (4294967298, 4294967301) ∧
    Observatory.star_counters 0 = (0, 3) ∧ Observatory.star_counters 1 = (3, 6) := by
  decide

/-- C24 at the failing input: a pool of two workers.  Worker 1 gets a range,
finds the pattern and returns to the queue; the coordinator takes it from the
queue again (the counter is 1), sees it done and kills both workers.  Each
worker leaves its loop and calls `remove_worker`: the first call brings the
counter to 0, the second wraps the `size_t` counter around to `2^64 - 1`,
although both threads have ended.  With one worker, the pool that `scan`
creates, the same run ends with the counter at 0. -/
theorem busy_count_underflow :
    ((WorkerPool.init 2).run
      [.find_ready_worker, .set_index_range 1, .wake 1, .search_ends 1 true,
       .add_ready_worker 1, .find_ready_worker, .kill 0, .kill 1, .wake 0, .wake 1,
       .remove_worker 0, .remove_worker 1]).map
      (fun p => (p.busy_count, p.workers.map (fun w => w.pc))) =
    some (18446744073709551615, [.exited, .exited]) ∧
    ((WorkerPool.init 1).run
      [.find_ready_worker, .set_index_range 0, .wake 0, .search_ends 0 true,
       .add_ready_worker 0, .find_ready_worker, .kill 0, .wake 0, .remove_worker 0]).map
      (fun p => (p.busy_count, p.workers.map (fun w => w.pc))) =
    some (0, [.exited]) := by
  decide

/-! ## First-argument indexing: `definitely_inequal` -/

/-- C30: `definitely_inequal(a, b)` is true iff neither cell has the tag REF
and their tags differ, or both are `CON` cells and differ, or both are `INT`
cells and differ, or both are `STR` cells with different functors; it is
false when either side is a REF, and it gives the same result with its
arguments exchanged.  The functor of an `STR` cell is taken to be in the
heap. -/
theorem definitely_inequal_iff (heap : Heap) (a b : Cell)
    (ha : a.tag = .STR → ∃ f, functor heap a = some f)
    (hb : b.tag = .STR → ∃ f, functor heap b = some f) :
    ∃ r, Interp.definitely_inequal heap a b = some r ∧
      (r = true ↔ a.tag ≠ .REF ∧ b.tag ≠ .REF ∧
        (a.tag ≠ b.tag ∨ (a.tag = .CON ∧ b.tag = .CON ∧ a ≠ b) ∨
          (a.tag = .INT ∧ b.tag = .INT ∧ a ≠ b) ∨
          (a.tag = .STR ∧ b.tag = .STR ∧ functor heap a ≠ functor heap b))) ∧
      ((a.tag = .REF ∨ b.tag = .REF) → r = false) ∧
      Interp.definitely_inequal heap b a = some r := by
  cases a with
  | ref i => cases b <;> simp [Interp.definitely_inequal, Cell.tag]
  | big i => cases b <;> simp [Interp.definitely_inequal, Cell.tag]
  | gbl i => cases b <;> simp [Interp.definitely_inequal, Cell.tag]
  | con f n =>
    cases b with
    | con g m =>
      by_cases h : Cell.con f n = Cell.con g m
      · refine ⟨false, ?_, ?_, ?_, ?_⟩
        · simp [Interp.definitely_inequal, Cell.tag, h]
        · simp [Cell.tag, h]
        · simp
        · simp [Interp.definitely_inequal, Cell.tag, h.symm]
      · refine ⟨true, ?_, ?_, ?_, ?_⟩
        · simp [Interp.definitely_inequal, Cell.tag, h]
        · simp [Cell.tag, h]
        · simp [Cell.tag]
        · simp [Interp.definitely_inequal, Cell.tag, Ne.symm h]
    | ref i => simp [Interp.definitely_inequal, Cell.tag]
    | int v => simp [Interp.definitely_inequal, Cell.tag]
    | str i => simp [Interp.definitely_inequal, Cell.tag]
    | big i => simp [Interp.definitely_inequal, Cell.tag]
    | gbl i => simp [Interp.definitely_inequal, Cell.tag]
  | int v =>
    cases b with
    | int w =>
      by_cases h : Cell.int v = Cell.int w
      · refine ⟨false, ?_, ?_, ?_, ?_⟩
        · simp [Interp.definitely_inequal, Cell.tag, h]
        · simp [Cell.tag, h]
        · simp
        · simp [Interp.definitely_inequal, Cell.tag, h.symm]
      · refine ⟨true, ?_, ?_, ?_, ?_⟩
        · simp [Interp.definitely_inequal, Cell.tag, h]
        · simp [Cell.tag, h]
        · simp [Cell.tag]
        · simp [Interp.definitely_inequal, Cell.tag, Ne.symm h]
    | ref i => simp [Interp.definitely_inequal, Cell.tag]
    | con g m => simp [Interp.definitely_inequal, Cell.tag]
    | str i => simp [Interp.definitely_inequal, Cell.tag]
    | big i => simp [Interp.definitely_inequal, Cell.tag]
    | gbl i => simp [Interp.definitely_inequal, Cell.tag]
  | str p =>
    cases b with
    | str q =>
      obtain ⟨fa, hfa⟩ := ha rfl
      obtain ⟨fb, hfb⟩ := hb rfl
      by_cases h : fa = fb
      · refine ⟨false, ?_, ?_, ?_, ?_⟩
        · simp [Interp.definitely_inequal, Cell.tag, hfa, hfb, h]
        · simp [Cell.tag, hfa, hfb, h]
        · simp
        · simp [Interp.definitely_inequal, Cell.tag, hfa, hfb, h]
      · refine ⟨true, ?_, ?_, ?_, ?_⟩
        · simp [Interp.definitely_inequal, Cell.tag, hfa, hfb, h]
        · simp [Cell.tag, hfa, hfb, h]
        · simp [Cell.tag]
        · simp [Interp.definitely_inequal, Cell.tag, hfa, hfb, Ne.symm h]
    | ref i => simp [Interp.definitely_inequal, Cell.tag]
    | con g m => simp [Interp.definitely_inequal, Cell.tag]
    | int v => simp [Interp.definitely_inequal, Cell.tag]
    | big i => simp [Interp.definitely_inequal, Cell.tag]
    | gbl i => simp [Interp.definitely_inequal, Cell.tag]

theorem definitely_inequal_iff_witness :
    ∃ r, Interp.definitely_inequal example_db_heap (.str 0) (.str 6) = some r ∧
      (r = true ↔ (Cell.str 0).tag ≠ .REF ∧ (Cell.str 6).tag ≠ .REF ∧
        ((Cell.str 0).tag ≠ (Cell.str 6).tag ∨
          ((Cell.str 0).tag = .CON ∧ (Cell.str 6).tag = .CON ∧ Cell.str 0 ≠ Cell.str 6) ∨
          ((Cell.str 0).tag = .INT ∧ (Cell.str 6).tag = .INT ∧ Cell.str 0 ≠ Cell.str 6) ∨
          ((Cell.str 0).tag = .STR ∧ (Cell.str 6).tag = .STR ∧
            functor example_db_heap (.str 0) ≠ functor example_db_heap (.str 6)))) ∧
      (((Cell.str 0).tag = .REF ∨ (Cell.str 6).tag = .REF) → r = false) ∧
      Interp.definitely_inequal example_db_heap (.str 6) (.str 0) = some r :=
  definitely_inequal_iff example_db_heap (.str 0) (.str 6) (fun _ => ⟨_, rfl⟩) (fun _ => ⟨_, rfl⟩)

/-! ## Clause selection and backtracking -/

set_option maxRecDepth 100000 in
/-- C27 at the failing input: a predicate with id 1 and 257 clauses, of which
`select_clause` takes the clause at index 255.  It stores
`(1 << 8) + 256 = 512` in the choice point; `fail()` decodes `512 >> 8 = 2`
and `512 & 0xff = 0`, goes on with the clauses of the predicate id 2 instead
of clause 256 of the predicate id 1, and ends in top-level failure although
clause 256 has not been tried. -/
theorem packed_bp_overflows :
    (example_many_interp.select_clause 20 (.str 0) 1 (List.replicate 257 (.str 0)) 255).map
        (fun r => (r.1, (r.2.choice_point_at r.2.register_b).map (fun ch =>
          (ch.bp, (Interp.bp_value ch.bp).map (fun v => (v >>> 8, v &&& 0xff)))))) =
      some (true, some (.int 512, some (2, 0))) ∧
    ((example_many_interp.select_clause 20 (.str 0) 1 (List.replicate 257 (.str 0)) 255).bind
        (fun r => Interp.fail 20 r.2)).map (fun s => s.top_fail) = some true := by
  constructor <;> rfl

/-- C28 at the failing input: the goal `q(0, V = 1)` against the clauses
`q(X, a)` and `q(Y, b)`, neither of which has a head that unifies with it.
`select_clause` returns false, but the heap has 23 cells instead of the 19 at
entry: after the first clause `trim_heap` cuts the heap back but leaves
`register_h_` at 23, so the second iteration reads 23 as the heap size to
return to. -/
theorem select_clause_leaves_garbage :
    (example_choice_interp.select_clause 20 (.str 9) 1 [.str 0, .str 3] 0).map
        (fun r => (r.1, example_choice_interp.env.heap.length, r.2.env.heap.length)) =
      some (false, 19, 23) := by
  rfl

/-- C29 at the failing input: the goal `q(0, V = 1)`, with the two candidate
clauses `q(X, a)` and `q(Y, b)` and the predicate id 1.  No head unifies, but
the goal does not fail: `fail()` reads the `BP` of the new choice point, the
unshifted id 1, as "predicate 0, alternative 1" and continues with the second
argument of the goal as the code to run.  At top level `execute` returns
true; inside the clause `m(V) :- q(0, V = 1)` the argument `V = 1` is run, and
the query `m(W)` returns true with `W` bound to `1`. -/
theorem failing_goal_runs_argument :
    (Interp.execute example_collab 30 example_choice_interp (.str 9)).map
        (fun r => (r.1, r.2.register_cp)) = some (.ok true, .str 6) ∧
    ((Interp.execute example_collab 30 example_choice_interp (.str 9)).bind
        (fun r => Interp.execute example_collab 30 r.2 (.str 17))).map
        (fun r => (r.1, r.2.env.heap[18]?)) = some (.ok true, some (.int 1)) := by
  constructor <;> rfl

/-- Two REF cells, the left one with the higher index: the left one is bound
to the right one. -/
theorem unify_iter_bind_left {n : Nat} {st st1 : TermEnv} {a0 b0 : Cell} {i j : Nat}
    {rest : List Cell} (hst : st.stack = a0 :: b0 :: rest)
    (ha : deref st.heap n a0 = some (.ref j)) (hb : deref st.heap n b0 = some (.ref i))
    (hij : i < j)
    (hb1 : ({ st with stack := rest } : TermEnv).bind (.ref j) (.ref i) = some st1) :
    TermEnv.unify_iter n st = some (.next, st1) := by
  unfold TermEnv.unify_iter
  rw [hst]
  simp only [ha, hb]
  have hne : Cell.ref j ≠ .ref i := by
    intro hc
    injection hc with hc
    omega
  have hta : (Cell.ref j).tag = .REF := rfl
  have htb : (Cell.ref i).tag = .REF := rfl
  have hlt : ¬ j < i := by omega
  rw [if_neg hne, if_pos hta, if_pos htb]
  simp only [hlt, if_false, hb1]
  rfl

/-- What `unify` does when the two sides dereference to the REF cells `x` and
`y` and the iteration of the loop binds the cell `j` to `.ref i`. -/
theorem unify_two_refs {s : TermEnv} {a b : Cell} {i j : Nat} {x y : Cell}
    (ha : DerefTo s.heap a x) (hb : DerefTo s.heap b y) (hij : i < j)
    (hi : s.heap[i]? = some (.ref i)) (hj : s.heap[j]? = some (.ref j))
    (hiter : ∀ (n : Nat) (st st1 : TermEnv) (rest : List Cell), st.stack = a :: b :: rest →
      deref st.heap n a = some x → deref st.heap n b = some y →
      ({ st with stack := rest } : TermEnv).bind (.ref j) (.ref i) = some st1 →
      TermEnv.unify_iter n st = some (.next, st1)) :
    ∃ n s1, s.unify n a b = some (true, s1) ∧ s1.heap = s.heap.set j (.ref i) ∧
      s1.heap[j]? = some (.ref i) ∧ s1.heap[i]? = some (.ref i) ∧ s1.stack = s.stack := by
  obtain ⟨na, hna⟩ := ha
  obtain ⟨nb, hnb⟩ := hb
  have hjl : j < s.heap.length := (List.getElem?_eq_some.1 hj).1
  obtain ⟨st1, hb1, hh, hs⟩ := bind_spec
    ((({ s with register_hb := s.register_h } : TermEnv).push b).push a) s.stack j (.ref i) hjl
  have hh : st1.heap = s.heap.set j (.ref i) := hh
  have hs : st1.stack = s.stack := hs
  have hstep := hiter (max na nb + 1)
    ((({ s with register_hb := s.register_h } : TermEnv).push b).push a) st1 s.stack rfl
    (deref_mono _ _ _ _ _ hna (by omega)) (deref_mono _ _ _ _ _ hnb (by omega)) hb1
  refine ⟨max na nb + 1 + 1, { st1 with register_hb := s.register_hb }, ?_, hh, ?_, ?_, hs⟩
  · unfold TermEnv.unify TermEnv.unify_helper
    have hloop : TermEnv.unify_loop s.stack.length (max na nb + 1 + 1)
        ((({ s with register_hb := s.register_h } : TermEnv).push b).push a) =
        some (true, st1) := by
      rw [unify_loop_step (by simp only [TermEnv.push, List.length_cons]; omega) hstep]
      simp [TermEnv.unify_loop, hs]
    have hdepth : ({ s with register_hb := s.register_h } : TermEnv).stack.length =
        s.stack.length := rfl
    simp only [hdepth, hloop]
    rfl
  · show st1.heap[j]? = _
    rw [hh, List.getElem?_set_self hjl]
  · show st1.heap[i]? = _
    rw [hh, List.getElem?_set_ne (by omega)]
    exact hi

/-- C25: when the two sides of `unify` dereference to two distinct unbound
variables at the heap indices `i < j`, `unify` returns true and binds the
variable with the higher index to the other one, whichever side it is on:
afterwards `heap[j] = REF(i)`, no other cell has changed and `heap[i]` is
still the unbound `REF(i)`. -/
theorem unify_binds_higher (s : TermEnv) (a b : Cell) (i j : Nat)
    (ha : DerefTo s.heap a (.ref i)) (hb : DerefTo s.heap b (.ref j)) (hij : i < j) :
    (∃ n s1, s.unify n a b = some (true, s1) ∧ s1.heap = s.heap.set j (.ref i) ∧
      s1.heap[j]? = some (.ref i) ∧ s1.heap[i]? = some (.ref i) ∧ s1.stack = s.stack) ∧
    (∃ n s1, s.unify n b a = some (true, s1) ∧ s1.heap = s.heap.set j (.ref i) ∧
      s1.heap[j]? = some (.ref i) ∧ s1.heap[i]? = some (.ref i) ∧ s1.stack = s.stack) := by
  have hi : s.heap[i]? = some (.ref i) := by
    obtain ⟨n, hn⟩ := ha
    exact deref_ref_self _ _ _ _ hn
  have hj : s.heap[j]? = some (.ref j) := by
    obtain ⟨n, hn⟩ := hb
    exact deref_ref_self _ _ _ _ hn
  constructor
  · exact unify_two_refs ha hb hij hi hj (fun n st st1 rest hst h1 h2 hb1 =>
      unify_iter_bind hst h1 h2 (Or.inr ⟨i, rfl, hij⟩) hb1)
  · exact unify_two_refs hb ha hij hi hj (fun n st st1 rest hst h1 h2 hb1 =>
      unify_iter_bind_left hst h1 h2 hij hb1)

theorem unify_binds_higher_witness :
    (∃ n s1, example_unify_env.unify n (.ref 2) (.ref 10) = some (true, s1) ∧
      s1.heap = example_unify_env.heap.set 10 (.ref 2) ∧
      s1.heap[10]? = some (.ref 2) ∧ s1.heap[2]? = some (.ref 2) ∧
      s1.stack = example_unify_env.stack) ∧
    (∃ n s1, example_unify_env.unify n (.ref 10) (.ref 2) = some (true, s1) ∧
      s1.heap = example_unify_env.heap.set 10 (.ref 2) ∧
      s1.heap[10]? = some (.ref 2) ∧ s1.heap[2]? = some (.ref 2) ∧
      s1.stack = example_unify_env.stack) :=
  unify_binds_higher example_unify_env (.ref 2) (.ref 10) 2 10 ⟨1, rfl⟩ ⟨1, rfl⟩ (by decide)

/-! ## `equal` and the reference definition of structural equality -/

theorem equal_loop_done {d fuel : Nat} {st st1 : TermEnv} {r : Bool}
    (hd : d < st.stack.length) (hi : TermEnv.equal_iter fuel d st = some (.done r, st1)) :
    TermEnv.equal_loop d (fuel + 1) st = some (r, st1) := by
  simp [TermEnv.equal_loop, hd, hi]

theorem trim_stack_base (st : TermEnv) (loc base : List Cell) :
    ({ st with stack := loc ++ base } : TermEnv).trim_stack base.length =
      { st with stack := base } := by
  simp [TermEnv.trim_stack, resize_top_append]

/-- Different cells of which one is not an `STR` cell: `equal` returns
false. -/
theorem equal_iter_diff_cell {n : Nat} {st : TermEnv} {a0 b0 ea eb : Cell}
    {loc base : List Cell} (hst : st.stack = a0 :: b0 :: (loc ++ base))
    (ha : deref st.heap n a0 = some ea) (hb : deref st.heap n b0 = some eb) (hne : ea ≠ eb)
    (ht : ea.tag ≠ eb.tag ∨ ea.tag ≠ .STR) :
    TermEnv.equal_iter n base.length st = some (.done false, { st with stack := base }) := by
  unfold TermEnv.equal_iter
  rw [hst]
  simp only [ha, hb, if_neg hne]
  rw [trim_stack_base]
  by_cases h1 : ea.tag ≠ eb.tag
  · rw [if_pos h1]
  · rw [if_neg h1]
    rcases ht with ht | ht
    · exact absurd ht h1
    · rw [if_pos ht]

/-- `STR` cells with different functors: `equal` returns false. -/
theorem equal_iter_diff_functor {n : Nat} {st : TermEnv} {a0 b0 : Cell} {pa pb : Nat}
    {fa fb : Cell} {loc base : List Cell} (hst : st.stack = a0 :: b0 :: (loc ++ base))
    (ha : deref st.heap n a0 = some (.str pa)) (hb : deref st.heap n b0 = some (.str pb))
    (hfa : functor st.heap (.str pa) = some fa) (hfb : functor st.heap (.str pb) = some fb)
    (hne : fa ≠ fb) :
    TermEnv.equal_iter n base.length st = some (.done false, { st with stack := base }) := by
  have hpp : Cell.str pa ≠ Cell.str pb := by
    intro hc
    rw [hc, hfb] at hfa
    injection hfa with hfa
    exact hne hfa.symm
  unfold TermEnv.equal_iter
  rw [hst]
  simp only [ha, hb, if_neg hpp]
  rw [trim_stack_base]
  simp [Cell.tag, hfa, hfb, hne]

theorem arg_pairs_split (l1 l2 m1 m2 : List Cell) (x y : Cell) (h : l1.length = m1.length) :
    arg_pairs (l1 ++ x :: l2) (m1 ++ y :: m2) = arg_pairs l1 m1 ++ x :: y :: arg_pairs l2 m2 := by
  induction l1 generalizing m1 with
  | nil =>
    cases m1 with
    | nil => rfl
    | cons b bs => simp at h
  | cons a as ih =>
    cases m1 with
    | nil => simp at h
    | cons b bs =>
      simp only [List.length_cons, Nat.add_right_cancel_iff] at h
      simp [arg_pairs, ih bs h]

/-- The loop of `equal` processes a list of pairs of equal terms. -/
theorem same_args {heap : Heap} :
    ∀ (as bs : List Cell), as.length = bs.length →
      (∀ (j : Nat) (a b : Cell), as[j]? = some a → bs[j]? = some b → SameItem heap a b) →
      ∀ (st : TermEnv) (tail : List Cell) (d : Nat),
        st.heap = heap → st.stack = arg_pairs as bs ++ tail → d ≤ tail.length →
        ∃ (k F : Nat), ∀ fuel, F ≤ fuel →
          TermEnv.equal_loop d (fuel + k) st =
            TermEnv.equal_loop d fuel { st with stack := tail } := by
  intro as
  induction as with
  | nil =>
    intro bs hlen _ st tail d _ hst _
    cases bs with
    | cons y ys => simp at hlen
    | nil =>
      refine ⟨0, 0, fun fuel _ => ?_⟩
      have : st = { st with stack := tail } := by
        cases st
        simp only [arg_pairs, List.nil_append] at hst
        simp [hst]
      rw [← this]
      rfl
  | cons x xs ih =>
    intro bs hlen hall st tail d hheap hst hd
    cases bs with
    | nil => simp at hlen
    | cons y ys =>
      simp only [List.length_cons, Nat.add_right_cancel_iff] at hlen
      have hst1 : st.stack = x :: y :: (arg_pairs xs ys ++ tail) := by
        simpa [arg_pairs] using hst
      obtain ⟨k1, F1, hk1⟩ := hall 0 x y (by simp) (by simp) st (arg_pairs xs ys ++ tail) d hheap
        hst1 (by simp; omega)
      obtain ⟨k2, F2, hk2⟩ := ih ys hlen
        (fun j a b ha hb => hall (j + 1) a b (by simpa using ha) (by simpa using hb))
        { st with stack := arg_pairs xs ys ++ tail } tail d hheap rfl hd
      refine ⟨k2 + k1, max F1 F2, fun fuel hf => ?_⟩
      rw [← Nat.add_assoc, hk1 _ (by omega), hk2 _ (by omega)]

/-- On equal terms the loop of `equal` goes on. -/
theorem same_item {heap : Heap} {x y : Cell} (h : SameTerm heap x y) : SameItem heap x y := by
  induction h with
  | atomic a b e ha hb _ =>
    intro st rest d hheap hst hd
    subst hheap
    obtain ⟨na, hna⟩ := ha
    obtain ⟨nb, hnb⟩ := hb
    refine ⟨1, max na nb, fun fuel hf => ?_⟩
    exact equal_loop_step (by rw [hst]; simp; omega)
      (equal_iter_same hst (deref_mono _ _ _ _ _ hna (by omega))
        (deref_mono _ _ _ _ _ hnb (by omega)))
  | str a b pa pb f n ha hb hpa hpb hla hlb _ ih =>
    intro st rest d hheap hst hd
    subst hheap
    obtain ⟨na, hna⟩ := ha
    obtain ⟨nb, hnb⟩ := hb
    have hdl : d < st.stack.length := by rw [hst]; simp; omega
    by_cases hpp : pa = pb
    · subst hpp
      refine ⟨1, max na nb, fun fuel hf => ?_⟩
      exact equal_loop_step hdl
        (equal_iter_same hst (deref_mono _ _ _ _ _ hna (by omega))
          (deref_mono _ _ _ _ _ hnb (by omega)))
    · obtain ⟨as, hasl, has⟩ := args_list st.heap pa n hla
      obtain ⟨bs, hbsl, hbs⟩ := args_list st.heap pb n hlb
      have hpush := push_arg_pairs_spec st.heap pa pb n as bs hasl hbsl has hbs n rest (le_refl _)
      rw [List.take_of_length_le (by omega), List.take_of_length_le (by omega)] at hpush
      obtain ⟨k2, F2, hk2⟩ := same_args as bs (by omega)
        (by
          intro j u v hu hv
          have hj : j < n := by
            have := (List.getElem?_eq_some.1 hu).1
            omega
          exact ih j u v hj (by rw [has j hj]; exact hu) (by rw [hbs j hj]; exact hv))
        { st with stack := arg_pairs as bs ++ rest } rest d rfl rfl hd
      refine ⟨k2 + 1, max (max na nb) F2, fun fuel hf => ?_⟩
      have hiter : TermEnv.equal_iter (fuel + k2) d st =
          some (.next, { st with stack := arg_pairs as bs ++ rest }) := by
        refine @equal_iter_str _ _ _ _ _ (.str pa) (.str pb) (.con f n) _ _ hst
          (deref_mono _ _ _ _ _ hna (by omega)) (deref_mono _ _ _ _ _ hnb (by omega))
          (by simpa using hpp) rfl rfl ?_ ?_ hpush
        · simp [functor, hpa]
        · simp [functor, hpb]
      rw [← Nat.add_assoc, equal_loop_step hdl hiter, hk2 _ (by omega)]

/-- On terms that differ the loop of `equal` returns false. -/
theorem diff_item {heap : Heap} {x y : Cell} (h : DiffTerm heap x y) : DiffItem heap x y := by
  induction h with
  | cell a b ea eb ha hb hne ht =>
    intro st loc base hheap hst
    subst hheap
    obtain ⟨na, hna⟩ := ha
    obtain ⟨nb, hnb⟩ := hb
    refine ⟨0, max na nb, fun fuel hf => ?_⟩
    exact equal_loop_done (by rw [hst]; simp; omega)
      (equal_iter_diff_cell hst (deref_mono _ _ _ _ _ hna (by omega))
        (deref_mono _ _ _ _ _ hnb (by omega)) hne ht)
  | functor a b pa pb fa fb ha hb hfa hfb hne =>
    intro st loc base hheap hst
    subst hheap
    obtain ⟨na, hna⟩ := ha
    obtain ⟨nb, hnb⟩ := hb
    refine ⟨0, max na nb, fun fuel hf => ?_⟩
    exact equal_loop_done (by rw [hst]; simp; omega)
      (equal_iter_diff_functor hst (deref_mono _ _ _ _ _ hna (by omega))
        (deref_mono _ _ _ _ _ hnb (by omega)) hfa hfb hne)
  | arg a b pa pb f n k x y ha hb hpp hpa hpb hla hlb hk hsame hx hy _ ih =>
    intro st loc base hheap hst
    subst hheap
    obtain ⟨na, hna⟩ := ha
    obtain ⟨nb, hnb⟩ := hb
    have hdl : base.length < st.stack.length := by rw [hst]; simp; omega
    obtain ⟨as, hasl, has⟩ := args_list st.heap pa n hla
    obtain ⟨bs, hbsl, hbs⟩ := args_list st.heap pb n hlb
    have hpush := push_arg_pairs_spec st.heap pa pb n as bs hasl hbsl has hbs n (loc ++ base)
      (le_refl _)
    rw [List.take_of_length_le (by omega), List.take_of_length_le (by omega)] at hpush
    have hka : k < as.length := by omega
    have hkb : k < bs.length := by omega
    have hax : as[k] = x := by
      have := has k hk
      rw [hx, List.getElem?_eq_getElem hka] at this
      injection this with this
      exact this.symm
    have hby : bs[k] = y := by
      have := hbs k hk
      rw [hy, List.getElem?_eq_getElem hkb] at this
      injection this with this
      exact this.symm
    have hsa : as = as.take k ++ x :: as.drop (k + 1) := by
      rw [← hax, ← List.drop_eq_getElem_cons hka, List.take_append_drop]
    have hsb : bs = bs.take k ++ y :: bs.drop (k + 1) := by
      rw [← hby, ← List.drop_eq_getElem_cons hkb, List.take_append_drop]
    have hstack : arg_pairs as bs ++ (loc ++ base) =
        arg_pairs (as.take k) (bs.take k) ++
          (x :: y :: ((arg_pairs (as.drop (k + 1)) (bs.drop (k + 1)) ++ loc) ++ base)) := by
      conv_lhs => rw [hsa, hsb]
      rw [arg_pairs_split _ _ _ _ _ _ (by simp; omega)]
      simp
    obtain ⟨k1, F1, hk1⟩ := same_args (as.take k) (bs.take k) (by simp; omega)
      (by
        intro j u v hu hv
        have hj : j < k := by
          have := (List.getElem?_eq_some.1 hu).1
          simp only [List.length_take] at this
          omega
        rw [List.getElem?_take_of_lt hj] at hu hv
        exact same_item (hsame j u v hj (by rw [has j (by omega)]; exact hu)
          (by rw [hbs j (by omega)]; exact hv)))
      { st with stack := arg_pairs as bs ++ (loc ++ base) }
      (x :: y :: ((arg_pairs (as.drop (k + 1)) (bs.drop (k + 1)) ++ loc) ++ base))
      base.length rfl hstack (by simp; omega)
    obtain ⟨k2, F2, hk2⟩ := ih
      { st with
        stack := x :: y :: ((arg_pairs (as.drop (k + 1)) (bs.drop (k + 1)) ++ loc) ++ base) }
      (arg_pairs (as.drop (k + 1)) (bs.drop (k + 1)) ++ loc) base rfl rfl
    refine ⟨k2 + 1 + k1 + 1, max (max na nb) (max F1 F2), fun fuel hf => ?_⟩
    have hiter : TermEnv.equal_iter (fuel + k2 + 1 + k1 + 1) base.length st =
        some (.next, { st with stack := arg_pairs as bs ++ (loc ++ base) }) := by
      refine @equal_iter_str _ _ _ _ _ (.str pa) (.str pb) (.con f n) _ _ hst
        (deref_mono _ _ _ _ _ hna (by omega)) (deref_mono _ _ _ _ _ hnb (by omega))
        (by simpa using hpp) rfl rfl ?_ ?_ hpush
      · simp [functor, hpa]
      · simp [functor, hpb]
    have hfuel : fuel + (k2 + 1 + k1 + 1) + 1 = (fuel + k2 + 1 + k1 + 1) + 1 := by omega
    rw [hfuel, equal_loop_step hdl hiter]
    have hfuel2 : fuel + k2 + 1 + k1 + 1 = (fuel + k2 + 1 + 1) + k1 := by omega
    rw [hfuel2, hk1 _ (by omega)]
    have hfuel3 : fuel + k2 + 1 + 1 = (fuel + 1) + k2 + 1 := by omega
    rw [hfuel3, hk2 _ (by omega)]

/-- A finite term is the same tree as itself, through any two cells that
dereference to its `STR` cell. -/
theorem sameTerm_refl {heap : Heap} {a : Cell} (h : FinTerm heap a) :
    ∀ b e, DerefTo heap a e → DerefTo heap b e → SameTerm heap a b := by
  induction h with
  | atomic a e0 ha ht =>
    intro b e hae hbe
    have := derefTo_det ha hae
    subst this
    exact SameTerm.atomic a b e0 hae hbe ht
  | str a p f n ha hp hl hargs ih =>
    intro b e hae hbe
    have := derefTo_det ha hae
    subst this
    refine SameTerm.str a b p p f n hae hbe hp hp hl hl ?_
    intro k x y hk hx hy
    rw [hx] at hy
    injection hy with hy
    subst hy
    obtain ⟨ex, hex⟩ : ∃ ex, DerefTo heap x ex := by
      cases hargs k x hk hx with
      | atomic _ e1 h1 _ => exact ⟨e1, h1⟩
      | str _ p1 _ _ h1 _ _ _ => exact ⟨.str p1, h1⟩
    exact ih k x hk hx x ex hex hex

/-- The arguments of two `STR` cells are pairwise the same, or there is a
first pair that differs. -/
theorem first_difference {heap : Heap} {pa pb n : Nat} (hla : pa + 1 + n ≤ heap.length)
    (hlb : pb + 1 + n ≤ heap.length)
    (hall : ∀ k x y, k < n → heap[pa + 1 + k]? = some x → heap[pb + 1 + k]? = some y →
      SameTerm heap x y ∨ DiffTerm heap x y) :
    ∀ m, m ≤ n →
      (∀ j u v, j < m → heap[pa + 1 + j]? = some u → heap[pb + 1 + j]? = some v →
        SameTerm heap u v) ∨
      ∃ k x y, k < m ∧
        (∀ j u v, j < k → heap[pa + 1 + j]? = some u → heap[pb + 1 + j]? = some v →
          SameTerm heap u v) ∧
        heap[pa + 1 + k]? = some x ∧ heap[pb + 1 + k]? = some y ∧ DiffTerm heap x y := by
  intro m
  induction m with
  | zero =>
    intro _
    exact Or.inl (fun j _ _ hj => absurd hj (Nat.not_lt_zero j))
  | succ m ih =>
    intro hm
    rcases ih (by omega) with hsame | ⟨k, x, y, hk, hpre, hx, hy, hd⟩
    · have hxa : pa + 1 + m < heap.length := by omega
      have hxb : pb + 1 + m < heap.length := by omega
      rcases hall m heap[pa + 1 + m] heap[pb + 1 + m] (by omega)
          (List.getElem?_eq_getElem hxa) (List.getElem?_eq_getElem hxb) with h | h
      · left
        intro j u v hj hu hv
        by_cases hjm : j = m
        · subst hjm
          rw [List.getElem?_eq_getElem hxa] at hu
          rw [List.getElem?_eq_getElem hxb] at hv
          injection hu with hu
          injection hv with hv
          rw [← hu, ← hv]
          exact h
        · exact hsame j u v (by omega) hu hv
      · right
        exact ⟨m, _, _, by omega, hsame, List.getElem?_eq_getElem hxa,
          List.getElem?_eq_getElem hxb, h⟩
    · right
      exact ⟨k, x, y, by omega, hpre, hx, hy, hd⟩

/-- Two finite terms are the same tree or they differ. -/
theorem same_or_diff {heap : Heap} {a : Cell} (h : FinTerm heap a) :
    ∀ b, FinTerm heap b → SameTerm heap a b ∨ DiffTerm heap a b := by
  induction h with
  | atomic a e ha ht =>
    intro b hb
    obtain ⟨eb, hbe⟩ : ∃ eb, DerefTo heap b eb := by
      cases hb with
      | atomic _ e1 h1 _ => exact ⟨e1, h1⟩
      | str _ p1 _ _ h1 _ _ _ => exact ⟨.str p1, h1⟩
    by_cases heq : e = eb
    · subst heq
      exact Or.inl (SameTerm.atomic a b e ha hbe ht)
    · exact Or.inr (DiffTerm.cell a b e eb ha hbe heq (Or.inr ht))
  | str a pa f n ha hpa hla hargs ih =>
    intro b hb
    cases hb with
    | atomic _ eb hbe htb =>
      right
      refine DiffTerm.cell a b (.str pa) eb ha hbe ?_ (Or.inl ?_)
      · intro hc
        rw [← hc] at htb
        exact htb rfl
      · intro hc
        exact htb hc.symm
    | str _ pb g m hbe hpb hlb hbargs =>
      by_cases hpp : pa = pb
      · subst hpp
        exact Or.inl (sameTerm_refl (FinTerm.str a pa f n ha hpa hla hargs) b _ ha hbe)
      · by_cases hfg : Cell.con f n = Cell.con g m
        · injection hfg with hf hn
          subst hf
          subst hn
          rcases first_difference hla hlb
              (fun k x y hk hx hy => ih k x hk hx y (hbargs k y hk hy)) n (le_refl _) with
            hsame | ⟨k, x, y, hk, hpre, hx, hy, hd⟩
          · exact Or.inl (SameTerm.str a b pa pb f n ha hbe hpa hpb hla hlb hsame)
          · exact Or.inr (DiffTerm.arg a b pa pb f n k x y ha hbe hpp hpa hpb hla hlb hk hpre
              hx hy hd)
        · right
          refine DiffTerm.functor a b pa pb (.con f n) (.con g m) ha hbe ?_ ?_ hfg
          · simp [functor, hpa]
          · simp [functor, hpb]

/-- On the same tree `equal` returns true and the state of the call. -/
theorem equal_of_same {s : TermEnv} {a b : Cell} (h : SameTerm s.heap a b) :
    ∃ n, s.equal n a b = some (true, s) := by
  obtain ⟨k, F, hk⟩ := same_item h ((s.push b).push a) s.stack s.stack.length rfl rfl (le_refl _)
  refine ⟨F + 1 + k, ?_⟩
  unfold TermEnv.equal
  rw [hk (F + 1) (by omega)]
  simp [TermEnv.equal_loop, TermEnv.push]

/-- On trees that differ `equal` returns false and the state of the call. -/
theorem equal_of_diff {s : TermEnv} {a b : Cell} (h : DiffTerm s.heap a b) :
    ∃ n, s.equal n a b = some (false, s) := by
  obtain ⟨k, F, hk⟩ := diff_item h ((s.push b).push a) [] s.stack rfl rfl
  refine ⟨F + k + 1, ?_⟩
  unfold TermEnv.equal
  rw [hk F (le_refl _)]
  simp [TermEnv.push]

/-- C26: on finite terms `equal(a, b)` returns; whenever it returns, the
environment (heap, trail and work stack) is that of the call, and the result is
true exactly if the dereferenced terms are the same tree: the same cell when
it is not an `STR` cell (a `CON` cell, an `INT` cell, or one unbound `REF`
cell), and for `STR` cells the same functor with pairwise equal arguments. -/
theorem equal_iff_same (s : TermEnv) (a b : Cell) (ha : FinTerm s.heap a)
    (hb : FinTerm s.heap b) :
    (∃ n r, s.equal n a b = some (r, s)) ∧
      ∀ n r s1, s.equal n a b = some (r, s1) →
        s1 = s ∧ (r = true ↔ SameTerm s.heap a b) := by
  have hdet : ∀ {n m : Nat} {r1 r2 : Bool × TermEnv}, s.equal n a b = some r1 →
      s.equal m a b = some r2 → r1 = r2 := by
    intro n m r1 r2 h1 h2
    have e1 := equal_loop_mono _ n (max n m) _ r1 h1 (le_max_left _ _)
    have e2 := equal_loop_mono _ m (max n m) _ r2 h2 (le_max_right _ _)
    rw [e1] at e2
    injection e2
  rcases same_or_diff ha b hb with hs | hd
  · obtain ⟨n0, hn0⟩ := equal_of_same hs
    refine ⟨⟨n0, true, hn0⟩, ?_⟩
    intro n r s1 h
    have := hdet h hn0
    injection this with h1 h2
    subst h1
    subst h2
    exact ⟨rfl, fun _ => hs, fun _ => rfl⟩
  · obtain ⟨n0, hn0⟩ := equal_of_diff hd
    refine ⟨⟨n0, false, hn0⟩, ?_⟩
    intro n r s1 h
    have := hdet h hn0
    injection this with h1 h2
    subst h1
    subst h2
    refine ⟨rfl, fun hc => by simp at hc, fun hsame => ?_⟩
    obtain ⟨n1, hn1⟩ := equal_of_same hsame
    have := hdet hn1 hn0
    simp at this

theorem example_db_fin (p : Nat) (v : Int) (hp : example_db_heap[p]? = some (.con "p" 1))
    (hv : example_db_heap[p + 1]? = some (.int v)) : FinTerm example_db_heap (.str p) := by
  have hlen : p + 1 + 1 ≤ example_db_heap.length := by
    have := (List.getElem?_eq_some.1 hv).1
    omega
  refine FinTerm.str (.str p) p "p" 1 (derefTo_nonref _ _ (by simp [Cell.tag])) hp hlen ?_
  intro k x hk hx
  have hk0 : k = 0 := by omega
  subst hk0
  rw [Nat.add_zero, hv] at hx
  injection hx with hx
  subst hx
  exact FinTerm.atomic _ (.int v) (derefTo_nonref _ _ (by simp [Cell.tag])) (by simp [Cell.tag])

theorem equal_iff_same_witness :
    FinTerm ({ TermEnv.init with heap := example_db_heap } : TermEnv).heap (.str 0) ∧
    FinTerm ({ TermEnv.init with heap := example_db_heap } : TermEnv).heap (.str 2) ∧
    ((∃ n r, ({ TermEnv.init with heap := example_db_heap } : TermEnv).equal n (.str 0) (.str 2) =
        some (r, { TermEnv.init with heap := example_db_heap })) ∧
      ∀ n r s1, ({ TermEnv.init with heap := example_db_heap } : TermEnv).equal n (.str 0)
          (.str 2) = some (r, s1) →
        s1 = { TermEnv.init with heap := example_db_heap } ∧
          (r = true ↔ SameTerm ({ TermEnv.init with heap := example_db_heap } : TermEnv).heap
            (.str 0) (.str 2))) :=
  ⟨example_db_fin 0 1 rfl rfl, example_db_fin 2 1 rfl rfl,
    equal_iff_same _ _ _ (example_db_fin 0 1 rfl rfl) (example_db_fin 2 1 rfl rfl)⟩

/-! ## The memo tables, the pending syntax checks and the builtin table -/

/-- C34 at the failing input: the clauses `p(1)`, `p(1)`, `p(2)` and the goal
`p(3)`.  `matched_predicate_id` memoizes the empty list under the id 1 of the
key `(p/1, 3)`; `dispatch` finds the list empty, assigns `program_db_[f]`
through the reference to it and fails: the goal returns false, and the
memoized list of the key now holds all three clauses. -/
theorem dispatch_overwrites_memo :
    (example_loaded_interp.matched_predicate_id (.con "p" 1) (.int 3)).map
      (fun r => (r.1, r.2.get_predicate 1)) = some (1, some []) ∧
    (Interp.execute example_collab 30 example_loaded_interp (.str 8)).map
      (fun r => (r.1, r.2.predicate_id (.con "p" 1, some (.int 3)), r.2.get_predicate 1,
        r.2.clauses_of (.con "p" 1))) =
    some (.ok false, some 1, some [.str 0, .str 2, .str 4], [.str 0, .str 2, .str 4]) := by
  constructor <;> rfl

/-- C37 at the failing input: `load_clause` of the term `1 :- 2` ends with
the error "goal is not callable" and leaves the check of the head `1` on the
stack of pending checks.  The `load_clause` of the valid clause `p(1)` that
follows runs the left-over check, ends with the error "head of clause is not
a functor" and does not store `p(1)`; in the fresh interpreter the same
`load_clause` stores it. -/
theorem stale_check_rejects_valid_clause :
    (example_syntax_interp.load_clause 10 (.str 0)).map
      (fun r => (r.1, r.2.syntax_check_stack)) =
    some (.error (.bad_goal (.int 2) "Goal is not callable."), [.check_head (.int 1)]) ∧
    ((example_syntax_interp.load_clause 10 (.str 0)).bind
      (fun r => r.2.load_clause 10 (.str 3))).map
      (fun r => (r.1, r.2.syntax_check_stack, r.2.clauses_of (.con "p" 1))) =
    some (.error (.clause_bad_head (.int 1) "Head of clause is not a functor"), [], []) ∧
    (example_syntax_interp.load_clause 10 (.str 3)).map
      (fun r => (r.1, r.2.syntax_check_stack, r.2.clauses_of (.con "p" 1))) =
    some (.ok (), [], [.str 3]) := by
  refine ⟨?_, ?_, ?_⟩ <;> rfl

/-- C38 at the failing input: the goal `write(1)` is called before the file
builtins are registered.  The call ends with the error "undefined predicate",
and the lookup `builtins_[f]` of `dispatch` has left the entry `nullptr` for
`write/1`; `load_builtin` then finds the key and keeps `nullptr`, so after
`enable_file_io` the goal `write(1)` still ends with "undefined predicate"
and the builtin is not called.  Without the earlier call the builtin is
registered and called. -/
theorem dispatched_functor_blocks_builtin :
    (Interp.execute example_true_collab 30 example_write_interp (.str 0)).map
      (fun r => (r.1, r.2.builtins (.con "write" 1),
        r.2.load_builtins_file_io.builtins (.con "write" 1))) =
    some (.error (.undefined_predicate (.con "write" 1)), some none, some none) ∧
    ((Interp.execute example_true_collab 30 example_write_interp (.str 0)).bind
      (fun r => Interp.execute example_true_collab 30 r.2.load_builtins_file_io (.str 0))).map
      (fun r => r.1) = some (.error (.undefined_predicate (.con "write" 1))) ∧
    (Interp.execute example_true_collab 30 example_write_interp.load_builtins_file_io
      (.str 0)).map (fun r => (r.1, r.2.builtins (.con "write" 1))) =
    some (.ok true, some (some .write_1)) := by
  refine ⟨?_, ?_, ?_⟩ <;> rfl

/-! ## The identifiers of the memoized clause lists -/

theorem init_id_to_predicate (env : TermEnv) : (Interp.init env).id_to_predicate = [[]] := by
  have hb : ∀ (l : List (Cell × Builtin)) (s : Interp),
      (l.foldl (fun s fb => s.load_builtin fb.1 (some fb.2)) s).id_to_predicate =
        s.id_to_predicate := by
    intro l
    induction l with
    | nil => intro s; rfl
    | cons x rest ih =>
      intro s
      rw [List.foldl_cons, ih]
      unfold Interp.load_builtin
      split <;> rfl
  have ho : ∀ (s : Interp) (f : Cell) (b : Option BuiltinOpt),
      (s.load_builtin_opt f b).id_to_predicate = s.id_to_predicate := by
    intro s f b
    unfold Interp.load_builtin_opt
    split <;> rfl
  unfold Interp.init Interp.load_builtins_opt Interp.load_builtins
  simp only [ho, hb]
  rfl

/-- The identifiers of a new interpreter are well formed. -/
theorem init_idsOk (env : TermEnv) : (Interp.init env).IdsOk := by
  constructor
  · rw [init_id_to_predicate]
    simp
  · intro key id h
    rw [init_predicate_id] at h
    simp at h
  · intro k1 k2 id h
    rw [init_predicate_id] at h
    simp at h

/-- `load_clause` keeps the identifiers well formed. -/
theorem load_clause_idsOk {fuel : Nat} {s s1 : Interp} {t : Cell}
    (h : Interp.load_clause fuel s t = some (.ok (), s1)) (hs : s.IdsOk) : s1.IdsOk := by
  obtain ⟨_, _, _, _, _, hpid, hitp, _⟩ := load_clause_ok h
  constructor
  · rw [hitp]
    exact hs.reserved
  · intro key id hk
    rw [hpid] at hk
    rw [hitp]
    exact hs.pos key id hk
  · intro k1 k2 id h1 h2
    rw [hpid] at h1 h2
    exact hs.inj k1 k2 id h1 h2

/-- What one call of `matched_predicate_id` does to the identifiers. -/
theorem matched_predicate_id_step {s s1 : Interp} {f a : Cell} {id : Nat} (hs : s.IdsOk)
    (h : s.matched_predicate_id f a = some (id, s1)) :
    0 < id ∧ s1.IdsOk ∧ s1.env = s.env ∧
    (∃ k, Interp.discriminator s.env.heap a = some k ∧ s1.predicate_id (f, k) = some id) ∧
    (∀ key id0, s.predicate_id key = some id0 → s1.predicate_id key = some id0) ∧
    s1.id_to_predicate.length ≤ s.id_to_predicate.length + 1 := by
  cases hk : Interp.discriminator s.env.heap a with
  | none =>
    unfold Interp.matched_predicate_id at h
    simp [matched_index_arg_eq, hk] at h
  | some k =>
    cases hold : s.predicate_id (f, k) with
    | some id0 =>
      rw [matched_predicate_id_old hk hold] at h
      simp only [Option.some.injEq, Prod.mk.injEq] at h
      obtain ⟨hid, hs1⟩ := h
      subst hid
      subst hs1
      exact ⟨(hs.pos _ _ hold).1, hs, rfl, ⟨k, rfl, hold⟩, fun _ _ h0 => h0, Nat.le_succ _⟩
    | none =>
      obtain ⟨hid, henv, hpid, hitp, _, _⟩ := matched_predicate_id_new hk hold h
      have hlen : s1.id_to_predicate.length = s.id_to_predicate.length + 1 := by
        rw [hitp]
        simp
      refine ⟨?_, ?_, henv, ⟨k, rfl, ?_⟩, ?_, ?_⟩
      · rw [hid]
        exact hs.reserved
      · constructor
        · rw [hlen]
          omega
        · intro key id1 hkey
          rw [hpid] at hkey
          rw [hlen]
          by_cases hkk : key = (f, k)
          · rw [hkk, map_set_same] at hkey
            simp only [Option.some.injEq] at hkey
            have := hs.reserved
            omega
          · rw [map_set_other _ _ _ _ hkk] at hkey
            have := hs.pos key id1 hkey
            omega
        · intro k1 k2 id1 h1 h2
          rw [hpid] at h1 h2
          by_cases hk1 : k1 = (f, k)
          · by_cases hk2 : k2 = (f, k)
            · rw [hk1, hk2]
            · rw [hk1, map_set_same] at h1
              rw [map_set_other _ _ _ _ hk2] at h2
              simp only [Option.some.injEq] at h1
              have := (hs.pos k2 id1 h2).2
              omega
          · by_cases hk2 : k2 = (f, k)
            · rw [hk2, map_set_same] at h2
              rw [map_set_other _ _ _ _ hk1] at h1
              simp only [Option.some.injEq] at h2
              have := (hs.pos k1 id1 h1).2
              omega
            · rw [map_set_other _ _ _ _ hk1] at h1
              rw [map_set_other _ _ _ _ hk2] at h2
              exact hs.inj k1 k2 id1 h1 h2
      · rw [hpid, map_set_same]
      · intro key id0 h0
        rw [hpid]
        by_cases hkk : key = (f, k)
        · rw [hkk, hold] at h0
          simp at h0
        · rw [map_set_other _ _ _ _ hkk]
          exact h0
      · rw [hlen]

/-- C40: in a state whose identifiers are well formed (a new interpreter is
one, and `load_clause` and `matched_predicate_id` keep it so),
`matched_predicate_id` never returns 0; the key of the call has the returned
id afterwards and every earlier key keeps its id; the call adds at most one
entry to `id_to_predicate_`; and a later call returns the same id exactly
when its key (functor and discriminator of the first argument) is the
same. -/
theorem matched_predicate_id_ids (s s1 : Interp) (f a : Cell) (id : Nat) (hs : s.IdsOk)
    (h : s.matched_predicate_id f a = some (id, s1)) :
    0 < id ∧ s1.IdsOk ∧
    (∃ k, Interp.discriminator s.env.heap a = some k ∧ s1.predicate_id (f, k) = some id) ∧
    (∀ key id0, s.predicate_id key = some id0 → s1.predicate_id key = some id0) ∧
    s1.id_to_predicate.length ≤ s.id_to_predicate.length + 1 ∧
    (∀ g b id2 s2, s1.matched_predicate_id g b = some (id2, s2) →
      (id2 = id ↔
        g = f ∧ Interp.discriminator s1.env.heap b = Interp.discriminator s.env.heap a)) := by
  obtain ⟨hpos, hok, henv, ⟨k, hk, hkey⟩, hkeep, hlen⟩ := matched_predicate_id_step hs h
  refine ⟨hpos, hok, ⟨k, hk, hkey⟩, hkeep, hlen, ?_⟩
  intro g b id2 s2 h2
  obtain ⟨_, hok2, _, ⟨k2, hk2, hkey2⟩, hkeep2, _⟩ := matched_predicate_id_step hok h2
  have hkey1 := hkeep2 _ _ hkey
  constructor
  · intro heq
    rw [heq] at hkey2
    have := hok2.inj _ _ _ hkey2 hkey1
    simp only [Prod.mk.injEq] at this
    exact ⟨this.1, by rw [hk2, hk, this.2]⟩
  · rintro ⟨hg, hd⟩
    rw [hk2, hk] at hd
    simp only [Option.some.injEq] at hd
    rw [hg, hd, hkey1] at hkey2
    simp only [Option.some.injEq] at hkey2
    exact hkey2.symm

theorem example_loaded_idsOk : example_loaded_interp.IdsOk :=
  load_clause_idsOk
    (rfl : Interp.load_clause 10 ((example_db_interp.loaded (.str 0)).loaded (.str 2)) (.str 4) =
      some (.ok (), example_loaded_interp))
    (load_clause_idsOk
      (rfl : Interp.load_clause 10 (example_db_interp.loaded (.str 0)) (.str 2) =
        some (.ok (), (example_db_interp.loaded (.str 0)).loaded (.str 2)))
      (load_clause_idsOk
        (rfl : Interp.load_clause 10 example_db_interp (.str 0) =
          some (.ok (), example_db_interp.loaded (.str 0)))
        (init_idsOk _)))

theorem matched_predicate_id_ids_witness :
    ∃ s1, example_loaded_interp.matched_predicate_id (.con "p" 1) (.int 3) = some (1, s1) ∧
      0 < 1 ∧ s1.IdsOk ∧
      (∃ k, Interp.discriminator example_loaded_interp.env.heap (.int 3) = some k ∧
        s1.predicate_id (.con "p" 1, k) = some 1) ∧
      (∀ key id0, example_loaded_interp.predicate_id key = some id0 →
        s1.predicate_id key = some id0) ∧
      s1.id_to_predicate.length ≤ example_loaded_interp.id_to_predicate.length + 1 ∧
      (∀ g b id2 s2, s1.matched_predicate_id g b = some (id2, s2) →
        (id2 = 1 ↔ g = .con "p" 1 ∧ Interp.discriminator s1.env.heap b =
          Interp.discriminator example_loaded_interp.env.heap (.int 3))) :=
  ⟨_, rfl, matched_predicate_id_ids example_loaded_interp _ (.con "p" 1) (.int 3) 1
    example_loaded_idsOk rfl⟩

/-! ## First-argument indexing is sound -/

theorem definitely_inequal_self (heap : Heap) (c : Cell) :
    Interp.definitely_inequal heap c c ≠ some true := by
  cases c with
  | str p =>
    simp only [Interp.definitely_inequal, Cell.tag]
    cases functor heap (.str p) <;> simp
  | ref i => simp [Interp.definitely_inequal, Cell.tag]
  | con f n => simp [Interp.definitely_inequal, Cell.tag]
  | int v => simp [Interp.definitely_inequal, Cell.tag]
  | big i => simp [Interp.definitely_inequal, Cell.tag]
  | gbl i => simp [Interp.definitely_inequal, Cell.tag]

/-- A pair of cells that dereference to cells that `definitely_inequal` tells
apart makes the loop of `unify_helper` return false. -/
theorem unify_iter_differ {n : Nat} {st : TermEnv} {a0 b0 h a : Cell} {rest : List Cell}
    (hst : st.stack = a0 :: b0 :: rest) (hda : deref st.heap n a0 = some h)
    (hdb : deref st.heap n b0 = some a)
    (hd : Interp.definitely_inequal st.heap h a = some true) :
    TermEnv.unify_iter n st = some (.done false, { st with stack := rest }) := by
  have hne : h ≠ a := by
    intro hc
    rw [hc] at hd
    exact definitely_inequal_self _ _ hd
  have hh : h.tag ≠ .REF := by
    intro hc
    simp [Interp.definitely_inequal, hc] at hd
  have ha : a.tag ≠ .REF := by
    intro hc
    simp [Interp.definitely_inequal, hc] at hd
  unfold TermEnv.unify_iter
  rw [hst]
  simp only [hda, hdb, if_neg hne, if_neg hh, if_neg ha]
  by_cases ht : h.tag = a.tag
  · simp only [Interp.definitely_inequal, hh, ha, or_self, if_false, ht, ne_eq,
      not_true_eq_false] at hd
    simp only [ne_eq, ht, not_true_eq_false, if_false]
    cases a with
    | ref i => simp [Cell.tag] at ha
    | con f k => simp [Cell.tag, hne]
    | int v => simp [Cell.tag, hne]
    | big i => simp [Cell.tag] at hd
    | gbl i => simp [Cell.tag] at hd
    | str p =>
      simp only [Cell.tag] at hd ⊢
      cases hfa : functor st.heap h with
      | none => simp [hfa] at hd
      | some fa =>
        cases hfb : functor st.heap (.str p) with
        | none => simp [hfa, hfb] at hd
        | some fb =>
          simp only [hfa, hfb, Option.some.injEq, decide_eq_true_eq] at hd
          simp [hd]
  · simp [ht]

/-- A pair of cells that `definitely_inequal` tells apart makes the loop of
`unify_helper` return false. -/
theorem unify_iter_inequal {n : Nat} {st : TermEnv} {h a : Cell} {rest : List Cell}
    (hst : st.stack = h :: a :: rest)
    (hd : Interp.definitely_inequal st.heap h a = some true) :
    TermEnv.unify_iter n st = some (.done false, { st with stack := rest }) := by
  have hh : h.tag ≠ .REF := by
    intro hc
    simp [Interp.definitely_inequal, hc] at hd
  have ha : a.tag ≠ .REF := by
    intro hc
    simp [Interp.definitely_inequal, hc] at hd
  exact unify_iter_differ hst (deref_nonref _ n h hh) (deref_nonref _ n a ha) hd

/-- A failed `unify_helper` that has bound nothing: `unify` returns false and
the state of the call. -/
theorem unify_of_helper_false {fuel : Nat} {s : TermEnv} {a b : Cell} {loc : List Cell}
    (h : TermEnv.unify_helper fuel { s with register_hb := s.register_h } a b =
      some (false, { s with register_hb := s.register_h, stack := loc ++ s.stack })) :
    TermEnv.unify fuel s a b = some (false, s) := by
  unfold TermEnv.unify
  simp only [h, Bool.not_false, if_true, TermEnv.unwind_trail, TermEnv.trail_depth,
    Nat.sub_self, TermEnv.unwind_trail_loop, TermEnv.trim_trail, TermEnv.trim_stack,
    TermEnv.stack_depth, resize_top_append]
  have ht : resize_back s.trail s.trail.length 0 = s.trail := by
    have := resize_back_append s.trail [] 0
    simpa using this
  rw [ht]

/-- C33: two query arguments with the same index key (both `STR` with the
same functor, the same `CON` cell, the same `INT` cell, or both REF) have the
same discriminator, `definitely_inequal` gives the same answer for them
against every head argument, and `compute_matched_predicate` filters every
clause list to the same list for them. -/
theorem same_key_same_filter (heap : Heap) (a1 a2 : Cell)
    (hkey : (a1.tag = .STR ∧ a2.tag = .STR ∧ functor heap a1 = functor heap a2) ∨
      (a1.tag = .CON ∧ a1 = a2) ∨ (a1.tag = .INT ∧ a1 = a2) ∨
      (a1.tag = .REF ∧ a2.tag = .REF)) :
    Interp.discriminator heap a1 = Interp.discriminator heap a2 ∧
    (∀ h, Interp.definitely_inequal heap h a1 = Interp.definitely_inequal heap h a2) ∧
    (∀ clauses matched, Interp.compute_matched_loop heap a1 clauses matched =
      Interp.compute_matched_loop heap a2 clauses matched) := by
  have hdi : ∀ h, Interp.definitely_inequal heap h a1 = Interp.definitely_inequal heap h a2 := by
    intro h
    rcases hkey with ⟨h1, h2, hf⟩ | ⟨_, rfl⟩ | ⟨_, rfl⟩ | ⟨h1, h2⟩
    · cases a1 <;> simp [Cell.tag] at h1
      cases a2 <;> simp [Cell.tag] at h2
      cases h <;> simp [Interp.definitely_inequal, Cell.tag, hf]
    · rfl
    · rfl
    · simp [Interp.definitely_inequal, h1, h2]
  refine ⟨?_, hdi, ?_⟩
  · rcases hkey with ⟨h1, h2, hf⟩ | ⟨_, rfl⟩ | ⟨_, rfl⟩ | ⟨h1, h2⟩
    · simp [Interp.discriminator, h1, h2, hf]
    · rfl
    · rfl
    · simp [Interp.discriminator, h1, h2]
  · intro clauses
    induction clauses with
    | nil => intro matched; rfl
    | cons c rest ih =>
      intro matched
      simp only [Interp.compute_matched_loop, hdi, ih]

theorem same_key_same_filter_witness :
    Interp.discriminator example_db_heap (.str 0) = Interp.discriminator example_db_heap (.str 4) ∧
    (∀ h, Interp.definitely_inequal example_db_heap h (.str 0) =
      Interp.definitely_inequal example_db_heap h (.str 4)) ∧
    (∀ clauses matched, Interp.compute_matched_loop example_db_heap (.str 0) clauses matched =
      Interp.compute_matched_loop example_db_heap (.str 4) clauses matched) :=
  same_key_same_filter example_db_heap (.str 0) (.str 4) (Or.inl ⟨rfl, rfl, rfl⟩)

/-- If `definitely_inequal(h, a)` is true then `unify(h, a)` returns false,
with every fuel that lets it run, and gives back the state of the call;
`unify` of a head whose first argument is `h` with a goal whose first argument
is `a` returns false as well. -/
theorem indexing_sound (s : TermEnv) (h a : Cell)
    (hd : Interp.definitely_inequal s.heap h a = some true) :
    (∀ n, s.unify (n + 1) h a = some (false, s)) ∧
    (∀ (ph pg : Nat) (f g : String) (n m : Nat),
      s.heap[ph]? = some (.con f n) → s.heap[pg]? = some (.con g m) →
      ph + 1 + n ≤ s.heap.length → pg + 1 + m ≤ s.heap.length → 0 < n → 0 < m →
      s.heap[ph + 1]? = some h → s.heap[pg + 1]? = some a →
      ∀ k, s.unify (k + 2) (.str ph) (.str pg) = some (false, s)) := by
  refine ⟨?_, ?_⟩
  · intro n
    apply @unify_of_helper_false _ _ _ _ []
    simp only [TermEnv.unify_helper, TermEnv.unify_loop, TermEnv.push, List.length_cons]
    rw [if_pos (by omega), @unify_iter_inequal n
      { s with register_hb := s.register_h, stack := h :: a :: s.stack } h a s.stack rfl hd]
    rfl
  · intro ph pg f g n m hph hpg hlh hlg hn hm hh ha k
    have hpp : ph ≠ pg := by
      intro hc
      subst hc
      rw [hh] at ha
      injection ha with ha
      subst ha
      exact definitely_inequal_self _ _ hd
    by_cases hfg : Cell.con f n = Cell.con g m
    · injection hfg with hf hnm
      subst hf
      subst hnm
      obtain ⟨as, hasl, has⟩ := args_list s.heap ph n hlh
      obtain ⟨bs, hbsl, hbs⟩ := args_list s.heap pg n hlg
      have hpush := push_arg_pairs_spec s.heap ph pg n as bs hasl hbsl has hbs n s.stack
        (le_refl _)
      rw [List.take_of_length_le (by omega), List.take_of_length_le (by omega)] at hpush
      cases as with
      | nil => simp at hasl; omega
      | cons x as1 =>
        cases bs with
        | nil => simp at hbsl; omega
        | cons y bs1 =>
          have hx : x = h := by
            have := has 0 hn
            simp only [Nat.add_zero, hh, List.getElem?_cons_zero, Option.some.injEq] at this
            exact this.symm
          have hy : y = a := by
            have := hbs 0 hn
            simp only [Nat.add_zero, ha, List.getElem?_cons_zero, Option.some.injEq] at this
            exact this.symm
          subst hx
          subst hy
          apply @unify_of_helper_false _ _ _ _ (arg_pairs as1 bs1)
          have hiter : TermEnv.unify_iter (k + 1)
              { s with register_hb := s.register_h, stack := Cell.str ph :: Cell.str pg :: s.stack } =
              some (.next, { s with
                register_hb := s.register_h,
                stack := x :: y :: (arg_pairs as1 bs1 ++ s.stack) }) := by
            refine @unify_iter_str _ _ _ _ (.str ph) (.str pg) (.con f n) _ _ rfl
              (deref_nonref _ _ _ (by simp [Cell.tag])) (deref_nonref _ _ _ (by simp [Cell.tag]))
              (by simpa using hpp) rfl rfl ?_ ?_ ?_
            · simp [functor, hph]
            · simp [functor, hpg]
            · simpa [arg_pairs] using hpush
          simp only [TermEnv.unify_helper, TermEnv.push]
          rw [unify_loop_step (by simp only [List.length_cons]; omega) hiter]
          simp only [TermEnv.unify_loop, List.length_cons, List.length_append]
          rw [if_pos (by omega), @unify_iter_inequal k
            { s with
              register_hb := s.register_h,
              stack := x :: y :: (arg_pairs as1 bs1 ++ s.stack) }
            x y (arg_pairs as1 bs1 ++ s.stack) rfl hd]
    · apply @unify_of_helper_false _ _ _ _ []
      simp only [TermEnv.unify_helper, TermEnv.unify_loop, TermEnv.push, List.length_cons]
      rw [if_pos (by omega)]
      have hiter : TermEnv.unify_iter (k + 1)
          { s with register_hb := s.register_h, stack := Cell.str ph :: Cell.str pg :: s.stack } =
          some (.done false, { s with register_hb := s.register_h, stack := s.stack }) := by
        unfold TermEnv.unify_iter
        simp [deref_nonref, Cell.tag, hpp, functor, hph, hpg, hfg]
      rw [hiter]
      rfl

theorem indexing_sound_witness :
    (∀ n, ({ TermEnv.init with heap := example_db_heap } : TermEnv).unify (n + 1) (.int 1)
      (.int 3) = some (false, { TermEnv.init with heap := example_db_heap })) ∧
    (∀ (ph pg : Nat) (f g : String) (n m : Nat),
      example_db_heap[ph]? = some (.con f n) → example_db_heap[pg]? = some (.con g m) →
      ph + 1 + n ≤ example_db_heap.length → pg + 1 + m ≤ example_db_heap.length → 0 < n →
      0 < m → example_db_heap[ph + 1]? = some (.int 1) →
      example_db_heap[pg + 1]? = some (.int 3) →
      ∀ k, ({ TermEnv.init with heap := example_db_heap } : TermEnv).unify (k + 2) (.str ph)
        (.str pg) = some (false, { TermEnv.init with heap := example_db_heap })) :=
  indexing_sound { TermEnv.init with heap := example_db_heap } (.int 1) (.int 3) rfl

/-- A clause that the loop of `compute_matched_predicate` leaves out has a
head whose first argument `definitely_inequal` tells apart from the query
argument. -/
theorem left_out_clause_differs (heap : Heap) (a : Cell) :
    ∀ (clauses matched m : List Cell),
      Interp.compute_matched_loop heap a clauses matched = some m →
      ∀ clause, clause ∈ clauses → clause ∉ m →
        ∃ (ph : Nat) (f : String) (n : Nat) (h : Cell),
          Interp.clause_head heap clause = some (.str ph) ∧ heap[ph]? = some (.con f n) ∧
          0 < n ∧ heap[ph + 1]? = some h ∧ Interp.definitely_inequal heap h a = some true := by
  intro clauses
  induction clauses with
  | nil =>
    intro matched m _ clause hmem
    simp at hmem
  | cons c rest ih =>
    intro matched m hm clause hmem hout
    have hkept : ∀ m1, Interp.compute_matched_loop heap a rest (matched ++ [c]) = some m1 →
        c ∈ m1 := by
      intro m1 h1
      rw [compute_matched_loop_spec heap a rest _ m1 h1]
      simp
    simp only [Interp.compute_matched_loop] at hm
    cases hhead : Interp.clause_head heap c with
    | none => simp [hhead] at hm
    | some head =>
      simp only [hhead] at hm
      cases hfun : functor heap head with
      | none => simp [hfun] at hm
      | some hf =>
        simp only [hfun] at hm
        have hskip : Interp.compute_matched_loop heap a rest (matched ++ [c]) = some m →
            ∃ (ph : Nat) (f : String) (n : Nat) (h : Cell),
              Interp.clause_head heap clause = some (.str ph) ∧
              heap[ph]? = some (.con f n) ∧ 0 < n ∧ heap[ph + 1]? = some h ∧
              Interp.definitely_inequal heap h a = some true := by
          intro h1
          rcases List.mem_cons.1 hmem with heq | hrest
          · rw [heq] at hout
            exact absurd (hkept m h1) hout
          · exact ih _ m h1 clause hrest hout
        by_cases har : hf.arity > 0
        · simp only [har, if_true] at hm
          cases harg : arg heap head 0 with
          | none => simp [harg] at hm
          | some h0 =>
            simp only [harg] at hm
            cases hdi : Interp.definitely_inequal heap h0 a with
            | none => simp [hdi] at hm
            | some d =>
              simp only [hdi] at hm
              cases d with
              | false => exact hskip hm
              | true =>
                rcases List.mem_cons.1 hmem with heq | hrest
                · subst heq
                  cases head with
                  | str ph =>
                    simp only [arg, Nat.add_zero] at harg
                    simp only [functor] at hfun
                    cases hcell : heap[ph]? with
                    | none => simp [hcell] at hfun
                    | some cell =>
                      cases cell with
                      | con f n =>
                        simp only [hcell, Option.some.injEq] at hfun
                        subst hfun
                        exact ⟨ph, f, n, h0, hhead, hcell, har, harg, hdi⟩
                      | ref i => simp [hcell] at hfun
                      | int v => simp [hcell] at hfun
                      | str q => simp [hcell] at hfun
                      | big i => simp [hcell] at hfun
                      | gbl i => simp [hcell] at hfun
                  | ref i => simp [arg] at harg
                  | con f n => simp [arg] at harg
                  | int v => simp [arg] at harg
                  | big i => simp [arg] at harg
                  | gbl i => simp [arg] at harg
                · exact ih _ m hm clause hrest hout
        · simp only [har, if_false] at hm
          exact hskip hm

/-- First-argument filtering never removes a clause whose head unifies with
the goal: `unify` of the head of a clause that `compute_matched_predicate`
leaves out with a goal whose first argument is the query argument returns
false. -/
theorem left_out_clause_fails (s : TermEnv) (a : Cell) (clauses m : List Cell) (clause : Cell)
    (hm : Interp.compute_matched_loop s.heap a clauses [] = some m) (hmem : clause ∈ clauses)
    (hout : clause ∉ m) :
    ∃ (ph : Nat) (f : String) (n : Nat),
      Interp.clause_head s.heap clause = some (.str ph) ∧ s.heap[ph]? = some (.con f n) ∧
      ∀ (pg : Nat) (g : String) (k : Nat), s.heap[pg]? = some (.con g k) →
        ph + 1 + n ≤ s.heap.length → pg + 1 + k ≤ s.heap.length → 0 < k →
        s.heap[pg + 1]? = some a →
        ∀ fuel, s.unify (fuel + 2) (.str ph) (.str pg) = some (false, s) := by
  obtain ⟨ph, f, n, h, hhead, hph, hn, hh, hdi⟩ :=
    left_out_clause_differs s.heap a clauses [] m hm clause hmem hout
  refine ⟨ph, f, n, hhead, hph, ?_⟩
  intro pg g k hpg hlh hlg hk ha fuel
  exact (indexing_sound s h a hdi).2 ph pg f g n k hph hpg hlh hlg hn hk hh ha fuel

/-! ## The scanning loop of a worker -/

/-- The `for` loop of a worker on a range that does not wrap around. -/
theorem search_loop_range (detect : Nat → Bool) :
    ∀ (d : Nat) (w : ScanWorker), w.index_end - w.index = d → w.index ≤ w.index_end →
      w.index_end < 2 ^ 64 →
      ∃ w1 : ScanWorker,
        (∀ fuel, d < fuel → w.search_loop detect fuel = some w1) ∧
        w.index ≤ w1.index ∧ w1.index ≤ w.index_end ∧
        (∀ i, w.index ≤ i → i < w1.index → detect i = false) ∧
        ((w1.found_done = true ∧ w1.index < w.index_end ∧ detect w1.index = true ∧
            w1.examined = w.examined ++ List.range' w.index (w1.index + 1 - w.index)) ∨
          (w1.found_done = w.found_done ∧ w1.index = w.index_end ∧
            w1.examined = w.examined ++ List.range' w.index (w.index_end - w.index))) := by
  intro d
  induction d with
  | zero =>
    intro w hd hle _
    have heq : w.index = w.index_end := by omega
    refine ⟨w, ?_, le_refl _, hle, ?_, Or.inr ⟨rfl, heq, ?_⟩⟩
    · intro fuel hf
      obtain ⟨n, rfl⟩ : ∃ n, fuel = n + 1 := ⟨fuel - 1, by omega⟩
      simp [ScanWorker.search_loop, heq]
    · intro i h1 h2
      omega
    · simp [heq]
  | succ d ih =>
    intro w hd hle hmax
    have hne : w.index ≠ w.index_end := by omega
    by_cases hdet : detect w.index = true
    · refine ⟨{ w with examined := w.examined ++ [w.index], found_done := true }, ?_,
        le_refl _, hle, ?_, Or.inl ⟨rfl, by simp only; omega, hdet, ?_⟩⟩
      · intro fuel hf
        obtain ⟨n, rfl⟩ : ∃ n, fuel = n + 1 := ⟨fuel - 1, by omega⟩
        simp [ScanWorker.search_loop, hne, hdet]
      · intro i h1 h2
        simp only at h2
        omega
      · simp
    · have hsz : Interp.size_t (w.index + 1) = w.index + 1 := by
        unfold Interp.size_t
        exact Nat.mod_eq_of_lt (by omega)
      obtain ⟨w1, hrun, hlo, hhi, hnone, hres⟩ :=
        ih { w with examined := w.examined ++ [w.index], index := w.index + 1 }
          (by simp only; omega) (by simp only; omega) hmax
      simp only at hlo hhi hnone hres
      refine ⟨w1, ?_, by omega, hhi, ?_, ?_⟩
      · intro fuel hf
        obtain ⟨n, rfl⟩ : ∃ n, fuel = n + 1 := ⟨fuel - 1, by omega⟩
        simp only [ScanWorker.search_loop, ne_eq, hne, not_false_eq_true, if_true, hdet,
          Bool.false_eq_true, if_false, hsz]
        exact hrun n (by omega)
      · intro i h1 h2
        by_cases hi : i = w.index
        · rw [hi]
          simpa using hdet
        · exact hnone i (by omega) h2
      · rcases hres with ⟨h1, h2, h3, h4⟩ | ⟨h1, h2, h3⟩
        · refine Or.inl ⟨h1, h2, h3, ?_⟩
          rw [h4, List.append_assoc]
          congr 1
          have : w1.index + 1 - w.index = (w1.index + 1 - (w.index + 1)) + 1 := by omega
          rw [this, List.range'_succ]
          rfl
        · refine Or.inr ⟨h1, h2, ?_⟩
          rw [h3, List.append_assoc]
          congr 1
          have : w.index_end - w.index = (w.index_end - (w.index + 1)) + 1 := by omega
          rw [this, List.range'_succ]
          rfl

/-- The loop of `scan` reaches the smallest index at which the detector
matches. -/
theorem scan_loop_finds (detect : Nat → Nat → Bool) (proof_num m : Nat)
    (hm : detect proof_num m = true) (hmin : ∀ i, i < m → detect proof_num i = false)
    (hmax : m + 100 < 2 ^ 64) :
    ∀ (d index : Nat) (w : ScanWorker), m - index = d → index ≤ m →
      (∀ i, i < index → detect proof_num i = false) → w.found_done = false →
      ∃ w1 : ScanWorker, w1.found_done = true ∧ w1.index = m ∧
        ∀ fuel, d + 102 < fuel → Observatory.scan_loop detect proof_num fuel index w = some w1 := by
  intro d
  induction d using Nat.strong_induction_on with
  | _ d ih =>
    intro index w hd hle hbefore hfd
    have hsz : Interp.size_t (index + 100) = index + 100 := by
      unfold Interp.size_t
      exact Nat.mod_eq_of_lt (by omega)
    obtain ⟨w1, hrun, hlo, hhi, hnone, hres⟩ :=
      search_loop_range (detect proof_num) 100 (w.set_index_range index (index + 100))
        (by simp [ScanWorker.set_index_range]) (by simp [ScanWorker.set_index_range])
        (by simp only [ScanWorker.set_index_range]; omega)
    simp only [ScanWorker.set_index_range] at hlo hhi hnone hres
    rcases hres with ⟨h1, h2, h3, _⟩ | ⟨h1, h2, _⟩
    · have hw1 : w1.index = m := by
        by_contra hne
        rcases Nat.lt_or_gt_of_ne hne with hlt | hgt
        · have := hmin _ hlt
          rw [h3] at this
          simp at this
        · have := hnone m hle hgt
          rw [hm] at this
          simp at this
      refine ⟨w1, h1, hw1, ?_⟩
      intro fuel hf
      obtain ⟨n, rfl⟩ : ∃ n, fuel = n + 1 := ⟨fuel - 1, by omega⟩
      obtain ⟨n1, rfl⟩ : ∃ n1, n = n1 + 1 := ⟨n - 1, by omega⟩
      simp only [Observatory.scan_loop, hfd, Bool.false_eq_true, if_false, hsz,
        hrun (n1 + 1) (by omega), h1, if_true]
    · have hge : index + 100 ≤ m := by
        by_contra hlt
        have := hnone m hle (by omega)
        rw [hm] at this
        simp at this
      obtain ⟨w2, hf2, hi2, hrun2⟩ := ih (m - (index + 100)) (by omega) (index + 100) w1 rfl hge
        (by
          intro i hi
          by_cases hb : i < index
          · exact hbefore i hb
          · exact hnone i (by omega) (by omega))
        h1
      refine ⟨w2, hf2, hi2, ?_⟩
      intro fuel hf
      obtain ⟨n, rfl⟩ : ∃ n, fuel = n + 1 := ⟨fuel - 1, by omega⟩
      simp only [Observatory.scan_loop, hfd, Bool.false_eq_true, if_false, hsz,
        hrun n (by omega)]
      exact hrun2 n (by omega)

/-- C31: a worker that is handed the range `[start, end)` with
`start <= end` ends its scanning loop; it is then done iff the detector
matches at some index of the range; if so, `index()` is the smallest such
index and the indices examined are those from `start` to it; if not,
`index()` is `end` and the whole range has been examined.  `scan`, whose
pool has one worker that gets the ranges of 100 indices from 0 on, returns
true with the smallest index at which the detector matches as the nonce. -/
theorem worker_loop_first_match (detect : Nat → Nat → Bool) (proof_num : Nat) (w0 : ScanWorker)
    (index_start index_end : Nat) (hle : index_start ≤ index_end) (hmax : index_end < 2 ^ 64) :
    (∃ w1 : ScanWorker,
      (∃ F, ∀ fuel, F ≤ fuel →
        (w0.set_index_range index_start index_end).search_loop (detect proof_num) fuel =
          some w1) ∧
      (w1.found_done = true ↔
        ∃ i, index_start ≤ i ∧ i < index_end ∧ detect proof_num i = true) ∧
      (w1.found_done = true →
        index_start ≤ w1.index ∧ w1.index < index_end ∧ detect proof_num w1.index = true ∧
        (∀ i, index_start ≤ i → i < w1.index → detect proof_num i = false) ∧
        w1.examined = w0.examined ++ List.range' index_start (w1.index + 1 - index_start)) ∧
      (w1.found_done = false →
        w1.index = index_end ∧
        w1.examined = w0.examined ++ List.range' index_start (index_end - index_start))) ∧
    (∀ m nonce, detect proof_num m = true → (∀ i, i < m → detect proof_num i = false) →
      m + 100 < 2 ^ 64 →
      ∃ F, ∀ fuel, F ≤ fuel → Observatory.scan detect fuel proof_num nonce = some (true, m)) := by
  constructor
  · obtain ⟨w1, hrun, hlo, hhi, hnone, hres⟩ :=
      search_loop_range (detect proof_num) (index_end - index_start)
        (w0.set_index_range index_start index_end) rfl hle hmax
    simp only [ScanWorker.set_index_range] at hlo hhi hnone hres
    refine ⟨w1, ⟨index_end - index_start + 1, fun fuel hf => hrun fuel (by omega)⟩, ?_, ?_, ?_⟩
    · constructor
      · intro hfd
        rcases hres with ⟨_, h2, h3, _⟩ | ⟨h1, _, _⟩
        · exact ⟨w1.index, hlo, h2, h3⟩
        · rw [hfd] at h1
          simp at h1
      · rintro ⟨i, hi1, hi2, hi3⟩
        rcases hres with ⟨h1, _, _, _⟩ | ⟨_, h2, _⟩
        · exact h1
        · have := hnone i hi1 (by omega)
          rw [hi3] at this
          simp at this
    · intro hfd
      rcases hres with ⟨_, h2, h3, h4⟩ | ⟨h1, _, _⟩
      · exact ⟨hlo, h2, h3, hnone, h4⟩
      · rw [hfd] at h1
        simp at h1
    · intro hfd
      rcases hres with ⟨h1, _, _, _⟩ | ⟨_, h2, h3⟩
      · rw [hfd] at h1
        simp at h1
      · exact ⟨h2, h3⟩
  · intro m nonce hm hmin hmmax
    obtain ⟨w1, hf1, hi1, hrun⟩ :=
      scan_loop_finds detect proof_num m hm hmin hmmax m 0 ScanWorker.init (by omega)
        (Nat.zero_le _) (fun i hi => absurd hi (Nat.not_lt_zero i)) rfl
    refine ⟨m + 103, fun fuel hf => ?_⟩
    simp [Observatory.scan, hrun fuel (by omega), hf1, hi1]

theorem worker_loop_first_match_witness :
    (∃ w1 : ScanWorker,
      (∃ F, ∀ fuel, F ≤ fuel →
        (ScanWorker.init.set_index_range 100 200).search_loop
          ((fun _ i => decide (i = 150 ∨ i = 170)) 7) fuel = some w1) ∧
      (w1.found_done = true ↔
        ∃ i, 100 ≤ i ∧ i < 200 ∧ (fun (_ : Nat) i => decide (i = 150 ∨ i = 170)) 7 i = true) ∧
      (w1.found_done = true →
        100 ≤ w1.index ∧ w1.index < 200 ∧
        (fun (_ : Nat) i => decide (i = 150 ∨ i = 170)) 7 w1.index = true ∧
        (∀ i, 100 ≤ i → i < w1.index →
          (fun (_ : Nat) i => decide (i = 150 ∨ i = 170)) 7 i = false) ∧
        w1.examined = ScanWorker.init.examined ++ List.range' 100 (w1.index + 1 - 100)) ∧
      (w1.found_done = false →
        w1.index = 200 ∧
        w1.examined = ScanWorker.init.examined ++ List.range' 100 (200 - 100))) ∧
    (∀ m nonce, (fun (_ : Nat) i => decide (i = 150 ∨ i = 170)) 7 m = true →
      (∀ i, i < m → (fun (_ : Nat) i => decide (i = 150 ∨ i = 170)) 7 i = false) →
      m + 100 < 2 ^ 64 →
      ∃ F, ∀ fuel, F ≤ fuel →
        Observatory.scan (fun _ i => decide (i = 150 ∨ i = 170)) fuel 7 nonce = some (true, m)) :=
  worker_loop_first_match (fun _ i => decide (i = 150 ∨ i = 170)) 7 ScanWorker.init 100 200
    (by decide) (by decide)

/-! ## Term patterns -/

theorem assigned_append (c : Nat → Option Cell) (l1 l2 : List (Nat × Cell)) :
    MatchState.assigned (MatchState.assigned c l1) l2 = MatchState.assigned c (l1 ++ l2) := by
  induction l1 generalizing c with
  | nil => rfl
  | cons x rest ih =>
    obtain ⟨v, t⟩ := x
    simp only [MatchState.assigned, List.cons_append]
    exact ih _

theorem readsOk_nil (heap : Heap) : ReadsOk heap [] := by
  intro t k h
  simp at h

theorem readsOk_cons {heap : Heap} {t : Cell} {k : Nat} {new : List (Cell × Nat)}
    {name : String} {arity : Nat} (ht : t.tag = .STR)
    (hf : functor heap t = some (.con name arity)) (hk : k < arity) (h : ReadsOk heap new) :
    ReadsOk heap ((t, k) :: new) := by
  intro t1 k1 hmem
  rcases List.mem_cons.1 hmem with heq | hmem
  · simp only [Prod.mk.injEq] at heq
    rw [heq.1, heq.2]
    exact ⟨name, arity, ht, hf, hk⟩
  · exact h t1 k1 hmem

theorem readsOk_append {heap : Heap} {l1 l2 : List (Cell × Nat)} (h1 : ReadsOk heap l1)
    (h2 : ReadsOk heap l2) : ReadsOk heap (l1 ++ l2) := by
  intro t k hmem
  rcases List.mem_append.1 hmem with h | h
  · exact h1 t k h
  · exact h2 t k h

mutual
/-- The application of a pattern agrees with the reference definitions. -/
theorem pattern_apply_spec (heap : Heap) :
    ∀ (p : Pattern) (t : Cell) (st : MatchState), RawTerm heap t → p.Sized →
      ∃ (st1 : MatchState) (new : List (Cell × Nat)),
        p.apply heap t st = some (p.matches heap t, st1) ∧
        st1.captures = MatchState.assigned st.captures (p.captured heap t) ∧
        st1.reads = st.reads ++ new ∧ ReadsOk heap new
  | .con name arity, t, st, _, _ => by
    refine ⟨st, [], ?_, rfl, by simp, readsOk_nil heap⟩
    simp only [Pattern.apply, Pattern.matches, Option.some.injEq, Prod.mk.injEq, and_true]
    by_cases h : t = .con name arity
    · simp [h, Cell.tag]
    · simp [h]
  | .any v, t, st, _, _ => ⟨st.assign v t, [], rfl, rfl, by simp [MatchState.assign],
      readsOk_nil heap⟩
  | .str name arity args, t, st, ht, hs => by
    cases ht with
    | ref i => exact ⟨st, [], by simp [Pattern.apply, Pattern.matches, Cell.tag], by
        simp [Pattern.captured, Cell.tag, MatchState.assigned], by simp, readsOk_nil heap⟩
    | con f n => exact ⟨st, [], by simp [Pattern.apply, Pattern.matches, Cell.tag], by
        simp [Pattern.captured, Cell.tag, MatchState.assigned], by simp, readsOk_nil heap⟩
    | int v => exact ⟨st, [], by simp [Pattern.apply, Pattern.matches, Cell.tag], by
        simp [Pattern.captured, Cell.tag, MatchState.assigned], by simp, readsOk_nil heap⟩
    | str h f n hh hlen hargs =>
      have hfun : functor heap (.str h) = some (.con f n) := by simp [functor, hh]
      by_cases hf : Cell.con f n = Cell.con name arity
      · injection hf with hf1 hf2
        subst hf1
        subst hf2
        obtain ⟨st1, new, h1, h2, h3, h4⟩ :=
          args_apply_spec heap args 0 h f n st hh hlen hargs hs.2 (by rw [hs.1]; omega)
        refine ⟨st1, new, ?_, ?_, h3, h4⟩
        · simp [Pattern.apply, Pattern.matches, Cell.tag, hfun, h1]
        · simp [Pattern.captured, Cell.tag, hfun, h2]
      · refine ⟨st, [], ?_, ?_, by simp, readsOk_nil heap⟩
        · simp [Pattern.apply, Pattern.matches, Cell.tag, hfun, hf]
        · simp [Pattern.captured, Cell.tag, hfun, hf, MatchState.assigned]
/-- The application of the sub-patterns agrees with the reference
definitions. -/
theorem args_apply_spec (heap : Heap) :
    ∀ (ps : PatternArgs) (k h : Nat) (f : String) (n : Nat) (st : MatchState),
      heap[h]? = some (.con f n) → h + 1 + n ≤ heap.length →
      (∀ j a, j < n → heap[h + 1 + j]? = some a → RawTerm heap a) → ps.Sized →
      k + ps.length = n →
      ∃ (st1 : MatchState) (new : List (Cell × Nat)),
        ps.apply heap k (.str h) st = some (ps.matches heap k (.str h), st1) ∧
        st1.captures = MatchState.assigned st.captures (ps.captured heap k (.str h)) ∧
        st1.reads = st.reads ++ new ∧ ReadsOk heap new
  | .last p, k, h, f, n, st, hh, hlen, hargs, hs, hk => by
    have hkn : k < n := by simp only [PatternArgs.length] at hk; omega
    have hlt : h + 1 + k < heap.length := by omega
    have hfun : functor heap (.str h) = some (.con f n) := by simp [functor, hh]
    obtain ⟨st1, new, h1, h2, h3, h4⟩ := pattern_apply_spec heap p heap[h + 1 + k]
      { st with reads := st.reads ++ [(.str h, k)] }
      (hargs k _ hkn (List.getElem?_eq_getElem hlt)) hs
    refine ⟨st1, (.str h, k) :: new, ?_, ?_, ?_, readsOk_cons rfl hfun hkn h4⟩
    · simp [PatternArgs.apply, PatternArgs.matches, MatchState.read_arg, arg,
        List.getElem?_eq_getElem hlt, h1]
    · simp [PatternArgs.captured, arg, List.getElem?_eq_getElem hlt, h2]
    · simp [h3]
  | .more p ps, k, h, f, n, st, hh, hlen, hargs, hs, hk => by
    have hkn : k < n := by simp only [PatternArgs.length] at hk; omega
    have hlt : h + 1 + k < heap.length := by omega
    have hfun : functor heap (.str h) = some (.con f n) := by simp [functor, hh]
    obtain ⟨st1, new, h1, h2, h3, h4⟩ := pattern_apply_spec heap p heap[h + 1 + k]
      { st with reads := st.reads ++ [(.str h, k)] }
      (hargs k _ hkn (List.getElem?_eq_getElem hlt)) hs.1
    cases hm : p.matches heap heap[h + 1 + k] with
    | false =>
      rw [hm] at h1
      refine ⟨st1, (.str h, k) :: new, ?_, ?_, ?_, readsOk_cons rfl hfun hkn h4⟩
      · simp [PatternArgs.apply, PatternArgs.matches, MatchState.read_arg, arg,
          List.getElem?_eq_getElem hlt, h1, hm]
      · simp [PatternArgs.captured, arg, List.getElem?_eq_getElem hlt, h2, hm]
      · simp [h3]
    | true =>
      rw [hm] at h1
      obtain ⟨st2, new2, g1, g2, g3, g4⟩ :=
        args_apply_spec heap ps (k + 1) h f n st1 hh hlen hargs hs.2
          (by simp only [PatternArgs.length] at hk; omega)
      refine ⟨st2, (.str h, k) :: (new ++ new2), ?_, ?_, ?_,
        readsOk_cons rfl hfun hkn (readsOk_append h4 g4)⟩
      · simp [PatternArgs.apply, PatternArgs.matches, MatchState.read_arg, arg,
          List.getElem?_eq_getElem hlt, h1, hm, g1]
      · simp only [PatternArgs.captured, arg, List.getElem?_eq_getElem hlt, hm, if_true]
        rw [g2, h2, assigned_append]
      · simp [g3, h3]
end

theorem bind_stack (s : TermEnv) (st : List Cell) (c d : Cell) :
    ({ s with stack := st } : TermEnv).bind c d =
      (s.bind c d).map (fun t => { t with stack := st }) := by
  cases c with
  | ref i =>
    simp only [TermEnv.bind]
    split_ifs
    · simp only [Option.map_some', TermEnv.do_trail, TermEnv.push_trail]
      split_ifs <;> rfl
    · rfl
  | con f n => rfl
  | int v => rfl
  | str p => rfl
  | big i => rfl
  | gbl i => rfl

/-- The `for` loop that pushes the argument pairs, with the two structures
exchanged, pushes the same pairs with their sides exchanged. -/
theorem push_arg_pairs_swap (heap : Heap) (a b : Cell) (n : Nat) (base : List Cell) :
    ∀ (k : Nat) (as bs : List Cell), as.length = bs.length →
      (TermEnv.push_arg_pairs heap a b n k (arg_pairs as bs ++ base) = none ∧
        TermEnv.push_arg_pairs heap b a n k (arg_pairs bs as ++ base) = none) ∨
      ∃ as1 bs1, as1.length = bs1.length ∧
        TermEnv.push_arg_pairs heap a b n k (arg_pairs as bs ++ base) =
          some (arg_pairs as1 bs1 ++ base) ∧
        TermEnv.push_arg_pairs heap b a n k (arg_pairs bs as ++ base) =
          some (arg_pairs bs1 as1 ++ base) := by
  intro k
  induction k with
  | zero =>
    intro as bs hlen
    exact Or.inr ⟨as, bs, hlen, rfl, rfl⟩
  | succ k ih =>
    intro as bs hlen
    simp only [TermEnv.push_arg_pairs]
    cases ha : arg heap a (n - (n - (k + 1)) - 1) with
    | none => exact Or.inl ⟨by simp, by simp⟩
    | some ai =>
      cases hb : arg heap b (n - (n - (k + 1)) - 1) with
      | none => exact Or.inl ⟨by simp, by simp⟩
      | some bi =>
        simp only []
        exact ih (ai :: as) (bi :: bs) (by simp [hlen])

/-- One iteration of the loop of `unify_helper` on a work stack and on the
work stack with the sides of its pairs exchanged. -/
theorem unify_iter_swap (fuel : Nat) (s : TermEnv) (x y : Cell) (as bs base : List Cell)
    (hlen : as.length = bs.length) :
    (TermEnv.unify_iter fuel { s with stack := x :: y :: (arg_pairs as bs ++ base) } = none ∧
      TermEnv.unify_iter fuel { s with stack := y :: x :: (arg_pairs bs as ++ base) } = none) ∨
    ∃ (step : TermEnv.Step) (t : TermEnv) (as1 bs1 : List Cell),
      as1.length = bs1.length ∧ (step = .next ∨ step = .done false) ∧
      TermEnv.unify_iter fuel { s with stack := x :: y :: (arg_pairs as bs ++ base) } =
        some (step, { t with stack := arg_pairs as1 bs1 ++ base }) ∧
      TermEnv.unify_iter fuel { s with stack := y :: x :: (arg_pairs bs as ++ base) } =
        some (step, { t with stack := arg_pairs bs1 as1 ++ base }) := by
  unfold TermEnv.unify_iter
  simp only []
  cases hx : deref s.heap fuel x with
  | none =>
    left
    constructor
    · rfl
    · cases deref s.heap fuel y <;> rfl
  | some a =>
    cases hy : deref s.heap fuel y with
    | none => exact Or.inl ⟨rfl, rfl⟩
    | some b =>
      simp only []
      have hbind : ∀ c d,
          (((s.bind c d).map (fun t => ({ t with stack := arg_pairs as bs ++ base } : TermEnv))).map
              (fun s2 => (TermEnv.Step.next, s2)) = none ∧
            ((s.bind c d).map (fun t => ({ t with stack := arg_pairs bs as ++ base } : TermEnv))).map
              (fun s2 => (TermEnv.Step.next, s2)) = none) ∨
          ∃ (step : TermEnv.Step) (t : TermEnv) (as1 bs1 : List Cell),
            as1.length = bs1.length ∧ (step = .next ∨ step = .done false) ∧
            ((s.bind c d).map
                (fun t => ({ t with stack := arg_pairs as bs ++ base } : TermEnv))).map
              (fun s2 => (TermEnv.Step.next, s2)) =
              some (step, { t with stack := arg_pairs as1 bs1 ++ base }) ∧
            ((s.bind c d).map
                (fun t => ({ t with stack := arg_pairs bs as ++ base } : TermEnv))).map
              (fun s2 => (TermEnv.Step.next, s2)) =
              some (step, { t with stack := arg_pairs bs1 as1 ++ base }) := by
        intro c d
        cases s.bind c d with
        | none => exact Or.inl ⟨rfl, rfl⟩
        | some t => exact Or.inr ⟨.next, t, as, bs, hlen, Or.inl rfl, rfl, rfl⟩
      have hfalse : ∃ (step : TermEnv.Step) (t : TermEnv) (as1 bs1 : List Cell),
          as1.length = bs1.length ∧ (step = .next ∨ step = .done false) ∧
          (some (TermEnv.Step.done false,
              ({ s with stack := arg_pairs as bs ++ base } : TermEnv)) =
            some (step, { t with stack := arg_pairs as1 bs1 ++ base })) ∧
          (some (TermEnv.Step.done false,
              ({ s with stack := arg_pairs bs as ++ base } : TermEnv)) =
            some (step, { t with stack := arg_pairs bs1 as1 ++ base })) :=
        ⟨.done false, s, as, bs, hlen, Or.inr rfl, rfl, rfl⟩
      by_cases hab : a = b
      · subst hab
        simp only [if_true]
        exact Or.inr ⟨.next, s, as, bs, hlen, Or.inl rfl, rfl, rfl⟩
      · have hba : ¬ b = a := fun h => hab h.symm
        simp only [if_neg hab, if_neg hba, bind_stack]
        cases a with
        | ref ia =>
          cases b with
          | ref ib =>
            simp only [Cell.tag, if_true]
            have hne : ia ≠ ib := fun h => hab (by rw [h])
            by_cases hlt : ia < ib
            · rw [if_pos hlt, if_neg (by omega)]
              exact hbind _ _
            · rw [if_neg hlt, if_pos (by omega)]
              exact hbind _ _
          | con f n => simpa [Cell.tag] using hbind (.ref ia) (.con f n)
          | int v => simpa [Cell.tag] using hbind (.ref ia) (.int v)
          | str p => simpa [Cell.tag] using hbind (.ref ia) (.str p)
          | big i => simpa [Cell.tag] using hbind (.ref ia) (.big i)
          | gbl i => simpa [Cell.tag] using hbind (.ref ia) (.gbl i)
        | con f n =>
          cases b with
          | ref ib => simpa [Cell.tag] using hbind (.ref ib) (.con f n)
          | con g m => simpa [Cell.tag, hab, hba] using hfalse
          | int v => simpa [Cell.tag] using hfalse
          | str p => simpa [Cell.tag] using hfalse
          | big i => simpa [Cell.tag] using hfalse
          | gbl i => simpa [Cell.tag] using hfalse
        | int v =>
          cases b with
          | ref ib => simpa [Cell.tag] using hbind (.ref ib) (.int v)
          | con g m => simpa [Cell.tag] using hfalse
          | int w => simpa [Cell.tag, hab, hba] using hfalse
          | str p => simpa [Cell.tag] using hfalse
          | big i => simpa [Cell.tag] using hfalse
          | gbl i => simpa [Cell.tag] using hfalse
        | big j =>
          cases b with
          | ref ib => simpa [Cell.tag] using hbind (.ref ib) (.big j)
          | con g m => simpa [Cell.tag] using hfalse
          | int w => simpa [Cell.tag] using hfalse
          | str p => simpa [Cell.tag] using hfalse
          | big i => exact Or.inl ⟨by simp [Cell.tag], by simp [Cell.tag]⟩
          | gbl i => simpa [Cell.tag] using hfalse
        | gbl j =>
          cases b with
          | ref ib => simpa [Cell.tag] using hbind (.ref ib) (.gbl j)
          | con g m => simpa [Cell.tag] using hfalse
          | int w => simpa [Cell.tag] using hfalse
          | str p => simpa [Cell.tag] using hfalse
          | big i => simpa [Cell.tag] using hfalse
          | gbl i => exact Or.inl ⟨by simp [Cell.tag], by simp [Cell.tag]⟩
        | str p =>
          cases b with
          | ref ib => simpa [Cell.tag] using hbind (.ref ib) (.str p)
          | con g m => simpa [Cell.tag] using hfalse
          | int w => simpa [Cell.tag] using hfalse
          | big i => simpa [Cell.tag] using hfalse
          | gbl i =>
            simp only [Cell.tag, ne_eq, reduceCtorEq, not_false_eq_true, if_true, if_false]
            exact Or.inr hfalse
          | str q =>
            simp only [Cell.tag, ne_eq, not_true_eq_false, if_false, reduceCtorEq]
            cases hfa : functor s.heap (.str p) with
            | none =>
              left
              constructor
              · rfl
              · cases functor s.heap (.str q) <;> rfl
            | some fa =>
              cases hfb : functor s.heap (.str q) with
              | none => exact Or.inl ⟨rfl, rfl⟩
              | some fb =>
                simp only []
                by_cases hf : fa = fb
                · subst hf
                  simp only [not_true_eq_false, if_false]
                  rcases push_arg_pairs_swap s.heap (.str p) (.str q) fa.arity base fa.arity as bs
                      hlen with ⟨h1, h2⟩ | ⟨as1, bs1, hl1, h1, h2⟩
                  · left
                    rw [h1, h2]
                    exact ⟨rfl, rfl⟩
                  · right
                    rw [h1, h2]
                    exact ⟨.next, s, as1, bs1, hl1, Or.inl rfl, rfl, rfl⟩
                · have hf2 : ¬ fb = fa := fun h => hf h.symm
                  simp only [hf, hf2, not_false_eq_true, if_true]
                  exact Or.inr hfalse

/-- The loop of `unify_helper` on a work stack and on the work stack with the
sides of its pairs exchanged: the same result, and states that differ in the
sides of the pairs left on the work stack. -/
theorem unify_loop_swap (base : List Cell) :
    ∀ (fuel : Nat) (s : TermEnv) (as bs : List Cell), as.length = bs.length →
      (TermEnv.unify_loop base.length fuel { s with stack := arg_pairs as bs ++ base } = none ∧
        TermEnv.unify_loop base.length fuel { s with stack := arg_pairs bs as ++ base } = none) ∨
      ∃ (r : Bool) (t : TermEnv) (as1 bs1 : List Cell),
        as1.length = bs1.length ∧ (r = true → as1 = [] ∧ bs1 = []) ∧
        TermEnv.unify_loop base.length fuel { s with stack := arg_pairs as bs ++ base } =
          some (r, { t with stack := arg_pairs as1 bs1 ++ base }) ∧
        TermEnv.unify_loop base.length fuel { s with stack := arg_pairs bs as ++ base } =
          some (r, { t with stack := arg_pairs bs1 as1 ++ base }) := by
  intro fuel
  induction fuel with
  | zero =>
    intro s as bs _
    exact Or.inl ⟨rfl, rfl⟩
  | succ n ih =>
    intro s as bs hlen
    cases as with
    | nil =>
      cases bs with
      | cons y bs1 => simp at hlen
      | nil =>
        right
        refine ⟨true, s, [], [], rfl, fun _ => ⟨rfl, rfl⟩, ?_, ?_⟩ <;>
          simp [TermEnv.unify_loop, arg_pairs]
    | cons x as1 =>
      cases bs with
      | nil => simp at hlen
      | cons y bs1 =>
        simp only [List.length_cons, Nat.add_right_cancel_iff] at hlen
        have hd1 : base.length < (arg_pairs (x :: as1) (y :: bs1) ++ base).length := by
          simp only [arg_pairs, List.cons_append, List.length_cons, List.length_append]
          omega
        have hd2 : base.length < (arg_pairs (y :: bs1) (x :: as1) ++ base).length := by
          simp only [arg_pairs, List.cons_append, List.length_cons, List.length_append]
          omega
        simp only [TermEnv.unify_loop, hd1, hd2, if_true]
        rcases unify_iter_swap n s x y as1 bs1 base hlen with
          ⟨h1, h2⟩ | ⟨step, t, as2, bs2, hl2, hstep, h1, h2⟩
        · left
          simp only [arg_pairs, List.cons_append]
          rw [h1, h2]
          exact ⟨rfl, rfl⟩
        · simp only [arg_pairs, List.cons_append]
          rw [h1, h2]
          rcases hstep with rfl | rfl
          · exact ih t as2 bs2 hl2
          · exact Or.inr ⟨false, t, as2, bs2, hl2, fun h => by simp at h, rfl, rfl⟩

/-- C35: `unify(b, a)` is `unify(a, b)`: for every state and every two cells
the two calls have the same outcome with every fuel: the same boolean and the
same state (heap, trail, work stack and registers), or both do not return. -/
theorem unify_symmetric (fuel : Nat) (s : TermEnv) (a b : Cell) :
    s.unify fuel b a = s.unify fuel a b := by
  unfold TermEnv.unify TermEnv.unify_helper
  simp only [TermEnv.push, TermEnv.stack_depth, TermEnv.trail_depth]
  rcases unify_loop_swap s.stack fuel { s with register_hb := s.register_h } [a] [b] rfl with
    ⟨h1, h2⟩ | ⟨r, t, as1, bs1, hl, hr, h1, h2⟩
  · simp only [arg_pairs, List.cons_append, List.nil_append] at h1 h2
    rw [h1, h2]
  · simp only [arg_pairs, List.cons_append, List.nil_append] at h1 h2
    rw [h1, h2]
    cases r with
    | true =>
      obtain ⟨rfl, rfl⟩ := hr rfl
      rfl
    | false =>
      simp only [Bool.not_false, if_true, TermEnv.unwind_trail, TermEnv.trim_trail,
        TermEnv.trim_stack]
      cases TermEnv.unwind_trail_loop t.trail s.trail.length (t.trail.length - s.trail.length)
          t.heap with
      | none => rfl
      | some heap1 => simp only [resize_top_append]

/-! ## Termination of `unify` -/

theorem strOk_binds {h h1 : Heap} {p : Nat} (hp : StrOk h p) (hb : Binds h h1) : StrOk h1 p := by
  obtain ⟨f, n, hf, hlen⟩ := hp
  exact ⟨f, n, binds_keep hb hf (by simp), by rw [hb.1]; exact hlen⟩

theorem noRefTerm_binds {h h1 : Heap} (hb : Binds h h1) {y : Cell} (hy : NoRefTerm h y) :
    NoRefTerm h1 y := by
  induction hy with
  | con f n => exact NoRefTerm.con f n
  | int v => exact NoRefTerm.int v
  | str p f n hp hlen hargs ih =>
    refine NoRefTerm.str p f n (binds_keep hb hp (by simp)) (by rw [hb.1]; exact hlen) ?_
    intro k a hk ha
    rcases hb.2 (p + 1 + k) with hsame | href
    · rw [hsame] at ha
      exact ih k a hk ha
    · have := hargs k _ hk href
      cases this

theorem cellOk_binds {h h1 : Heap} {x : Cell} (hx : CellOk h x) (hb : Binds h h1)
    (hw : RefChainsEnd h1) : CellOk h1 x := by
  obtain ⟨⟨e, n, hn⟩, hstr⟩ := hx
  refine ⟨?_, fun p hp => strOk_binds (hstr p hp) hb⟩
  have hterm := deref_terminal _ _ _ _ hn
  have he : ∃ e1, DerefTo h1 e e1 := by
    rcases hterm with hne | ⟨k, rfl, hk⟩
    · exact ⟨e, derefTo_nonref _ _ hne⟩
    · obtain ⟨c1, hc1⟩ := binds_some hb hk
      exact derefTo_of_cell hw hc1
  obtain ⟨e1, he1⟩ := he
  exact ⟨e1, binds_deref hb n x e e1 hn he1⟩

theorem cellOk_of_heap {h : Heap} (hw : RefChainsEnd h) (hs : StrCellsOk h) {i : Nat} {c : Cell}
    (hc : h[i]? = some c) : CellOk h c :=
  ⟨hw i c hc, fun p hp => hs c (List.getElem?_mem hc) p hp⟩

/-- An `STR` cell reached by dereferencing points to a structure. -/
theorem deref_strOk {h : Heap} (hs : StrCellsOk h) {p : Nat} :
    ∀ (n : Nat) (c : Cell), (∀ q, c = .str q → StrOk h q) → deref h n c = some (.str p) →
      StrOk h p := by
  intro n
  induction n with
  | zero =>
    intro c hc hd
    cases c with
    | ref i => simp [deref] at hd
    | con f k => simp [deref] at hd
    | int v => simp [deref] at hd
    | str q =>
      simp only [deref, Option.some.injEq, Cell.str.injEq] at hd
      exact hc p (by rw [hd])
    | big i => simp [deref] at hd
    | gbl i => simp [deref] at hd
  | succ n ih =>
    intro c hc hd
    cases c with
    | ref i =>
      simp only [deref] at hd
      cases hi : h[i]? with
      | none => simp [hi] at hd
      | some nc =>
        simp only [hi] at hd
        split_ifs at hd with heq
        · simp at hd
        · exact ih nc (fun q hq => hs nc (List.getElem?_mem hi) q hq) hd
    | con f k => simp [deref] at hd
    | int v => simp [deref] at hd
    | str q =>
      simp only [deref, Option.some.injEq, Cell.str.injEq] at hd
      exact hc p (by rw [hd])
    | big i => simp [deref] at hd
    | gbl i => simp [deref] at hd

/-- The invariant after an unbound variable is bound to a cell that is not a
REF. -/
theorem groundInv_set {heap0 heap : Heap} {j : Nat} {y : Cell} (hinv : GroundInv heap0 heap)
    (hj : heap[j]? = some (.ref j)) (hy : y.tag ≠ .REF) (hstr : ∀ p, y = .str p → StrOk heap p) :
    Binds heap (heap.set j y) ∧ GroundInv heap0 (heap.set j y) := by
  have hb : Binds heap (heap.set j y) := binds_set y hj
  refine ⟨hb, binds_trans hinv.binds hb, ?_, ?_⟩
  · exact set_refChainsEnd hinv.chains hj (Or.inl hy)
      (by intro hc; rw [hc] at hy; simp [Cell.tag] at hy)
  · intro c hc p hp
    rcases List.mem_or_eq_of_mem_set hc with hmem | heq
    · exact strOk_binds (hinv.strs c hmem p hp) hb
    · rw [heq] at hp
      exact strOk_binds (hstr p hp) hb

/-- An unbound REF on the left is bound to a cell on the right that is not a
REF. -/
theorem unify_iter_bind_var {n : Nat} {st st1 : TermEnv} {a0 b0 b : Cell} {j : Nat}
    {rest : List Cell} (hst : st.stack = a0 :: b0 :: rest)
    (ha : deref st.heap n a0 = some (.ref j)) (hb : deref st.heap n b0 = some b)
    (hnr : b.tag ≠ .REF)
    (hb1 : ({ st with stack := rest } : TermEnv).bind (.ref j) b = some st1) :
    TermEnv.unify_iter n st = some (.next, st1) := by
  have hne : Cell.ref j ≠ b := by
    intro hc
    rw [← hc] at hnr
    simp [Cell.tag] at hnr
  unfold TermEnv.unify_iter
  rw [hst]
  simp only [ha, hb, if_neg hne]
  have htag : (Cell.ref j).tag = Tag.REF := rfl
  rw [if_pos htag, if_neg hnr, hb1]
  rfl

theorem unify_loop_fail {d fuel : Nat} {st st1 : TermEnv} (hd : d < st.stack.length)
    (hi : TermEnv.unify_iter fuel st = some (.done false, st1)) :
    TermEnv.unify_loop d (fuel + 1) st = some (false, st1) := by
  simp [TermEnv.unify_loop, hd, hi]

/-- The pair is done in one iteration when the left side dereferences to the
right side or to an unbound variable. -/
theorem ground_item_easy {heap0 : Heap} {x y e : Cell} {st : TermEnv} {rest : List Cell}
    {d : Nat} (hinv : GroundInv heap0 st.heap) (hst : st.stack = x :: y :: rest)
    (hd : d ≤ rest.length) (hy : y.tag ≠ .REF) (hstr : ∀ p, y = .str p → StrOk st.heap p)
    (he : DerefTo st.heap x e) (hcase : e = y ∨ e.tag = .REF) :
    ∃ (k F : Nat),
      (∀ fuel, F ≤ fuel → ∃ st1, TermEnv.unify_loop d (fuel + k) st = some (false, st1)) ∨
      ∃ st1 : TermEnv,
        (∀ fuel, F ≤ fuel →
          TermEnv.unify_loop d (fuel + k) st = TermEnv.unify_loop d fuel st1) ∧
        st1.stack = rest ∧ Binds st.heap st1.heap ∧ GroundInv heap0 st1.heap := by
  have hdl : d < st.stack.length := by rw [hst]; simp only [List.length_cons]; omega
  obtain ⟨n, hn⟩ := he
  by_cases hey : e = y
  · subst hey
    refine ⟨1, n, Or.inr ⟨{ st with stack := rest }, ?_, rfl, binds_refl _, hinv⟩⟩
    intro fuel hf
    exact unify_loop_step hdl (unify_iter_same hst (deref_mono _ _ _ _ _ hn hf)
      (deref_nonref _ _ _ hy))
  · have href : e.tag = .REF := by
      rcases hcase with h | h
      · exact absurd h hey
      · exact h
    obtain ⟨j, rfl⟩ : ∃ j, e = .ref j := by
      cases e <;> simp [Cell.tag] at href
      exact ⟨_, rfl⟩
    have hj : st.heap[j]? = some (.ref j) := deref_ref_self _ _ _ _ hn
    obtain ⟨st1, hb1, hheap, hstack⟩ := bind_spec st rest j y (List.getElem?_eq_some.1 hj).1
    obtain ⟨hbinds, hinv1⟩ := groundInv_set hinv hj hy hstr
    refine ⟨1, n, Or.inr ⟨st1, ?_, hstack, by rw [hheap]; exact hbinds,
      by rw [hheap]; exact hinv1⟩⟩
    intro fuel hf
    exact unify_loop_step hdl (unify_iter_bind_var hst (deref_mono _ _ _ _ _ hn hf)
      (deref_nonref _ _ _ hy) hy hb1)

/-- The pair makes `unify_helper` return false when the left side
dereferences to a cell that `definitely_inequal` tells apart from the right
side. -/
theorem ground_item_fail {heap0 : Heap} {x y e : Cell} {st : TermEnv} {rest : List Cell}
    {d : Nat} (hst : st.stack = x :: y :: rest) (hd : d ≤ rest.length)
    (he : DerefTo st.heap x e) (hdi : Interp.definitely_inequal st.heap e y = some true) :
    ∃ (k F : Nat),
      (∀ fuel, F ≤ fuel → ∃ st1, TermEnv.unify_loop d (fuel + k) st = some (false, st1)) ∨
      ∃ st1 : TermEnv,
        (∀ fuel, F ≤ fuel →
          TermEnv.unify_loop d (fuel + k) st = TermEnv.unify_loop d fuel st1) ∧
        st1.stack = rest ∧ Binds st.heap st1.heap ∧ GroundInv heap0 st1.heap := by
  have hdl : d < st.stack.length := by rw [hst]; simp only [List.length_cons]; omega
  obtain ⟨n, hn⟩ := he
  have hy : y.tag ≠ .REF := by
    intro hc
    simp [Interp.definitely_inequal, hc] at hdi
  refine ⟨1, n, Or.inl ?_⟩
  intro fuel hf
  exact ⟨_, unify_loop_fail hdl (unify_iter_differ hst (deref_mono _ _ _ _ _ hn hf)
    (deref_nonref _ _ _ hy) hdi)⟩

/-- The loop of `unify_helper` gets done with a list of pairs whose right
sides are terms without variables. -/
theorem ground_args {heap0 : Heap} :
    ∀ (as bs : List Cell), as.length = bs.length →
      (∀ (j : Nat) (b : Cell), bs[j]? = some b → GroundItem heap0 b) →
      ∀ (st : TermEnv) (tail : List Cell) (d : Nat),
        GroundInv heap0 st.heap → (∀ a ∈ as, CellOk st.heap a) →
        st.stack = arg_pairs as bs ++ tail → d ≤ tail.length →
        ∃ (k F : Nat),
          (∀ fuel, F ≤ fuel → ∃ st1, TermEnv.unify_loop d (fuel + k) st = some (false, st1)) ∨
          ∃ st1 : TermEnv,
            (∀ fuel, F ≤ fuel →
              TermEnv.unify_loop d (fuel + k) st = TermEnv.unify_loop d fuel st1) ∧
            st1.stack = tail ∧ Binds st.heap st1.heap ∧ GroundInv heap0 st1.heap := by
  intro as
  induction as with
  | nil =>
    intro bs hlen _ st tail d hinv _ hst _
    cases bs with
    | cons y ys => simp at hlen
    | nil =>
      refine ⟨0, 0, Or.inr ⟨st, fun fuel _ => rfl, ?_, binds_refl _, hinv⟩⟩
      simpa [arg_pairs] using hst
  | cons x xs ih =>
    intro bs hlen hall st tail d hinv hok hst hd
    cases bs with
    | nil => simp at hlen
    | cons y ys =>
      simp only [List.length_cons, Nat.add_right_cancel_iff] at hlen
      have hst1 : st.stack = x :: y :: (arg_pairs xs ys ++ tail) := by
        simpa [arg_pairs] using hst
      obtain ⟨k1, F1, h1⟩ := hall 0 y (by simp) x st (arg_pairs xs ys ++ tail) d hinv
        (hok x (List.mem_cons_self _ _)) hst1 (by simp only [List.length_append]; omega)
      rcases h1 with hfail | ⟨st1, hrun1, hstack1, hb1, hinv1⟩
      · exact ⟨k1, F1, Or.inl hfail⟩
      · obtain ⟨k2, F2, h2⟩ := ih ys hlen
          (fun j b hb => hall (j + 1) b (by simpa using hb)) st1 tail d hinv1
          (fun a ha => cellOk_binds (hok a (List.mem_cons_of_mem _ ha)) hb1 hinv1.chains)
          hstack1 hd
        rcases h2 with hfail | ⟨st2, hrun2, hstack2, hb2, hinv2⟩
        · refine ⟨k2 + k1, max F1 F2, Or.inl ?_⟩
          intro fuel hf
          obtain ⟨st3, h3⟩ := hfail fuel (by omega)
          exact ⟨st3, by rw [← Nat.add_assoc, hrun1 _ (by omega), h3]⟩
        · refine ⟨k2 + k1, max F1 F2, Or.inr ⟨st2, ?_, hstack2, binds_trans hb1 hb2, hinv2⟩⟩
          intro fuel hf
          rw [← Nat.add_assoc, hrun1 _ (by omega), hrun2 _ (by omega)]

theorem definitely_inequal_atomic (heap : Heap) (e y : Cell)
    (hy : y.tag = .CON ∨ y.tag = .INT) (he : e.tag ≠ .REF) (hne : e ≠ y) :
    Interp.definitely_inequal heap e y = some true := by
  rcases hy with hy | hy
  · cases y <;> simp [Cell.tag] at hy
    cases e <;> simp [Interp.definitely_inequal, Cell.tag] at he ⊢
    rw [← not_and_or]
    rintro ⟨h1, h2⟩
    exact hne (by rw [h1, h2])
  · cases y <;> simp [Cell.tag] at hy
    cases e <;> simp [Interp.definitely_inequal, Cell.tag] at he ⊢
    simpa using hne

/-- The loop of `unify_helper` gets done with a pair whose right side is a
term without variables. -/
theorem ground_item {heap0 : Heap} {y : Cell} (hy : NoRefTerm heap0 y) : GroundItem heap0 y := by
  induction hy with
  | con f n =>
    intro x st rest d hinv hx hst hd
    obtain ⟨e, he⟩ := hx.1
    by_cases hcase : e = .con f n ∨ e.tag = .REF
    · exact ground_item_easy hinv hst hd (by simp [Cell.tag]) (fun p hp => by simp at hp) he hcase
    · rw [not_or] at hcase
      exact ground_item_fail hst hd he
        (definitely_inequal_atomic _ _ _ (Or.inl rfl) hcase.2 hcase.1)
  | int v =>
    intro x st rest d hinv hx hst hd
    obtain ⟨e, he⟩ := hx.1
    by_cases hcase : e = .int v ∨ e.tag = .REF
    · exact ground_item_easy hinv hst hd (by simp [Cell.tag]) (fun p hp => by simp at hp) he hcase
    · rw [not_or] at hcase
      exact ground_item_fail hst hd he
        (definitely_inequal_atomic _ _ _ (Or.inr rfl) hcase.2 hcase.1)
  | str p f n hp hlen hargs ih =>
    intro x st rest d hinv hx hst hd
    obtain ⟨e, he⟩ := hx.1
    have hp1 : st.heap[p]? = some (.con f n) := binds_keep hinv.binds hp (by simp)
    have hlen1 : p + 1 + n ≤ st.heap.length := by rw [hinv.binds.1]; exact hlen
    have hfy : functor st.heap (.str p) = some (.con f n) := by simp [functor, hp1]
    by_cases hcase : e = .str p ∨ e.tag = .REF
    · exact ground_item_easy hinv hst hd (by simp [Cell.tag])
        (fun q hq => by
          simp only [Cell.str.injEq] at hq
          subst hq
          exact ⟨f, n, hp1, hlen1⟩) he hcase
    · rw [not_or] at hcase
      obtain ⟨hne, hnr⟩ := hcase
      by_cases htag : e.tag = .STR
      · obtain ⟨q, rfl⟩ : ∃ q, e = .str q := by
          cases e <;> simp [Cell.tag] at htag
          exact ⟨_, rfl⟩
        obtain ⟨ne, hne1⟩ := he
        obtain ⟨g, m, hq, hqlen⟩ := deref_strOk hinv.strs ne x hx.2 hne1
        have hfe : functor st.heap (.str q) = some (.con g m) := by simp [functor, hq]
        by_cases hfg : Cell.con g m = Cell.con f n
        · injection hfg with hg hm
          subst hg
          subst hm
          have hdl : d < st.stack.length := by rw [hst]; simp only [List.length_cons]; omega
          obtain ⟨as, hasl, has⟩ := args_list st.heap q m hqlen
          obtain ⟨bs, hbsl, hbs⟩ := args_list st.heap p m hlen1
          have hpush := push_arg_pairs_spec st.heap q p m as bs hasl hbsl has hbs m rest
            (le_refl _)
          rw [List.take_of_length_le (by omega), List.take_of_length_le (by omega)] at hpush
          obtain ⟨k2, F2, h2⟩ := ground_args as bs (by omega)
            (by
              intro j b hb
              have hj : j < m := by
                have := (List.getElem?_eq_some.1 hb).1
                omega
              have hcell : st.heap[p + 1 + j]? = some b := by rw [hbs j hj]; exact hb
              rcases hinv.binds.2 (p + 1 + j) with hsame | href
              · rw [hsame] at hcell
                exact ih j b hj hcell
              · have := hargs j _ hj href
                cases this)
            { st with stack := arg_pairs as bs ++ rest } rest d hinv
            (by
              intro a ha
              obtain ⟨j, hj, hja⟩ := List.getElem_of_mem ha
              have hcell : st.heap[q + 1 + j]? = some a := by
                rw [has j (by omega), List.getElem?_eq_getElem hj, hja]
              exact cellOk_of_heap hinv.chains hinv.strs hcell)
            rfl hd
          have hiter : ∀ fuel, ne ≤ fuel → TermEnv.unify_iter fuel st =
              some (.next, { st with stack := arg_pairs as bs ++ rest }) := by
            intro fuel hf
            exact @unify_iter_str _ _ _ _ (.str q) (.str p) (.con g m) _ _ hst
              (deref_mono _ _ _ _ _ hne1 hf) (deref_nonref _ _ _ (by simp [Cell.tag]))
              hne rfl rfl hfe hfy hpush
          rcases h2 with hfail | ⟨st2, hrun2, hstack2, hb2, hinv2⟩
          · refine ⟨k2 + 1, max ne F2, Or.inl ?_⟩
            intro fuel hf
            obtain ⟨st3, h3⟩ := hfail fuel (by omega)
            exact ⟨st3, by
              rw [← Nat.add_assoc, unify_loop_step hdl (hiter _ (by omega)), h3]⟩
          · refine ⟨k2 + 1, max ne F2, Or.inr ⟨st2, ?_, hstack2, hb2, hinv2⟩⟩
            intro fuel hf
            rw [← Nat.add_assoc, unify_loop_step hdl (hiter _ (by omega)), hrun2 _ (by omega)]
        · apply ground_item_fail hst hd ⟨ne, hne1⟩
          simp [Interp.definitely_inequal, Cell.tag, hfe, hfy, hfg]
      · apply ground_item_fail hst hd he
        cases e <;> simp [Interp.definitely_inequal, Cell.tag] at hnr htag ⊢

/-- When `unify_helper` returns, `unify` returns. -/
theorem unify_of_helper {fuel : Nat} {s s1 : TermEnv} {a b : Cell} {r : Bool}
    (hwf : s.heap.length ≤ s.register_h)
    (h : TermEnv.unify_helper fuel { s with register_hb := s.register_h } a b = some (r, s1)) :
    ∃ s2, TermEnv.unify fuel s a b = some (r, s2) := by
  unfold TermEnv.unify
  simp only [h]
  cases r with
  | true => exact ⟨_, rfl⟩
  | false =>
    simp only [Bool.not_false, if_true]
    have hinit : UnifyInv { s with register_hb := s.register_h }
        (({ s with register_hb := s.register_h } : TermEnv).push b |>.push a) [a, b] [] :=
      ⟨rfl, rfl, rfl, rfl, by simp [TermEnv.push], by simp, fun _ _ => rfl, rfl⟩
    obtain ⟨loc1, new1, hinv⟩ :=
      @unify_loop_inv { s with register_hb := s.register_h } hwf fuel _ s1 _ _ false
        hinit (by simp) h
    have htrail : s1.trail = s.trail ++ new1 := hinv.trail
    have hdrop : (s1.trail.drop s.trail.length).take (s1.trail.length - s.trail.length) =
        new1 := by
      simp [htrail]
    obtain ⟨heap1, hu, _, _⟩ := unwind_trail_loop_spec s1.trail
      (s1.trail.length - s.trail.length) s.trail.length s1.heap
      (by
        intro j hj
        rw [hdrop] at hj
        have := hinv.old j hj
        rcases List.getElem?_eq_some.1 this with ⟨hlt, _⟩
        rw [hinv.len]
        exact hlt)
      (by simp [htrail])
    simp only [TermEnv.unwind_trail, TermEnv.trail_depth, hu]
    exact ⟨_, rfl⟩

/-- C36 fails as stated: the terms `f(X, Y, X)` and `f(g(X), g(Y), Y)` are
finite, so what is reachable from them is acyclic at the call, but `unify`
binds `X` to `g(X)` and `Y` to `g(Y)` and then meets the pair `X`, `Y` again
and again: it returns with no amount of fuel. -/
theorem unify_diverges_counterexample :
    FinTerm example_occurs_env.heap (.str 6) ∧ FinTerm example_occurs_env.heap (.str 10) ∧
    (∀ fuel, TermEnv.unify_iter (fuel + 1) example_occurs_loop_env =
      some (.next, example_occurs_loop_env)) ∧
    ∀ fuel, example_occurs_env.unify fuel (.str 6) (.str 10) = none := by
  have hX : FinTerm example_occurs_env.heap (.ref 0) :=
    FinTerm.atomic _ (.ref 0) ⟨1, rfl⟩ (by decide)
  have hY : FinTerm example_occurs_env.heap (.ref 1) :=
    FinTerm.atomic _ (.ref 1) ⟨1, rfl⟩ (by decide)
  have hgX : FinTerm example_occurs_env.heap (.str 2) := by
    refine FinTerm.str _ 2 "g" 1 ⟨0, rfl⟩ rfl (by decide) ?_
    intro k x hk hx
    obtain rfl : k = 0 := by omega
    obtain rfl : x = .ref 0 := by
      simpa [example_occurs_env] using hx.symm
    exact hX
  have hgY : FinTerm example_occurs_env.heap (.str 4) := by
    refine FinTerm.str _ 4 "g" 1 ⟨0, rfl⟩ rfl (by decide) ?_
    intro k x hk hx
    obtain rfl : k = 0 := by omega
    obtain rfl : x = .ref 1 := by
      simpa [example_occurs_env] using hx.symm
    exact hY
  have hiter : ∀ fuel, TermEnv.unify_iter (fuel + 1) example_occurs_loop_env =
      some (.next, example_occurs_loop_env) := by
    intro fuel
    exact @unify_iter_str (fuel + 1) example_occurs_loop_env (.ref 0) (.ref 1) (.str 2) (.str 4)
      (.con "g" 1) [] [.ref 0, .ref 1] rfl
      (by
        have h1 : deref example_occurs_loop_env.heap 1 (.ref 0) = some (.str 2) := rfl
        exact deref_mono _ _ _ _ _ h1 (by omega))
      (by
        have h1 : deref example_occurs_loop_env.heap 1 (.ref 1) = some (.str 4) := rfl
        exact deref_mono _ _ _ _ _ h1 (by omega))
      (by decide) rfl rfl rfl rfl rfl
  have hloop : ∀ fuel, TermEnv.unify_loop 0 fuel example_occurs_loop_env = none := by
    intro fuel
    induction fuel with
    | zero => rfl
    | succ n ih =>
      cases n with
      | zero => rfl
      | succ m =>
        rw [unify_loop_step (by decide) (hiter m)]
        exact ih
  refine ⟨?_, ?_, hiter, ?_⟩
  · refine FinTerm.str _ 6 "f" 3 ⟨0, rfl⟩ rfl (by decide) ?_
    intro k x hk hx
    have hk3 : k = 0 ∨ k = 1 ∨ k = 2 := by omega
    rcases hk3 with rfl | rfl | rfl
    · obtain rfl : x = .ref 0 := by simpa [example_occurs_env] using hx.symm
      exact hX
    · obtain rfl : x = .ref 1 := by simpa [example_occurs_env] using hx.symm
      exact hY
    · obtain rfl : x = .ref 0 := by simpa [example_occurs_env] using hx.symm
      exact hX
  · refine FinTerm.str _ 10 "f" 3 ⟨0, rfl⟩ rfl (by decide) ?_
    intro k x hk hx
    have hk3 : k = 0 ∨ k = 1 ∨ k = 2 := by omega
    rcases hk3 with rfl | rfl | rfl
    · obtain rfl : x = .str 2 := by simpa [example_occurs_env] using hx.symm
      exact hgX
    · obtain rfl : x = .str 4 := by simpa [example_occurs_env] using hx.symm
      exact hgY
    · obtain rfl : x = .ref 1 := by simpa [example_occurs_env] using hx.symm
      exact hY
  · intro fuel
    have hhelp : ∀ n, TermEnv.unify_loop 0 (n + 4)
        { example_occurs_env with register_hb := 14, stack := [Cell.str 6, Cell.str 10] } =
        TermEnv.unify_loop 0 (n + 1) example_occurs_loop_env := by
      intro n
      have h1 : TermEnv.unify_iter (n + 3)
          { example_occurs_env with register_hb := 14, stack := [Cell.str 6, Cell.str 10] } =
          some (.next, { example_occurs_env with
            register_hb := 14,
            stack := [.ref 0, .str 2, .ref 1, .str 4, .ref 0, .ref 1] }) :=
        @unify_iter_str (n + 3) _ (.str 6) (.str 10) (.str 6) (.str 10) (.con "f" 3) [] _ rfl
          (deref_nonref _ _ _ (by decide)) (deref_nonref _ _ _ (by decide)) (by decide) rfl rfl
          rfl rfl rfl
      have h2 : TermEnv.unify_iter (n + 2)
          { example_occurs_env with
            register_hb := 14,
            stack := [.ref 0, .str 2, .ref 1, .str 4, .ref 0, .ref 1] } =
          some (.next, { example_occurs_env with
            register_hb := 14,
            heap := [.str 2, .ref 1, .con "g" 1, .ref 0, .con "g" 1, .ref 1,
              .con "f" 3, .ref 0, .ref 1, .ref 0, .con "f" 3, .str 2, .str 4, .ref 1],
            trail := [0],
            stack := [.ref 1, .str 4, .ref 0, .ref 1] }) :=
        @unify_iter_bind_var (n + 2) _ _ (.ref 0) (.str 2) (.str 2) 0 _ rfl
          (by
            have h1 : deref example_occurs_env.heap 1 (.ref 0) = some (.ref 0) := rfl
            exact deref_mono _ _ _ _ _ h1 (by omega))
          (deref_nonref _ _ _ (by decide)) (by decide) rfl
      have h3 : TermEnv.unify_iter (n + 1)
          { example_occurs_env with
            register_hb := 14,
            heap := [.str 2, .ref 1, .con "g" 1, .ref 0, .con "g" 1, .ref 1,
              .con "f" 3, .ref 0, .ref 1, .ref 0, .con "f" 3, .str 2, .str 4, .ref 1],
            trail := [0],
            stack := [.ref 1, .str 4, .ref 0, .ref 1] } =
          some (.next, example_occurs_loop_env) :=
        @unify_iter_bind_var (n + 1) _ _ (.ref 1) (.str 4) (.str 4) 1 _ rfl
          (by
            have h1 : deref [.str 2, .ref 1, .con "g" 1, .ref 0, .con "g" 1, .ref 1,
              .con "f" 3, .ref 0, .ref 1, .ref 0, .con "f" 3, .str 2, .str 4, .ref 1] 1
                (.ref 1) = some (.ref 1) := rfl
            exact deref_mono _ _ _ _ _ h1 (by omega))
          (deref_nonref _ _ _ (by decide)) (by decide) rfl
      rw [unify_loop_step (by decide) h1, unify_loop_step (by decide) h2,
        unify_loop_step (by decide) h3]
    have hnone : TermEnv.unify_helper fuel
        { example_occurs_env with register_hb := example_occurs_env.register_h } (.str 6)
        (.str 10) = none := by
      rcases Nat.lt_or_ge fuel 4 with hlt | hge
      · have h4 : fuel = 0 ∨ fuel = 1 ∨ fuel = 2 ∨ fuel = 3 := by omega
        rcases h4 with rfl | rfl | rfl | rfl <;> rfl
      · obtain ⟨n, rfl⟩ : ∃ n, fuel = n + 4 := ⟨fuel - 4, by omega⟩
        exact (hhelp n).trans (hloop _)
    unfold TermEnv.unify
    simp only [hnone]

/-- C36 as amended: `unify(a, b)` returns when `b` is a finite term without
variables, whatever `a` is, on a heap whose REF chains end and whose `STR`
cells point to structures (with the recorded heap size not below the size of
the heap, as after `parse`): a binding then never makes a cycle. -/
theorem unify_ground_terminates (s : TermEnv) (a b : Cell) (hb : NoRefTerm s.heap b)
    (hc : RefChainsEnd s.heap) (hs : StrCellsOk s.heap) (ha : CellOk s.heap a)
    (hh : s.heap.length ≤ s.register_h) :
    ∃ n r s1, s.unify n a b = some (r, s1) := by
  obtain ⟨k, F, h⟩ := ground_item hb a
    ((({ s with register_hb := s.register_h } : TermEnv).push b).push a) s.stack s.stack.length
    ⟨binds_refl _, hc, hs⟩ ha rfl (le_refl _)
  rcases h with hfail | ⟨st1, hrun, hstack, _, _⟩
  · obtain ⟨st1, h1⟩ := hfail F (le_refl _)
    obtain ⟨s2, h2⟩ := @unify_of_helper (F + k) s st1 a b false hh h1
    exact ⟨F + k, false, s2, h2⟩
  · have h1 : TermEnv.unify_helper (F + 1 + k) { s with register_hb := s.register_h } a b =
        some (true, st1) := by
      unfold TermEnv.unify_helper
      rw [hrun (F + 1) (by omega)]
      simp [TermEnv.unify_loop, hstack]
    obtain ⟨s2, h2⟩ := @unify_of_helper (F + 1 + k) s st1 a b true hh h1
    exact ⟨F + 1 + k, true, s2, h2⟩

theorem unify_ground_terminates_witness :
    NoRefTerm example_ground_env.heap (.str 8) ∧ RefChainsEnd example_ground_env.heap ∧
    StrCellsOk example_ground_env.heap ∧ CellOk example_ground_env.heap (.str 3) ∧
    ∃ n r s1, example_ground_env.unify n (.str 3) (.str 8) = some (r, s1) :=
  have hb : NoRefTerm example_ground_env.heap (.str 8) := term_check_noRef _ 3 _ (by decide)
  have hc : RefChainsEnd example_ground_env.heap := ref_chains_end_sound (by decide)
  have hs : StrCellsOk example_ground_env.heap := by
    intro c hc p hp
    subst hp
    simp only [example_ground_env, TermEnv.init, List.mem_cons, reduceCtorEq, Cell.str.injEq,
      List.mem_singleton, false_or, List.not_mem_nil, or_false] at hc
    rcases hc with rfl | rfl
    · exact ⟨"g", 1, rfl, by decide⟩
    · exact ⟨"g", 1, rfl, by decide⟩
  have ha : CellOk example_ground_env.heap (.str 3) :=
    ⟨⟨_, 0, rfl⟩, fun p hp => by
      simp only [Cell.str.injEq] at hp
      subst hp
      exact ⟨"f", 2, rfl, by decide⟩⟩
  ⟨hb, hc, hs, ha,
    unify_ground_terminates example_ground_env (.str 3) (.str 8) hb hc hs ha (by decide)⟩

/-! ## Loading after a rejected load, the value of a leaf, indexing and the
outcome of a goal -/

/-- C7 at the failing input: the clause `r(1)` is stored and a load of the
term `5 :- 6` has been rejected, which leaves the check of the head `5`
pending.  `load_clause` of the valid clause `r(2)` then runs the pending
check, ends with the error "head of clause is not a functor" and does not
append `r(2)`: the clause list of `r/1` is still `[r(1)]`.  Without the
rejected load the same call appends `r(2)` after `r(1)`. -/
theorem valid_clause_not_appended :
    ((example_stale_interp.load_clause 10 (.str 4)).bind
      (fun r => r.2.load_clause 10 (.str 2))).map
      (fun r => (r.1, r.2.clauses_of (.con "r" 1))) =
    some (.error (.clause_bad_head (.int 5) "Head of clause is not a functor"), [.str 0]) ∧
    (example_stale_interp.load_clause 10 (.str 2)).map
      (fun r => (r.1, r.2.clauses_of (.con "r" 1))) =
    some (.ok (), [.str 0, .str 2]) := by
  constructor <;> rfl

/-- C11 at the failing input: in the heap of the expression
`(1 + 2) - (4 * 5)`, the tree that is the leaf `1` (argument 0 of `1 + 2`) has
the value 1, but `eval` of it returns the default-constructed term, not the
`INT` cell `1`; `eval` of the tree `1 + 2` returns the `INT` cell `3`. -/
theorem eval_leaf_tree_not_value :
    ExprAt example_expr_env.heap (.int 1) (.int 1) ∧ (Expr.int 1).value = 1 ∧
    ({ fn_map := [], args := [] } : Arithmetics).eval 10 example_expr_env (.int 1) =
      some (.ok none, { ({ fn_map := [], args := [] } : Arithmetics).load_fns with args := [] },
        example_expr_env) ∧
    ({ fn_map := [], args := [] } : Arithmetics).eval 10 example_expr_env (.str 0) =
      some (.ok (some (.int 3)),
        { ({ fn_map := [], args := [] } : Arithmetics).load_fns with args := [] },
        example_expr_env) := by
  refine ⟨ExprAt.int 1, rfl, ?_, ?_⟩ <;> rfl

/-- C32 at the failing input: the clauses `p(1, a)` and `p(2, b)`, and the
goal `p(3, V = 1)` written once with the integer `3` and once with the
variable `Z` bound to `3` as first argument.  The two goals are the same term
and no head unifies with either.  For the integer the filtered clause list is
empty and the goal fails; for the REF cell the list is the full clause list,
and the goal returns true. -/
theorem indexing_changes_outcome :
    (example_index_interp.env.equal 10 (.str 9) (.str 13)).map (fun r => r.1) = some true ∧
    ([Cell.str 0, Cell.str 3].map (fun head =>
      ((example_index_interp.env.unify 10 head (.str 9)).map (fun r => r.1),
       (example_index_interp.env.unify 10 head (.str 13)).map (fun r => r.1)))) =
      [(some false, some false), (some false, some false)] ∧
    (example_index_interp.matched_predicate_id (.con "p" 2) (.int 3)).map
      (fun r => r.2.get_predicate r.1) = some (some []) ∧
    (example_index_interp.matched_predicate_id (.con "p" 2) (.ref 12)).map
      (fun r => r.2.get_predicate r.1) = some (some [.str 0, .str 3]) ∧
    (Interp.execute example_collab 30 example_index_interp (.str 9)).map (fun r => r.1) =
      some (.ok false) ∧
    (Interp.execute example_collab 30 example_index_interp (.str 13)).map (fun r => r.1) =
      some (.ok true) := by
  refine ⟨?_, ?_, ?_, ?_, ?_, ?_⟩ <;> rfl

end Prologcoin
